import Mathlib

/-!
# clDES: synchronous product and monolithic supervisor synthesis

A shallow embedding of `src/src/operations.cpp` (`op::Synchronize`,
`op::SynchronizeStage1`, `op::SynchronizeStage2`, `op::TransitionVirtual`,
`__TransitionVirtualInv`, `op::RemoveBadStates`, `op::SupervisorSynth`) and of
`src/libcldes/cldes/src/operations/SuperProxyCore.hpp`.

Conventions of the embedding.

* `std::bitset<g_max_events>` is a natural number: bit `e` is event `e`.
  `&`, `|`, `^`, `>>=` and `test` are `&&&`, `|||`, `^^^`, `>>>` and `Nat.testBit`.
  The literal `1ul << event` is a 64-bit `unsigned long` (`ulShift`): for an event id
  of 64 or more it sets bit `event mod 64`.
* State indices (`cldes_size_t`) are natural numbers. The scratch targets
  `int xto = -1`, `int yto = -1` are integers, and `-1` is the "no edge found" mark; a
  signed value returned as `cldes_size_t` wraps around modulo `2^64` (`toSizeT`).
* An Eigen sparse matrix is kept through its coefficients (a dense table of rows);
  `Eigen::InnerIterator` visits the non-empty cells of a row by ascending column.
  `setFromTriplets` is defined for triplets inside the matrix (`tripletsInside`), which is
  what well-formed operands give.
* `QSet` is a duplicate-free list, `QStack` a list whose head is the top, `QHash`
  an association list, `std::set` an ascending duplicate-free list.
-/

namespace cldes

/-- Event identifier (`ScalarType`, an 8-bit unsigned integer). -/
abbrev ScalarType := Nat

/-- State index (`cldes_size_t`). -/
abbrev cldes_size_t := Nat

/-- Set of events (`BitArray = std::bitset<g_max_events>`), as a bit mask. -/
abbrev BitArray := Nat

/-- Set of events (`EventsBitArray`), the same bit mask. -/
abbrev EventsBitArray := Nat

/-! ## Event sets -/

/-- Events visited by the loop
`while (it.any()) { if (it.test(0)) body(event); ++event; it >>= 1ul; }`,
in the order of the visits; the first argument bounds the number of rounds. -/
def eventsFrom : Nat → ScalarType → BitArray → List ScalarType
  | 0, _, _ => []
  | fuel + 1, event, it =>
    if it = 0 then []
    else (if it.testBit 0 then [event] else []) ++ eventsFrom fuel (event + 1) (it >>> 1)

/-- Events of a bit set in the order the shift loop started at `event = 0` meets them.
The loop halves `it` every round, so `it` rounds are always enough. -/
def bitsOf (it : BitArray) : List ScalarType := eventsFrom it 0 it

/-- The value `1ul << event` converted to an event set: `unsigned long` has 64 bits and
the shift count is taken modulo 64, so an event id of 64 or more yields bit `event mod 64`
(C++ leaves a shift by 64 or more undefined; this is what the x86-64 shift computes). -/
def ulShift (event : ScalarType) : BitArray := 1 <<< (event % 64)

/-- Clearing one position, `std::bitset::reset(event)`. -/
def bitReset (s : BitArray) (event : ScalarType) : BitArray :=
  s ^^^ (s &&& (1 <<< event))

/-! ## Sparse matrices -/

/-- A triplet `Eigen::Triplet<T>(row, col, value)`; Eigen indices are signed. -/
structure Triplet (α : Type) where
  row : Int
  col : Int
  value : α
deriving DecidableEq, Repr

/-- An Eigen sparse matrix seen through its coefficients. -/
structure SparseMatrix (α : Type) where
  rows : Nat
  cols : Nat
  data : List (List α)
deriving DecidableEq, Repr

/-- Adjacency matrix of event sets (`GraphHostData`, row = source, column = target). -/
abbrev GraphHostData := SparseMatrix BitArray

/-- Adjacency matrix of bits (`BitGraphHostData`). -/
abbrev BitGraphHostData := SparseMatrix Bool

/-- Coefficient `(i, j)`; a cell that is not stored reads as `zero`. -/
def SparseMatrix.coeffD {α : Type} (M : SparseMatrix α) (zero : α) (i j : Nat) : α :=
  (M.data.getD i []).getD j zero

/-- Event set on the edge `i → j`. -/
def SparseMatrix.coeff (G : GraphHostData) (i j : Nat) : BitArray := G.coeffD 0 i j

/-- Bit `(i, j)` of a bit matrix. -/
def SparseMatrix.bit (B : BitGraphHostData) (i j : Nat) : Bool := B.coeffD false i j

/-- Value accumulated for cell `(i, j)` by `setFromTriplets`: duplicates are combined. -/
def accumulate {α : Type} (add : α → α → α) (zero : α) (ts : List (Triplet α)) (i j : Nat) : α :=
  (ts.filter (fun t => decide (t.row = (i : Int) ∧ t.col = (j : Int)))).foldl
    (fun acc t => add acc t.value) zero

/-- The calls `M.resize(rows, cols); M.setFromTriplets(ts)`. Eigen requires every triplet to
lie inside the matrix and leaves the result undefined otherwise; the model leaves a triplet
outside the matrix out (`tripletsInside` is the requirement). -/
def setFromTriplets {α : Type} (add : α → α → α) (zero : α) (rows cols : Nat)
    (ts : List (Triplet α)) : SparseMatrix α :=
  { rows := rows
    cols := cols
    data := (List.range rows).map (fun i => (List.range cols).map (fun j => accumulate add zero ts i j)) }

/-- The requirement of `setFromTriplets`: every triplet lies inside the matrix. -/
def tripletsInside {α : Type} (rows cols : Nat) (ts : List (Triplet α)) : Prop :=
  ∀ t ∈ ts, 0 ≤ t.row ∧ t.row < (rows : Int) ∧ 0 ≤ t.col ∧ t.col < (cols : Int)

/-- Graph built from event-set triplets; equal cells are united (spec 4.3). -/
def graphFromTriplets (rows cols : Nat) (ts : List (Triplet BitArray)) : GraphHostData :=
  setFromTriplets (fun a b => a ||| b) 0 rows cols ts

/-- Bit graph built from boolean triplets. -/
def bitGraphFromTriplets (rows cols : Nat) (ts : List (Triplet Bool)) : BitGraphHostData :=
  setFromTriplets (fun a b => a || b) false rows cols ts

/-- Cells of row `i` in the order of `Eigen::InnerIterator`: ascending column, non-empty only. -/
def SparseMatrix.rowEntries (G : GraphHostData) (i : Nat) : List (Nat × BitArray) :=
  (List.range G.cols).filterMap (fun j => if G.coeff i j = 0 then none else some (j, G.coeff i j))

/-- Column found by `for (RowIterator it(G, row); it; ++it) if (it.value().test(event)) { ...; break; }`. -/
def SparseMatrix.firstCol (G : GraphHostData) (row : Nat) (event : ScalarType) : Option Nat :=
  ((G.rowEntries row).find? (fun p => p.2.testBit event)).map (fun p => p.1)

/-- The matrix `G.transpose()`. -/
def SparseMatrix.transpose (G : GraphHostData) : GraphHostData :=
  { rows := G.cols
    cols := G.rows
    data := (List.range G.cols).map (fun i => (List.range G.rows).map (fun j => G.coeff j i)) }

/-! ## Containers -/

/-- Insertion `std::set::insert`: ascending order, no duplicate. -/
def stdSetInsert (x : Nat) (s : List Nat) : List Nat :=
  if x ∈ s then s else List.orderedInsert (fun a b => a ≤ b) x s

/-- Insertion `QSet::insert`. -/
def qsetInsert (x : Nat) (s : List Nat) : List Nat :=
  if x ∈ s then s else s ++ [x]

/-- Removal `QSet::remove`. -/
def qsetRemove (x : Nat) (s : List Nat) : List Nat := s.filter (fun y => decide (y ≠ x))

/-- Insertion `QHash::insert(key, value)`: a value already stored for the key is replaced. -/
def qhashInsert {κ : Type} [DecidableEq κ] (k : κ) (v : Nat) (m : List (κ × Nat)) : List (κ × Nat) :=
  (k, v) :: m.filter (fun p => decide (p.1 ≠ k))

/-- Lookup `QHash::value(key)`: the default-constructed value `0` when the key is absent. -/
def qhashValue {κ : Type} [DecidableEq κ] (m : List (κ × Nat)) (k : κ) : Nat :=
  ((m.find? (fun p => decide (p.1 = k))).map (fun p => p.2)).getD 0

/-- Test `QHash::contains(key)`. -/
def qhashContains {κ : Type} [DecidableEq κ] (m : List (κ × Nat)) (k : κ) : Bool :=
  m.any (fun p => decide (p.1 = k))

/-- Cell `v[i]` of a vector of event sets; storage past the end reads as empty. -/
def vecGet (v : List BitArray) (i : Nat) : BitArray := v.getD i 0

/-- Assignment `v[i] = x` into reserved storage. -/
def vecSet (v : List BitArray) (i : Nat) (x : BitArray) : List BitArray :=
  if i < v.length then v.set i x else v ++ List.replicate (i - v.length) 0 ++ [x]

/-- Membership of a signed index in a table of states (`QSet<cldes_size_t>::contains`). -/
def containsInt (s : List Nat) (z : Int) : Bool := decide (0 ≤ z) && decide (z.toNat ∈ s)

/-! ## Automata -/

/-- The class `DESystem` of `operations.cpp`, with the scratch members the virtual
(lazy) operations use. -/
structure DESystem where
  states_number_ : cldes_size_t
  init_state_ : cldes_size_t
  marked_states_ : List cldes_size_t
  events_ : BitArray
  graph_ : GraphHostData
  bit_graph_ : BitGraphHostData
  states_events_ : List BitArray
  inv_states_events_ : List BitArray
  virtual_states_ : List cldes_size_t
  virtual_table_ : List cldes_size_t
  rmtable_ : List cldes_size_t
  only_in_0_ : BitArray
  only_in_1_ : BitArray
  transtriplet_ : List ((cldes_size_t × ScalarType) × cldes_size_t)
deriving DecidableEq, Repr

/-- Modelled from the spec: the constructor `DESystem{n, q0, M}` is not in the sources;
spec 4.5 has it yield an automaton without edges whose bit graph is the identity. -/
def DESystem.mk3 (n q0 : cldes_size_t) (marked : List cldes_size_t) : DESystem :=
  { states_number_ := n
    init_state_ := q0
    marked_states_ := marked
    events_ := 0
    graph_ := graphFromTriplets n n []
    bit_graph_ := bitGraphFromTriplets n n ((List.range n).map (fun q => ⟨q, q, true⟩))
    states_events_ := List.replicate n 0
    inv_states_events_ := List.replicate n 0
    virtual_states_ := []
    virtual_table_ := []
    rmtable_ := []
    only_in_0_ := 0
    only_in_1_ := 0
    transtriplet_ := [] }

/-- Modelled from the spec: the default constructor `DESystem()` (doc comment of
`DESystem.hpp`: no state, initial state 0, no marked state, empty graph). -/
def DESystem.empty : DESystem := DESystem.mk3 0 0 []

/-- Events enabled at the pair `(qx, qy)`: the expression
`(e0[qx] & e1[qy]) | (e0[qx] & only_in_0) | (e1[qy] & only_in_1)` shared by all stages. -/
def syncEvents (ev0 ev1 : List BitArray) (only_in_0 only_in_1 : BitArray) (qx qy : Nat) : BitArray :=
  (vecGet ev0 qx &&& vecGet ev1 qy) ||| (vecGet ev0 qx &&& only_in_0) |||
    (vecGet ev1 qy &&& only_in_1)

/-- The pair `(xto, yto)` left by the three-way scan that `Synchronize`,
`SynchronizeStage2` and `TransitionVirtual` each spell out (lines 185-220, 452-487,
565-597): both start at `-1`. -/
def scanTargets (aSys0 aSys1 : DESystem) (qx qy : Nat) (event : ScalarType) : Int × Int :=
  let is_in_p := aSys0.events_.testBit event
  let is_in_e := aSys1.events_.testBit event
  if is_in_p && is_in_e then
    ((match aSys0.graph_.firstCol qx event with
      | some c => (c : Int)
      | none => -1),
     (match aSys1.graph_.firstCol qy event with
      | some c => (c : Int)
      | none => -1))
  else if is_in_e then
    match aSys1.graph_.firstCol qy event with
    | some c => ((qx : Int), (c : Int))
    | none => (-1, -1)
  else
    match aSys0.graph_.firstCol qx event with
    | some c => ((c : Int), (qy : Int))
    | none => (-1, -1)

/-- The value `qto = yto * aSys0.states_number_ + xto`. -/
def scanTarget (aSys0 aSys1 : DESystem) (qx qy : Nat) (event : ScalarType) : Int :=
  (scanTargets aSys0 aSys1 qx qy event).2 * (aSys0.states_number_ : Int) +
    (scanTargets aSys0 aSys1 qx qy event).1

/-- New marked states: `for s0 in M0 { for s1 in M1 { set.insert(s1 * n0 + s0) } }`,
inserted into `init` when `keep` holds. -/
def syncMarked (keep : Nat → Bool) (n0 : Nat) (m0 m1 : List Nat) (init : List Nat) : List Nat :=
  m0.foldl (fun acc s0 =>
    m1.foldl (fun acc1 s1 =>
      if keep (s1 * n0 + s0) then stdSetInsert (s1 * n0 + s0) acc1 else acc1) acc) init

/-- Function `op::Synchronize` (operations.cpp:126). -/
def Synchronize (aSys0 aSys1 : DESystem) : DESystem :=
  let in_both := aSys0.events_ &&& aSys1.events_
  let only_in_0 := aSys0.events_ ^^^ in_both
  let only_in_1 := aSys1.events_ ^^^ in_both
  let marked_states := syncMarked (fun _ => true) aSys0.states_number_
    aSys0.marked_states_ aSys1.marked_states_ []
  let sys := DESystem.mk3 (aSys0.states_number_ * aSys1.states_number_)
    (aSys1.init_state_ * aSys0.states_number_ + aSys0.init_state_) marked_states
  let nstates := sys.states_number_
  let q_events := fun (q : Nat) =>
    syncEvents aSys0.states_events_ aSys1.states_events_ only_in_0 only_in_1
      (q % aSys0.states_number_) (q / aSys0.states_number_)
  let qto := fun (q : Nat) (event : ScalarType) =>
    scanTarget aSys0 aSys1 (q % aSys0.states_number_) (q / aSys0.states_number_) event
  let triplet : List (Triplet BitArray) :=
    (List.range nstates).flatMap (fun q =>
      (bitsOf (q_events q)).map (fun event => ⟨(q : Int), qto q event, ulShift event⟩))
  let bittriplet : List (Triplet Bool) :=
    (List.range nstates).flatMap (fun q =>
      (⟨(q : Int), (q : Int), true⟩ : Triplet Bool) ::
        (bitsOf (q_events q)).filterMap (fun event =>
          if (q : Int) ≠ qto q event then some ⟨qto q event, (q : Int), true⟩ else none))
  { sys with
    events_ := aSys0.events_ ||| aSys1.events_
    inv_states_events_ := (List.range nstates).map (fun q =>
      syncEvents aSys0.inv_states_events_ aSys1.inv_states_events_ only_in_0 only_in_1
        (q % aSys0.states_number_) (q / aSys0.states_number_))
    states_events_ := (List.range nstates).map q_events
    graph_ := graphFromTriplets nstates nstates triplet
    bit_graph_ := bitGraphFromTriplets nstates nstates bittriplet }

/-- Conversion of a signed value to `cldes_size_t`, a 64-bit unsigned integer: a negative
value wraps around modulo `2^64`, so `-1` becomes `2^64 - 1`. -/
def toSizeT (z : Int) : cldes_size_t := if z < 0 then (z % 2 ^ 64).toNat else z.toNat

/-- Function `op::TransitionVirtual` (operations.cpp:556). The result
`yid * aSys0.states_number_ + xid` is returned as `cldes_size_t`: when a scan leaves
`xid` or `yid` at `-1` and the sum is negative, the caller receives it modulo `2^64`. -/
def TransitionVirtual (aSys0 aSys1 : DESystem) (q : cldes_size_t) (event : ScalarType) :
    cldes_size_t :=
  toSizeT (scanTarget aSys0 aSys1 (q % aSys0.states_number_) (q / aSys0.states_number_) event)

/-- Function `op::SynchronizeStage1` (operations.cpp:249): the loop nest runs `ix0` outside
and `ix1` inside, appends the key to `virtual_states_` and writes both tables at the key. -/
def SynchronizeStage1 (aSys0 aSys1 : DESystem) : DESystem :=
  let in_both := aSys0.events_ &&& aSys1.events_
  let only_in_0 := aSys0.events_ ^^^ in_both
  let only_in_1 := aSys1.events_ ^^^ in_both
  let marked_states := syncMarked (fun _ => true) aSys0.states_number_
    aSys0.marked_states_ aSys1.marked_states_ []
  let virtualsys := DESystem.mk3 (aSys0.states_number_ * aSys1.states_number_)
    (aSys1.init_state_ * aSys0.states_number_ + aSys0.init_state_) marked_states
  let pairs : List (Nat × Nat) :=
    (List.range aSys0.states_number_).flatMap (fun ix0 =>
      (List.range aSys1.states_number_).map (fun ix1 => (ix0, ix1)))
  { virtualsys with
    virtual_states_ := virtualsys.virtual_states_ ++
      pairs.map (fun p => p.2 * aSys0.states_number_ + p.1)
    states_events_ := pairs.foldl (fun v p =>
      vecSet v (p.2 * aSys0.states_number_ + p.1)
        (syncEvents aSys0.states_events_ aSys1.states_events_ only_in_0 only_in_1 p.1 p.2))
      virtualsys.states_events_
    inv_states_events_ := pairs.foldl (fun v p =>
      vecSet v (p.2 * aSys0.states_number_ + p.1)
        (syncEvents aSys0.inv_states_events_ aSys1.inv_states_events_ only_in_0 only_in_1 p.1 p.2))
      virtualsys.inv_states_events_
    events_ := aSys0.events_ ||| aSys1.events_ }

/-- The map `statesmap` of `SynchronizeStage2`: `statesmap[s] = cst` for the states of
`virtual_states_` in list order. -/
def stage2StatesMap (virtual_states : List Nat) : List (Nat × Nat) :=
  (List.range virtual_states.length).foldl
    (fun m cst => qhashInsert (virtual_states.getD cst 0) cst m) []

/-- The target `qto` of `SynchronizeStage2`: the memo `transtriplet_` when it has the
pair `(s, event)`, the three-way scan otherwise. -/
def stage2Target (aVirtualSys aSys0 aSys1 : DESystem) (s : Nat) (event : ScalarType) : Int :=
  if qhashContains aVirtualSys.transtriplet_ (s, event) then
    ((qhashValue aVirtualSys.transtriplet_ (s, event) : Nat) : Int)
  else scanTarget aSys0 aSys1 (s % aSys0.states_number_) (s / aSys0.states_number_) event

/-- The events `SynchronizeStage2` computes for the product state `s`. -/
def stage2Events (aVirtualSys aSys0 aSys1 : DESystem) (s : Nat) : BitArray :=
  syncEvents aSys0.states_events_ aSys1.states_events_ aVirtualSys.only_in_0_
    aVirtualSys.only_in_1_ (s % aSys0.states_number_) (s / aSys0.states_number_)

/-- Function `op::SynchronizeStage2` (operations.cpp:390). The two vectors of per-state
events are written by index after `reserve(nstates)`, which does not change `size()`: the
entries land in the reserved storage, and the model keeps that storage, entry `i` being
what the code wrote at index `i` (entries from `nstates` on are left as they were). The
graph labels are `1ul << event` (`ulShift`), the caches are computed on whole event sets. -/
def SynchronizeStage2 (aVirtualSys aSys0 aSys1 : DESystem) : DESystem :=
  let nstates := aVirtualSys.virtual_states_.length
  let statesmap := stage2StatesMap aVirtualSys.virtual_states_
  let state := fun (current_state : Nat) => aVirtualSys.virtual_states_.getD current_state 0
  let q_events := fun (s : Nat) => stage2Events aVirtualSys aSys0 aSys1 s
  let qto := fun (s : Nat) (event : ScalarType) => stage2Target aVirtualSys aSys0 aSys1 s event
  let kept := fun (s : Nat) (event : ScalarType) =>
    containsInt aVirtualSys.virtual_table_ (qto s event)
  let triplet : List (Triplet BitArray) :=
    (List.range nstates).flatMap (fun current_state =>
      (bitsOf (q_events (state current_state))).filterMap (fun event =>
        if kept (state current_state) event then
          some ⟨(current_state : Int),
            ((qhashValue statesmap (qto (state current_state) event).toNat : Nat) : Int),
            ulShift event⟩
        else none))
  let bittriplet : List (Triplet Bool) :=
    (List.range nstates).flatMap (fun current_state =>
      (⟨(current_state : Int), (current_state : Int), true⟩ : Triplet Bool) ::
        (bitsOf (q_events (state current_state))).filterMap (fun event =>
          if kept (state current_state) event then
            some ⟨((qhashValue statesmap (qto (state current_state) event).toNat : Nat) : Int),
              (current_state : Int), true⟩
          else none))
  { aVirtualSys with
    states_number_ := nstates
    events_ := aSys0.events_ ||| aSys1.events_
    inv_states_events_ :=
      (List.range nstates).map (fun current_state =>
        syncEvents aSys0.inv_states_events_ aSys1.inv_states_events_ aVirtualSys.only_in_0_
          aVirtualSys.only_in_1_ (state current_state % aSys0.states_number_)
          (state current_state / aSys0.states_number_)) ++
        aVirtualSys.inv_states_events_.drop nstates
    states_events_ :=
      (List.range nstates).map (fun current_state =>
        ((bitsOf (q_events (state current_state))).filter (fun event =>
          !kept (state current_state) event)).foldl bitReset (q_events (state current_state))) ++
        aVirtualSys.states_events_.drop nstates
    graph_ := graphFromTriplets nstates nstates triplet
    bit_graph_ := bitGraphFromTriplets nstates nstates bittriplet
    marked_states_ := syncMarked (fun key => !decide (key ∈ aVirtualSys.rmtable_))
      aSys0.states_number_ aSys0.marked_states_ aSys1.marked_states_ aVirtualSys.marked_states_
    init_state_ := aSys1.init_state_ * aSys0.states_number_ + aSys0.init_state_
    virtual_table_ := []
    virtual_states_ := []
    rmtable_ := []
    only_in_0_ := 0
    only_in_1_ := 0
    transtriplet_ := [] }

/-- Function `__TransitionVirtualInv` (operations.cpp:606): the predecessors of `q` by `event`. -/
def __TransitionVirtualInv (aEventsP aEventsE : BitArray) (aInvGraphP aInvGraphE : GraphHostData)
    (q : cldes_size_t) (event : ScalarType) : List cldes_size_t :=
  let qx := q % aInvGraphP.rows
  let qy := q / aInvGraphP.rows
  let is_in_p := aEventsP.testBit event
  let is_in_e := aEventsE.testBit event
  let p_size := aInvGraphP.rows
  if is_in_p && is_in_e then
    let pstates := ((aInvGraphP.rowEntries qx).filter (fun pe => pe.2.testBit event)).map
      (fun pe => pe.1)
    ((aInvGraphE.rowEntries qy).filter (fun ee => ee.2.testBit event)).flatMap
      (fun ee => pstates.map (fun sp => ee.1 * p_size + sp))
  else if is_in_p then
    ((aInvGraphP.rowEntries qx).filter (fun pe => pe.2.testBit event)).map
      (fun pe => qy * p_size + pe.1)
  else
    ((aInvGraphE.rowEntries qy).filter (fun ee => ee.2.testBit event)).map
      (fun ee => ee.1 * p_size + qx)

/-- Scratch state of `op::SupervisorSynth`: the stack `f`, the tables `ftable` and `c`,
and the members `rmtable_` and `transtriplet_` of the virtual system. -/
structure SynthState where
  f : List cldes_size_t
  ftable : List cldes_size_t
  c : List cldes_size_t
  rmtable_ : List cldes_size_t
  transtriplet_ : List ((cldes_size_t × ScalarType) × cldes_size_t)
deriving DecidableEq, Repr

/-- The `foreach (s, finv)` of `RemoveBadStates`: a predecessor not yet in `rmtable_` is
pushed and recorded. -/
def removePush (finv : List cldes_size_t) (st : List cldes_size_t × List cldes_size_t) :
    List cldes_size_t × List cldes_size_t :=
  finv.foldl (fun acc s =>
    if s ∈ acc.2 then acc else (s :: acc.1, qsetInsert s acc.2)) st

/-- The `while (!f.isEmpty())` loop of `op::RemoveBadStates`; the first argument bounds the
number of rounds, the state is `(f, C, rmtable_)`. -/
def removeLoop (aP aE : DESystem) (only_in_0 only_in_1 : BitArray)
    (aInvGraphP aInvGraphE : GraphHostData) (bit_non_contr : EventsBitArray) :
    Nat → List cldes_size_t → List cldes_size_t → List cldes_size_t →
      List cldes_size_t × List cldes_size_t × List cldes_size_t
  | 0, f, C, rmtable => (f, C, rmtable)
  | _ + 1, [], C, rmtable => ([], C, rmtable)
  | fuel + 1, x :: f, C, rmtable =>
    let q_events :=
      syncEvents aP.inv_states_events_ aE.inv_states_events_ only_in_0 only_in_1
        (x % aInvGraphP.rows) (x / aInvGraphP.rows) &&& bit_non_contr
    let pushed := (bitsOf q_events).foldl (fun acc event =>
      removePush (__TransitionVirtualInv aP.events_ aE.events_ aInvGraphP aInvGraphE x event) acc)
      (f, rmtable)
    removeLoop aP aE only_in_0 only_in_1 aInvGraphP aInvGraphE bit_non_contr fuel
      pushed.1 (qsetRemove x C) pushed.2

/-- Function `op::RemoveBadStates` (operations.cpp:654), returning `(C, rmtable_)`. Every
state enters the local stack at most once after `q`, so `states + 1` rounds are allowed. -/
def RemoveBadStates (aP aE : DESystem) (only_in_0 only_in_1 : BitArray)
    (aInvGraphP aInvGraphE : GraphHostData) (C rmtable : List cldes_size_t) (q : cldes_size_t)
    (bit_non_contr : EventsBitArray) : List cldes_size_t × List cldes_size_t :=
  (removeLoop aP aE only_in_0 only_in_1 aInvGraphP aInvGraphE bit_non_contr
    (aP.states_number_ * aE.states_number_ + 1) [q] C (qsetInsert q rmtable)).2

/-- The event loop of the main loop of `op::SupervisorSynth` for the popped state `q`,
over the events still to visit; a bad event ends it (`break`). -/
def synthScan (aP aE : DESystem) (only_in_0 only_in_1 : BitArray)
    (p_invgraph e_invgraph : GraphHostData) (non_contr_bit : EventsBitArray)
    (q : cldes_size_t) (q_events : BitArray) : List ScalarType → SynthState → SynthState
  | [], st => st
  | event :: rest, st =>
    let is_there_fsqe := q_events.testBit event
    if non_contr_bit.testBit event && !is_there_fsqe &&
        (vecGet aP.states_events_ (q % aP.states_number_)).testBit event then
      let r := RemoveBadStates aP aE only_in_0 only_in_1 p_invgraph e_invgraph st.c
        st.rmtable_ q non_contr_bit
      { st with c := r.1, rmtable_ := r.2 }
    else if is_there_fsqe then
      let fsqe := TransitionVirtual aP aE q event
      if !decide (fsqe ∈ st.c) && !decide (fsqe ∈ st.ftable) && !decide (fsqe ∈ st.rmtable_) then
        synthScan aP aE only_in_0 only_in_1 p_invgraph e_invgraph non_contr_bit q q_events rest
          { st with
            transtriplet_ := qhashInsert (q, event) fsqe st.transtriplet_
            f := fsqe :: st.f
            ftable := qsetInsert fsqe st.ftable }
      else
        synthScan aP aE only_in_0 only_in_1 p_invgraph e_invgraph non_contr_bit q q_events rest st
    else
      synthScan aP aE only_in_0 only_in_1 p_invgraph e_invgraph non_contr_bit q q_events rest st

/-- The main loop `while (!f.isEmpty())` of `op::SupervisorSynth`; the first argument
bounds the number of rounds. -/
def synthLoop (aP aE : DESystem) (only_in_0 only_in_1 : BitArray)
    (p_invgraph e_invgraph : GraphHostData) (non_contr_bit : EventsBitArray) :
    Nat → SynthState → SynthState
  | 0, st => st
  | fuel + 1, st =>
    match st.f with
    | [] => st
    | q :: f =>
      let q_events := syncEvents aP.states_events_ aE.states_events_ only_in_0 only_in_1
        (q % aP.states_number_) (q / aP.states_number_)
      synthLoop aP aE only_in_0 only_in_1 p_invgraph e_invgraph non_contr_bit fuel
        (synthScan aP aE only_in_0 only_in_1 p_invgraph e_invgraph non_contr_bit q q_events
          (bitsOf (q_events ||| non_contr_bit))
          { st with f := f, c := qsetInsert q st.c })

/-- The bit set `non_contr_bit` of `op::SupervisorSynth`: the listed events that belong to
the alphabet of the virtual system. -/
def nonContrBit (events : BitArray) (non_contr : List ScalarType) : EventsBitArray :=
  non_contr.foldl (fun acc event => if events.testBit event then acc ||| (1 <<< event) else acc) 0

/-- The scratch state when the main loop of `op::SupervisorSynth` ends, run from the
initial product state. Every state is pushed at most once (`ftable`), so `states + 1`
rounds are allowed. -/
def synthFinal (aP aE : DESystem) (non_contr : List ScalarType) : SynthState :=
  let init_state := aE.init_state_ * aP.states_number_ + aP.init_state_
  let in_both := aP.events_ &&& aE.events_
  synthLoop aP aE (aP.events_ ^^^ in_both) (aE.events_ ^^^ in_both) aP.graph_.transpose
    aE.graph_.transpose (nonContrBit (aP.events_ ||| aE.events_) non_contr)
    (aP.states_number_ * aE.states_number_ + 1)
    { f := [init_state], ftable := [init_state], c := [], rmtable_ := [], transtriplet_ := [] }

/-- The virtual system `op::SupervisorSynth` hands to `SynchronizeStage2`: the members set
before the main loop, its tables after the loop, `c` swapped into `virtual_table_` and
sorted into `virtual_states_`. -/
def synthVirtualSys (aP aE : DESystem) (non_contr : List ScalarType) : DESystem :=
  let in_both := aP.events_ &&& aE.events_
  { DESystem.empty with
    init_state_ := aE.init_state_ * aP.states_number_ + aP.init_state_
    events_ := aP.events_ ||| aE.events_
    only_in_0_ := aP.events_ ^^^ in_both
    only_in_1_ := aE.events_ ^^^ in_both
    rmtable_ := (synthFinal aP aE non_contr).rmtable_
    transtriplet_ := (synthFinal aP aE non_contr).transtriplet_
    virtual_table_ := (synthFinal aP aE non_contr).c
    virtual_states_ := (synthFinal aP aE non_contr).c.insertionSort (fun a b => a ≤ b) }

/-! ## Reachability and trim (spec 4.6) -/

/-- Modelled from the spec: `DESystem::Bfs_` is not in the sources; one round `y ← B · x`
of spec 4.6 over the boolean semiring, `x` a vector of `B.cols` bits. -/
def bfsStep (B : BitGraphHostData) (x : List Bool) : List Bool :=
  (List.range B.rows).map (fun i => (List.range B.cols).any (fun j => B.bit i j && x.getD j false))

/-- Modelled from the spec: the rounds of spec 4.6, repeated until `y = x`; the first
argument bounds their number. -/
def bfsIter (B : BitGraphHostData) : Nat → List Bool → List Bool
  | 0, x => x
  | k + 1, x => if bfsStep B x = x then x else bfsIter B k (bfsStep B x)

/-- Modelled from the spec: the support of the fixpoint reached from the states `X0`
(spec 4.6, forward BFS from `X0`; at most `n` rounds are needed). -/
def Bfs_ (B : BitGraphHostData) (X0 : List cldes_size_t) : List cldes_size_t :=
  (List.range B.rows).filter (fun i =>
    (bfsIter B B.rows ((List.range B.rows).map (fun i => decide (i ∈ X0)))).getD i false)

/-- The transposed bit matrix. -/
def SparseMatrix.bitTranspose (B : BitGraphHostData) : BitGraphHostData :=
  { rows := B.cols
    cols := B.rows
    data := (List.range B.cols).map (fun i => (List.range B.rows).map (fun j => B.bit j i)) }

/-- Modelled from the spec: `DESystem::AccessiblePart` is not in the sources; spec 4.6 has
it the forward BFS from the initial state over the bit graph. -/
def DESystem.AccessiblePart (A : DESystem) : List cldes_size_t :=
  Bfs_ A.bit_graph_ [A.init_state_]

/-- Modelled from the spec: `DESystem::CoaccessiblePart` is not in the sources; spec 4.6 has
it the BFS over the transposed bit graph seeded with all marked states. -/
def DESystem.CoaccessiblePart (A : DESystem) : List cldes_size_t :=
  Bfs_ A.bit_graph_.bitTranspose A.marked_states_

/-- Modelled from the spec: `DESystem::TrimStates` is not in the sources; spec 4.6 has it
the intersection of the accessible and the coaccessible part (ascending). -/
def DESystem.TrimStates (A : DESystem) : List cldes_size_t :=
  A.AccessiblePart.filter (fun s => decide (s ∈ A.CoaccessiblePart))

/-- Modelled from the spec: `DESystem::Trim` is not in the sources; spec 4.6 has it the
automaton restricted to `TrimStates`, the states renumbered in ascending order, the initial
state and the marked trim states remapped; the caches and the bit graph follow the
invariants of spec 3. An initial state that is not trim is given the index past the end. -/
def DESystem.Trim (A : DESystem) : DESystem :=
  let trimstates := A.TrimStates
  let n := trimstates.length
  let triplet : List (Triplet BitArray) :=
    (List.range n).flatMap (fun i =>
      (A.graph_.rowEntries (trimstates.getD i 0)).filterMap (fun e =>
        if e.1 ∈ trimstates then some ⟨(i : Int), ((trimstates.indexOf e.1 : Nat) : Int), e.2⟩
        else none))
  let graph := graphFromTriplets n n triplet
  { A with
    states_number_ := n
    init_state_ := trimstates.indexOf A.init_state_
    marked_states_ := (A.marked_states_.filter (fun m => decide (m ∈ trimstates))).map
      (fun m => trimstates.indexOf m)
    graph_ := graph
    bit_graph_ := bitGraphFromTriplets n n
      ((List.range n).flatMap (fun i =>
        (⟨(i : Int), (i : Int), true⟩ : Triplet Bool) ::
          (graph.rowEntries i).map (fun e => ⟨(e.1 : Int), (i : Int), true⟩)))
    states_events_ := (List.range n).map (fun i =>
      (List.range n).foldl (fun acc j => acc ||| graph.coeff i j) 0)
    inv_states_events_ := (List.range n).map (fun j =>
      (List.range n).foldl (fun acc i => acc ||| graph.coeff i j) 0) }

/-- Function `op::SupervisorSynth` (operations.cpp:699). -/
def SupervisorSynth (aP aE : DESystem) (non_contr : List ScalarType) : DESystem :=
  (SynchronizeStage2 (synthVirtualSys aP aE non_contr) aP aE).Trim

/-! ## The supervisor proxy (SuperProxyCore.hpp) -/

/-- Modelled from the spec: `DESystem::getStateEvents_impl` is not in the sources; its doc
comment has it read the vector of per-state events (spec 4.4: `stateEvents(q) == out[q]`). -/
def DESystem.getStateEvents (A : DESystem) (aQ : cldes_size_t) : BitArray :=
  vecGet A.states_events_ aQ

/-- The members of `op::SuperProxy` that SuperProxyCore.hpp reads and writes. -/
structure SuperProxy where
  states_number_ : cldes_size_t
  init_state_ : cldes_size_t
  marked_states_ : List cldes_size_t
  events_ : BitArray
  sys0_ : DESystem
  sys1_ : DESystem
  n_states_sys0_ : cldes_size_t
  only_in_plant_ : BitArray
  only_in_spec_ : BitArray
  virtual_states_ : List cldes_size_t
deriving DecidableEq, Repr

/-- The constructor `op::SuperProxy::SuperProxy` up to its call of `findRemovedStates_`
(SuperProxyCore.hpp:41-61); that call changes `virtual_states_` and `states_number_` only. -/
def SuperProxy.members (aPlant aSpec : DESystem) : SuperProxy :=
  let in_both := aPlant.events_ &&& aSpec.events_
  { states_number_ := aPlant.states_number_ * aSpec.states_number_
    init_state_ := aSpec.init_state_ * aPlant.states_number_ + aPlant.init_state_
    sys0_ := aPlant
    sys1_ := aSpec
    n_states_sys0_ := aPlant.states_number_
    only_in_plant_ := aPlant.events_ ^^^ in_both
    only_in_spec_ := aSpec.events_ ^^^ in_both
    events_ := aPlant.events_ ||| aSpec.events_
    marked_states_ := syncMarked (fun _ => true) aPlant.states_number_
      aPlant.marked_states_ aSpec.marked_states_ []
    virtual_states_ := [] }

/-- Method `op::SuperProxy::getStateEvents_impl` (SuperProxyCore.hpp:280). -/
def SuperProxy.getStateEvents_impl (S : SuperProxy) (aQ : cldes_size_t) : BitArray :=
  let state_event_0 := S.sys0_.getStateEvents (aQ % S.n_states_sys0_)
  let state_event_1 := S.sys1_.getStateEvents (aQ / S.n_states_sys0_)
  (state_event_0 &&& state_event_1) ||| (state_event_0 &&& S.only_in_plant_) |||
    (state_event_1 &&& S.only_in_spec_)

/-! ## Well-formed automata (spec 3) -/

/-- Union of the cells of row `i`: the events leaving state `i`. -/
def rowUnion (G : GraphHostData) (i : Nat) : BitArray :=
  (List.range G.cols).foldl (fun acc j => acc ||| G.coeff i j) 0

/-- Union of the cells of column `j`: the events entering state `j`. -/
def colUnion (G : GraphHostData) (j : Nat) : BitArray :=
  (List.range G.rows).foldl (fun acc i => acc ||| G.coeff i j) 0

/-- The invariants of spec 3 that the product operations rely on: the initial and the
marked states are states, the graph is `n × n`, every label lies in the alphabet, and the
two caches are the unions of the rows and of the columns. -/
def WellFormed (A : DESystem) : Prop :=
  A.init_state_ < A.states_number_ ∧
  (∀ m ∈ A.marked_states_, m < A.states_number_) ∧
  A.graph_.rows = A.states_number_ ∧
  A.graph_.cols = A.states_number_ ∧
  (∀ i < A.states_number_, ∀ j < A.states_number_,
    A.graph_.coeff i j &&& A.events_ = A.graph_.coeff i j) ∧
  (∀ i < A.states_number_, vecGet A.states_events_ i = rowUnion A.graph_ i) ∧
  (∀ j < A.states_number_, vecGet A.inv_states_events_ j = colUnion A.graph_ j)

instance (A : DESystem) : Decidable (WellFormed A) := by
  unfold WellFormed; infer_instance

/-- The determinism invariant of spec 3: no event labels two edges out of one state. -/
def Deterministic (A : DESystem) : Prop :=
  ∀ i < A.states_number_, ∀ j < A.states_number_, ∀ k < A.states_number_,
    j ≠ k → A.graph_.coeff i j &&& A.graph_.coeff i k = 0

instance (A : DESystem) : Decidable (Deterministic A) := by
  unfold Deterministic; infer_instance

/-- The alphabet holds only event ids below 64: the ids for which the 64-bit literal
`1ul << event` of `op::Synchronize` and `op::SynchronizeStage2` sets bit `event`. -/
def EventsInWord (A : DESystem) : Prop := A.events_ < 2 ^ 64

instance (A : DESystem) : Decidable (EventsInWord A) := by
  unfold EventsInWord; infer_instance

/-- Spec 3, in the spec's words: the event `e` is enabled at the product state
`q = (qx, qy)` when it lies in
`(out_A[qx] ∩ out_B[qy]) ∪ (out_A[qx] ∩ (Σ_A \ Σ_B)) ∪ (out_B[qy] ∩ (Σ_B \ Σ_A))`. -/
def enabledAt (A B : DESystem) (q : cldes_size_t) (e : ScalarType) : Bool :=
  ((vecGet A.states_events_ (q % A.states_number_)).testBit e &&
      (vecGet B.states_events_ (q / A.states_number_)).testBit e) ||
    ((vecGet A.states_events_ (q % A.states_number_)).testBit e &&
      (A.events_.testBit e && !B.events_.testBit e)) ||
    ((vecGet B.states_events_ (q / A.states_number_)).testBit e &&
      (B.events_.testBit e && !A.events_.testBit e))

/-- The index swap `(qx, qy) ↦ (qy, qx)` between `A ∥ B` and `B ∥ A`:
`qy * nA + qx ↦ qx * nB + qy`. -/
def swapIndex (nA nB : Nat) (q : cldes_size_t) : cldes_size_t := (q % nA) * nB + q / nA

/-! ## Concrete automata -/

/-- Modelled from the spec: the edge assignment `sys(i, j) = e` (`TransitionProxy`) is not in
the sources; spec 4.9 has it add `e` to `G[i][j]`, to `out[i]`, to `in[j]` and to the
alphabet, and record the edge in the bit graph (oriented as `op::Synchronize` does,
target row and source column). The edges are `(i, j, e)`. -/
def DESystem.ofEdges (n q0 : cldes_size_t) (marked : List cldes_size_t)
    (edges : List (cldes_size_t × cldes_size_t × ScalarType)) : DESystem :=
  let graph := graphFromTriplets n n
    (edges.map (fun t => ⟨(t.1 : Int), (t.2.1 : Int), 1 <<< t.2.2⟩))
  { DESystem.mk3 n q0 marked with
    events_ := edges.foldl (fun acc t => acc ||| (1 <<< t.2.2)) 0
    graph_ := graph
    bit_graph_ := bitGraphFromTriplets n n
      ((List.range n).map (fun q => ⟨(q : Int), (q : Int), true⟩) ++
        edges.map (fun t => ⟨(t.2.1 : Int), (t.1 : Int), true⟩))
    states_events_ := (List.range n).map (fun i => rowUnion graph i)
    inv_states_events_ := (List.range n).map (fun j => colUnion graph j) }

/-- The plant of `tests/supervisorsynth_cpu.cpp` (events `a0 = 0`, `a1 = 1`, `b0 = 2`,
`b1 = 3`). -/
def testPlant : DESystem :=
  DESystem.ofEdges 4 0 [0]
    [(0, 1, 0), (0, 2, 1), (1, 0, 2), (1, 3, 1), (2, 0, 3), (2, 3, 0), (3, 1, 3), (3, 2, 2)]

/-- The specification of `tests/supervisorsynth_cpu.cpp`. -/
def testSpec : DESystem := DESystem.ofEdges 2 0 [0, 1] [(0, 1, 2), (1, 0, 1)]

/-- The uncontrollable events `{b0, b1}` of `tests/supervisorsynth_cpu.cpp`. -/
def testNonContr : List ScalarType := [2, 3]

/-! ## The supervisor and its reference characterisation -/

/-- The product state that state `s` of `SupervisorSynth(aP, aE, non_contr)` renumbers:
`Trim` keeps the trim states of the materialised automaton in ascending order, and state `t`
of the materialised automaton is the `t`-th entry of the sorted `virtual_states_`. -/
def supervisorState (aP aE : DESystem) (non_contr : List ScalarType) (s : cldes_size_t) :
    cldes_size_t :=
  (synthVirtualSys aP aE non_contr).virtual_states_.getD
    ((SynchronizeStage2 (synthVirtualSys aP aE non_contr) aP aE).TrimStates.getD s 0) 0

/-- Claim C1 as stated: every state `s` of the supervisor, renumbering the product state
`q = (qx, qy)`, keeps every uncontrollable event the plant offers at `qx`:
`Unc ∩ out_P[qx] ⊆ out_S[s]`. -/
def ControllableOutput (aP aE : DESystem) (non_contr : List ScalarType) : Prop :=
  ∀ s < (SupervisorSynth aP aE non_contr).states_number_, ∀ e ∈ non_contr,
    (vecGet aP.states_events_ (supervisorState aP aE non_contr s % aP.states_number_)).testBit e
        = true →
      (vecGet (SupervisorSynth aP aE non_contr).states_events_ s).testBit e = true

instance (aP aE : DESystem) (non_contr : List ScalarType) :
    Decidable (ControllableOutput aP aE non_contr) := by
  unfold ControllableOutput; infer_instance

/-- Spec 3, in the spec's words: the product `A ∥ B` steps from `q` to `q'` on `e`; both
factors step on a shared event, only the owner steps on a private one. -/
def productStep (A B : DESystem) (q : cldes_size_t) (e : ScalarType) (q' : cldes_size_t) : Bool :=
  decide (q' < A.states_number_ * B.states_number_) &&
    ((A.events_.testBit e && B.events_.testBit e &&
        (A.graph_.coeff (q % A.states_number_) (q' % A.states_number_)).testBit e &&
        (B.graph_.coeff (q / A.states_number_) (q' / A.states_number_)).testBit e) ||
      (A.events_.testBit e && !B.events_.testBit e &&
        (A.graph_.coeff (q % A.states_number_) (q' % A.states_number_)).testBit e &&
        decide (q' / A.states_number_ = q / A.states_number_)) ||
      (!A.events_.testBit e && B.events_.testBit e &&
        (B.graph_.coeff (q / A.states_number_) (q' / A.states_number_)).testBit e &&
        decide (q' % A.states_number_ = q % A.states_number_)))

/-- Claim C2, the set `Bad`: the product states `q = (qx, qy)` with
`Unc ∩ out_P[qx] ⊄ en(q)`. -/
def refBad (P E : DESystem) (unc : List ScalarType) : List cldes_size_t :=
  (List.range (P.states_number_ * E.states_number_)).filter (fun q =>
    unc.any (fun e =>
      (vecGet P.states_events_ (q % P.states_number_)).testBit e && !enabledAt P E q e))

/-- Least set of product states that contains `seed` and is closed under `grow`, reached
by `n` rounds over the `n` product states. -/
def refClosure (n : Nat) (grow : List cldes_size_t → cldes_size_t → Bool)
    (seed : List cldes_size_t) : List cldes_size_t :=
  Nat.iterate (fun S => (List.range n).filter (fun q => decide (q ∈ S) || grow S q)) n
    ((List.range n).filter (fun q => decide (q ∈ seed)))

/-- Claim C2, the set `U`: the product states from which a string of events of
`Unc ∩ Σ_P∥E` leads to a state of `Bad`. -/
def refUnsafe (P E : DESystem) (unc : List ScalarType) : List cldes_size_t :=
  refClosure (P.states_number_ * E.states_number_)
    (fun U q => unc.any (fun e =>
      (P.events_ ||| E.events_).testBit e &&
        U.any (fun q' => productStep P E q e q'))) (refBad P E unc)

/-- Claim C2, the set `W`: the states reachable from the product initial state along
paths that never enter `U`. -/
def refSafe (P E : DESystem) (unc : List ScalarType) : List cldes_size_t :=
  refClosure (P.states_number_ * E.states_number_)
    (fun W q' => !decide (q' ∈ refUnsafe P E unc) &&
      W.any (fun q => (bitsOf (P.events_ ||| E.events_)).any (fun e => productStep P E q e q')))
    ((List.range (P.states_number_ * E.states_number_)).filter (fun q =>
      decide (q = E.init_state_ * P.states_number_ + P.init_state_) &&
        !decide (q ∈ refUnsafe P E unc)))

/-- Claim C2, the states of the reference supervisor, ascending: the states of `W` that are
coaccessible inside `W` (every state of `W` is accessible inside `W`). -/
def refSupervisorStates (P E : DESystem) (unc : List ScalarType) : List cldes_size_t :=
  refClosure (P.states_number_ * E.states_number_)
    (fun C q => decide (q ∈ refSafe P E unc) &&
      C.any (fun q' => (bitsOf (P.events_ ||| E.events_)).any (fun e => productStep P E q e q')))
    ((refSafe P E unc).filter (fun q =>
      decide (q % P.states_number_ ∈ P.marked_states_) &&
        decide (q / P.states_number_ ∈ E.marked_states_)))

/-- A plant whose uncontrollable event `u = 1` leads from the initial state to the dead end
`1`, next to the controllable `a = 0` that leads to the marked state `2`. -/
def deadEndPlant : DESystem := DESystem.ofEdges 3 0 [2] [(0, 2, 0), (0, 1, 1)]

/-- A one-state specification that allows both events of `deadEndPlant` everywhere. -/
def freeSpec : DESystem := DESystem.ofEdges 1 0 [0] [(0, 0, 0), (0, 0, 1)]

/-- A plant `0 -a-> 2 -b-> 3` whose state `1` is unreachable; only state `2` is marked. -/
def gapPlant : DESystem := DESystem.ofEdges 4 0 [2] [(0, 2, 0), (2, 3, 1)]

/-- A one-state specification without events. -/
def idleSpec : DESystem := DESystem.ofEdges 1 0 [0] []

/-- A three-state plant with the event ids `6` and `70`, which agree modulo 64: the edges
are `0 -6-> 1` and `0 -70-> 2`, and `0` is marked. -/
def widePlant : DESystem := DESystem.ofEdges 3 0 [0] [(0, 1, 6), (0, 2, 70)]

/-- A two-state plant whose single event has the id `70`: the edge is `0 -70-> 1`, and `1`
is marked. -/
def wideChain : DESystem := DESystem.ofEdges 2 0 [1] [(0, 1, 70)]

/-- The automaton `0 -a-> 1` with the marked state `1`. -/
def chainSys : DESystem := DESystem.ofEdges 2 0 [1] [(0, 1, 0)]

/-- The one-state automaton with a self-loop on event `0`. -/
def loopSys : DESystem := DESystem.ofEdges 1 0 [0] [(0, 0, 0)]

/-- A plant in which the state `1` is pushed by the main loop before the bad state `3` is
met through `2`: edges `0 -0-> 1`, `0 -1-> 2`, `2 -2-> 3`, `1 -3-> 3`, `3 -4-> 4`,
`1 -5-> 0`, `2 -5-> 0`; the events `3` and `4` are uncontrollable. -/
def revisitPlant : DESystem :=
  DESystem.ofEdges 5 0 [0]
    [(0, 1, 0), (0, 2, 1), (2, 3, 2), (1, 3, 3), (3, 4, 4), (1, 0, 5), (2, 0, 5)]

/-- A specification that has event `4` in its alphabet and never enables it from its
initial state. -/
def blockSpec : DESystem := DESystem.ofEdges 2 0 [0] [(1, 1, 4)]

/-- The state `q` is not bad: every uncontrollable event of `nc` that the plant offers at
`qx` is among `en`, the events enabled at `q`. -/
def NotBadAt (aP : DESystem) (nc : EventsBitArray) (en : cldes_size_t → BitArray)
    (q : cldes_size_t) : Prop :=
  ∀ e, nc.testBit e = true →
    (vecGet aP.states_events_ (q % aP.states_number_)).testBit e = true →
    (en q).testBit e = true

/-- The stack and the table `ftable` of the main loop hold states below `N` only, and
`ftable` has no duplicate. -/
def SynthBounded (N : Nat) (st : SynthState) : Prop :=
  (∀ x ∈ st.f, x < N) ∧ (∀ x ∈ st.ftable, x < N) ∧ st.ftable.Nodup

/-- Rounds the main loop can still make: the states on the stack plus the states below `N`
not yet in `ftable`. -/
def synthMeasure (N : Nat) (st : SynthState) : Nat := st.f.length + (N - st.ftable.length)

/-! ## Index encoding and alphabets of the product -/

/-- The index `s1 * aSys0.states_number_ + s0` that `op::Synchronize` gives the pair of the
state `s0` of the left operand and the state `s1` of the right one (operations.cpp:135). -/
def productIndex (n0 : cldes_size_t) (s0 s1 : cldes_size_t) : cldes_size_t := s1 * n0 + s0

/-- The pair `(qx, qy) = (q % n0, q / n0)` that `op::Synchronize` reads off the index `q`
(operations.cpp:162-163). -/
def productDecode (n0 : cldes_size_t) (q : cldes_size_t) : cldes_size_t × cldes_size_t :=
  (q % n0, q / n0)

/-- The left automaton of scenario S2: two states, alphabet `{0, 2}`. -/
def alphabetSysA : DESystem := DESystem.ofEdges 2 0 [0] [(0, 1, 0), (1, 0, 2)]

/-- The right automaton of scenario S2: two states, alphabet `{1, 2}`. -/
def alphabetSysB : DESystem := DESystem.ofEdges 2 0 [0] [(0, 1, 1), (1, 0, 2)]

/-! ## Materialisation over a set of product states -/

/-- Spec 4.5, in the spec's words: `remap[q]` is the rank of `q` in the ascending list `V`. -/
def remap (V : List cldes_size_t) (q : cldes_size_t) : cldes_size_t := V.indexOf q

/-- The state in which `op::SupervisorSynth` hands the virtual system to
`op::SynchronizeStage2`: `virtual_states_` is strictly ascending and holds product indices,
`virtual_table_` has the same members, `only_in_0_` and `only_in_1_` are the private events
of the operands, and every entry of the memo `transtriplet_` is the value of
`op::TransitionVirtual` at its key. -/
def Stage2Input (aVirtualSys aSys0 aSys1 : DESystem) : Prop :=
  aVirtualSys.virtual_states_.Pairwise (fun a b => a < b) ∧
  (∀ q ∈ aVirtualSys.virtual_states_, q < aSys0.states_number_ * aSys1.states_number_) ∧
  (∀ q ∈ aVirtualSys.virtual_table_, q ∈ aVirtualSys.virtual_states_) ∧
  (∀ q ∈ aVirtualSys.virtual_states_, q ∈ aVirtualSys.virtual_table_) ∧
  aVirtualSys.only_in_0_ = aSys0.events_ ^^^ (aSys0.events_ &&& aSys1.events_) ∧
  aVirtualSys.only_in_1_ = aSys1.events_ ^^^ (aSys0.events_ &&& aSys1.events_) ∧
  (∀ p ∈ aVirtualSys.transtriplet_, p.2 = TransitionVirtual aSys0 aSys1 p.1.1 p.1.2)

instance (aVirtualSys aSys0 aSys1 : DESystem) :
    Decidable (Stage2Input aVirtualSys aSys0 aSys1) := by
  unfold Stage2Input; infer_instance

/-- A two-state plant whose initial state is `1`: the single edge is the self-loop
`1 -0-> 1`, and `1` is marked. -/
def shiftedPlant : DESystem := DESystem.ofEdges 2 1 [1] [(1, 1, 0)]

/-! ## Queries of a concrete automaton (spec 4.4, 4.5) -/

/-- Modelled from the spec: `DESystem::getInvStateEvents_impl` is not in the sources; its
doc comment has it read the vector of per-state incoming events (spec 4.4:
`invStateEvents(q) == in[q]`). -/
def DESystem.getInvStateEvents (A : DESystem) (aQ : cldes_size_t) : BitArray :=
  vecGet A.inv_states_events_ aQ

/-- Modelled from the spec: `DESystem::containsTrans_impl` is not in the sources; spec 4.5
has a transition from `i` on `e` exactly when `e ∈ out[i]`. -/
def DESystem.containstrans (A : DESystem) (aQ : cldes_size_t) (aEvent : ScalarType) : Bool :=
  (A.getStateEvents aQ).testBit aEvent

/-- Modelled from the spec: `DESystem::trans_impl` is not in the sources; spec 4.5: if
`e ∉ out[i]`, none (the doc comment: `-1`); else the first `j` of row `i` with
`e ∈ G[i][j]`. -/
def DESystem.trans (A : DESystem) (aQ : cldes_size_t) (aEvent : ScalarType) : Int :=
  if (A.getStateEvents aQ).testBit aEvent then
    match A.graph_.firstCol aQ aEvent with
    | some c => (c : Int)
    | none => -1
  else -1

/-- Modelled from the spec: `DESystem::containsInvTrans_impl` is not in the sources; the
mirror of `containstrans` on the incoming events. -/
def DESystem.containsinvtrans (A : DESystem) (aQ : cldes_size_t) (aEvent : ScalarType) : Bool :=
  (A.getInvStateEvents aQ).testBit aEvent

/-- Modelled from the spec: `DESystem::invTrans_impl` is not in the sources; spec 4.5 has
it return all `i` with `e ∈ G[i][j]`, in ascending `i`. -/
def DESystem.invtrans (A : DESystem) (aQ : cldes_size_t) (aEvent : ScalarType) :
    List cldes_size_t :=
  (List.range A.states_number_).filter (fun i => (A.graph_.coeff i aQ).testBit aEvent)

/-! ## Queries of the supervisor proxy (SuperProxyCore.hpp) -/

/-- Method `op::SuperProxy::containstrans_impl` (SuperProxyCore.hpp:158). -/
def SuperProxy.containstrans_impl (S : SuperProxy) (aQ : cldes_size_t) (aEvent : ScalarType) :
    Bool :=
  if !decide (aQ ∈ S.virtual_states_) || !S.events_.testBit aEvent then false
  else
    let qx := aQ % S.n_states_sys0_
    let qy := aQ / S.n_states_sys0_
    let in_x := S.sys0_.containstrans qx aEvent
    let in_y := S.sys1_.containstrans qy aEvent
    if (in_x && in_y) || (in_x && S.only_in_plant_.testBit aEvent) ||
        (in_y && S.only_in_spec_.testBit aEvent) then true
    else false

/-- Method `op::SuperProxy::trans_impl` (SuperProxyCore.hpp:180); the result is signed. -/
def SuperProxy.trans_impl (S : SuperProxy) (aQ : cldes_size_t) (aEvent : ScalarType) : Int :=
  if !decide (aQ ∈ S.virtual_states_) || !S.events_.testBit aEvent then -1
  else
    let qx := aQ % S.n_states_sys0_
    let qy := aQ / S.n_states_sys0_
    let in_x := S.sys0_.containstrans qx aEvent
    let in_y := S.sys1_.containstrans qy aEvent
    if !((in_x && in_y) || (in_x && S.only_in_plant_.testBit aEvent) ||
        (in_y && S.only_in_spec_.testBit aEvent)) then -1
    else if in_x && in_y then
      S.sys1_.trans qy aEvent * (S.n_states_sys0_ : Int) + S.sys0_.trans qx aEvent
    else if in_x then
      (qy : Int) * (S.n_states_sys0_ : Int) + S.sys0_.trans qx aEvent
    else
      S.sys1_.trans qy aEvent * (S.n_states_sys0_ : Int) + (qx : Int)

/-- Method `op::SuperProxy::containsinvtrans_impl` (SuperProxyCore.hpp:212). -/
def SuperProxy.containsinvtrans_impl (S : SuperProxy) (aQ : cldes_size_t)
    (aEvent : ScalarType) : Bool :=
  if !decide (aQ ∈ S.virtual_states_) || !S.events_.testBit aEvent then false
  else
    let qx := aQ % S.n_states_sys0_
    let qy := aQ / S.n_states_sys0_
    let in_x := S.sys0_.containsinvtrans qx aEvent
    let in_y := S.sys1_.containsinvtrans qy aEvent
    if (in_x && in_y) || (in_x && S.only_in_plant_.testBit aEvent) ||
        (in_y && S.only_in_spec_.testBit aEvent) then true
    else false

/-- Method `op::SuperProxy::invtrans_impl` (SuperProxyCore.hpp:234): on a shared event the
loop over `inv_trans_0` is the outer one and the loop over `inv_trans_1` the inner one. -/
def SuperProxy.invtrans_impl (S : SuperProxy) (aQ : cldes_size_t) (aEvent : ScalarType) :
    List cldes_size_t :=
  if !decide (aQ ∈ S.virtual_states_) || !S.events_.testBit aEvent then []
  else
    let qx := aQ % S.n_states_sys0_
    let qy := aQ / S.n_states_sys0_
    let in_x := S.sys0_.containsinvtrans qx aEvent
    let in_y := S.sys1_.containsinvtrans qy aEvent
    if !((in_x && in_y) || (in_x && S.only_in_plant_.testBit aEvent) ||
        (in_y && S.only_in_spec_.testBit aEvent)) then []
    else if in_x && in_y then
      (S.sys0_.invtrans qx aEvent).flatMap (fun q0 =>
        (S.sys1_.invtrans qy aEvent).map (fun q1 => q1 * S.n_states_sys0_ + q0))
    else if in_x then
      (S.sys0_.invtrans qx aEvent).map (fun q => qy * S.n_states_sys0_ + q)
    else
      (S.sys1_.invtrans qy aEvent).map (fun q => q * S.n_states_sys0_ + qx)

/-- Method `op::SuperProxy::getInvStateEvents_impl` (SuperProxyCore.hpp:293). -/
def SuperProxy.getInvStateEvents_impl (S : SuperProxy) (aQ : cldes_size_t) : BitArray :=
  let state_event_0 := S.sys0_.getInvStateEvents (aQ % S.n_states_sys0_)
  let state_event_1 := S.sys1_.getInvStateEvents (aQ / S.n_states_sys0_)
  (state_event_0 &&& state_event_1) ||| (state_event_0 &&& S.only_in_plant_) |||
    (state_event_1 &&& S.only_in_spec_)

/-! ## The lazy product the proxy explores (spec 3, 4.7) -/

/-- Modelled from the spec: `SyncSysProxy::getStateEvents` is not in the sources
(SyncSysProxyCore.hpp); spec 3 gives the enabled events at `q = (qx, qy)` as
`(out_A[qx] ∩ out_B[qy]) ∪ (out_A[qx] ∩ soloA) ∪ (out_B[qy] ∩ soloB)`. -/
def SyncSysProxy.getStateEvents (aSys0 aSys1 : DESystem) (aQ : cldes_size_t) : BitArray :=
  syncEvents aSys0.states_events_ aSys1.states_events_
    (aSys0.events_ ^^^ (aSys0.events_ &&& aSys1.events_))
    (aSys1.events_ ^^^ (aSys0.events_ &&& aSys1.events_))
    (aQ % aSys0.states_number_) (aQ / aSys0.states_number_)

/-- Modelled from the spec: `SyncSysProxy::trans` is not in the sources
(SyncSysProxyCore.hpp); spec 4.7: none (`-1`) if `e ∉ stateEvents(q)`; else decode
`qx, qy`, consult the child `trans` of each factor that owns `e`, and re-encode. -/
def SyncSysProxy.trans (aSys0 aSys1 : DESystem) (aQ : cldes_size_t) (aEvent : ScalarType) :
    Int :=
  let qx := aQ % aSys0.states_number_
  let qy := aQ / aSys0.states_number_
  if !(SyncSysProxy.getStateEvents aSys0 aSys1 aQ).testBit aEvent then -1
  else if aSys0.events_.testBit aEvent && aSys1.events_.testBit aEvent then
    aSys1.trans qy aEvent * (aSys0.states_number_ : Int) + aSys0.trans qx aEvent
  else if aSys0.events_.testBit aEvent then
    (qy : Int) * (aSys0.states_number_ : Int) + aSys0.trans qx aEvent
  else
    aSys1.trans qy aEvent * (aSys0.states_number_ : Int) + (qx : Int)

/-- Modelled from the spec: `op::removeBadStates_` is declared in Operations.hpp and defined
in OperationsCore.hpp, which is not in the sources; spec 4.8 has it the inverse search of
`op::RemoveBadStates` over the transposed graphs of the factors, returning `(C, rmtable)`. -/
def removeBadStates_ (aP aE : DESystem) (aC aRmTable : List cldes_size_t) (aQ : cldes_size_t)
    (aNonContrBit : EventsBitArray) : List cldes_size_t × List cldes_size_t :=
  RemoveBadStates aP aE (aP.events_ ^^^ (aP.events_ &&& aE.events_))
    (aE.events_ ^^^ (aP.events_ &&& aE.events_)) aP.graph_.transpose aE.graph_.transpose
    aC aRmTable aQ aNonContrBit

/-! ## Construction of the supervisor proxy (SuperProxyCore.hpp) -/

/-- The pair `(non_contr_bit, p_non_contr_bit)` that `op::SuperProxy::findRemovedStates_`
builds from `aNonContr` (SuperProxyCore.hpp:82-91). -/
def SuperProxy.nonContrBits (aP_events virtualsys_events : BitArray)
    (aNonContr : List ScalarType) : EventsBitArray × EventsBitArray :=
  aNonContr.foldl (fun acc event =>
    if aP_events.testBit event then
      (if virtualsys_events.testBit event then acc.1 ||| (1 <<< event) else acc.1,
        acc.2 ||| (1 <<< event))
    else acc) (0, 0)

/-- The event loop of `findRemovedStates_` for the state `q` just inserted
(SuperProxyCore.hpp:109-122): a successor that is neither removed nor retained is pushed.
The event is taken from `q_events`, so on well-formed children `fsqe` is a state; the
conversion of a negative `fsqe` to `StorageIndex` is not modelled. -/
def SuperProxy.findPush (aP aE : DESystem) (rmtable virtual_states : List cldes_size_t)
    (q : cldes_size_t) (q_events : BitArray) (f : List cldes_size_t) : List cldes_size_t :=
  (bitsOf q_events).foldl (fun f event =>
    if !containsInt rmtable (SyncSysProxy.trans aP aE q event) then
      if !containsInt virtual_states (SyncSysProxy.trans aP aE q event) then
        (SyncSysProxy.trans aP aE q event).toNat :: f
      else f
    else f) f

/-- The loop `while (!f.empty())` of `findRemovedStates_` (SuperProxyCore.hpp:96-125); the
first argument bounds the number of rounds, the state is `(f, virtual_states_, rmtable)`. -/
def SuperProxy.findLoop (aP aE : DESystem) (p_non_contr_bit non_contr_bit : EventsBitArray) :
    Nat → List cldes_size_t → List cldes_size_t → List cldes_size_t →
      List cldes_size_t × List cldes_size_t × List cldes_size_t
  | 0, f, virtual_states, rmtable => (f, virtual_states, rmtable)
  | _ + 1, [], virtual_states, rmtable => ([], virtual_states, rmtable)
  | fuel + 1, q :: f, virtual_states, rmtable =>
    if !decide (q ∈ rmtable) && !decide (q ∈ virtual_states) then
      if (p_non_contr_bit &&& aP.getStateEvents (q % aP.states_number_)) &&&
            SyncSysProxy.getStateEvents aP aE q ≠
          p_non_contr_bit &&& aP.getStateEvents (q % aP.states_number_) then
        SuperProxy.findLoop aP aE p_non_contr_bit non_contr_bit fuel f
          (removeBadStates_ aP aE virtual_states rmtable q non_contr_bit).1
          (removeBadStates_ aP aE virtual_states rmtable q non_contr_bit).2
      else
        SuperProxy.findLoop aP aE p_non_contr_bit non_contr_bit fuel
          (SuperProxy.findPush aP aE rmtable (qsetInsert q virtual_states) q
            (SyncSysProxy.getStateEvents aP aE q) f)
          (qsetInsert q virtual_states) rmtable
    else SuperProxy.findLoop aP aE p_non_contr_bit non_contr_bit fuel f virtual_states rmtable

/-- The pushes of `op::SuperProxy::trim` for the popped state `q`
(SuperProxyCore.hpp:334-350): every predecessor by an incoming event that lies in
`virtual_states_` and is not yet in `trimmed_virtual_states`. -/
def SuperProxy.trimPush (S : SuperProxy) (trimmed : List cldes_size_t) (q : cldes_size_t)
    (f : List cldes_size_t) : List cldes_size_t :=
  (bitsOf (S.getInvStateEvents_impl q)).foldl (fun f event =>
    (S.invtrans_impl q event).foldl (fun f fsqe =>
      if decide (fsqe ∈ S.virtual_states_) && !decide (fsqe ∈ trimmed) then fsqe :: f else f)
      f) f

/-- The loop `while (!f.empty())` of `op::SuperProxy::trim` (SuperProxyCore.hpp:330-351);
the first argument bounds the number of rounds, the state is
`(f, trimmed_virtual_states)`. -/
def SuperProxy.trimLoop (S : SuperProxy) :
    Nat → List cldes_size_t → List cldes_size_t → List cldes_size_t × List cldes_size_t
  | 0, f, trimmed => (f, trimmed)
  | _ + 1, [], trimmed => ([], trimmed)
  | fuel + 1, q :: f, trimmed =>
    SuperProxy.trimLoop S fuel (S.trimPush (qsetInsert q trimmed) q f) (qsetInsert q trimmed)

/-- The number of product indices of the proxy. -/
def SuperProxy.productSize (S : SuperProxy) : Nat := S.n_states_sys0_ * S.sys1_.states_number_

/-- The most states one round of `trim` can push. -/
def SuperProxy.trimWidth (S : SuperProxy) : Nat :=
  ((List.range S.productSize).map (fun q => (S.trimPush [] q []).length)).foldl max 0

/-- Rounds allowed to one search of `trim`: a round either inserts a new state, or pops a
state already inserted and pushes states not yet inserted, or shortens the stack, so
`1 + (width + 1) * (2 * size + 1)` rounds empty the stack. -/
def SuperProxy.trimRounds (S : SuperProxy) : Nat :=
  1 + (S.trimWidth + 1) * (2 * S.productSize + 1)

/-- Method `op::SuperProxy::trim` (SuperProxyCore.hpp:322). -/
def SuperProxy.trim (S : SuperProxy) : SuperProxy :=
  { S with
    virtual_states_ := S.marked_states_.foldl (fun trimmed_virtual_states mstate =>
      (S.trimLoop S.trimRounds [mstate] trimmed_virtual_states).2) []
    states_number_ := (S.marked_states_.foldl (fun trimmed_virtual_states mstate =>
      (S.trimLoop S.trimRounds [mstate] trimmed_virtual_states).2) []).length }

/-- Rounds allowed to the loop of `findRemovedStates_`: a state is handled once and pushes
at most one successor per event of the alphabet. -/
def SuperProxy.findRounds (aP aE : DESystem) : Nat :=
  aP.states_number_ * aE.states_number_ * (bitsOf (aP.events_ ||| aE.events_)).length + 2

/-- The scratch state `(f, virtual_states_, rmtable)` when the loop of
`findRemovedStates_` ends. -/
def SuperProxy.findFinal (aP aE : DESystem) (aNonContr : List ScalarType) :
    List cldes_size_t × List cldes_size_t × List cldes_size_t :=
  SuperProxy.findLoop aP aE
    (SuperProxy.nonContrBits aP.events_ (aP.events_ ||| aE.events_) aNonContr).2
    (SuperProxy.nonContrBits aP.events_ (aP.events_ ||| aE.events_) aNonContr).1
    (SuperProxy.findRounds aP aE)
    [aE.init_state_ * aP.states_number_ + aP.init_state_] [] []

/-- Method `op::SuperProxy::findRemovedStates_` (SuperProxyCore.hpp:74): the search, then
`states_number_ = virtual_states_.size()`, then `trim()`. -/
def SuperProxy.findRemovedStates_ (S : SuperProxy) (aP aE : DESystem)
    (aNonContr : List ScalarType) : SuperProxy :=
  ({ S with
      virtual_states_ := (SuperProxy.findFinal aP aE aNonContr).2.1
      states_number_ := (SuperProxy.findFinal aP aE aNonContr).2.1.length }).trim

/-- The state `p` is pushed when `op::SuperProxy::trim` pops `q`, unless it is already in
`trimmed_virtual_states`: `p` is a predecessor of `q` by an incoming event and lies in
`virtual_states_`. -/
def SuperProxy.TrimPred (S : SuperProxy) (q p : cldes_size_t) : Prop :=
  ∃ event, (S.getInvStateEvents_impl q).testBit event = true ∧ p ∈ S.invtrans_impl q event ∧
    p ∈ S.virtual_states_

/-- The states `op::SuperProxy::trim` is to collect: the marked states and, from a collected
state, the states `trim` pushes when it pops it. -/
inductive SuperProxy.CoReach (S : SuperProxy) : cldes_size_t → Prop
  | seed {m : cldes_size_t} : m ∈ S.marked_states_ → SuperProxy.CoReach S m
  | step {q p : cldes_size_t} : SuperProxy.CoReach S q → S.TrimPred q p →
      SuperProxy.CoReach S p

/-- One when the stack is empty or its top is already in `trimmed`, zero otherwise. -/
def stackFlag (f trimmed : List cldes_size_t) : Nat :=
  match f with
  | [] => 1
  | x :: _ => if x ∈ trimmed then 1 else 0

/-- Rounds one search of `trim` can still make from the stack `f` and the table `trimmed`:
a round inserts a state, or makes the top a state not yet inserted, or shortens the
stack. -/
def SuperProxy.trimMeasure (S : SuperProxy) (f trimmed : List cldes_size_t) : Nat :=
  f.length + (S.trimWidth + 1) * (2 * (S.productSize - trimmed.length) + stackFlag f trimmed)

/-- The members the constructor of `op::SuperProxy` sets from its operands
(SuperProxyCore.hpp:50-55); `findRemovedStates_` and `trim` leave them alone. -/
def SuperProxy.Built (S : SuperProxy) : Prop :=
  S.n_states_sys0_ = S.sys0_.states_number_ ∧
  S.only_in_plant_ = S.sys0_.events_ ^^^ (S.sys0_.events_ &&& S.sys1_.events_) ∧
  S.only_in_spec_ = S.sys1_.events_ ^^^ (S.sys0_.events_ &&& S.sys1_.events_) ∧
  S.events_ = S.sys0_.events_ ||| S.sys1_.events_

instance (S : SuperProxy) : Decidable S.Built := by
  unfold SuperProxy.Built; infer_instance

/-! ## Backward closure of the prune (spec 4.8) -/

/-- Spec 4.8, in the spec's words: the product state `x'` is a predecessor of `x` in
`P ∥ E` by an event of `Unc_prod`. -/
def UncPred (aP aE : DESystem) (nc : EventsBitArray) (x' x : cldes_size_t) : Prop :=
  x' < aP.states_number_ * aE.states_number_ ∧
    ∃ e, nc.testBit e = true ∧ productStep aP aE x' e x = true

/-- Spec 4.8, in the spec's words: some (possibly empty) string of events of `Unc_prod`
leads from `x` to `q` in `P ∥ E`. -/
def UncReaches (aP aE : DESystem) (nc : EventsBitArray) (x q : cldes_size_t) : Prop :=
  Relation.ReflTransGen (UncPred aP aE nc) x q

/-- What holds of the scratch state `(f, C, rmtable_)` of `op::RemoveBadStates(q)` between
two rounds, `R0` and `C0` being the tables at the call: the stack holds product states of
`rmtable_` that are new or `q`; `rmtable_` lies between `R0 ∪ {q}` and the backward closure;
the predecessors of a state of `rmtable_` not on the stack are in `rmtable_`; a new state
of `rmtable_` is on the stack or out of `C`; and `C` has lost only popped states. -/
def RemoveInv (aP aE : DESystem) (nc : EventsBitArray) (R0 C0 : List cldes_size_t)
    (q : cldes_size_t) (f C rm : List cldes_size_t) : Prop :=
  (∀ y ∈ f, y < aP.states_number_ * aE.states_number_ ∧ y ∈ rm ∧ (y = q ∨ y ∉ R0)) ∧
  (∀ y ∈ rm, y ∈ R0 ∨ UncReaches aP aE nc y q) ∧
  (∀ y ∈ R0, y ∈ rm) ∧ q ∈ rm ∧
  (∀ y ∈ rm, y ∉ f → ∀ y', UncPred aP aE nc y' y → y' ∈ rm) ∧
  (∀ y ∈ rm, y ∉ R0 → y ∈ f ∨ y ∉ C) ∧
  (q ∈ f ∨ q ∉ C) ∧
  (∀ y ∈ C, y ∈ C0) ∧
  (∀ y ∈ C0, y ∉ C → y = q ∨ (y ∈ rm ∧ y ∉ R0))

/-- What holds of the scratch state of the main loop of `op::SupervisorSynth` between two
rounds: the stack and `rmtable_` hold product states, `rmtable_` has no duplicate and is
closed under predecessors by filter events, a state that was pushed is on the stack, in `c`
or in `rmtable_`, and every enabled event of a state of `c` outside `rmtable_` leads to a
state that was pushed, is in `c` or is in `rmtable_`. -/
def SynthInv (aP aE : DESystem) (nc : EventsBitArray) (st : SynthState) : Prop :=
  (∀ x ∈ st.f, x < aP.states_number_ * aE.states_number_) ∧
  (∀ x ∈ st.rmtable_, x < aP.states_number_ * aE.states_number_) ∧
  st.rmtable_.Nodup ∧
  (∀ x ∈ st.rmtable_, ∀ x', UncPred aP aE nc x' x → x' ∈ st.rmtable_) ∧
  (∀ x ∈ st.ftable, x ∈ st.f ∨ x ∈ st.c ∨ x ∈ st.rmtable_) ∧
  (∀ q ∈ st.c, q ∉ st.rmtable_ → ∀ e, enabledAt aP aE q e = true →
    TransitionVirtual aP aE q e ∈ st.ftable ∨ TransitionVirtual aP aE q e ∈ st.c ∨
      TransitionVirtual aP aE q e ∈ st.rmtable_)

/-- The loop `findLoop` of `findRemovedStates_` with two logs: the states pushed onto `f`,
oldest first, and the states that passed the guard at the head of the loop body (retained
or handed to `removeBadStates_`). The result is `((f, virtual_states_, rmtable), pushed,
examined)`. -/
def SuperProxy.findLoopLog (aP aE : DESystem) (p_non_contr_bit non_contr_bit : EventsBitArray) :
    Nat → List cldes_size_t → List cldes_size_t → List cldes_size_t → List cldes_size_t →
      List cldes_size_t →
      (List cldes_size_t × List cldes_size_t × List cldes_size_t) × List cldes_size_t ×
        List cldes_size_t
  | 0, f, virtual_states, rmtable, pushed, examined =>
    ((f, virtual_states, rmtable), pushed, examined)
  | _ + 1, [], virtual_states, rmtable, pushed, examined =>
    (([], virtual_states, rmtable), pushed, examined)
  | fuel + 1, q :: f, virtual_states, rmtable, pushed, examined =>
    if !decide (q ∈ rmtable) && !decide (q ∈ virtual_states) then
      if (p_non_contr_bit &&& aP.getStateEvents (q % aP.states_number_)) &&&
            SyncSysProxy.getStateEvents aP aE q ≠
          p_non_contr_bit &&& aP.getStateEvents (q % aP.states_number_) then
        SuperProxy.findLoopLog aP aE p_non_contr_bit non_contr_bit fuel f
          (removeBadStates_ aP aE virtual_states rmtable q non_contr_bit).1
          (removeBadStates_ aP aE virtual_states rmtable q non_contr_bit).2
          pushed (examined ++ [q])
      else
        SuperProxy.findLoopLog aP aE p_non_contr_bit non_contr_bit fuel
          (SuperProxy.findPush aP aE rmtable (qsetInsert q virtual_states) q
            (SyncSysProxy.getStateEvents aP aE q) f)
          (qsetInsert q virtual_states) rmtable
          (pushed ++ (SuperProxy.findPush aP aE rmtable (qsetInsert q virtual_states) q
            (SyncSysProxy.getStateEvents aP aE q) []).reverse)
          (examined ++ [q])
    else
      SuperProxy.findLoopLog aP aE p_non_contr_bit non_contr_bit fuel f virtual_states rmtable
        pushed examined

/-- The run of `findRemovedStates_` from the initial product state for at most `k` rounds,
with its two logs; the initial push is in the log of pushes. -/
def SuperProxy.findRunLog (aP aE : DESystem) (aNonContr : List ScalarType) (k : Nat) :
    (List cldes_size_t × List cldes_size_t × List cldes_size_t) × List cldes_size_t ×
      List cldes_size_t :=
  SuperProxy.findLoopLog aP aE
    (SuperProxy.nonContrBits aP.events_ (aP.events_ ||| aE.events_) aNonContr).2
    (SuperProxy.nonContrBits aP.events_ (aP.events_ ||| aE.events_) aNonContr).1 k
    [aE.init_state_ * aP.states_number_ + aP.init_state_] [] []
    [aE.init_state_ * aP.states_number_ + aP.init_state_] []

/-- What holds of the scratch state of `findRemovedStates_` between two rounds: the stack,
the retained and the removed states are product states, the removed states have no
duplicate and are closed under predecessors by events of the filter, no state was examined
twice, and an examined state is retained or removed. -/
def SuperProxy.FindInv (aP aE : DESystem) (nc : EventsBitArray)
    (f V R examined : List cldes_size_t) : Prop :=
  (∀ x ∈ f, x < aP.states_number_ * aE.states_number_) ∧
  (∀ x ∈ V, x < aP.states_number_ * aE.states_number_) ∧
  (∀ x ∈ R, x < aP.states_number_ * aE.states_number_) ∧ R.Nodup ∧
  (∀ x ∈ R, ∀ x', UncPred aP aE nc x' x → x' ∈ R) ∧
  examined.Nodup ∧
  (∀ x ∈ examined, x < aP.states_number_ * aE.states_number_ ∧ (x ∈ V ∨ x ∈ R))

set_option linter.dupNamespace false

/-- Constructor `op::SuperProxy::SuperProxy` (SuperProxyCore.hpp:41). -/
def SuperProxy.SuperProxy (aPlant aSpec : DESystem) (aNonContr : List ScalarType) :
    SuperProxy :=
  (SuperProxy.members aPlant aSpec).findRemovedStates_ aPlant aSpec aNonContr

/-! ## Further concrete automata -/

/-- The plant `revisitPlant` with the ids of the controllable events `0` and `1` exchanged:
its initial state reaches `2` by event `0` and `1` by event `1`, so the main loop pushes the
two successors in the other order. -/
def revisitPlantSwapped : DESystem :=
  DESystem.ofEdges 5 0 [0]
    [(0, 1, 1), (0, 2, 0), (2, 3, 2), (1, 3, 3), (3, 4, 4), (1, 0, 5), (2, 0, 5)]

/-- A plant with a marked state that cannot be reached: the single edge is the self-loop
`0 -0-> 0`, and both `0` and `1` are marked. -/
def strayMarkedPlant : DESystem := DESystem.ofEdges 2 0 [0, 1] [(0, 0, 0)]

/-- A plant whose state `2` is entered only through state `1`: `1` steps to the dead end `3`
on event `2`, state `3` offers event `4`, and `2` returns to the marked initial state. -/
def orphanPlant : DESystem :=
  DESystem.ofEdges 4 0 [0] [(0, 1, 0), (1, 2, 1), (1, 3, 2), (3, 3, 4), (2, 0, 5)]

/-- An automaton whose marked state `2` is entered by event `0` from both `0` and `1`. -/
def fanSys : DESystem := DESystem.ofEdges 3 0 [2] [(0, 2, 0), (1, 2, 0)]

/-! ## Reachability in the words of the spec -/

/-- Spec 3, with the orientation the code gives the bit graph (target in the row, source in
the column): `B` is `n × n` and `B[i][j] = 1 ⇔ (i = j ∨ G[j][i] ≠ ∅)`. -/
def BitGraphInv (A : DESystem) : Prop :=
  A.bit_graph_.rows = A.states_number_ ∧ A.bit_graph_.cols = A.states_number_ ∧
  ∀ i < A.states_number_, ∀ j < A.states_number_,
    (A.bit_graph_.bit i j = true ↔ i = j ∨ A.graph_.coeff j i ≠ 0)

instance (A : DESystem) : Decidable (BitGraphInv A) := by
  unfold BitGraphInv; infer_instance

/-- An edge `a → b` of `G` between states of `A`. -/
def DESystem.Edge (A : DESystem) (a b : cldes_size_t) : Prop :=
  a < A.states_number_ ∧ b < A.states_number_ ∧ A.graph_.coeff a b ≠ 0

/-- Glossary, in the spec's words: `b` is reachable from `a` by zero or more edges of `G`. -/
def DESystem.Reaches (A : DESystem) (a b : cldes_size_t) : Prop :=
  Relation.ReflTransGen A.Edge a b

/-- The first system of `tests/basics_gpu.cpp` (events `a = 0`, `b = 1`, `g = 2`). -/
def basicsSys : DESystem :=
  DESystem.ofEdges 4 0 [0, 2]
    [(0, 0, 0), (0, 2, 2), (1, 0, 0), (1, 1, 1), (2, 1, 0), (2, 1, 2), (2, 2, 1), (2, 3, 0)]

/-- The second system of `tests/basics_gpu.cpp`. -/
def basicsNewSys : DESystem :=
  DESystem.ofEdges 4 0 [0, 2]
    [(0, 0, 0), (0, 2, 2), (1, 1, 1), (2, 1, 0), (2, 1, 2), (2, 2, 1), (3, 1, 0), (3, 2, 0)]

/-- Modelled from the spec: the automaton `DESystem::Trim` builds once the retained states
are known (spec 4.6): the states of `keep` renumbered in list order, the initial state and
the marked states of `keep` remapped, the caches and the bit graph rebuilt from the
restricted graph. `A.Trim` is `A.restrictTo A.TrimStates`. -/
def DESystem.restrictTo (A : DESystem) (keep : List cldes_size_t) : DESystem :=
  let n := keep.length
  let graph := graphFromTriplets n n
    ((List.range n).flatMap (fun i =>
      (A.graph_.rowEntries (keep.getD i 0)).filterMap (fun e =>
        if e.1 ∈ keep then some ⟨(i : Int), ((keep.indexOf e.1 : Nat) : Int), e.2⟩
        else none)))
  { A with
    states_number_ := n
    init_state_ := keep.indexOf A.init_state_
    marked_states_ := (A.marked_states_.filter (fun m => decide (m ∈ keep))).map
      (fun m => keep.indexOf m)
    graph_ := graph
    bit_graph_ := bitGraphFromTriplets n n
      ((List.range n).flatMap (fun i =>
        (⟨(i : Int), (i : Int), true⟩ : Triplet Bool) ::
          (graph.rowEntries i).map (fun e => ⟨(e.1 : Int), (i : Int), true⟩)))
    states_events_ := (List.range n).map (fun i =>
      (List.range n).foldl (fun acc j => acc ||| graph.coeff i j) 0)
    inv_states_events_ := (List.range n).map (fun j =>
      (List.range n).foldl (fun acc i => acc ||| graph.coeff i j) 0) }

/-! ## Runs of the synthesis loops -/

/-- The scratch state of `op::SupervisorSynth` after at most `k` rounds of its main loop,
run from the initial product state. -/
def synthRun (aP aE : DESystem) (non_contr : List ScalarType) (k : Nat) : SynthState :=
  let init_state := aE.init_state_ * aP.states_number_ + aP.init_state_
  let in_both := aP.events_ &&& aE.events_
  synthLoop aP aE (aP.events_ ^^^ in_both) (aE.events_ ^^^ in_both) aP.graph_.transpose
    aE.graph_.transpose (nonContrBit (aP.events_ ||| aE.events_) non_contr) k
    { f := [init_state], ftable := [init_state], c := [], rmtable_ := [], transtriplet_ := [] }

/-- A plant whose marked state `1` offers the event `4`: `0 -0-> 1`, `1 -4-> 1`, `0 -1-> 0`,
both states marked. -/
def markedBadPlant : DESystem :=
  DESystem.ofEdges 2 0 [0, 1] [(0, 1, 0), (1, 1, 4), (0, 0, 1)]

/-- A one-state plant with the self-loop `0 -1-> 0`. -/
def soloPlant : DESystem := DESystem.ofEdges 1 0 [0] [(0, 0, 1)]

/-- A specification with the event `0` of its own: `0 -0-> 1` and `0 -1-> 0`; its state `1`
enables nothing. -/
def soloSpec : DESystem := DESystem.ofEdges 2 0 [0] [(0, 1, 0), (0, 0, 1)]

/-- A plant with two events from `0` to `1`: `0 -0-> 1` and `0 -1-> 1`. -/
def twinPlant : DESystem := DESystem.ofEdges 2 0 [0] [(0, 1, 0), (0, 1, 1)]

/-- The bit matrix of the two-state swap `0 → 1 → 0`, without the diagonal. -/
def swapBits : BitGraphHostData :=
  bitGraphFromTriplets 2 2 [⟨0, 1, true⟩, ⟨1, 0, true⟩]

/-- Whether the event loop of the main loop of `op::SupervisorSynth` reaches, over the
events still to visit, the branch that calls `RemoveBadStates` for the popped state `q`
and ends the loop (operations.cpp:772-778). -/
def synthScanBad (aP : DESystem) (non_contr_bit : EventsBitArray) (q : cldes_size_t)
    (q_events : BitArray) : List ScalarType → Bool
  | [] => false
  | event :: rest =>
    if non_contr_bit.testBit event && !q_events.testBit event &&
        (vecGet aP.states_events_ (q % aP.states_number_)).testBit event then true
    else synthScanBad aP non_contr_bit q q_events rest

/-! ## Push logs of the synthesis loops -/

/-- The event loop `synthScan` of the main loop of `op::SupervisorSynth`, with the states it
pushes onto `f` recorded in a log, oldest first. -/
def synthScanLog (aP aE : DESystem) (only_in_0 only_in_1 : BitArray)
    (p_invgraph e_invgraph : GraphHostData) (non_contr_bit : EventsBitArray)
    (q : cldes_size_t) (q_events : BitArray) :
    List ScalarType → SynthState → List cldes_size_t → SynthState × List cldes_size_t
  | [], st, log => (st, log)
  | event :: rest, st, log =>
    let is_there_fsqe := q_events.testBit event
    if non_contr_bit.testBit event && !is_there_fsqe &&
        (vecGet aP.states_events_ (q % aP.states_number_)).testBit event then
      let r := RemoveBadStates aP aE only_in_0 only_in_1 p_invgraph e_invgraph st.c
        st.rmtable_ q non_contr_bit
      ({ st with c := r.1, rmtable_ := r.2 }, log)
    else if is_there_fsqe then
      let fsqe := TransitionVirtual aP aE q event
      if !decide (fsqe ∈ st.c) && !decide (fsqe ∈ st.ftable) && !decide (fsqe ∈ st.rmtable_) then
        synthScanLog aP aE only_in_0 only_in_1 p_invgraph e_invgraph non_contr_bit q q_events
          rest
          { st with
            transtriplet_ := qhashInsert (q, event) fsqe st.transtriplet_
            f := fsqe :: st.f
            ftable := qsetInsert fsqe st.ftable }
          (log ++ [fsqe])
      else
        synthScanLog aP aE only_in_0 only_in_1 p_invgraph e_invgraph non_contr_bit q q_events
          rest st log
    else
      synthScanLog aP aE only_in_0 only_in_1 p_invgraph e_invgraph non_contr_bit q q_events
        rest st log

/-- The main loop `synthLoop` of `op::SupervisorSynth` with the log of the states pushed
onto `f`. -/
def synthLoopLog (aP aE : DESystem) (only_in_0 only_in_1 : BitArray)
    (p_invgraph e_invgraph : GraphHostData) (non_contr_bit : EventsBitArray) :
    Nat → SynthState → List cldes_size_t → SynthState × List cldes_size_t
  | 0, st, log => (st, log)
  | fuel + 1, st, log =>
    match st.f with
    | [] => (st, log)
    | q :: f =>
      let q_events := syncEvents aP.states_events_ aE.states_events_ only_in_0 only_in_1
        (q % aP.states_number_) (q / aP.states_number_)
      synthLoopLog aP aE only_in_0 only_in_1 p_invgraph e_invgraph non_contr_bit fuel
        (synthScanLog aP aE only_in_0 only_in_1 p_invgraph e_invgraph non_contr_bit q q_events
          (bitsOf (q_events ||| non_contr_bit))
          { st with f := f, c := qsetInsert q st.c } log).1
        (synthScanLog aP aE only_in_0 only_in_1 p_invgraph e_invgraph non_contr_bit q q_events
          (bitsOf (q_events ||| non_contr_bit))
          { st with f := f, c := qsetInsert q st.c } log).2

/-- The scratch state of `op::SupervisorSynth` after at most `k` rounds of its main loop,
with the log of every state pushed onto `f`, the initial push included. -/
def synthRunLog (aP aE : DESystem) (non_contr : List ScalarType) (k : Nat) :
    SynthState × List cldes_size_t :=
  let init_state := aE.init_state_ * aP.states_number_ + aP.init_state_
  let in_both := aP.events_ &&& aE.events_
  synthLoopLog aP aE (aP.events_ ^^^ in_both) (aE.events_ ^^^ in_both) aP.graph_.transpose
    aE.graph_.transpose (nonContrBit (aP.events_ ||| aE.events_) non_contr) k
    { f := [init_state], ftable := [init_state], c := [], rmtable_ := [], transtriplet_ := [] }
    [init_state]

/-- The `foreach (s, finv)` of `RemoveBadStates` on `((f, rmtable_), log)`, with the states
it pushes recorded in the log, oldest first. -/
def removePushLog (finv : List cldes_size_t)
    (st : (List cldes_size_t × List cldes_size_t) × List cldes_size_t) :
    (List cldes_size_t × List cldes_size_t) × List cldes_size_t :=
  finv.foldl (fun acc s =>
    if s ∈ acc.1.2 then acc else ((s :: acc.1.1, qsetInsert s acc.1.2), acc.2 ++ [s])) st

/-- The loop `removeLoop` of `op::RemoveBadStates` with the log of the states pushed onto
its local stack; the result is `((f, C, rmtable_), log)`. -/
def removeLoopLog (aP aE : DESystem) (only_in_0 only_in_1 : BitArray)
    (aInvGraphP aInvGraphE : GraphHostData) (bit_non_contr : EventsBitArray) :
    Nat → List cldes_size_t → List cldes_size_t → List cldes_size_t → List cldes_size_t →
      (List cldes_size_t × List cldes_size_t × List cldes_size_t) × List cldes_size_t
  | 0, f, C, rmtable, log => ((f, C, rmtable), log)
  | _ + 1, [], C, rmtable, log => (([], C, rmtable), log)
  | fuel + 1, x :: f, C, rmtable, log =>
    let q_events :=
      syncEvents aP.inv_states_events_ aE.inv_states_events_ only_in_0 only_in_1
        (x % aInvGraphP.rows) (x / aInvGraphP.rows) &&& bit_non_contr
    let pushed := (bitsOf q_events).foldl (fun acc event =>
      removePushLog
        (__TransitionVirtualInv aP.events_ aE.events_ aInvGraphP aInvGraphE x event) acc)
      ((f, rmtable), log)
    removeLoopLog aP aE only_in_0 only_in_1 aInvGraphP aInvGraphE bit_non_contr fuel
      pushed.1.1 (qsetRemove x C) pushed.1.2 pushed.2

/-- The states one call of `op::RemoveBadStates(q)` pushes onto its local stack, `q`
first. -/
def RemoveBadStatesLog (aP aE : DESystem) (only_in_0 only_in_1 : BitArray)
    (aInvGraphP aInvGraphE : GraphHostData) (C rmtable : List cldes_size_t) (q : cldes_size_t)
    (bit_non_contr : EventsBitArray) : List cldes_size_t :=
  (removeLoopLog aP aE only_in_0 only_in_1 aInvGraphP aInvGraphE bit_non_contr
    (aP.states_number_ * aE.states_number_ + 1) [q] C (qsetInsert q rmtable) [q]).2

/-! ## Lemmas and theorems -/

theorem foldl_or_testBit {α : Type} (f : α → Nat) (l : List α) (init e : Nat) :
    (l.foldl (fun acc x => acc ||| f x) init).testBit e = true ↔
      init.testBit e = true ∨ ∃ x ∈ l, (f x).testBit e = true := by
  induction l generalizing init with
  | nil => simp
  | cons a l ih =>
    simp only [List.foldl_cons, ih, Nat.testBit_or, Bool.or_eq_true, List.mem_cons]
    constructor
    · rintro ((h | h) | ⟨x, hx, h⟩)
      · exact Or.inl h
      · exact Or.inr ⟨a, Or.inl rfl, h⟩
      · exact Or.inr ⟨x, Or.inr hx, h⟩
    · rintro (h | ⟨x, (rfl | hx), h⟩)
      · exact Or.inl (Or.inl h)
      · exact Or.inl (Or.inr h)
      · exact Or.inr ⟨x, hx, h⟩

theorem shiftRight_one_le {it fuel : Nat} (h : it ≤ fuel + 1) (h0 : it ≠ 0) : it >>> 1 ≤ fuel := by
  rw [Nat.shiftRight_eq_div_pow]
  have := Nat.pos_of_ne_zero h0
  omega

theorem mem_eventsFrom (fuel event it e : Nat) (h : it ≤ fuel) :
    e ∈ eventsFrom fuel event it ↔ ∃ k, e = event + k ∧ it.testBit k = true := by
  induction fuel generalizing event it with
  | zero =>
    have : it = 0 := by omega
    subst this
    simp [eventsFrom]
  | succ fuel ih =>
    unfold eventsFrom
    by_cases h0 : it = 0
    · subst h0; simp
    · rw [if_neg h0, List.mem_append, ih _ _ (shiftRight_one_le h h0)]
      constructor
      · rintro (h1 | ⟨k, rfl, hk⟩)
        · by_cases hb : it.testBit 0 = true
          · rw [if_pos hb] at h1
            simp at h1
            exact ⟨0, by simp [h1], hb⟩
          · rw [if_neg hb] at h1
            simp at h1
        · rw [Nat.testBit_shiftRight] at hk
          exact ⟨1 + k, by omega, hk⟩
      · rintro ⟨k, rfl, hk⟩
        cases k with
        | zero => left; simp [hk]
        | succ k =>
          right
          refine ⟨k, by omega, ?_⟩
          rw [Nat.testBit_shiftRight]
          rw [Nat.add_comm] at hk
          exact hk

theorem mem_bitsOf (s e : Nat) : e ∈ bitsOf s ↔ s.testBit e = true := by
  unfold bitsOf
  rw [mem_eventsFrom _ _ _ _ (Nat.le_refl s)]
  constructor
  · rintro ⟨k, rfl, hk⟩; simpa using hk
  · intro h; exact ⟨e, by simp, h⟩

theorem testBit_one_shiftLeft (event e : Nat) : (1 <<< event).testBit e = decide (event = e) := by
  rw [Nat.shiftLeft_eq, Nat.one_mul, Nat.testBit_two_pow]

theorem getD_map_range {α : Type} (f : Nat → α) (n i : Nat) (d : α) :
    ((List.range n).map f).getD i d = if i < n then f i else d := by
  rw [List.getD_eq_getElem?_getD, List.getElem?_map]
  by_cases h : i < n
  · rw [List.getElem?_range h]; simp [h]
  · rw [List.getElem?_eq_none (by simpa using h)]; simp [h]

theorem coeffD_setFromTriplets {α : Type} (add : α → α → α) (zero : α) (rows cols : Nat)
    (ts : List (Triplet α)) (i j : Nat) :
    (setFromTriplets add zero rows cols ts).coeffD zero i j =
      if i < rows ∧ j < cols then accumulate add zero ts i j else zero := by
  unfold SparseMatrix.coeffD setFromTriplets
  rw [getD_map_range]
  by_cases hi : i < rows
  · rw [if_pos hi, getD_map_range]
    by_cases hj : j < cols
    · simp [hi, hj]
    · simp [hi, hj]
  · simp [hi]

theorem testBit_accumulate (ts : List (Triplet BitArray)) (i j e : Nat) :
    (accumulate (fun a b => a ||| b) 0 ts i j).testBit e = true ↔
      ∃ t ∈ ts, t.row = (i : Int) ∧ t.col = (j : Int) ∧ t.value.testBit e = true := by
  unfold accumulate
  rw [foldl_or_testBit (fun t : Triplet BitArray => t.value)]
  simp only [Nat.zero_testBit, Bool.false_eq_true, false_or, List.mem_filter, decide_eq_true_eq]
  constructor
  · rintro ⟨t, ⟨ht, h1, h2⟩, h⟩; exact ⟨t, ht, h1, h2, h⟩
  · rintro ⟨t, ht, h1, h2, h⟩; exact ⟨t, ⟨ht, h1, h2⟩, h⟩

theorem testBit_coeff_graphFromTriplets (rows cols : Nat) (ts : List (Triplet BitArray))
    (i j e : Nat) :
    ((graphFromTriplets rows cols ts).coeff i j).testBit e = true ↔
      i < rows ∧ j < cols ∧
        ∃ t ∈ ts, t.row = (i : Int) ∧ t.col = (j : Int) ∧ t.value.testBit e = true := by
  unfold SparseMatrix.coeff graphFromTriplets
  rw [coeffD_setFromTriplets]
  by_cases h : i < rows ∧ j < cols
  · rw [if_pos h, testBit_accumulate]
    simp [h.1, h.2]
  · rw [if_neg h]
    simp only [Nat.zero_testBit, Bool.false_eq_true, false_iff]
    rintro ⟨h1, h2, _⟩
    exact h ⟨h1, h2⟩
theorem firstCol_eq_find (G : GraphHostData) (row e : Nat) :
    G.firstCol row e = (List.range G.cols).find? (fun j => (G.coeff row j).testBit e) := by
  unfold SparseMatrix.firstCol SparseMatrix.rowEntries
  generalize List.range G.cols = l
  induction l with
  | nil => rfl
  | cons j l ih =>
    by_cases h0 : G.coeff row j = 0
    · simp only [List.filterMap_cons, h0, if_true, List.find?_cons, Nat.zero_testBit]
      exact ih
    · by_cases hb : (G.coeff row j).testBit e = true
      · simp [List.filterMap_cons, h0, List.find?_cons, hb]
      · simp only [List.filterMap_cons, h0, if_false, List.find?_cons, hb]
        exact ih

theorem firstCol_some {G : GraphHostData} {row e c : Nat} (h : G.firstCol row e = some c) :
    c < G.cols ∧ (G.coeff row c).testBit e = true := by
  rw [firstCol_eq_find] at h
  exact ⟨List.mem_range.mp (List.mem_of_find?_eq_some h),
    List.find?_some (p := fun j => (G.coeff row j).testBit e) h⟩

theorem firstCol_exists {G : GraphHostData} {row e j : Nat} (hj : j < G.cols)
    (h : (G.coeff row j).testBit e = true) : ∃ c, G.firstCol row e = some c := by
  rw [firstCol_eq_find]
  have : ((List.range G.cols).find? (fun j => (G.coeff row j).testBit e)).isSome = true :=
    List.find?_isSome.mpr ⟨j, List.mem_range.mpr hj, h⟩
  exact Option.isSome_iff_exists.mp this

theorem testBit_rowUnion (G : GraphHostData) (i e : Nat) :
    (rowUnion G i).testBit e = true ↔ ∃ j < G.cols, (G.coeff i j).testBit e = true := by
  unfold rowUnion
  rw [foldl_or_testBit (fun j => G.coeff i j)]
  simp [List.mem_range]

theorem testBit_colUnion (G : GraphHostData) (j e : Nat) :
    (colUnion G j).testBit e = true ↔ ∃ i < G.rows, (G.coeff i j).testBit e = true := by
  unfold colUnion
  rw [foldl_or_testBit (fun i => G.coeff i j)]
  simp [List.mem_range]

theorem WellFormed.label_mem {A : DESystem} (h : WellFormed A) {i j e : Nat}
    (hi : i < A.states_number_) (hj : j < A.states_number_)
    (he : (A.graph_.coeff i j).testBit e = true) : A.events_.testBit e = true := by
  have h5 := h.2.2.2.2.1 i hi j hj
  rw [← h5, Nat.testBit_and] at he
  simp only [Bool.and_eq_true] at he
  exact he.2

theorem WellFormed.out_iff {A : DESystem} (h : WellFormed A) {i e : Nat}
    (hi : i < A.states_number_) :
    (vecGet A.states_events_ i).testBit e = true ↔
      ∃ j < A.states_number_, (A.graph_.coeff i j).testBit e = true := by
  rw [h.2.2.2.2.2.1 i hi, testBit_rowUnion, h.2.2.2.1]

theorem WellFormed.in_iff {A : DESystem} (h : WellFormed A) {j e : Nat}
    (hj : j < A.states_number_) :
    (vecGet A.inv_states_events_ j).testBit e = true ↔
      ∃ i < A.states_number_, (A.graph_.coeff i j).testBit e = true := by
  rw [h.2.2.2.2.2.2 j hj, testBit_colUnion, h.2.2.1]

theorem WellFormed.out_mem {A : DESystem} (h : WellFormed A) {i e : Nat}
    (hi : i < A.states_number_) (he : (vecGet A.states_events_ i).testBit e = true) :
    A.events_.testBit e = true := by
  obtain ⟨j, hj, hje⟩ := (h.out_iff hi).mp he
  exact h.label_mem hi hj hje

theorem WellFormed.firstCol_of_out {A : DESystem} (h : WellFormed A) {i e : Nat}
    (hi : i < A.states_number_) (he : (vecGet A.states_events_ i).testBit e = true) :
    ∃ c, A.graph_.firstCol i e = some c ∧ c < A.states_number_ ∧
      (A.graph_.coeff i c).testBit e = true := by
  obtain ⟨j, hj, hje⟩ := (h.out_iff hi).mp he
  obtain ⟨c, hc⟩ := firstCol_exists (by rw [h.2.2.2.1]; exact hj) hje
  have := firstCol_some hc
  exact ⟨c, hc, by rw [← h.2.2.2.1]; exact this.1, this.2⟩

theorem Deterministic.target_unique {A : DESystem} (h : Deterministic A) {i j k e : Nat}
    (hi : i < A.states_number_) (hj : j < A.states_number_) (hk : k < A.states_number_)
    (hje : (A.graph_.coeff i j).testBit e = true) (hke : (A.graph_.coeff i k).testBit e = true) :
    j = k := by
  by_contra hne
  have h0 := h i hi j hj k hk hne
  have : (A.graph_.coeff i j &&& A.graph_.coeff i k).testBit e = true := by
    rw [Nat.testBit_and, hje, hke]; rfl
  rw [h0] at this
  simp at this

/-- The bitwise expression of the stages agrees with the set expression of spec 3. -/
theorem testBit_syncEvents (A B : DESystem) (qx qy e : Nat) :
    (syncEvents A.states_events_ B.states_events_
        (A.events_ ^^^ (A.events_ &&& B.events_)) (B.events_ ^^^ (A.events_ &&& B.events_))
        qx qy).testBit e =
      (((vecGet A.states_events_ qx).testBit e && (vecGet B.states_events_ qy).testBit e) ||
        ((vecGet A.states_events_ qx).testBit e &&
          (A.events_.testBit e && !B.events_.testBit e)) ||
        ((vecGet B.states_events_ qy).testBit e &&
          (B.events_.testBit e && !A.events_.testBit e))) := by
  unfold syncEvents
  simp only [Nat.testBit_or, Nat.testBit_and, Nat.testBit_xor]
  cases (vecGet A.states_events_ qx).testBit e <;> cases (vecGet B.states_events_ qy).testBit e <;>
    cases A.events_.testBit e <;> cases B.events_.testBit e <;> rfl
theorem decode_lt {nA nB q : Nat} (hq : q < nA * nB) : q % nA < nA ∧ q / nA < nB := by
  have hpos : 0 < nA := by
    rcases Nat.eq_zero_or_pos nA with h | h
    · subst h; simp at hq
    · exact h
  exact ⟨Nat.mod_lt _ hpos, Nat.div_lt_of_lt_mul hq⟩

theorem enabledAt_cases {A B : DESystem} (hA : WellFormed A) (hB : WellFormed B) {q e : Nat}
    (hq : q < A.states_number_ * B.states_number_) (he : enabledAt A B q e = true) :
    (A.events_.testBit e = true ∧ B.events_.testBit e = true ∧
        (vecGet A.states_events_ (q % A.states_number_)).testBit e = true ∧
        (vecGet B.states_events_ (q / A.states_number_)).testBit e = true) ∨
    (A.events_.testBit e = true ∧ B.events_.testBit e = false ∧
        (vecGet A.states_events_ (q % A.states_number_)).testBit e = true) ∨
    (A.events_.testBit e = false ∧ B.events_.testBit e = true ∧
        (vecGet B.states_events_ (q / A.states_number_)).testBit e = true) := by
  obtain ⟨hx, hy⟩ := decode_lt hq
  unfold enabledAt at he
  simp only [Bool.or_eq_true, Bool.and_eq_true, Bool.not_eq_true'] at he
  rcases he with (⟨ha, hb⟩ | ⟨ha, hp, hs⟩) | ⟨hb, hs, hp⟩
  · exact Or.inl ⟨hA.out_mem hx ha, hB.out_mem hy hb, ha, hb⟩
  · exact Or.inr (Or.inl ⟨hp, hs, ha⟩)
  · exact Or.inr (Or.inr ⟨hp, hs, hb⟩)

theorem scanTarget_cases {A B : DESystem} (hA : WellFormed A) (hB : WellFormed B) {q e : Nat}
    (hq : q < A.states_number_ * B.states_number_) (he : enabledAt A B q e = true) :
    (A.events_.testBit e = true ∧ B.events_.testBit e = true ∧
      ∃ jx jy, A.graph_.firstCol (q % A.states_number_) e = some jx ∧
        B.graph_.firstCol (q / A.states_number_) e = some jy ∧
        jx < A.states_number_ ∧ jy < B.states_number_ ∧
        scanTarget A B (q % A.states_number_) (q / A.states_number_) e =
          ((jy * A.states_number_ + jx : Nat) : Int)) ∨
    (A.events_.testBit e = true ∧ B.events_.testBit e = false ∧
      ∃ jx, A.graph_.firstCol (q % A.states_number_) e = some jx ∧ jx < A.states_number_ ∧
        scanTarget A B (q % A.states_number_) (q / A.states_number_) e =
          ((q / A.states_number_ * A.states_number_ + jx : Nat) : Int)) ∨
    (A.events_.testBit e = false ∧ B.events_.testBit e = true ∧
      ∃ jy, B.graph_.firstCol (q / A.states_number_) e = some jy ∧ jy < B.states_number_ ∧
        scanTarget A B (q % A.states_number_) (q / A.states_number_) e =
          ((jy * A.states_number_ + q % A.states_number_ : Nat) : Int)) := by
  obtain ⟨hx, hy⟩ := decode_lt hq
  rcases enabledAt_cases hA hB hq he with ⟨hp, hs, ha, hb⟩ | ⟨hp, hs, ha⟩ | ⟨hp, hs, hb⟩
  · obtain ⟨jx, hjx, hjx', -⟩ := hA.firstCol_of_out hx ha
    obtain ⟨jy, hjy, hjy', -⟩ := hB.firstCol_of_out hy hb
    refine Or.inl ⟨hp, hs, jx, jy, hjx, hjy, hjx', hjy', ?_⟩
    simp only [scanTarget, scanTargets, hp, hs, hjx, hjy, Bool.and_self, if_true]
    push_cast; ring
  · obtain ⟨jx, hjx, hjx', -⟩ := hA.firstCol_of_out hx ha
    refine Or.inr (Or.inl ⟨hp, hs, jx, hjx, hjx', ?_⟩)
    simp only [scanTarget, scanTargets, hp, hs, hjx, Bool.and_false, Bool.false_eq_true, if_false]
    push_cast; ring
  · obtain ⟨jy, hjy, hjy', -⟩ := hB.firstCol_of_out hy hb
    refine Or.inr (Or.inr ⟨hp, hs, jy, hjy, hjy', ?_⟩)
    simp only [scanTarget, scanTargets, hp, hs, hjy, Bool.false_and, Bool.false_eq_true, if_false,
      if_true]
    push_cast; ring

theorem firstCol_eq_of_det {A : DESystem} (hA : WellFormed A) (dA : Deterministic A)
    {i c j e : Nat} (hi : i < A.states_number_) (hc : A.graph_.firstCol i e = some c)
    (hj : j < A.states_number_) (hje : (A.graph_.coeff i j).testBit e = true) : j = c := by
  have := firstCol_some hc
  exact dA.target_unique hi hj (by rw [← hA.2.2.2.1]; exact this.1) hje this.2

/-- C5. Product transition rule: at an enabled event `e` of the product state
`q = qy * nA + qx`, `op::TransitionVirtual` returns `jy * nA + jx` where `jx` is the target
of `e` from `qx` in `A` when `e ∈ Σ_A` (and `qx` otherwise) and `jy` the target of `e` from
`qy` in `B` when `e ∈ Σ_B` (and `qy` otherwise); by determinism these targets are unique. -/
theorem TransitionVirtual_product_rule (A B : DESystem) (hA : WellFormed A) (hB : WellFormed B)
    (dA : Deterministic A) (dB : Deterministic B) (q : cldes_size_t) (e : ScalarType)
    (hq : q < A.states_number_ * B.states_number_) (he : enabledAt A B q e = true) :
    (A.events_.testBit e = true ∧ B.events_.testBit e = true →
      ∃ jx < A.states_number_, ∃ jy < B.states_number_,
        (A.graph_.coeff (q % A.states_number_) jx).testBit e = true ∧
        (∀ k < A.states_number_,
          (A.graph_.coeff (q % A.states_number_) k).testBit e = true → k = jx) ∧
        (B.graph_.coeff (q / A.states_number_) jy).testBit e = true ∧
        (∀ k < B.states_number_,
          (B.graph_.coeff (q / A.states_number_) k).testBit e = true → k = jy) ∧
        TransitionVirtual A B q e = jy * A.states_number_ + jx) ∧
    (A.events_.testBit e = true ∧ B.events_.testBit e = false →
      ∃ jx < A.states_number_,
        (A.graph_.coeff (q % A.states_number_) jx).testBit e = true ∧
        (∀ k < A.states_number_,
          (A.graph_.coeff (q % A.states_number_) k).testBit e = true → k = jx) ∧
        TransitionVirtual A B q e = q / A.states_number_ * A.states_number_ + jx) ∧
    (A.events_.testBit e = false ∧ B.events_.testBit e = true →
      ∃ jy < B.states_number_,
        (B.graph_.coeff (q / A.states_number_) jy).testBit e = true ∧
        (∀ k < B.states_number_,
          (B.graph_.coeff (q / A.states_number_) k).testBit e = true → k = jy) ∧
        TransitionVirtual A B q e = jy * A.states_number_ + q % A.states_number_) := by
  obtain ⟨hx, hy⟩ := decode_lt hq
  unfold TransitionVirtual
  rcases scanTarget_cases hA hB hq he with
    ⟨hp, hs, jx, jy, hjx, hjy, hjx', hjy', ht⟩ | ⟨hp, hs, jx, hjx, hjx', ht⟩ |
    ⟨hp, hs, jy, hjy, hjy', ht⟩
  · refine ⟨fun _ => ⟨jx, hjx', jy, hjy', (firstCol_some hjx).2,
      fun k hk hke => firstCol_eq_of_det hA dA hx hjx hk hke, (firstCol_some hjy).2,
      fun k hk hke => firstCol_eq_of_det hB dB hy hjy hk hke, ?_⟩, ?_, ?_⟩
    · rw [ht]; exact Int.toNat_ofNat _
    · rintro ⟨-, h⟩; rw [hs] at h; exact absurd h (by decide)
    · rintro ⟨h, -⟩; rw [hp] at h; exact absurd h (by decide)
  · refine ⟨?_, fun _ => ⟨jx, hjx', (firstCol_some hjx).2,
      fun k hk hke => firstCol_eq_of_det hA dA hx hjx hk hke, ?_⟩, ?_⟩
    · rintro ⟨-, h⟩; rw [hs] at h; exact absurd h (by decide)
    · rw [ht]; exact Int.toNat_ofNat _
    · rintro ⟨h, -⟩; rw [hp] at h; exact absurd h (by decide)
  · refine ⟨?_, ?_, fun _ => ⟨jy, hjy', (firstCol_some hjy).2,
      fun k hk hke => firstCol_eq_of_det hB dB hy hjy hk hke, ?_⟩⟩
    · rintro ⟨h, -⟩; rw [hp] at h; exact absurd h (by decide)
    · rintro ⟨h, -⟩; rw [hp] at h; exact absurd h (by decide)
    · rw [ht]; exact Int.toNat_ofNat _

/-- Witness of C5 on the plant and the specification of the supervisor test: product state
`1 = (1, 0)` and the shared event `b0 = 2`. -/
theorem TransitionVirtual_product_rule_witness :
    ∃ jx < testPlant.states_number_, ∃ jy < testSpec.states_number_,
      (testPlant.graph_.coeff (1 % testPlant.states_number_) jx).testBit 2 = true ∧
      (∀ k < testPlant.states_number_,
        (testPlant.graph_.coeff (1 % testPlant.states_number_) k).testBit 2 = true → k = jx) ∧
      (testSpec.graph_.coeff (1 / testPlant.states_number_) jy).testBit 2 = true ∧
      (∀ k < testSpec.states_number_,
        (testSpec.graph_.coeff (1 / testPlant.states_number_) k).testBit 2 = true → k = jy) ∧
      TransitionVirtual testPlant testSpec 1 2 = jy * testPlant.states_number_ + jx :=
  (TransitionVirtual_product_rule testPlant testSpec (by decide!) (by decide!) (by decide!)
    (by decide!) 1 2 (by decide!) (by decide!)).1 ⟨by decide!, by decide!⟩
theorem Synchronize_states_number (A B : DESystem) :
    (Synchronize A B).states_number_ = A.states_number_ * B.states_number_ := rfl

theorem Synchronize_graph (A B : DESystem) :
    (Synchronize A B).graph_ =
      graphFromTriplets (A.states_number_ * B.states_number_)
        (A.states_number_ * B.states_number_)
        ((List.range (A.states_number_ * B.states_number_)).flatMap (fun q =>
          (bitsOf (syncEvents A.states_events_ B.states_events_
              (A.events_ ^^^ (A.events_ &&& B.events_)) (B.events_ ^^^ (A.events_ &&& B.events_))
              (q % A.states_number_) (q / A.states_number_))).map
            (fun event => ⟨(q : Int),
              scanTarget A B (q % A.states_number_) (q / A.states_number_) event,
              ulShift event⟩))) := rfl

theorem Synchronize_states_events (A B : DESystem) :
    (Synchronize A B).states_events_ =
      (List.range (A.states_number_ * B.states_number_)).map (fun q =>
        syncEvents A.states_events_ B.states_events_
          (A.events_ ^^^ (A.events_ &&& B.events_)) (B.events_ ^^^ (A.events_ &&& B.events_))
          (q % A.states_number_) (q / A.states_number_)) := rfl

theorem vecGet_map_range (f : Nat → BitArray) (n i : Nat) (h : i < n) :
    vecGet ((List.range n).map f) i = f i := by
  unfold vecGet
  rw [getD_map_range, if_pos h]

theorem toSizeT_natCast (k : Nat) : toSizeT (k : Int) = k := by
  unfold toSizeT
  rw [if_neg (by omega), Int.toNat_ofNat]

theorem testBit_ulShift (event b : Nat) :
    (ulShift event).testBit b = decide (event % 64 = b) := by
  unfold ulShift
  rw [testBit_one_shiftLeft]

theorem ulShift_ne_zero (event : Nat) : ulShift event ≠ 0 := by
  intro h
  have := testBit_ulShift event (event % 64)
  rw [h, Nat.zero_testBit] at this
  simp at this

theorem lt_word_of_testBit {s e : Nat} (hs : s < 2 ^ 64) (he : s.testBit e = true) : e < 64 := by
  by_contra hge
  have h1 : s < 2 ^ e := lt_of_lt_of_le hs (Nat.pow_le_pow_right (by decide) (Nat.le_of_not_lt hge))
  rw [Nat.testBit_lt_two_pow h1] at he
  exact absurd he (by decide)

/-- The labelled edges of the product built by `op::Synchronize`: bit `b` of `G[q][j]` is
set when some enabled event `e` with `e mod 64 = b` leads from `q` to `j`. -/
theorem Synchronize_edge_bit_iff (A B : DESystem) (q j b : Nat) :
    ((Synchronize A B).graph_.coeff q j).testBit b = true ↔
      q < A.states_number_ * B.states_number_ ∧ j < A.states_number_ * B.states_number_ ∧
      ∃ e, e % 64 = b ∧ enabledAt A B q e = true ∧
        scanTarget A B (q % A.states_number_) (q / A.states_number_) e = (j : Int) := by
  rw [Synchronize_graph, testBit_coeff_graphFromTriplets]
  unfold enabledAt
  constructor
  · rintro ⟨hq, hj, t, ht, hrow, hcol, hv⟩
    rw [List.mem_flatMap] at ht
    obtain ⟨q', -, ht⟩ := ht
    rw [List.mem_map] at ht
    obtain ⟨event, hev, rfl⟩ := ht
    simp only at hrow hcol hv
    have hqq : q' = q := by exact_mod_cast hrow
    subst hqq
    rw [testBit_ulShift, decide_eq_true_eq] at hv
    refine ⟨hq, hj, event, hv, ?_, hcol⟩
    rw [← testBit_syncEvents]
    exact (mem_bitsOf _ _).mp hev
  · rintro ⟨hq, hj, e, hb, hen, ht⟩
    rw [← testBit_syncEvents] at hen
    refine ⟨hq, hj, ⟨(q : Int), _, ulShift e⟩, ?_, rfl, ht, ?_⟩
    · rw [List.mem_flatMap]
      refine ⟨q, List.mem_range.mpr hq, ?_⟩
      rw [List.mem_map]
      exact ⟨e, (mem_bitsOf _ _).mpr hen, rfl⟩
    · rw [testBit_ulShift, decide_eq_true_eq]; exact hb

theorem enabledAt_lt_word {A B : DESystem} (hA : WellFormed A) (hB : WellFormed B)
    (wA : EventsInWord A) (wB : EventsInWord B) {q e : Nat}
    (hq : q < A.states_number_ * B.states_number_) (he : enabledAt A B q e = true) : e < 64 := by
  rcases enabledAt_cases hA hB hq he with ⟨hp, -, -, -⟩ | ⟨hp, -, -⟩ | ⟨-, hs, -⟩
  · exact lt_word_of_testBit wA hp
  · exact lt_word_of_testBit wA hp
  · exact lt_word_of_testBit wB hs

/-- The labelled edges of the product built by `op::Synchronize` when every event id is
below 64: bit `e` of `G[q][j]` is set when the enabled event `e` leads from `q` to `j`. -/
theorem Synchronize_edge_iff {A B : DESystem} (hA : WellFormed A) (hB : WellFormed B)
    (wA : EventsInWord A) (wB : EventsInWord B) (q j e : Nat) :
    ((Synchronize A B).graph_.coeff q j).testBit e = true ↔
      q < A.states_number_ * B.states_number_ ∧ j < A.states_number_ * B.states_number_ ∧
      enabledAt A B q e = true ∧
      scanTarget A B (q % A.states_number_) (q / A.states_number_) e = (j : Int) := by
  rw [Synchronize_edge_bit_iff]
  constructor
  · rintro ⟨hq, hj, e', hb, hen, ht⟩
    have hlt := enabledAt_lt_word hA hB wA wB hq hen
    have hee : e' = e := by rw [← hb, Nat.mod_eq_of_lt hlt]
    subst hee
    exact ⟨hq, hj, hen, ht⟩
  · rintro ⟨hq, hj, hen, ht⟩
    exact ⟨hq, hj, e, Nat.mod_eq_of_lt (enabledAt_lt_word hA hB wA wB hq hen), hen, ht⟩

theorem Synchronize_states_events_testBit (A B : DESystem) (q e : Nat)
    (hq : q < A.states_number_ * B.states_number_) :
    (vecGet (Synchronize A B).states_events_ q).testBit e = enabledAt A B q e := by
  rw [Synchronize_states_events, vecGet_map_range _ _ _ hq, testBit_syncEvents]
  rfl

/-- C6. Enabled events of the product: for `q < nA * nB` the event set that
`op::Synchronize` stores for `q`, and the one the proxy method `getStateEvents_impl` returns
for `q`, hold exactly the events of
`(out_A[qx] ∩ out_B[qy]) ∪ (out_A[qx] ∩ (Σ_A \ Σ_B)) ∪ (out_B[qy] ∩ (Σ_B \ Σ_A))`. -/
theorem Synchronize_enabled_events (A B : DESystem) (q : cldes_size_t) (e : ScalarType)
    (hq : q < A.states_number_ * B.states_number_) :
    (vecGet (Synchronize A B).states_events_ q).testBit e = enabledAt A B q e ∧
    ((SuperProxy.members A B).getStateEvents_impl q).testBit e = enabledAt A B q e := by
  exact ⟨Synchronize_states_events_testBit A B q e hq, testBit_syncEvents A B _ _ e⟩

/-- Witness of C6 on the supervisor test: product state `4 = (0, 1)` of plant and
specification, event `a1 = 1`. -/
theorem Synchronize_enabled_events_witness :
    (vecGet (Synchronize testPlant testSpec).states_events_ 4).testBit 1 =
        enabledAt testPlant testSpec 4 1 ∧
    ((SuperProxy.members testPlant testSpec).getStateEvents_impl 4).testBit 1 =
        enabledAt testPlant testSpec 4 1 :=
  Synchronize_enabled_events testPlant testSpec 4 1 (by decide!)

/-- For event ids below 64 the product is deterministic: in the automaton returned by
`op::Synchronize`, an event labels at most one edge out of a state. -/
theorem Synchronize_deterministic (A B : DESystem) (hA : WellFormed A) (hB : WellFormed B)
    (wA : EventsInWord A) (wB : EventsInWord B) (q j k : cldes_size_t) (e : ScalarType)
    (hj : ((Synchronize A B).graph_.coeff q j).testBit e = true)
    (hk : ((Synchronize A B).graph_.coeff q k).testBit e = true) : j = k := by
  rw [Synchronize_edge_iff hA hB wA wB] at hj hk
  have := hj.2.2.2.symm.trans hk.2.2.2
  exact_mod_cast this

/-- The determinism of the product below 64 event ids, on the supervisor test: the edge
`0 → 1` of the product of plant and specification, labelled `a0 = 0`. -/
theorem Synchronize_deterministic_witness :
    ((Synchronize testPlant testSpec).graph_.coeff 0 1).testBit 0 = true ∧ 1 = 1 :=
  ⟨by decide!, Synchronize_deterministic testPlant testSpec (by decide!) (by decide!)
    (by decide!) (by decide!) 0 1 1 0 (by decide!) (by decide!)⟩

/-- C7. Determinism of the product is lost at an event id of 64 or more. The plant
`widePlant` (`0 -6-> 1`, `0 -70-> 2`) and the one-state specification are well-formed and
deterministic; in `op::Synchronize(widePlant, idleSpec)` both edges out of state `0` are
stored with the label `1ul << event`, which is bit `6` for the event `6` and for the
event `70`: the event `6` is in `G[0][1]` and in `G[0][2]`, while the cache of state `0`
holds the events `6` and `70`. -/
theorem Synchronize_wide_two_edges :
    WellFormed widePlant ∧ Deterministic widePlant ∧
    WellFormed idleSpec ∧ Deterministic idleSpec ∧
    vecGet (Synchronize widePlant idleSpec).states_events_ 0 = 2 ^ 6 + 2 ^ 70 ∧
    (Synchronize widePlant idleSpec).graph_.coeff 0 1 = 2 ^ 6 ∧
    (Synchronize widePlant idleSpec).graph_.coeff 0 2 = 2 ^ 6 ∧
    ¬ (∀ (q j k : cldes_size_t) (e : ScalarType),
      ((Synchronize widePlant idleSpec).graph_.coeff q j).testBit e = true →
      ((Synchronize widePlant idleSpec).graph_.coeff q k).testBit e = true → j = k) := by
  refine ⟨by decide!, by decide!, by decide!, by decide!, by decide!, by decide!, by decide!,
    fun h => ?_⟩
  exact absurd (h 0 1 2 6 (by decide!) (by decide!)) (by decide)

theorem vecGet_vecSet (v : List BitArray) (i j : Nat) (x : BitArray) :
    vecGet (vecSet v i x) j = if j = i then x else vecGet v j := by
  unfold vecGet vecSet
  by_cases hi : i < v.length
  · rw [if_pos hi, List.getD_eq_getElem?_getD, List.getD_eq_getElem?_getD, List.getElem?_set]
    by_cases hji : j = i
    · subst hji; simp [hi]
    · have : ¬ i = j := fun h => hji h.symm
      simp [hji, this]
  · rw [if_neg hi]
    have hlen : v.length ≤ i := Nat.le_of_not_lt hi
    rw [List.getD_eq_getElem?_getD, List.getD_eq_getElem?_getD]
    by_cases hji : j = i
    · subst hji
      rw [if_pos rfl, List.getElem?_append_right (by simp; omega)]
      have h0 : j - (v ++ List.replicate (j - v.length) 0).length = 0 := by simp; omega
      rw [h0]; rfl
    · rw [if_neg hji]
      by_cases hjl : j < v.length
      · rw [List.append_assoc, List.getElem?_append_left hjl]
      · have hjl' : v.length ≤ j := Nat.le_of_not_lt hjl
        rw [List.getElem?_eq_none (l := v) hjl']
        by_cases hj2 : j < i
        · rw [List.getElem?_append_left (by simp; omega),
            List.getElem?_append_right hjl', List.getElem?_replicate,
            if_pos (by omega)]
          rfl
        · rw [List.getElem?_eq_none (by simp; omega)]

theorem vecGet_foldl_vecSet {α : Type} (key : α → Nat) (val : α → BitArray) (h : Nat → BitArray)
    (l : List α) (hval : ∀ p ∈ l, val p = h (key p)) (init : List BitArray) (k : Nat) :
    vecGet (l.foldl (fun v p => vecSet v (key p) (val p)) init) k =
      if ∃ p ∈ l, key p = k then h k else vecGet init k := by
  induction l generalizing init with
  | nil => simp
  | cons a l ih =>
    rw [List.foldl_cons, ih (fun p hp => hval p (List.mem_cons_of_mem _ hp))]
    by_cases h1 : ∃ p ∈ l, key p = k
    · rw [if_pos h1, if_pos]
      obtain ⟨p, hp, hk⟩ := h1
      exact ⟨p, List.mem_cons_of_mem _ hp, hk⟩
    · rw [if_neg h1, vecGet_vecSet]
      by_cases h2 : k = key a
      · rw [if_pos h2, if_pos ⟨a, List.mem_cons_self _ _, h2.symm⟩, hval a (List.mem_cons_self _ _), h2]
      · rw [if_neg h2, if_neg]
        rintro ⟨p, hp, hk⟩
        rcases List.mem_cons.mp hp with rfl | hp
        · exact h2 hk.symm
        · exact h1 ⟨p, hp, hk⟩

theorem encode_decode {n : Nat} {x y : Nat} (hx : x < n) :
    (y * n + x) % n = x ∧ (y * n + x) / n = y := by
  constructor
  · rw [Nat.add_comm, Nat.add_mul_mod_self_right, Nat.mod_eq_of_lt hx]
  · rw [Nat.add_comm, Nat.add_mul_div_right _ _ (by omega), Nat.div_eq_of_lt hx, Nat.zero_add]

theorem encode_lt {nA nB x y : Nat} (hx : x < nA) (hy : y < nB) : y * nA + x < nA * nB := by
  calc y * nA + x < y * nA + nA := by omega
    _ = nA * (y + 1) := by ring
    _ ≤ nA * nB := Nat.mul_le_mul_left _ hy

theorem decode_encode (nA q : Nat) : q / nA * nA + q % nA = q := by
  rw [Nat.mul_comm]; exact Nat.div_add_mod q nA

/-- The per-state events `op::SynchronizeStage1` writes at the key `q`. -/
theorem SynchronizeStage1_states_events (A B : DESystem) (q : Nat)
    (hq : q < A.states_number_ * B.states_number_) :
    vecGet (SynchronizeStage1 A B).states_events_ q =
      syncEvents A.states_events_ B.states_events_
        (A.events_ ^^^ (A.events_ &&& B.events_)) (B.events_ ^^^ (A.events_ &&& B.events_))
        (q % A.states_number_) (q / A.states_number_) := by
  obtain ⟨hx, hy⟩ := decode_lt hq
  show vecGet (List.foldl (fun v (p : Nat × Nat) => vecSet v (p.2 * A.states_number_ + p.1)
    (syncEvents A.states_events_ B.states_events_ (A.events_ ^^^ (A.events_ &&& B.events_))
      (B.events_ ^^^ (A.events_ &&& B.events_)) p.1 p.2)) _ _) q = _
  rw [vecGet_foldl_vecSet (fun p : Nat × Nat => p.2 * A.states_number_ + p.1) _
    (fun k => syncEvents A.states_events_ B.states_events_
      (A.events_ ^^^ (A.events_ &&& B.events_)) (B.events_ ^^^ (A.events_ &&& B.events_))
      (k % A.states_number_) (k / A.states_number_))]
  · rw [if_pos]
    refine ⟨(q % A.states_number_, q / A.states_number_), ?_, decode_encode _ _⟩
    rw [List.mem_flatMap]
    exact ⟨q % A.states_number_, List.mem_range.mpr hx,
      List.mem_map.mpr ⟨q / A.states_number_, List.mem_range.mpr hy, rfl⟩⟩
  · intro p hp
    rw [List.mem_flatMap] at hp
    obtain ⟨ix0, h0, hp⟩ := hp
    rw [List.mem_map] at hp
    obtain ⟨ix1, -, rfl⟩ := hp
    have := encode_decode (x := ix0) (y := ix1) (List.mem_range.mp h0)
    simp only [this.1, this.2]

theorem scanTarget_nat {A B : DESystem} (hA : WellFormed A) (hB : WellFormed B) {q e : Nat}
    (hq : q < A.states_number_ * B.states_number_) (he : enabledAt A B q e = true) :
    ∃ k, k < A.states_number_ * B.states_number_ ∧
      scanTarget A B (q % A.states_number_) (q / A.states_number_) e = (k : Int) := by
  obtain ⟨hx, hy⟩ := decode_lt hq
  rcases scanTarget_cases hA hB hq he with
    ⟨-, -, jx, jy, -, -, hjx', hjy', ht⟩ | ⟨-, -, jx, -, hjx', ht⟩ | ⟨-, -, jy, -, hjy', ht⟩
  · exact ⟨_, encode_lt hjx' hjy', ht⟩
  · exact ⟨_, encode_lt hjx' hy, ht⟩
  · exact ⟨_, encode_lt hx hjy', ht⟩

/-- Lazy/eager equivalence for event ids below 64: for a product index `q < nA * nB`,
(i) the event set that `op::Synchronize` stores for `q` is the one `op::SynchronizeStage1`
stores at key `q`, and (ii) `e ∈ G[q][j]` in `op::Synchronize(A, B)` exactly when `e` is in
that set and `op::TransitionVirtual(A, B, q, e) = j`. Part (i) needs no bound. -/
theorem Synchronize_lazy_eager (A B : DESystem) (hA : WellFormed A) (hB : WellFormed B)
    (wA : EventsInWord A) (wB : EventsInWord B)
    (q : cldes_size_t) (hq : q < A.states_number_ * B.states_number_) :
    vecGet (Synchronize A B).states_events_ q = vecGet (SynchronizeStage1 A B).states_events_ q ∧
    ∀ (e : ScalarType) (j : cldes_size_t),
      ((Synchronize A B).graph_.coeff q j).testBit e = true ↔
        ((vecGet (SynchronizeStage1 A B).states_events_ q).testBit e = true ∧
          TransitionVirtual A B q e = j) := by
  have h1 : vecGet (Synchronize A B).states_events_ q =
      vecGet (SynchronizeStage1 A B).states_events_ q := by
    rw [SynchronizeStage1_states_events A B q hq, Synchronize_states_events,
      vecGet_map_range _ _ _ hq]
  refine ⟨h1, fun e j => ?_⟩
  rw [← h1, Synchronize_states_events_testBit A B q e hq, Synchronize_edge_iff hA hB wA wB]
  unfold TransitionVirtual
  constructor
  · rintro ⟨-, -, hen, ht⟩
    exact ⟨hen, by rw [ht]; exact toSizeT_natCast _⟩
  · rintro ⟨hen, ht⟩
    obtain ⟨k, hk, hs⟩ := scanTarget_nat hA hB hq hen
    rw [hs, toSizeT_natCast] at ht
    subst ht
    exact ⟨hq, hk, hen, hs⟩

/-- The lazy/eager equivalence below 64 event ids, on the plant and the specification of the
supervisor test, at the product state `3 = (3, 0)`, whose shared event `b0 = 2` leads to
`6 = (2, 1)`. -/
theorem Synchronize_lazy_eager_witness :
    vecGet (Synchronize testPlant testSpec).states_events_ 3 =
        vecGet (SynchronizeStage1 testPlant testSpec).states_events_ 3 ∧
    (((Synchronize testPlant testSpec).graph_.coeff 3 6).testBit 2 = true ↔
      ((vecGet (SynchronizeStage1 testPlant testSpec).states_events_ 3).testBit 2 = true ∧
        TransitionVirtual testPlant testSpec 3 2 = 6)) :=
  ⟨(Synchronize_lazy_eager testPlant testSpec (by decide!) (by decide!) (by decide!) (by decide!)
      3 (by decide!)).1,
    (Synchronize_lazy_eager testPlant testSpec (by decide!) (by decide!) (by decide!) (by decide!)
      3 (by decide!)).2 2 6⟩

/-- C8. The lazy/eager equivalence is lost at an event id of 64 or more. The plant
`wideChain` (`0 -70-> 1`) and the one-state specification are well-formed and deterministic.
At the product state `0` the event `70` is in the event set that `op::Synchronize` and
`op::SynchronizeStage1` store, and `op::TransitionVirtual` sends it to `1`; the edge
`G[0][1]` of `op::Synchronize(wideChain, idleSpec)` carries the label `1ul << 70`, which
is bit `6`: the event `70` is not in `G[0][1]`, and the event `6`, which is in no event set,
is. -/
theorem Synchronize_wide_not_lazy :
    WellFormed wideChain ∧ Deterministic wideChain ∧
    WellFormed idleSpec ∧ Deterministic idleSpec ∧
    vecGet (Synchronize wideChain idleSpec).states_events_ 0 = 2 ^ 70 ∧
    vecGet (SynchronizeStage1 wideChain idleSpec).states_events_ 0 = 2 ^ 70 ∧
    TransitionVirtual wideChain idleSpec 0 70 = 1 ∧
    (Synchronize wideChain idleSpec).graph_.coeff 0 1 = 2 ^ 6 ∧
    ¬ (((Synchronize wideChain idleSpec).graph_.coeff 0 1).testBit 70 = true ↔
      ((vecGet (SynchronizeStage1 wideChain idleSpec).states_events_ 0).testBit 70 = true ∧
        TransitionVirtual wideChain idleSpec 0 70 = 1)) := by
  refine ⟨by decide!, by decide!, by decide!, by decide!, by decide!, by decide!, by decide!,
    by decide!, by decide!⟩

theorem mem_stdSetInsert {x y : Nat} {s : List Nat} : y ∈ stdSetInsert x s ↔ y = x ∨ y ∈ s := by
  unfold stdSetInsert
  by_cases h : x ∈ s
  · rw [if_pos h]
    constructor
    · exact Or.inr
    · rintro (rfl | h')
      · exact h
      · exact h'
  · rw [if_neg h, List.mem_orderedInsert]

theorem mem_syncMarked (keep : Nat → Bool) (n0 : Nat) (m0 m1 init : List Nat) (m : Nat) :
    m ∈ syncMarked keep n0 m0 m1 init ↔
      m ∈ init ∨ ∃ s0 ∈ m0, ∃ s1 ∈ m1, m = s1 * n0 + s0 ∧ keep m = true := by
  unfold syncMarked
  have inner : ∀ (s0 : Nat) (l acc : List Nat),
      m ∈ l.foldl (fun acc1 s1 =>
        if keep (s1 * n0 + s0) then stdSetInsert (s1 * n0 + s0) acc1 else acc1) acc ↔
      m ∈ acc ∨ ∃ s1 ∈ l, m = s1 * n0 + s0 ∧ keep m = true := by
    intro s0 l
    induction l with
    | nil => intro acc; simp
    | cons a l ih =>
      intro acc
      rw [List.foldl_cons, ih]
      by_cases hk : keep (a * n0 + s0) = true
      · rw [if_pos hk, mem_stdSetInsert]
        constructor
        · rintro ((h | h) | ⟨s1, hs1, h⟩)
          · exact Or.inr ⟨a, List.mem_cons_self _ _, h, h ▸ hk⟩
          · exact Or.inl h
          · exact Or.inr ⟨s1, List.mem_cons_of_mem _ hs1, h⟩
        · rintro (h | ⟨s1, hs1, h, hk'⟩)
          · exact Or.inl (Or.inr h)
          · rcases List.mem_cons.mp hs1 with rfl | hs1
            · exact Or.inl (Or.inl h)
            · exact Or.inr ⟨s1, hs1, h, hk'⟩
      · rw [if_neg hk]
        constructor
        · rintro (h | ⟨s1, hs1, h⟩)
          · exact Or.inl h
          · exact Or.inr ⟨s1, List.mem_cons_of_mem _ hs1, h⟩
        · rintro (h | ⟨s1, hs1, h, hk'⟩)
          · exact Or.inl h
          · rcases List.mem_cons.mp hs1 with rfl | hs1
            · exact absurd (h ▸ hk') hk
            · exact Or.inr ⟨s1, hs1, h, hk'⟩
  induction m0 generalizing init with
  | nil => simp
  | cons a l ih =>
    rw [List.foldl_cons]
    refine (ih _).trans ?_
    rw [inner]
    constructor
    · rintro ((h | ⟨s1, hs1, h⟩) | ⟨s0, hs0, h⟩)
      · exact Or.inl h
      · exact Or.inr ⟨a, List.mem_cons_self _ _, s1, hs1, h⟩
      · exact Or.inr ⟨s0, List.mem_cons_of_mem _ hs0, h⟩
    · rintro (h | ⟨s0, hs0, s1, hs1, h⟩)
      · exact Or.inl (Or.inl h)
      · rcases List.mem_cons.mp hs0 with rfl | hs0
        · exact Or.inl (Or.inr ⟨s1, hs1, h⟩)
        · exact Or.inr ⟨s0, hs0, s1, hs1, h⟩

theorem Synchronize_marked (A B : DESystem) (m : Nat) :
    m ∈ (Synchronize A B).marked_states_ ↔
      ∃ s0 ∈ A.marked_states_, ∃ s1 ∈ B.marked_states_, m = s1 * A.states_number_ + s0 := by
  show m ∈ syncMarked (fun _ => true) A.states_number_ A.marked_states_ B.marked_states_ [] ↔ _
  rw [mem_syncMarked]
  simp

theorem Synchronize_init (A B : DESystem) :
    (Synchronize A B).init_state_ = B.init_state_ * A.states_number_ + A.init_state_ := rfl

theorem swapIndex_encode {nA : Nat} (nB : Nat) {x y : Nat} (hx : x < nA) :
    swapIndex nA nB (y * nA + x) = x * nB + y := by
  unfold swapIndex
  rw [(encode_decode hx).1, (encode_decode hx).2]

theorem swapIndex_lt {nA nB q : Nat} (hq : q < nA * nB) : swapIndex nA nB q < nB * nA := by
  obtain ⟨hx, hy⟩ := decode_lt hq
  exact encode_lt hy hx

theorem swapIndex_swapIndex {nA nB q : Nat} (hq : q < nA * nB) :
    swapIndex nB nA (swapIndex nA nB q) = q := by
  obtain ⟨hx, hy⟩ := decode_lt hq
  show swapIndex nB nA (q % nA * nB + q / nA) = q
  rw [swapIndex_encode nA hy]
  exact decode_encode nA q

theorem enabledAt_swap (A B : DESystem) {q : Nat}
    (hq : q < A.states_number_ * B.states_number_) (e : Nat) :
    enabledAt B A (swapIndex A.states_number_ B.states_number_ q) e = enabledAt A B q e := by
  obtain ⟨hx, hy⟩ := decode_lt hq
  unfold enabledAt swapIndex
  rw [(encode_decode hy).1, (encode_decode hy).2]
  cases (vecGet A.states_events_ (q % A.states_number_)).testBit e <;>
    cases (vecGet B.states_events_ (q / A.states_number_)).testBit e <;>
    cases A.events_.testBit e <;> cases B.events_.testBit e <;> rfl
theorem scanTargets_swap (A B : DESystem) (qx qy e : Nat)
    (h : A.events_.testBit e = true ∨ B.events_.testBit e = true) :
    scanTargets B A qy qx e = ((scanTargets A B qx qy e).2, (scanTargets A B qx qy e).1) := by
  unfold scanTargets
  cases hp : A.events_.testBit e <;> cases hs : B.events_.testBit e <;>
    cases hfa : A.graph_.firstCol qx e <;> cases hfb : B.graph_.firstCol qy e <;>
    simp_all

theorem scanTargets_nat {A B : DESystem} (hA : WellFormed A) (hB : WellFormed B) {q e : Nat}
    (hq : q < A.states_number_ * B.states_number_) (he : enabledAt A B q e = true) :
    ∃ jx jy, jx < A.states_number_ ∧ jy < B.states_number_ ∧
      scanTargets A B (q % A.states_number_) (q / A.states_number_) e = ((jx : Int), (jy : Int)) ∧
      (A.events_.testBit e = true ∨ B.events_.testBit e = true) := by
  obtain ⟨hx, hy⟩ := decode_lt hq
  rcases enabledAt_cases hA hB hq he with ⟨hp, hs, ha, hb⟩ | ⟨hp, hs, ha⟩ | ⟨hp, hs, hb⟩
  · obtain ⟨jx, hjx, hjx', -⟩ := hA.firstCol_of_out hx ha
    obtain ⟨jy, hjy, hjy', -⟩ := hB.firstCol_of_out hy hb
    refine ⟨jx, jy, hjx', hjy', ?_, Or.inl hp⟩
    simp only [scanTargets, hp, hs, hjx, hjy, Bool.and_self, if_true]
  · obtain ⟨jx, hjx, hjx', -⟩ := hA.firstCol_of_out hx ha
    refine ⟨jx, _, hjx', hy, ?_, Or.inl hp⟩
    simp only [scanTargets, hp, hs, hjx, Bool.and_false, Bool.false_eq_true, if_false]
  · obtain ⟨jy, hjy, hjy', -⟩ := hB.firstCol_of_out hy hb
    refine ⟨_, jy, hx, hjy', ?_, Or.inr hs⟩
    simp only [scanTargets, hp, hs, hjy, Bool.false_and, Bool.false_eq_true, if_false, if_true]

theorem encode_inj {n x y x' y' : Nat} (hx : x < n) (hx' : x' < n)
    (h : y * n + x = y' * n + x') : x = x' ∧ y = y' := by
  have h1 := (encode_decode (x := x) (y := y) hx)
  have h2 := (encode_decode (x := x') (y := y') hx')
  rw [h] at h1
  exact ⟨h1.1.symm.trans h2.1, h1.2.symm.trans h2.2⟩

theorem scanEdge_swap {A B : DESystem} (hA : WellFormed A) (hB : WellFormed B)
    {q q' : Nat} (hq : q < A.states_number_ * B.states_number_)
    (hq' : q' < A.states_number_ * B.states_number_) (e : Nat) :
    (q < A.states_number_ * B.states_number_ ∧ q' < A.states_number_ * B.states_number_ ∧
      enabledAt A B q e = true ∧
      scanTarget A B (q % A.states_number_) (q / A.states_number_) e = (q' : Int)) ↔
    (swapIndex A.states_number_ B.states_number_ q < B.states_number_ * A.states_number_ ∧
      swapIndex A.states_number_ B.states_number_ q' < B.states_number_ * A.states_number_ ∧
      enabledAt B A (swapIndex A.states_number_ B.states_number_ q) e = true ∧
      scanTarget B A (swapIndex A.states_number_ B.states_number_ q % B.states_number_)
        (swapIndex A.states_number_ B.states_number_ q / B.states_number_) e =
        ((swapIndex A.states_number_ B.states_number_ q' : Nat) : Int)) := by
  obtain ⟨hx, hy⟩ := decode_lt hq
  obtain ⟨hx', hy'⟩ := decode_lt hq'
  rw [enabledAt_swap A B hq]
  have hdec : swapIndex A.states_number_ B.states_number_ q % B.states_number_ =
        q / A.states_number_ ∧
      swapIndex A.states_number_ B.states_number_ q / B.states_number_ =
        q % A.states_number_ := encode_decode hy
  rw [hdec.1, hdec.2]
  constructor
  · rintro ⟨-, -, hen, ht⟩
    obtain ⟨jx, jy, hjx, hjy, hst, hps⟩ := scanTargets_nat hA hB hq hen
    refine ⟨swapIndex_lt hq, swapIndex_lt hq', hen, ?_⟩
    unfold scanTarget at ht ⊢
    rw [scanTargets_swap A B _ _ e hps, hst]
    rw [hst] at ht
    simp only at ht ⊢
    have hnat : jy * A.states_number_ + jx = q' := by exact_mod_cast ht
    subst hnat
    rw [swapIndex_encode _ hjx]
    push_cast; ring
  · rintro ⟨-, -, hen, ht⟩
    obtain ⟨jx, jy, hjx, hjy, hst, hps⟩ := scanTargets_nat hA hB hq hen
    refine ⟨hq, hq', hen, ?_⟩
    unfold scanTarget at ht ⊢
    rw [scanTargets_swap A B _ _ e hps, hst] at ht
    rw [hst]
    simp only at ht ⊢
    have hnat : jx * B.states_number_ + jy =
        q' % A.states_number_ * B.states_number_ + q' / A.states_number_ := by
      unfold swapIndex at ht
      exact_mod_cast ht
    obtain ⟨h1, h2⟩ := encode_inj hjy hy' hnat
    rw [h1, h2]
    exact_mod_cast decode_encode A.states_number_ q'

theorem Synchronize_edge_swap {A B : DESystem} (hA : WellFormed A) (hB : WellFormed B)
    {q q' : Nat} (hq : q < A.states_number_ * B.states_number_)
    (hq' : q' < A.states_number_ * B.states_number_) (e : Nat) :
    ((Synchronize A B).graph_.coeff q q').testBit e = true ↔
      ((Synchronize B A).graph_.coeff (swapIndex A.states_number_ B.states_number_ q)
        (swapIndex A.states_number_ B.states_number_ q')).testBit e = true := by
  rw [Synchronize_edge_bit_iff, Synchronize_edge_bit_iff]
  constructor
  · rintro ⟨h1, h2, e', hb, hen, ht⟩
    obtain ⟨a, b, c, d⟩ := (scanEdge_swap hA hB hq hq' e').mp ⟨h1, h2, hen, ht⟩
    exact ⟨a, b, e', hb, c, d⟩
  · rintro ⟨h1, h2, e', hb, hen, ht⟩
    obtain ⟨a, b, c, d⟩ := (scanEdge_swap hA hB hq hq' e').mpr ⟨h1, h2, hen, ht⟩
    exact ⟨a, b, e', hb, c, d⟩

/-- C10. Commutativity of the product up to renaming: the index swap
`σ(qy * nA + qx) = qx * nB + qy` is a bijection of the states of `op::Synchronize(A, B)`
onto those of `op::Synchronize(B, A)` that maps the initial state to the initial state,
the marked set onto the marked set, and preserves every labelled edge in both directions. -/
theorem Synchronize_comm (A B : DESystem) (hA : WellFormed A) (hB : WellFormed B) :
    (Synchronize B A).states_number_ = (Synchronize A B).states_number_ ∧
    (∀ q < (Synchronize A B).states_number_,
      swapIndex A.states_number_ B.states_number_ q < (Synchronize B A).states_number_ ∧
      swapIndex B.states_number_ A.states_number_
        (swapIndex A.states_number_ B.states_number_ q) = q) ∧
    (∀ p < (Synchronize B A).states_number_,
      swapIndex B.states_number_ A.states_number_ p < (Synchronize A B).states_number_ ∧
      swapIndex A.states_number_ B.states_number_
        (swapIndex B.states_number_ A.states_number_ p) = p) ∧
    swapIndex A.states_number_ B.states_number_ (Synchronize A B).init_state_ =
      (Synchronize B A).init_state_ ∧
    (∀ m, m ∈ (Synchronize B A).marked_states_ ↔
      ∃ m' ∈ (Synchronize A B).marked_states_,
        swapIndex A.states_number_ B.states_number_ m' = m) ∧
    (∀ q < (Synchronize A B).states_number_, ∀ q' < (Synchronize A B).states_number_,
      ∀ e : ScalarType,
        ((Synchronize A B).graph_.coeff q q').testBit e = true ↔
          ((Synchronize B A).graph_.coeff (swapIndex A.states_number_ B.states_number_ q)
            (swapIndex A.states_number_ B.states_number_ q')).testBit e = true) := by
  simp only [Synchronize_states_number]
  refine ⟨Nat.mul_comm _ _, fun q hq => ⟨swapIndex_lt hq, swapIndex_swapIndex hq⟩,
    fun p hp => ⟨swapIndex_lt hp, swapIndex_swapIndex hp⟩, ?_, ?_,
    fun q hq q' hq' e => Synchronize_edge_swap hA hB hq hq' e⟩
  · rw [Synchronize_init, Synchronize_init, swapIndex_encode _ hA.1]
  · intro m
    rw [Synchronize_marked]
    constructor
    · rintro ⟨s0, hs0, s1, hs1, rfl⟩
      refine ⟨s0 * A.states_number_ + s1, (Synchronize_marked A B _).mpr ⟨s1, hs1, s0, hs0, rfl⟩, ?_⟩
      exact swapIndex_encode _ (hA.2.1 s1 hs1)
    · rintro ⟨m', hm', rfl⟩
      obtain ⟨s0, hs0, s1, hs1, rfl⟩ := (Synchronize_marked A B _).mp hm'
      exact ⟨s1, hs1, s0, hs0, swapIndex_encode _ (hA.2.1 s0 hs0)⟩

/-- Witness of C10 on the plant and the specification of the supervisor test: the edge
`3 → 6` labelled `b0 = 2` of the product becomes the edge `6 → 5` of the swapped product. -/
theorem Synchronize_comm_witness :
    ((Synchronize testPlant testSpec).graph_.coeff 3 6).testBit 2 = true ↔
      ((Synchronize testSpec testPlant).graph_.coeff
        (swapIndex testPlant.states_number_ testSpec.states_number_ 3)
        (swapIndex testPlant.states_number_ testSpec.states_number_ 6)).testBit 2 = true :=
  (Synchronize_comm testPlant testSpec (by decide!) (by decide!)).2.2.2.2.2 3 (by decide!) 6
    (by decide!) 2
/-- C3. Scenario S5: on the plant, the specification and the uncontrollable events of the
supervisor test, `op::SupervisorSynth` returns an automaton with 6 states, initial state 0
and exactly the graph `G[0][1] = 1`, `G[1][4] = 4`, `G[2][0] = 8`, `G[2][3] = 1`,
`G[3][1] = 8`, `G[3][5] = 4`, `G[4][2] = 2`, `G[5][4] = 8`, every other entry empty. -/
theorem SupervisorSynth_scenario_S5 :
    testPlant.states_number_ = 4 ∧ testPlant.init_state_ = 0 ∧ testPlant.marked_states_ = [0] ∧
    testPlant.graph_.data = [[0, 1, 2, 0], [4, 0, 0, 2], [8, 0, 0, 1], [0, 8, 4, 0]] ∧
    testSpec.states_number_ = 2 ∧ testSpec.init_state_ = 0 ∧ testSpec.marked_states_ = [0, 1] ∧
    testSpec.graph_.data = [[0, 4], [2, 0]] ∧
    (synthFinal testPlant testSpec testNonContr).f = [] ∧
    (SupervisorSynth testPlant testSpec testNonContr).states_number_ = 6 ∧
    (SupervisorSynth testPlant testSpec testNonContr).init_state_ = 0 ∧
    (SupervisorSynth testPlant testSpec testNonContr).graph_ =
      { rows := 6
        cols := 6
        data := [[0, 1, 0, 0, 0, 0], [0, 0, 0, 0, 4, 0], [8, 0, 0, 1, 0, 0],
                 [0, 8, 0, 0, 0, 4], [0, 0, 2, 0, 0, 0], [0, 0, 0, 0, 8, 0]] } := by
  decide!

/-- C9 on the one-state automaton with a self-loop: `op::SynchronizeStage2` applied to the
result of `op::SynchronizeStage1` yields an automaton without any edge and with an empty
per-state event set, while `op::Synchronize` keeps the self-loop. -/
theorem SynchronizeStage2_after_Stage1_loses_edges :
    WellFormed loopSys ∧ Deterministic loopSys ∧
    (SynchronizeStage1 loopSys loopSys).virtual_table_ = [] ∧
    (SynchronizeStage2 (SynchronizeStage1 loopSys loopSys) loopSys loopSys).graph_.coeff 0 0 = 0 ∧
    vecGet (SynchronizeStage2 (SynchronizeStage1 loopSys loopSys) loopSys loopSys).states_events_ 0
      = 0 ∧
    (Synchronize loopSys loopSys).graph_.coeff 0 0 = 1 ∧
    vecGet (Synchronize loopSys loopSys).states_events_ 0 = 1 := by
  decide!

/-- C4 on the automaton `0 -a-> 1` with marked state `1`: the automaton that
`op::SupervisorSynth(A, A, ∅)` materialises has two states and the marked set `{3}`, the
product key of `(1, 1)` left as it is, so its trim part is empty, while `Trim(A)` has two
states. -/
theorem SupervisorSynth_self_not_trim :
    WellFormed chainSys ∧ Deterministic chainSys ∧
    (SynchronizeStage2 (synthVirtualSys chainSys chainSys []) chainSys chainSys).states_number_
      = 2 ∧
    (SynchronizeStage2 (synthVirtualSys chainSys chainSys []) chainSys chainSys).marked_states_
      = [3] ∧
    (SupervisorSynth chainSys chainSys []).states_number_ = 0 ∧
    chainSys.Trim.states_number_ = 2 := by
  decide!

/-- C2 on `revisitPlant`, `blockSpec` and `Unc = {3, 4}`: product state `3` is bad and
product state `1` reaches it by the uncontrollable event `3`, so the reference supervisor
keeps the product states `0` and `2` only; `op::SupervisorSynth` records `1` in `rmtable_`
and still keeps it, and returns three states. -/
theorem SupervisorSynth_keeps_removed_state :
    WellFormed revisitPlant ∧ WellFormed blockSpec ∧ Deterministic revisitPlant ∧
    Deterministic blockSpec ∧
    refUnsafe revisitPlant blockSpec [3, 4] = [1, 3] ∧
    refSupervisorStates revisitPlant blockSpec [3, 4] = [0, 2] ∧
    (synthFinal revisitPlant blockSpec [3, 4]).f = [] ∧
    (synthVirtualSys revisitPlant blockSpec [3, 4]).rmtable_ = [3, 1] ∧
    (synthVirtualSys revisitPlant blockSpec [3, 4]).virtual_states_ = [0, 1, 2] ∧
    (SupervisorSynth revisitPlant blockSpec [3, 4]).states_number_ = 3 ∧
    (List.range 3).map (supervisorState revisitPlant blockSpec [3, 4]) = [0, 1, 2] := by
  decide!

/-- C1 fails as stated: on `deadEndPlant` and `freeSpec` with the uncontrollable event `1`,
the supervisor keeps the initial state, where the plant offers event `1`, and drops that
event because its target cannot reach a marked state. -/
theorem SupervisorSynth_not_controllable :
    WellFormed deadEndPlant ∧ WellFormed freeSpec ∧ Deterministic deadEndPlant ∧
    Deterministic freeSpec ∧ (synthFinal deadEndPlant freeSpec [1]).f = [] ∧
    (synthFinal deadEndPlant freeSpec [1]).rmtable_ = [] ∧
    ¬ ControllableOutput deadEndPlant freeSpec [1] := by
  decide!
theorem testBit_nonContrBit (events : BitArray) (non_contr : List ScalarType) (e : Nat) :
    (nonContrBit events non_contr).testBit e = true ↔
      e ∈ non_contr ∧ events.testBit e = true := by
  unfold nonContrBit
  have gen : ∀ (l : List ScalarType) (init : Nat),
      (l.foldl (fun acc event => if events.testBit event then acc ||| (1 <<< event) else acc)
        init).testBit e = true ↔
      init.testBit e = true ∨ (e ∈ l ∧ events.testBit e = true) := by
    intro l
    induction l with
    | nil => intro init; simp
    | cons a l ih =>
      intro init
      rw [List.foldl_cons, ih]
      by_cases ha : events.testBit a = true
      · rw [if_pos ha, Nat.testBit_or, testBit_one_shiftLeft]
        simp only [Bool.or_eq_true, decide_eq_true_eq, List.mem_cons]
        constructor
        · rintro ((h | h) | ⟨h1, h2⟩)
          · exact Or.inl h
          · exact Or.inr ⟨Or.inl h.symm, h ▸ ha⟩
          · exact Or.inr ⟨Or.inr h1, h2⟩
        · rintro (h | ⟨h1 | h1, h2⟩)
          · exact Or.inl (Or.inl h)
          · exact Or.inl (Or.inr h1.symm)
          · exact Or.inr ⟨h1, h2⟩
      · rw [if_neg ha]
        simp only [List.mem_cons]
        constructor
        · rintro (h | ⟨h1, h2⟩)
          · exact Or.inl h
          · exact Or.inr ⟨Or.inr h1, h2⟩
        · rintro (h | ⟨h1 | h1, h2⟩)
          · exact Or.inl h
          · exact absurd (h1 ▸ h2) ha
          · exact Or.inr ⟨h1, h2⟩
  rw [gen]
  simp

theorem mem_qsetRemove {x y : Nat} {s : List Nat} : y ∈ qsetRemove x s ↔ y ∈ s ∧ y ≠ x := by
  unfold qsetRemove
  simp [List.mem_filter]

theorem mem_qsetInsert {x y : Nat} {s : List Nat} : y ∈ qsetInsert x s ↔ y = x ∨ y ∈ s := by
  unfold qsetInsert
  by_cases h : x ∈ s
  · rw [if_pos h]
    constructor
    · exact Or.inr
    · rintro (rfl | h')
      · exact h
      · exact h'
  · rw [if_neg h, List.mem_append, List.mem_singleton, or_comm]

theorem removeLoop_subset (aP aE : DESystem) (only_in_0 only_in_1 : BitArray)
    (gP gE : GraphHostData) (nc : EventsBitArray) (fuel : Nat) (f C rm : List cldes_size_t) :
    ∀ x ∈ (removeLoop aP aE only_in_0 only_in_1 gP gE nc fuel f C rm).2.1, x ∈ C := by
  induction fuel generalizing f C rm with
  | zero => intro x hx; simpa [removeLoop] using hx
  | succ fuel ih =>
    cases f with
    | nil => intro x hx; simpa [removeLoop] using hx
    | cons y f =>
      intro x hx
      unfold removeLoop at hx
      exact (mem_qsetRemove.mp (ih _ _ _ x hx)).1

theorem RemoveBadStates_subset (aP aE : DESystem) (only_in_0 only_in_1 : BitArray)
    (gP gE : GraphHostData) (C rm : List cldes_size_t) (q : cldes_size_t) (nc : EventsBitArray) :
    ∀ x ∈ (RemoveBadStates aP aE only_in_0 only_in_1 gP gE C rm q nc).1, x ∈ C ∧ x ≠ q := by
  intro x hx
  unfold RemoveBadStates removeLoop at hx
  exact mem_qsetRemove.mp (removeLoop_subset _ _ _ _ _ _ _ _ _ _ _ x hx)

theorem synthScan_notBad (aP aE : DESystem) (only_in_0 only_in_1 : BitArray)
    (gP gE : GraphHostData) (nc : EventsBitArray) (q : cldes_size_t)
    (en : cldes_size_t → BitArray) (rest : List ScalarType) (st : SynthState)
    (hc : ∀ q' ∈ st.c, q' ≠ q → NotBadAt aP nc en q')
    (hv : ∀ e, nc.testBit e = true → e ∉ rest →
      (vecGet aP.states_events_ (q % aP.states_number_)).testBit e = true →
      (en q).testBit e = true) :
    ∀ q' ∈ (synthScan aP aE only_in_0 only_in_1 gP gE nc q (en q) rest st).c,
      NotBadAt aP nc en q' := by
  induction rest generalizing st with
  | nil =>
    intro q' hq'
    unfold synthScan at hq'
    by_cases hqq : q' = q
    · subst hqq
      intro e hnc hout
      exact hv e hnc (List.not_mem_nil e) hout
    · exact hc q' hq' hqq
  | cons event rest ih =>
    intro q' hq'
    unfold synthScan at hq'
    by_cases hbad : (nc.testBit event && !(en q).testBit event &&
        (vecGet aP.states_events_ (q % aP.states_number_)).testBit event) = true
    · simp only [hbad, if_true] at hq'
      obtain ⟨h1, h2⟩ := RemoveBadStates_subset _ _ _ _ _ _ _ _ _ _ q' hq'
      exact hc q' h1 h2
    · have hv' : ∀ e, nc.testBit e = true → e ∉ rest →
          (vecGet aP.states_events_ (q % aP.states_number_)).testBit e = true →
          (en q).testBit e = true := by
        intro e hnc hrest hout
        by_cases hee : e = event
        · subst hee
          by_contra hen
          apply hbad
          simp [hnc, hout, hen]
        · exact hv e hnc (by simp [hee, hrest]) hout
      simp only [hbad, Bool.false_eq_true, if_false] at hq'
      by_cases hthere : (en q).testBit event = true
      · simp only [hthere, if_true] at hq'
        split at hq'
        · exact ih { st with
            transtriplet_ := qhashInsert (q, event) (TransitionVirtual aP aE q event) st.transtriplet_
            f := TransitionVirtual aP aE q event :: st.f
            ftable := qsetInsert (TransitionVirtual aP aE q event) st.ftable }
            (fun q'' h'' => hc q'' h'') hv' q' hq'
        · exact ih _ hc hv' q' hq'
      · simp only [hthere, Bool.false_eq_true, if_false] at hq'
        exact ih _ hc hv' q' hq'

theorem synthLoop_notBad (aP aE : DESystem) (only_in_0 only_in_1 : BitArray)
    (gP gE : GraphHostData) (nc : EventsBitArray) (fuel : Nat) (st : SynthState)
    (hc : ∀ q' ∈ st.c, NotBadAt aP nc (fun q =>
      syncEvents aP.states_events_ aE.states_events_ only_in_0 only_in_1
        (q % aP.states_number_) (q / aP.states_number_)) q') :
    ∀ q' ∈ (synthLoop aP aE only_in_0 only_in_1 gP gE nc fuel st).c,
      NotBadAt aP nc (fun q =>
        syncEvents aP.states_events_ aE.states_events_ only_in_0 only_in_1
          (q % aP.states_number_) (q / aP.states_number_)) q' := by
  induction fuel generalizing st with
  | zero => intro q' hq'; unfold synthLoop at hq'; exact hc q' hq'
  | succ fuel ih =>
    intro q' hq'
    unfold synthLoop at hq'
    cases hf : st.f with
    | nil => rw [hf] at hq'; exact hc q' hq'
    | cons q f =>
      rw [hf] at hq'
      refine ih _ ?_ q' hq'
      apply synthScan_notBad aP aE only_in_0 only_in_1 gP gE nc q (fun q =>
        syncEvents aP.states_events_ aE.states_events_ only_in_0 only_in_1
          (q % aP.states_number_) (q / aP.states_number_))
      · intro q'' h'' hne
        rcases mem_qsetInsert.mp h'' with h | h
        · exact absurd h hne
        · exact hc q'' h
      · intro e hnc hnot _
        exfalso
        apply hnot
        rw [mem_bitsOf, Nat.testBit_or, hnc, Bool.or_true]
theorem mem_Bfs_lt {B : BitGraphHostData} {X0 : List cldes_size_t} {i : Nat}
    (h : i ∈ Bfs_ B X0) : i < B.rows := by
  unfold Bfs_ at h
  exact List.mem_range.mp (List.mem_filter.mp h).1

theorem mem_TrimStates_lt {A : DESystem} {i : Nat} (h : i ∈ A.TrimStates) :
    i < A.bit_graph_.rows := by
  unfold DESystem.TrimStates at h
  exact mem_Bfs_lt (List.mem_filter.mp h).1

theorem getD_mem_of_lt {l : List Nat} {i : Nat} (h : i < l.length) : l.getD i 0 ∈ l := by
  rw [List.getD_eq_getElem l 0 h]
  exact List.getElem_mem h

theorem supervisorState_mem (aP aE : DESystem) (non_contr : List ScalarType) (s : Nat)
    (hs : s < (SupervisorSynth aP aE non_contr).states_number_) :
    supervisorState aP aE non_contr s ∈ (synthVirtualSys aP aE non_contr).virtual_table_ := by
  have h1 : (SynchronizeStage2 (synthVirtualSys aP aE non_contr) aP aE).TrimStates.getD s 0 ∈
      (SynchronizeStage2 (synthVirtualSys aP aE non_contr) aP aE).TrimStates :=
    getD_mem_of_lt hs
  have h2 : (SynchronizeStage2 (synthVirtualSys aP aE non_contr) aP aE).TrimStates.getD s 0 <
      (synthVirtualSys aP aE non_contr).virtual_states_.length := mem_TrimStates_lt h1
  have h3 : supervisorState aP aE non_contr s ∈
      (synthVirtualSys aP aE non_contr).virtual_states_ := getD_mem_of_lt h2
  exact (List.perm_insertionSort _ _).mem_iff.mp h3

theorem nodup_length_le {l : List Nat} {N : Nat} (hn : l.Nodup) (hl : ∀ x ∈ l, x < N) :
    l.length ≤ N := by
  have h1 : l.toFinset.card = l.length := List.toFinset_card_of_nodup hn
  have h2 : l.toFinset ⊆ Finset.range N := by
    intro x hx
    exact Finset.mem_range.mpr (hl x (List.mem_toFinset.mp hx))
  have h3 := Finset.card_le_card h2
  rw [Finset.card_range] at h3
  omega

theorem TransitionVirtual_lt {A B : DESystem} (hA : WellFormed A) (hB : WellFormed B) {q e : Nat}
    (hq : q < A.states_number_ * B.states_number_) (he : enabledAt A B q e = true) :
    TransitionVirtual A B q e < A.states_number_ * B.states_number_ := by
  obtain ⟨k, hk, hs⟩ := scanTarget_nat hA hB hq he
  unfold TransitionVirtual
  rw [hs, toSizeT_natCast]
  exact hk

theorem SynthBounded.push {N : Nat} {st : SynthState} (hb : SynthBounded N st) {x : Nat}
    (hx : x < N) (hnew : x ∉ st.ftable) (tt : List ((cldes_size_t × ScalarType) × cldes_size_t)) :
    SynthBounded N { st with transtriplet_ := tt, f := x :: st.f, ftable := qsetInsert x st.ftable } ∧
    synthMeasure N
      { st with transtriplet_ := tt, f := x :: st.f, ftable := qsetInsert x st.ftable } =
      synthMeasure N st := by
  have hins : qsetInsert x st.ftable = st.ftable ++ [x] := by
    unfold qsetInsert; rw [if_neg hnew]
  have hb' : SynthBounded N
      { st with transtriplet_ := tt, f := x :: st.f, ftable := qsetInsert x st.ftable } := by
    refine ⟨?_, ?_, ?_⟩
    · intro y hy
      rcases List.mem_cons.mp hy with rfl | hy
      · exact hx
      · exact hb.1 y hy
    · intro y hy
      rcases mem_qsetInsert.mp hy with rfl | hy
      · exact hx
      · exact hb.2.1 y hy
    · show (qsetInsert x st.ftable).Nodup
      rw [hins]
      refine List.Nodup.append hb.2.2 (List.nodup_singleton _) ?_
      intro a ha hax
      rw [List.mem_singleton.mp hax] at ha
      exact hnew ha
  refine ⟨hb', ?_⟩
  have hlen : (qsetInsert x st.ftable).length ≤ N := nodup_length_le hb'.2.2 hb'.2.1
  have hl2 : (qsetInsert x st.ftable).length = st.ftable.length + 1 := by
    rw [hins, List.length_append, List.length_singleton]
  rw [hl2] at hlen
  show (x :: st.f).length + (N - (qsetInsert x st.ftable).length) =
    st.f.length + (N - st.ftable.length)
  rw [hl2, List.length_cons]
  omega

theorem synthScan_bounded (aP aE : DESystem) (only_in_0 only_in_1 : BitArray)
    (gP gE : GraphHostData) (nc : EventsBitArray) (q : cldes_size_t) (qev : BitArray) (N : Nat)
    (hlt : ∀ e, qev.testBit e = true → TransitionVirtual aP aE q e < N)
    (rest : List ScalarType) (st : SynthState) (hb : SynthBounded N st) :
    SynthBounded N (synthScan aP aE only_in_0 only_in_1 gP gE nc q qev rest st) ∧
    synthMeasure N (synthScan aP aE only_in_0 only_in_1 gP gE nc q qev rest st) =
      synthMeasure N st := by
  induction rest generalizing st with
  | nil => unfold synthScan; exact ⟨hb, rfl⟩
  | cons event rest ih =>
    unfold synthScan
    by_cases hbad : (nc.testBit event && !qev.testBit event &&
        (vecGet aP.states_events_ (q % aP.states_number_)).testBit event) = true
    · simp only [hbad, if_true]
      exact ⟨hb, rfl⟩
    · simp only [hbad, Bool.false_eq_true, if_false]
      by_cases hthere : qev.testBit event = true
      · simp only [hthere, if_true]
        by_cases hnew : (!decide (TransitionVirtual aP aE q event ∈ st.c) &&
            !decide (TransitionVirtual aP aE q event ∈ st.ftable) &&
            !decide (TransitionVirtual aP aE q event ∈ st.rmtable_)) = true
        · simp only [hnew, if_true]
          have hnf : TransitionVirtual aP aE q event ∉ st.ftable := by
            simp only [Bool.and_eq_true, Bool.not_eq_true', decide_eq_false_iff_not] at hnew
            exact hnew.1.2
          obtain ⟨h1, h2⟩ := hb.push (hlt event hthere) hnf
            (qhashInsert (q, event) (TransitionVirtual aP aE q event) st.transtriplet_)
          obtain ⟨h3, h4⟩ := ih _ h1
          exact ⟨h3, h4.trans h2⟩
        · simp only [hnew, Bool.false_eq_true, if_false]
          exact ih _ hb
      · simp only [hthere, Bool.false_eq_true, if_false]
        exact ih _ hb

theorem synthLoop_complete {aP aE : DESystem} (hP : WellFormed aP) (hE : WellFormed aE)
    (gP gE : GraphHostData) (nc : EventsBitArray) (fuel : Nat) (st : SynthState)
    (hb : SynthBounded (aP.states_number_ * aE.states_number_) st)
    (hfuel : synthMeasure (aP.states_number_ * aE.states_number_) st ≤ fuel) :
    (synthLoop aP aE (aP.events_ ^^^ (aP.events_ &&& aE.events_))
      (aE.events_ ^^^ (aP.events_ &&& aE.events_)) gP gE nc fuel st).f = [] := by
  induction fuel generalizing st with
  | zero =>
    unfold synthLoop
    unfold synthMeasure at hfuel
    have : st.f.length = 0 := by omega
    exact List.length_eq_zero.mp this
  | succ fuel ih =>
    unfold synthLoop
    cases hf : st.f with
    | nil => simp only; exact hf
    | cons q f =>
      simp only
      have hq : q < aP.states_number_ * aE.states_number_ :=
        hb.1 q (by rw [hf]; exact List.mem_cons_self _ _)
      have hb1 : SynthBounded (aP.states_number_ * aE.states_number_)
          { st with f := f, c := qsetInsert q st.c } :=
        ⟨fun x hx => hb.1 x (by rw [hf]; exact List.mem_cons_of_mem _ hx), hb.2.1, hb.2.2⟩
      obtain ⟨h1, h2⟩ := synthScan_bounded aP aE (aP.events_ ^^^ (aP.events_ &&& aE.events_))
        (aE.events_ ^^^ (aP.events_ &&& aE.events_)) gP gE nc q
        (syncEvents aP.states_events_ aE.states_events_
          (aP.events_ ^^^ (aP.events_ &&& aE.events_))
          (aE.events_ ^^^ (aP.events_ &&& aE.events_))
          (q % aP.states_number_) (q / aP.states_number_))
        (aP.states_number_ * aE.states_number_)
        (fun e he => TransitionVirtual_lt hP hE hq (by
          unfold enabledAt; rw [← testBit_syncEvents]; exact he))
        (bitsOf (syncEvents aP.states_events_ aE.states_events_
          (aP.events_ ^^^ (aP.events_ &&& aE.events_))
          (aE.events_ ^^^ (aP.events_ &&& aE.events_))
          (q % aP.states_number_) (q / aP.states_number_) ||| nc)) _ hb1
      apply ih _ h1
      rw [h2]
      unfold synthMeasure at hfuel ⊢
      rw [hf] at hfuel
      simp only [List.length_cons] at hfuel ⊢
      omega

/-- The main loop of `op::SupervisorSynth` empties its stack within the rounds allowed: on
well-formed automata the loop is run to its end. -/
theorem synthFinal_stack_empty (aP aE : DESystem) (non_contr : List ScalarType)
    (hP : WellFormed aP) (hE : WellFormed aE) : (synthFinal aP aE non_contr).f = [] := by
  unfold synthFinal
  have hinit : aE.init_state_ * aP.states_number_ + aP.init_state_ <
      aP.states_number_ * aE.states_number_ := encode_lt hP.1 hE.1
  apply synthLoop_complete hP hE
  · refine ⟨?_, ?_, List.nodup_singleton _⟩
    · intro x hx; rw [List.mem_singleton.mp hx]; exact hinit
    · intro x hx; rw [List.mem_singleton.mp hx]; exact hinit
  · unfold synthMeasure
    simp only [List.length_singleton]
    omega
theorem mem_rowEntries_lt {G : GraphHostData} {i : Nat} {p : Nat × BitArray}
    (h : p ∈ G.rowEntries i) : p.1 < G.cols := by
  unfold SparseMatrix.rowEntries at h
  rw [List.mem_filterMap] at h
  obtain ⟨j, hj, hp⟩ := h
  by_cases h0 : G.coeff i j = 0
  · rw [if_pos h0] at hp; exact absurd hp (by simp)
  · rw [if_neg h0] at hp
    have : p = (j, G.coeff i j) := (Option.some.inj hp).symm
    rw [this]
    exact List.mem_range.mp hj

theorem TransitionVirtualInv_lt (evP evE : BitArray) (gP gE : GraphHostData) {nE : Nat}
    (hPc : gP.cols = gP.rows) (hEc : gE.cols = nE) {x : cldes_size_t}
    (hx : x < gP.rows * nE) (event : ScalarType) :
    ∀ s ∈ __TransitionVirtualInv evP evE gP gE x event, s < gP.rows * nE := by
  obtain ⟨hx0, hx1⟩ := decode_lt hx
  intro s hs
  unfold __TransitionVirtualInv at hs
  simp only at hs
  split at hs
  · rw [List.mem_flatMap] at hs
    obtain ⟨ee, hee, hs⟩ := hs
    rw [List.mem_map] at hs
    obtain ⟨sp, hsp, rfl⟩ := hs
    rw [List.mem_map] at hsp
    obtain ⟨pe, hpe, rfl⟩ := hsp
    have h1 := mem_rowEntries_lt (List.mem_filter.mp hpe).1
    have h2 := mem_rowEntries_lt (List.mem_filter.mp hee).1
    rw [hPc] at h1
    rw [hEc] at h2
    exact encode_lt h1 h2
  · split at hs
    · rw [List.mem_map] at hs
      obtain ⟨pe, hpe, rfl⟩ := hs
      have h1 := mem_rowEntries_lt (List.mem_filter.mp hpe).1
      rw [hPc] at h1
      exact encode_lt h1 hx1
    · rw [List.mem_map] at hs
      obtain ⟨ee, hee, rfl⟩ := hs
      have h2 := mem_rowEntries_lt (List.mem_filter.mp hee).1
      rw [hEc] at h2
      exact encode_lt hx0 h2

theorem removePush_bounded {N : Nat} (finv : List cldes_size_t) (hfinv : ∀ s ∈ finv, s < N)
    (st : List cldes_size_t × List cldes_size_t)
    (hb : (∀ x ∈ st.1, x < N) ∧ (∀ x ∈ st.2, x < N) ∧ st.2.Nodup) :
    ((∀ x ∈ (removePush finv st).1, x < N) ∧ (∀ x ∈ (removePush finv st).2, x < N) ∧
      (removePush finv st).2.Nodup) ∧
    (removePush finv st).1.length + (N - (removePush finv st).2.length) =
      st.1.length + (N - st.2.length) := by
  unfold removePush
  induction finv generalizing st with
  | nil => exact ⟨hb, rfl⟩
  | cons s finv ih =>
    rw [List.foldl_cons]
    have hfinv' : ∀ t ∈ finv, t < N := fun t ht => hfinv t (List.mem_cons_of_mem _ ht)
    by_cases hs : s ∈ st.2
    · rw [if_pos hs]; exact ih hfinv' st hb
    · rw [if_neg hs]
      have hsN : s < N := hfinv s (List.mem_cons_self _ _)
      have hins : qsetInsert s st.2 = st.2 ++ [s] := by
        unfold qsetInsert; rw [if_neg hs]
      have hb' : (∀ x ∈ (s :: st.1, qsetInsert s st.2).1, x < N) ∧
          (∀ x ∈ (s :: st.1, qsetInsert s st.2).2, x < N) ∧
          (s :: st.1, qsetInsert s st.2).2.Nodup := by
        refine ⟨?_, ?_, ?_⟩
        · intro y hy
          rcases List.mem_cons.mp hy with rfl | hy
          · exact hsN
          · exact hb.1 y hy
        · intro y hy
          rcases mem_qsetInsert.mp hy with rfl | hy
          · exact hsN
          · exact hb.2.1 y hy
        · show (qsetInsert s st.2).Nodup
          rw [hins]
          refine List.Nodup.append hb.2.2 (List.nodup_singleton _) ?_
          intro a ha hax
          rw [List.mem_singleton.mp hax] at ha
          exact hs ha
      obtain ⟨h1, h2⟩ := ih hfinv' _ hb'
      refine ⟨h1, h2.trans ?_⟩
      have hlen : (qsetInsert s st.2).length ≤ N := nodup_length_le hb'.2.2 hb'.2.1
      have hl2 : (qsetInsert s st.2).length = st.2.length + 1 := by
        rw [hins, List.length_append, List.length_singleton]
      rw [hl2] at hlen
      show (s :: st.1).length + (N - (qsetInsert s st.2).length) = st.1.length + (N - st.2.length)
      rw [hl2, List.length_cons]
      omega

theorem removeEvents_bounded (evP evE : BitArray) (gP gE : GraphHostData) {nE : Nat}
    (hPc : gP.cols = gP.rows) (hEc : gE.cols = nE) {x : cldes_size_t}
    (hx : x < gP.rows * nE) (events : List ScalarType)
    (st : List cldes_size_t × List cldes_size_t)
    (hb : (∀ y ∈ st.1, y < gP.rows * nE) ∧ (∀ y ∈ st.2, y < gP.rows * nE) ∧ st.2.Nodup) :
    ((∀ y ∈ (events.foldl (fun acc event =>
          removePush (__TransitionVirtualInv evP evE gP gE x event) acc) st).1, y < gP.rows * nE) ∧
      (∀ y ∈ (events.foldl (fun acc event =>
          removePush (__TransitionVirtualInv evP evE gP gE x event) acc) st).2, y < gP.rows * nE) ∧
      (events.foldl (fun acc event =>
          removePush (__TransitionVirtualInv evP evE gP gE x event) acc) st).2.Nodup) ∧
    (events.foldl (fun acc event =>
        removePush (__TransitionVirtualInv evP evE gP gE x event) acc) st).1.length +
      (gP.rows * nE - (events.foldl (fun acc event =>
        removePush (__TransitionVirtualInv evP evE gP gE x event) acc) st).2.length) =
      st.1.length + (gP.rows * nE - st.2.length) := by
  induction events generalizing st with
  | nil => exact ⟨hb, rfl⟩
  | cons event events ih =>
    rw [List.foldl_cons]
    obtain ⟨h1, h2⟩ := removePush_bounded _ (TransitionVirtualInv_lt evP evE gP gE hPc hEc hx event)
      st hb
    obtain ⟨h3, h4⟩ := ih _ h1
    exact ⟨h3, h4.trans h2⟩

/-- The local loop of `op::RemoveBadStates` empties its stack within the rounds allowed,
and leaves `rmtable_` duplicate-free and inside the product. -/
theorem removeLoop_complete (aP aE : DESystem) (only_in_0 only_in_1 : BitArray)
    (gP gE : GraphHostData) (nc : EventsBitArray) {nE : Nat}
    (hPc : gP.cols = gP.rows) (hEc : gE.cols = nE) (fuel : Nat)
    (f C rm : List cldes_size_t)
    (hf : ∀ y ∈ f, y < gP.rows * nE) (hrm : ∀ y ∈ rm, y < gP.rows * nE) (hnd : rm.Nodup)
    (hfuel : f.length + (gP.rows * nE - rm.length) ≤ fuel) :
    (removeLoop aP aE only_in_0 only_in_1 gP gE nc fuel f C rm).1 = [] ∧
    (∀ y ∈ (removeLoop aP aE only_in_0 only_in_1 gP gE nc fuel f C rm).2.2, y < gP.rows * nE) ∧
    (removeLoop aP aE only_in_0 only_in_1 gP gE nc fuel f C rm).2.2.Nodup := by
  induction fuel generalizing f C rm with
  | zero =>
    have : f.length = 0 := by omega
    have hnil : f = [] := List.length_eq_zero.mp this
    subst hnil
    unfold removeLoop
    exact ⟨rfl, hrm, hnd⟩
  | succ fuel ih =>
    cases f with
    | nil => unfold removeLoop; exact ⟨rfl, hrm, hnd⟩
    | cons x f =>
      unfold removeLoop
      have hx : x < gP.rows * nE := hf x (List.mem_cons_self _ _)
      obtain ⟨⟨h1, h2, h3⟩, h4⟩ := removeEvents_bounded aP.events_ aE.events_ gP gE hPc hEc hx
        (bitsOf (syncEvents aP.inv_states_events_ aE.inv_states_events_ only_in_0 only_in_1
          (x % gP.rows) (x / gP.rows) &&& nc)) (f, rm)
        ⟨fun y hy => hf y (List.mem_cons_of_mem _ hy), hrm, hnd⟩
      apply ih _ _ _ h1 h2 h3
      rw [h4]
      simp only [List.length_cons] at hfuel ⊢
      omega

/-- A call of `op::RemoveBadStates` inside `op::SupervisorSynth` on a product state `q`,
with `rmtable_` duplicate-free and inside the product, runs its loop to the end. -/
theorem RemoveBadStates_stack_empty (aP aE : DESystem) (only_in_0 only_in_1 : BitArray)
    (hP : WellFormed aP) (hE : WellFormed aE) (nc : EventsBitArray)
    (C rm : List cldes_size_t) (q : cldes_size_t)
    (hq : q < aP.states_number_ * aE.states_number_)
    (hrm : ∀ y ∈ rm, y < aP.states_number_ * aE.states_number_) (hnd : rm.Nodup) :
    (removeLoop aP aE only_in_0 only_in_1 aP.graph_.transpose aE.graph_.transpose nc
      (aP.states_number_ * aE.states_number_ + 1) [q] C (qsetInsert q rm)).1 = [] := by
  have hrows : aP.graph_.transpose.rows = aP.states_number_ := hP.2.2.2.1
  have hcols : aP.graph_.transpose.cols = aP.graph_.transpose.rows :=
    hP.2.2.1.trans hP.2.2.2.1.symm
  have hEc : aE.graph_.transpose.cols = aE.states_number_ := hE.2.2.1
  have hins : (∀ y ∈ qsetInsert q rm, y < aP.states_number_ * aE.states_number_) ∧
      (qsetInsert q rm).Nodup ∧ 1 ≤ (qsetInsert q rm).length := by
    unfold qsetInsert
    by_cases hm : q ∈ rm
    · rw [if_pos hm]
      exact ⟨hrm, hnd, List.length_pos_of_mem hm⟩
    · rw [if_neg hm]
      refine ⟨?_, ?_, by simp⟩
      · intro y hy
        rcases List.mem_append.mp hy with hy | hy
        · exact hrm y hy
        · rw [List.mem_singleton.mp hy]; exact hq
      · refine List.Nodup.append hnd (List.nodup_singleton _) ?_
        intro a ha hax
        rw [List.mem_singleton.mp hax] at ha
        exact hm ha
  have := removeLoop_complete aP aE only_in_0 only_in_1 aP.graph_.transpose aE.graph_.transpose nc
    hcols hEc (aP.states_number_ * aE.states_number_ + 1) [q] C (qsetInsert q rm)
    (by rw [hrows]; intro y hy; rw [List.mem_singleton.mp hy]; exact hq)
    (by rw [hrows]; exact hins.1) hins.2.1
    (by rw [hrows]; simp only [List.length_singleton]; have := hins.2.2; omega)
  exact this.1
theorem RemoveBadStates_rmtable_bounded (aP aE : DESystem) (only_in_0 only_in_1 : BitArray)
    (hP : WellFormed aP) (hE : WellFormed aE) (nc : EventsBitArray)
    (C rm : List cldes_size_t) (q : cldes_size_t)
    (hq : q < aP.states_number_ * aE.states_number_)
    (hrm : ∀ y ∈ rm, y < aP.states_number_ * aE.states_number_) (hnd : rm.Nodup) :
    (∀ y ∈ (RemoveBadStates aP aE only_in_0 only_in_1 aP.graph_.transpose aE.graph_.transpose
        C rm q nc).2, y < aP.states_number_ * aE.states_number_) ∧
    (RemoveBadStates aP aE only_in_0 only_in_1 aP.graph_.transpose aE.graph_.transpose
        C rm q nc).2.Nodup := by
  have hrows : aP.graph_.transpose.rows = aP.states_number_ := hP.2.2.2.1
  have hcols : aP.graph_.transpose.cols = aP.graph_.transpose.rows :=
    hP.2.2.1.trans hP.2.2.2.1.symm
  have hEc : aE.graph_.transpose.cols = aE.states_number_ := hE.2.2.1
  have hins : (∀ y ∈ qsetInsert q rm, y < aP.states_number_ * aE.states_number_) ∧
      (qsetInsert q rm).Nodup ∧ 1 ≤ (qsetInsert q rm).length := by
    unfold qsetInsert
    by_cases hm : q ∈ rm
    · rw [if_pos hm]
      exact ⟨hrm, hnd, List.length_pos_of_mem hm⟩
    · rw [if_neg hm]
      refine ⟨?_, ?_, by simp⟩
      · intro y hy
        rcases List.mem_append.mp hy with hy | hy
        · exact hrm y hy
        · rw [List.mem_singleton.mp hy]; exact hq
      · refine List.Nodup.append hnd (List.nodup_singleton _) ?_
        intro a ha hax
        rw [List.mem_singleton.mp hax] at ha
        exact hm ha
  have := removeLoop_complete aP aE only_in_0 only_in_1 aP.graph_.transpose aE.graph_.transpose nc
    hcols hEc (aP.states_number_ * aE.states_number_ + 1) [q] C (qsetInsert q rm)
    (by rw [hrows]; intro y hy; rw [List.mem_singleton.mp hy]; exact hq)
    (by rw [hrows]; exact hins.1) hins.2.1
    (by rw [hrows]; simp only [List.length_singleton]; have := hins.2.2; omega)
  rw [hrows] at this
  exact this.2

theorem synthScan_rmtable_bounded (aP aE : DESystem) (only_in_0 only_in_1 : BitArray)
    (hP : WellFormed aP) (hE : WellFormed aE) (nc : EventsBitArray) (q : cldes_size_t)
    (hq : q < aP.states_number_ * aE.states_number_) (qev : BitArray)
    (rest : List ScalarType) (st : SynthState)
    (hrm : ∀ y ∈ st.rmtable_, y < aP.states_number_ * aE.states_number_)
    (hnd : st.rmtable_.Nodup) :
    (∀ y ∈ (synthScan aP aE only_in_0 only_in_1 aP.graph_.transpose aE.graph_.transpose nc q qev
        rest st).rmtable_, y < aP.states_number_ * aE.states_number_) ∧
    (synthScan aP aE only_in_0 only_in_1 aP.graph_.transpose aE.graph_.transpose nc q qev
        rest st).rmtable_.Nodup := by
  induction rest generalizing st with
  | nil => unfold synthScan; exact ⟨hrm, hnd⟩
  | cons event rest ih =>
    unfold synthScan
    by_cases hbad : (nc.testBit event && !qev.testBit event &&
        (vecGet aP.states_events_ (q % aP.states_number_)).testBit event) = true
    · simp only [hbad, if_true]
      exact RemoveBadStates_rmtable_bounded aP aE only_in_0 only_in_1 hP hE nc st.c st.rmtable_ q
        hq hrm hnd
    · simp only [hbad, Bool.false_eq_true, if_false]
      by_cases hthere : qev.testBit event = true
      · simp only [hthere, if_true]
        by_cases hnew : (!decide (TransitionVirtual aP aE q event ∈ st.c) &&
            !decide (TransitionVirtual aP aE q event ∈ st.ftable) &&
            !decide (TransitionVirtual aP aE q event ∈ st.rmtable_)) = true
        · simp only [hnew, if_true]
          exact ih _ hrm hnd
        · simp only [hnew, Bool.false_eq_true, if_false]
          exact ih _ hrm hnd
      · simp only [hthere, Bool.false_eq_true, if_false]
        exact ih _ hrm hnd

/-- Throughout the main loop of `op::SupervisorSynth` on well-formed automata, `rmtable_` is
duplicate-free and inside the product, which is what a call of `op::RemoveBadStates` needs
to run its loop to the end. -/
theorem synthLoop_rmtable_bounded {aP aE : DESystem} (hP : WellFormed aP) (hE : WellFormed aE)
    (nc : EventsBitArray) (fuel : Nat) (st : SynthState)
    (hb : SynthBounded (aP.states_number_ * aE.states_number_) st)
    (hrm : ∀ y ∈ st.rmtable_, y < aP.states_number_ * aE.states_number_)
    (hnd : st.rmtable_.Nodup) :
    (∀ y ∈ (synthLoop aP aE (aP.events_ ^^^ (aP.events_ &&& aE.events_))
        (aE.events_ ^^^ (aP.events_ &&& aE.events_)) aP.graph_.transpose aE.graph_.transpose nc
        fuel st).rmtable_, y < aP.states_number_ * aE.states_number_) ∧
    (synthLoop aP aE (aP.events_ ^^^ (aP.events_ &&& aE.events_))
        (aE.events_ ^^^ (aP.events_ &&& aE.events_)) aP.graph_.transpose aE.graph_.transpose nc
        fuel st).rmtable_.Nodup := by
  induction fuel generalizing st with
  | zero => unfold synthLoop; exact ⟨hrm, hnd⟩
  | succ fuel ih =>
    unfold synthLoop
    cases hf : st.f with
    | nil => simp only; exact ⟨hrm, hnd⟩
    | cons q f =>
      simp only
      have hq : q < aP.states_number_ * aE.states_number_ :=
        hb.1 q (by rw [hf]; exact List.mem_cons_self _ _)
      have hb1 : SynthBounded (aP.states_number_ * aE.states_number_)
          { st with f := f, c := qsetInsert q st.c } :=
        ⟨fun x hx => hb.1 x (by rw [hf]; exact List.mem_cons_of_mem _ hx), hb.2.1, hb.2.2⟩
      obtain ⟨h1, -⟩ := synthScan_bounded aP aE (aP.events_ ^^^ (aP.events_ &&& aE.events_))
        (aE.events_ ^^^ (aP.events_ &&& aE.events_)) aP.graph_.transpose aE.graph_.transpose nc q
        (syncEvents aP.states_events_ aE.states_events_
          (aP.events_ ^^^ (aP.events_ &&& aE.events_))
          (aE.events_ ^^^ (aP.events_ &&& aE.events_))
          (q % aP.states_number_) (q / aP.states_number_))
        (aP.states_number_ * aE.states_number_)
        (fun e he => TransitionVirtual_lt hP hE hq (by
          unfold enabledAt; rw [← testBit_syncEvents]; exact he))
        (bitsOf (syncEvents aP.states_events_ aE.states_events_
          (aP.events_ ^^^ (aP.events_ &&& aE.events_))
          (aE.events_ ^^^ (aP.events_ &&& aE.events_))
          (q % aP.states_number_) (q / aP.states_number_) ||| nc)) _ hb1
      obtain ⟨h2, h3⟩ := synthScan_rmtable_bounded aP aE
        (aP.events_ ^^^ (aP.events_ &&& aE.events_))
        (aE.events_ ^^^ (aP.events_ &&& aE.events_)) hP hE nc q hq
        (syncEvents aP.states_events_ aE.states_events_
          (aP.events_ ^^^ (aP.events_ &&& aE.events_))
          (aE.events_ ^^^ (aP.events_ &&& aE.events_))
          (q % aP.states_number_) (q / aP.states_number_))
        (bitsOf (syncEvents aP.states_events_ aE.states_events_
          (aP.events_ ^^^ (aP.events_ &&& aE.events_))
          (aE.events_ ^^^ (aP.events_ &&& aE.events_))
          (q % aP.states_number_) (q / aP.states_number_) ||| nc))
        { st with f := f, c := qsetInsert q st.c } hrm hnd
      exact ih _ h1 h2 h3
theorem testBit_syncEvents_tables (ev0 ev1 : List BitArray) (sA sB : BitArray) (qx qy e : Nat) :
    (syncEvents ev0 ev1 (sA ^^^ (sA &&& sB)) (sB ^^^ (sA &&& sB)) qx qy).testBit e =
      (((vecGet ev0 qx).testBit e && (vecGet ev1 qy).testBit e) ||
        ((vecGet ev0 qx).testBit e && (sA.testBit e && !sB.testBit e)) ||
        ((vecGet ev1 qy).testBit e && (sB.testBit e && !sA.testBit e))) := by
  unfold syncEvents
  simp only [Nat.testBit_or, Nat.testBit_and, Nat.testBit_xor]
  cases (vecGet ev0 qx).testBit e <;> cases (vecGet ev1 qy).testBit e <;>
    cases sA.testBit e <;> cases sB.testBit e <;> rfl

/-- Under well-formedness and determinism the targets found by the three-way scan are the
product steps of spec 3. -/
theorem scanEdge_step {A B : DESystem} (hA : WellFormed A) (hB : WellFormed B)
    (dA : Deterministic A) (dB : Deterministic B) {q : Nat}
    (hq : q < A.states_number_ * B.states_number_) (q' e : Nat) :
    (q < A.states_number_ * B.states_number_ ∧ q' < A.states_number_ * B.states_number_ ∧
      enabledAt A B q e = true ∧
      scanTarget A B (q % A.states_number_) (q / A.states_number_) e = (q' : Int)) ↔
    productStep A B q e q' = true := by
  obtain ⟨hx, hy⟩ := decode_lt hq
  unfold productStep
  simp only [Bool.and_eq_true, Bool.or_eq_true, decide_eq_true_eq, Bool.not_eq_true']
  constructor
  · rintro ⟨-, hq', hen, ht⟩
    refine ⟨hq', ?_⟩
    rcases scanTarget_cases hA hB hq hen with
      ⟨hp, hs, jx, jy, hjx, hjy, hjx', hjy', ht'⟩ | ⟨hp, hs, jx, hjx, hjx', ht'⟩ |
      ⟨hp, hs, jy, hjy, hjy', ht'⟩
    · have hnat : jy * A.states_number_ + jx = q' := by
        rw [ht'] at ht; exact_mod_cast ht
      subst hnat
      rw [(encode_decode hjx').1, (encode_decode hjx').2]
      exact Or.inl (Or.inl ⟨⟨⟨hp, hs⟩, (firstCol_some hjx).2⟩, (firstCol_some hjy).2⟩)
    · have hnat : q / A.states_number_ * A.states_number_ + jx = q' := by
        rw [ht'] at ht; exact_mod_cast ht
      subst hnat
      rw [(encode_decode hjx').1, (encode_decode hjx').2]
      exact Or.inl (Or.inr ⟨⟨⟨hp, hs⟩, (firstCol_some hjx).2⟩, rfl⟩)
    · have hnat : jy * A.states_number_ + q % A.states_number_ = q' := by
        rw [ht'] at ht; exact_mod_cast ht
      subst hnat
      rw [(encode_decode hx).1, (encode_decode hx).2]
      exact Or.inr ⟨⟨⟨hp, hs⟩, (firstCol_some hjy).2⟩, rfl⟩
  · rintro ⟨hq', hstep⟩
    obtain ⟨hx', hy'⟩ := decode_lt hq'
    have hen : enabledAt A B q e = true := by
      unfold enabledAt
      simp only [Bool.and_eq_true, Bool.or_eq_true, Bool.not_eq_true']
      rcases hstep with (⟨⟨⟨hp, hs⟩, ha⟩, hb⟩ | ⟨⟨⟨hp, hs⟩, ha⟩, -⟩) | ⟨⟨⟨hp, hs⟩, hb⟩, -⟩
      · exact Or.inl (Or.inl ⟨(hA.out_iff hx).mpr ⟨_, hx', ha⟩, (hB.out_iff hy).mpr ⟨_, hy', hb⟩⟩)
      · exact Or.inl (Or.inr ⟨(hA.out_iff hx).mpr ⟨_, hx', ha⟩, hp, hs⟩)
      · exact Or.inr ⟨(hB.out_iff hy).mpr ⟨_, hy', hb⟩, hs, hp⟩
    refine ⟨hq, hq', hen, ?_⟩
    rcases scanTarget_cases hA hB hq hen with
      ⟨hp, hs, jx, jy, hjx, hjy, hjx', hjy', ht'⟩ | ⟨hp, hs, jx, hjx, hjx', ht'⟩ |
      ⟨hp, hs, jy, hjy, hjy', ht'⟩
    · rcases hstep with (⟨⟨⟨-, -⟩, ha⟩, hb⟩ | ⟨⟨⟨-, hs'⟩, -⟩, -⟩) | ⟨⟨⟨hp', -⟩, -⟩, -⟩
      · have h1 := firstCol_eq_of_det hA dA hx hjx hx' ha
        have h2 := firstCol_eq_of_det hB dB hy hjy hy' hb
        rw [ht', ← h1, ← h2]
        exact_mod_cast decode_encode A.states_number_ q'
      · rw [hs] at hs'; exact absurd hs' (by decide)
      · rw [hp] at hp'; exact absurd hp' (by decide)
    · rcases hstep with (⟨⟨⟨-, hs'⟩, -⟩, -⟩ | ⟨⟨⟨-, -⟩, ha⟩, hqy⟩) | ⟨⟨⟨hp', -⟩, -⟩, -⟩
      · rw [hs] at hs'; exact absurd hs' (by decide)
      · have h1 := firstCol_eq_of_det hA dA hx hjx hx' ha
        rw [ht', ← h1, ← hqy]
        exact_mod_cast decode_encode A.states_number_ q'
      · rw [hp] at hp'; exact absurd hp' (by decide)
    · rcases hstep with (⟨⟨⟨hp', -⟩, -⟩, -⟩ | ⟨⟨⟨hp', -⟩, -⟩, -⟩) | ⟨⟨⟨-, -⟩, hb⟩, hqx⟩
      · rw [hp] at hp'; exact absurd hp' (by decide)
      · rw [hp] at hp'; exact absurd hp' (by decide)
      · have h2 := firstCol_eq_of_det hB dB hy hjy hy' hb
        rw [ht', ← h2, ← hqx]
        exact_mod_cast decode_encode A.states_number_ q'
/-- Under well-formedness and determinism, and for event ids below 64, the labelled edges of
`op::Synchronize(A, B)` are the product steps of spec 3. -/
theorem Synchronize_edge_step {A B : DESystem} (hA : WellFormed A) (hB : WellFormed B)
    (dA : Deterministic A) (dB : Deterministic B) (wA : EventsInWord A) (wB : EventsInWord B)
    {q : Nat} (hq : q < A.states_number_ * B.states_number_) (q' e : Nat) :
    ((Synchronize A B).graph_.coeff q q').testBit e = true ↔ productStep A B q e q' = true := by
  rw [Synchronize_edge_iff hA hB wA wB]
  exact scanEdge_step hA hB dA dB hq q' e

theorem Synchronize_eventsInWord {A B : DESystem} (wA : EventsInWord A) (wB : EventsInWord B) :
    EventsInWord (Synchronize A B) :=
  Nat.or_lt_two_pow wA wB

theorem Synchronize_inv_states_events (A B : DESystem) :
    (Synchronize A B).inv_states_events_ =
      (List.range (A.states_number_ * B.states_number_)).map (fun q =>
        syncEvents A.inv_states_events_ B.inv_states_events_
          (A.events_ ^^^ (A.events_ &&& B.events_)) (B.events_ ^^^ (A.events_ &&& B.events_))
          (q % A.states_number_) (q / A.states_number_)) := rfl

theorem Synchronize_events (A B : DESystem) :
    (Synchronize A B).events_ = A.events_ ||| B.events_ := rfl

theorem Synchronize_rows (A B : DESystem) :
    (Synchronize A B).graph_.rows = A.states_number_ * B.states_number_ := rfl

theorem Synchronize_cols (A B : DESystem) :
    (Synchronize A B).graph_.cols = A.states_number_ * B.states_number_ := rfl

/-- For event ids below 64 the cached outgoing events of the product are the labels leaving
the state. -/
theorem Synchronize_out_cache {A B : DESystem} (hA : WellFormed A) (hB : WellFormed B)
    (wA : EventsInWord A) (wB : EventsInWord B) {q : Nat}
    (hq : q < A.states_number_ * B.states_number_) :
    vecGet (Synchronize A B).states_events_ q = rowUnion (Synchronize A B).graph_ q := by
  apply Nat.eq_of_testBit_eq
  intro e
  rw [Bool.eq_iff_iff, Synchronize_states_events_testBit A B q e hq, testBit_rowUnion,
    Synchronize_cols]
  constructor
  · intro hen
    obtain ⟨k, hk, hs⟩ := scanTarget_nat hA hB hq hen
    exact ⟨k, hk, (Synchronize_edge_iff hA hB wA wB q k e).mpr ⟨hq, hk, hen, hs⟩⟩
  · rintro ⟨j, -, hj⟩
    exact ((Synchronize_edge_iff hA hB wA wB q j e).mp hj).2.2.1

/-- For event ids below 64 the cached incoming events of the product are the labels
entering the state. -/
theorem Synchronize_in_cache {A B : DESystem} (hA : WellFormed A) (hB : WellFormed B)
    (dA : Deterministic A) (dB : Deterministic B) (wA : EventsInWord A) (wB : EventsInWord B)
    {q : Nat}
    (hq : q < A.states_number_ * B.states_number_) :
    vecGet (Synchronize A B).inv_states_events_ q = colUnion (Synchronize A B).graph_ q := by
  obtain ⟨hx, hy⟩ := decode_lt hq
  apply Nat.eq_of_testBit_eq
  intro e
  rw [Bool.eq_iff_iff, Synchronize_inv_states_events, vecGet_map_range _ _ _ hq,
    testBit_syncEvents_tables, testBit_colUnion, Synchronize_rows]
  simp only [Bool.and_eq_true, Bool.or_eq_true, Bool.not_eq_true']
  constructor
  · rintro ((⟨ha, hb⟩ | ⟨ha, hp, hs⟩) | ⟨hb, hs, hp⟩)
    · obtain ⟨ix, hix, hxe⟩ := (hA.in_iff hx).mp ha
      obtain ⟨iy, hiy, hye⟩ := (hB.in_iff hy).mp hb
      refine ⟨iy * A.states_number_ + ix, encode_lt hix hiy, ?_⟩
      rw [Synchronize_edge_step hA hB dA dB wA wB (encode_lt hix hiy)]
      unfold productStep
      rw [(encode_decode hix).1, (encode_decode hix).2]
      simp only [Bool.and_eq_true, Bool.or_eq_true, decide_eq_true_eq, Bool.not_eq_true']
      exact ⟨hq, Or.inl (Or.inl ⟨⟨⟨hA.label_mem hix hx hxe, hB.label_mem hiy hy hye⟩, hxe⟩, hye⟩)⟩
    · obtain ⟨ix, hix, hxe⟩ := (hA.in_iff hx).mp ha
      refine ⟨q / A.states_number_ * A.states_number_ + ix, encode_lt hix hy, ?_⟩
      rw [Synchronize_edge_step hA hB dA dB wA wB (encode_lt hix hy)]
      unfold productStep
      rw [(encode_decode hix).1, (encode_decode hix).2]
      simp only [Bool.and_eq_true, Bool.or_eq_true, decide_eq_true_eq, Bool.not_eq_true']
      exact ⟨hq, Or.inl (Or.inr ⟨⟨⟨hp, hs⟩, hxe⟩, trivial⟩)⟩
    · obtain ⟨iy, hiy, hye⟩ := (hB.in_iff hy).mp hb
      refine ⟨iy * A.states_number_ + q % A.states_number_, encode_lt hx hiy, ?_⟩
      rw [Synchronize_edge_step hA hB dA dB wA wB (encode_lt hx hiy)]
      unfold productStep
      rw [(encode_decode hx).1, (encode_decode hx).2]
      simp only [Bool.and_eq_true, Bool.or_eq_true, decide_eq_true_eq, Bool.not_eq_true']
      exact ⟨hq, Or.inr ⟨⟨⟨hp, hs⟩, hye⟩, trivial⟩⟩
  · rintro ⟨p, hp, hedge⟩
    obtain ⟨hpx, hpy⟩ := decode_lt hp
    rw [Synchronize_edge_step hA hB dA dB wA wB hp] at hedge
    unfold productStep at hedge
    simp only [Bool.and_eq_true, Bool.or_eq_true, decide_eq_true_eq, Bool.not_eq_true'] at hedge
    rcases hedge.2 with (⟨⟨⟨-, -⟩, ha⟩, hb⟩ | ⟨⟨⟨hpA, hsB⟩, ha⟩, -⟩) | ⟨⟨⟨hpA, hsB⟩, hb⟩, -⟩
    · exact Or.inl (Or.inl ⟨(hA.in_iff hx).mpr ⟨_, hpx, ha⟩, (hB.in_iff hy).mpr ⟨_, hpy, hb⟩⟩)
    · exact Or.inl (Or.inr ⟨(hA.in_iff hx).mpr ⟨_, hpx, ha⟩, hpA, hsB⟩)
    · exact Or.inr ⟨(hB.in_iff hy).mpr ⟨_, hpy, hb⟩, hsB, hpA⟩

theorem Synchronize_label_mem {A B : DESystem} (hA : WellFormed A) (hB : WellFormed B)
    (wA : EventsInWord A) (wB : EventsInWord B)
    {q j e : Nat} (h : ((Synchronize A B).graph_.coeff q j).testBit e = true) :
    (A.events_ ||| B.events_).testBit e = true := by
  obtain ⟨hq, -, hen, -⟩ := (Synchronize_edge_iff hA hB wA wB q j e).mp h
  rw [Nat.testBit_or]
  rcases enabledAt_cases hA hB hq hen with ⟨hp, -, -, -⟩ | ⟨hp, -, -⟩ | ⟨-, hs, -⟩
  · rw [hp]; rfl
  · rw [hp]; rfl
  · rw [hs]; simp

/-- The product of well-formed deterministic automata with event ids below 64 is
well-formed. -/
theorem Synchronize_wellFormed {A B : DESystem} (hA : WellFormed A) (hB : WellFormed B)
    (dA : Deterministic A) (dB : Deterministic B) (wA : EventsInWord A) (wB : EventsInWord B) :
    WellFormed (Synchronize A B) := by
  refine ⟨encode_lt hA.1 hB.1, ?_, rfl, rfl, ?_, ?_, ?_⟩
  · intro m hm
    obtain ⟨s0, hs0, s1, hs1, rfl⟩ := (Synchronize_marked A B m).mp hm
    exact encode_lt (hA.2.1 s0 hs0) (hB.2.1 s1 hs1)
  · intro i _ j _
    apply Nat.eq_of_testBit_eq
    intro e
    rw [Nat.testBit_and, Synchronize_events]
    cases h : ((Synchronize A B).graph_.coeff i j).testBit e
    · rfl
    · rw [Synchronize_label_mem hA hB wA wB h]; rfl
  · intro i hi
    exact Synchronize_out_cache hA hB wA wB hi
  · intro j hj
    exact Synchronize_in_cache hA hB dA dB wA wB hj

/-- For event ids below 64 the product built by `op::Synchronize` is deterministic. -/
theorem Synchronize_det {A B : DESystem} (hA : WellFormed A) (hB : WellFormed B)
    (wA : EventsInWord A) (wB : EventsInWord B) : Deterministic (Synchronize A B) := by
  intro i _ j _ k _ hjk
  apply Nat.eq_of_testBit_eq
  intro e
  rw [Nat.testBit_and, Nat.zero_testBit]
  cases hj : ((Synchronize A B).graph_.coeff i j).testBit e
  · rfl
  · cases hk : ((Synchronize A B).graph_.coeff i k).testBit e
    · rfl
    · exfalso
      rw [Synchronize_edge_iff hA hB wA wB] at hj hk
      have := hj.2.2.2.symm.trans hk.2.2.2
      exact hjk (by exact_mod_cast this)
/-- Caches of the full product for event ids below 64: in the automaton returned by
`op::Synchronize(A, B)`, for every state `q`, `states_events_[q]` is the union over `j` of
`G[q][j]` and `inv_states_events_[q]` is the union over `i` of `G[i][q]`. -/
theorem Synchronize_caches (A B : DESystem) (hA : WellFormed A) (hB : WellFormed B)
    (dA : Deterministic A) (dB : Deterministic B) (wA : EventsInWord A) (wB : EventsInWord B)
    (q : cldes_size_t) (hq : q < (Synchronize A B).states_number_) :
    vecGet (Synchronize A B).states_events_ q = rowUnion (Synchronize A B).graph_ q ∧
    vecGet (Synchronize A B).inv_states_events_ q = colUnion (Synchronize A B).graph_ q ∧
    (∀ e : ScalarType, (vecGet (Synchronize A B).states_events_ q).testBit e = true ↔
      ∃ j < (Synchronize A B).states_number_,
        ((Synchronize A B).graph_.coeff q j).testBit e = true) ∧
    (∀ e : ScalarType, (vecGet (Synchronize A B).inv_states_events_ q).testBit e = true ↔
      ∃ i < (Synchronize A B).states_number_,
        ((Synchronize A B).graph_.coeff i q).testBit e = true) := by
  have h1 := Synchronize_out_cache hA hB wA wB hq
  have h2 := Synchronize_in_cache hA hB dA dB wA wB hq
  refine ⟨h1, h2, fun e => ?_, fun e => ?_⟩
  · rw [h1, testBit_rowUnion]; rfl
  · rw [h2, testBit_colUnion]; rfl

/-- The caches of the full product below 64 event ids, on the plant and the specification of
the supervisor test, at the product state `3`. -/
theorem Synchronize_caches_witness :
    vecGet (Synchronize testPlant testSpec).states_events_ 3 =
        rowUnion (Synchronize testPlant testSpec).graph_ 3 ∧
    vecGet (Synchronize testPlant testSpec).inv_states_events_ 3 =
        colUnion (Synchronize testPlant testSpec).graph_ 3 :=
  ⟨(Synchronize_caches testPlant testSpec (by decide!) (by decide!) (by decide!) (by decide!)
      (by decide!) (by decide!) 3 (by decide!)).1,
    (Synchronize_caches testPlant testSpec (by decide!) (by decide!) (by decide!) (by decide!)
      (by decide!) (by decide!) 3 (by decide!)).2.1⟩

/-- C20. The caches of the full product differ from the labels of the graph at an event id
of 64 or more. The plant `wideChain` (`0 -70-> 1`) and the one-state specification are
well-formed and deterministic; in `op::Synchronize(wideChain, idleSpec)` the caches are
computed from the caches of the operands and hold the event `70` (`states_events_[0]` and
`inv_states_events_[1]`), while the only edge `G[0][1]` is stored with the label
`1ul << 70`, which is bit `6`: the union of row `0` and the union of column `1` are the
event `6`. -/
theorem Synchronize_wide_caches :
    WellFormed wideChain ∧ Deterministic wideChain ∧
    WellFormed idleSpec ∧ Deterministic idleSpec ∧
    vecGet (Synchronize wideChain idleSpec).states_events_ 0 = 2 ^ 70 ∧
    rowUnion (Synchronize wideChain idleSpec).graph_ 0 = 2 ^ 6 ∧
    vecGet (Synchronize wideChain idleSpec).inv_states_events_ 1 = 2 ^ 70 ∧
    colUnion (Synchronize wideChain idleSpec).graph_ 1 = 2 ^ 6 ∧
    ¬ (∀ q < (Synchronize wideChain idleSpec).states_number_,
      vecGet (Synchronize wideChain idleSpec).states_events_ q =
          rowUnion (Synchronize wideChain idleSpec).graph_ q ∧
      vecGet (Synchronize wideChain idleSpec).inv_states_events_ q =
          colUnion (Synchronize wideChain idleSpec).graph_ q) := by
  refine ⟨by decide!, by decide!, by decide!, by decide!, by decide!, by decide!, by decide!,
    by decide!, by decide!⟩

theorem nodup_stdSetInsert {x : Nat} {s : List Nat} (h : s.Nodup) : (stdSetInsert x s).Nodup := by
  unfold stdSetInsert
  by_cases hx : x ∈ s
  · rw [if_pos hx]; exact h
  · rw [if_neg hx]
    exact ((List.perm_orderedInsert _ x s).nodup_iff).mpr (List.nodup_cons.mpr ⟨hx, h⟩)

theorem nodup_syncMarked (keep : Nat → Bool) (n0 : Nat) (m0 m1 init : List Nat)
    (h : init.Nodup) : (syncMarked keep n0 m0 m1 init).Nodup := by
  unfold syncMarked
  have inner : ∀ (s0 : Nat) (l acc : List Nat), acc.Nodup →
      (l.foldl (fun acc1 s1 =>
        if keep (s1 * n0 + s0) then stdSetInsert (s1 * n0 + s0) acc1 else acc1) acc).Nodup := by
    intro s0 l
    induction l with
    | nil => intro acc hacc; exact hacc
    | cons a l ih =>
      intro acc hacc
      rw [List.foldl_cons]
      apply ih
      by_cases hk : keep (a * n0 + s0) = true
      · rw [if_pos hk]; exact nodup_stdSetInsert hacc
      · rw [if_neg hk]; exact hacc
  induction m0 generalizing init with
  | nil => exact h
  | cons a l ih =>
    rw [List.foldl_cons]
    exact ih _ (inner a m1 init h)

theorem Synchronize_marked_nodup (A B : DESystem) : (Synchronize A B).marked_states_.Nodup :=
  nodup_syncMarked (fun _ => true) A.states_number_ A.marked_states_ B.marked_states_ []
    List.nodup_nil

theorem Synchronize_marked_length (A B : DESystem)
    (hA : ∀ m ∈ A.marked_states_, m < A.states_number_)
    (hndA : A.marked_states_.Nodup) (hndB : B.marked_states_.Nodup) :
    (Synchronize A B).marked_states_.length =
      A.marked_states_.length * B.marked_states_.length := by
  have hnd : (Synchronize A B).marked_states_.Nodup := Synchronize_marked_nodup A B
  have himg : (Synchronize A B).marked_states_.toFinset =
      (A.marked_states_.toFinset ×ˢ B.marked_states_.toFinset).image
        (fun p => p.2 * A.states_number_ + p.1) := by
    ext m
    rw [List.mem_toFinset, Synchronize_marked, Finset.mem_image]
    constructor
    · rintro ⟨s0, hs0, s1, hs1, rfl⟩
      exact ⟨(s0, s1), Finset.mem_product.mpr
        ⟨List.mem_toFinset.mpr hs0, List.mem_toFinset.mpr hs1⟩, rfl⟩
    · rintro ⟨p, hp, rfl⟩
      obtain ⟨h0, h1⟩ := Finset.mem_product.mp hp
      exact ⟨p.1, List.mem_toFinset.mp h0, p.2, List.mem_toFinset.mp h1, rfl⟩
  have hinj : Set.InjOn (fun p : Nat × Nat => p.2 * A.states_number_ + p.1)
      (A.marked_states_.toFinset ×ˢ B.marked_states_.toFinset : Finset (Nat × Nat)) := by
    intro p hp p' hp' heq
    have h0 := hA p.1 (List.mem_toFinset.mp (Finset.mem_product.mp (Finset.mem_coe.mp hp)).1)
    have h0' := hA p'.1 (List.mem_toFinset.mp (Finset.mem_product.mp (Finset.mem_coe.mp hp')).1)
    obtain ⟨e1, e2⟩ := encode_inj h0 h0' heq
    exact Prod.ext e1 e2
  rw [← List.toFinset_card_of_nodup hnd, himg, Finset.card_image_of_injOn hinj,
    Finset.card_product, List.toFinset_card_of_nodup hndA, List.toFinset_card_of_nodup hndB]

/-- C12. Product header: for automata whose marked states are in range (and, being kept in
a `std::set`, listed without duplicate), `op::Synchronize(A, B)` has `nA * nB` states, the
initial state `q0B * nA + q0A`, and its marked set is exactly
`{ qy * nA + qx : qx ∈ M_A, qy ∈ M_B }`, of cardinality `|M_A| * |M_B|`; the proxy
constructor sets the same initial state and marked set. -/
theorem Synchronize_header (A B : DESystem)
    (hA : ∀ m ∈ A.marked_states_, m < A.states_number_)
    (hndA : A.marked_states_.Nodup) (hndB : B.marked_states_.Nodup) :
    (Synchronize A B).states_number_ = A.states_number_ * B.states_number_ ∧
    (Synchronize A B).init_state_ = B.init_state_ * A.states_number_ + A.init_state_ ∧
    (∀ m, m ∈ (Synchronize A B).marked_states_ ↔
      ∃ qx ∈ A.marked_states_, ∃ qy ∈ B.marked_states_, m = qy * A.states_number_ + qx) ∧
    (Synchronize A B).marked_states_.Nodup ∧
    (Synchronize A B).marked_states_.length =
      A.marked_states_.length * B.marked_states_.length ∧
    (SuperProxy.members A B).init_state_ = (Synchronize A B).init_state_ ∧
    (SuperProxy.members A B).marked_states_ = (Synchronize A B).marked_states_ :=
  ⟨rfl, rfl, Synchronize_marked A B, Synchronize_marked_nodup A B,
    Synchronize_marked_length A B hA hndA hndB, rfl, rfl⟩

/-- Witness of C12 on the supervisor test: plant with 4 states and specification with 2
states give a product of 8 states with `1 * 2` marked states. -/
theorem Synchronize_header_witness :
    (Synchronize testPlant testSpec).states_number_ = 8 ∧
    (Synchronize testPlant testSpec).marked_states_.length =
      testPlant.marked_states_.length * testSpec.marked_states_.length :=
  ⟨by decide!, (Synchronize_header testPlant testSpec (by decide!) (by decide!)
    (by decide!)).2.2.2.2.1⟩
/-- C13. Index encoding round trip: for `qx < nA` the index `q = qy * nA + qx` decodes as
`q % nA = qx` and `q / nA = qy`; every `q` is re-encoded from its decoding; the encoding
maps `[0, nA) × [0, nB)` into `[0, nA * nB)` and the decoding maps back, so it is a
bijection, with the left operand's index varying fastest. -/
theorem productIndex_roundtrip (nA nB : cldes_size_t) :
    (∀ qx qy, qx < nA → productDecode nA (productIndex nA qx qy) = (qx, qy)) ∧
    (∀ q, productIndex nA (productDecode nA q).1 (productDecode nA q).2 = q) ∧
    (∀ qx qy, qx < nA → qy < nB → productIndex nA qx qy < nA * nB) ∧
    (∀ q, q < nA * nB → (productDecode nA q).1 < nA ∧ (productDecode nA q).2 < nB) ∧
    (∀ A B : DESystem, (Synchronize A B).init_state_ =
      productIndex A.states_number_ A.init_state_ B.init_state_) ∧
    (List.range 6).map (productDecode 3) = [(0, 0), (1, 0), (2, 0), (0, 1), (1, 1), (2, 1)] := by
  refine ⟨?_, ?_, ?_, ?_, fun _ _ => rfl, by decide⟩
  · intro qx qy hx
    unfold productDecode productIndex
    rw [(encode_decode hx).1, (encode_decode hx).2]
  · intro q
    exact decode_encode nA q
  · intro qx qy hx hy
    exact encode_lt hx hy
  · intro q hq
    exact decode_lt hq

/-- Witness of C13 for `nA = 3`, `nB = 2`: the index `4` is the pair `(1, 1)`. -/
theorem productIndex_roundtrip_witness :
    productDecode 3 (productIndex 3 1 1) = (1, 1) ∧ productIndex 3 1 1 = 4 ∧
    productIndex 3 1 1 < 3 * 2 :=
  ⟨(productIndex_roundtrip 3 2).1 1 1 (by decide), by decide,
    (productIndex_roundtrip 3 2).2.2.1 1 1 (by decide) (by decide)⟩

/-- C14. Alphabet partition: the sets `in_both = Σ_A & Σ_B`, `only_in_0 = Σ_A ^ in_both` and
`only_in_1 = Σ_B ^ in_both` that `op::Synchronize` and the proxy constructor compute satisfy
`only_in_0 = Σ_A \ Σ_B` and `only_in_1 = Σ_B \ Σ_A`, are pairwise disjoint, and their union
is the alphabet `Σ_A ∪ Σ_B` stored in the product; on scenario S2 they are `{2}`, `{0}`,
`{1}`. -/
theorem Synchronize_alphabet_partition (A B : DESystem) :
    (SuperProxy.members A B).only_in_plant_ = A.events_ ^^^ (A.events_ &&& B.events_) ∧
    (SuperProxy.members A B).only_in_spec_ = B.events_ ^^^ (A.events_ &&& B.events_) ∧
    (synthVirtualSys A B []).only_in_0_ = A.events_ ^^^ (A.events_ &&& B.events_) ∧
    (synthVirtualSys A B []).only_in_1_ = B.events_ ^^^ (A.events_ &&& B.events_) ∧
    (∀ e : ScalarType, (A.events_ ^^^ (A.events_ &&& B.events_)).testBit e =
      (A.events_.testBit e && !B.events_.testBit e)) ∧
    (∀ e : ScalarType, (B.events_ ^^^ (A.events_ &&& B.events_)).testBit e =
      (B.events_.testBit e && !A.events_.testBit e)) ∧
    (A.events_ &&& B.events_) &&& (A.events_ ^^^ (A.events_ &&& B.events_)) = 0 ∧
    (A.events_ &&& B.events_) &&& (B.events_ ^^^ (A.events_ &&& B.events_)) = 0 ∧
    (A.events_ ^^^ (A.events_ &&& B.events_)) &&& (B.events_ ^^^ (A.events_ &&& B.events_)) = 0 ∧
    (A.events_ &&& B.events_) ||| (A.events_ ^^^ (A.events_ &&& B.events_)) |||
      (B.events_ ^^^ (A.events_ &&& B.events_)) = (Synchronize A B).events_ ∧
    (Synchronize A B).events_ = A.events_ ||| B.events_ ∧
    (SuperProxy.members A B).events_ = A.events_ ||| B.events_ ∧
    alphabetSysA.events_ = 5 ∧ alphabetSysB.events_ = 6 ∧
    alphabetSysA.events_ &&& alphabetSysB.events_ = 4 ∧
    (SuperProxy.members alphabetSysA alphabetSysB).only_in_plant_ = 1 ∧
    (SuperProxy.members alphabetSysA alphabetSysB).only_in_spec_ = 2 := by
  refine ⟨rfl, rfl, rfl, rfl, ?_, ?_, ?_, ?_, ?_, ?_, rfl, rfl, by decide!, by decide!,
    by decide!, by decide!, by decide!⟩
  · intro e
    simp only [Nat.testBit_xor, Nat.testBit_and]
    cases A.events_.testBit e <;> cases B.events_.testBit e <;> rfl
  · intro e
    simp only [Nat.testBit_xor, Nat.testBit_and]
    cases A.events_.testBit e <;> cases B.events_.testBit e <;> rfl
  · apply Nat.eq_of_testBit_eq
    intro e
    simp only [Nat.testBit_xor, Nat.testBit_and, Nat.zero_testBit]
    cases A.events_.testBit e <;> cases B.events_.testBit e <;> rfl
  · apply Nat.eq_of_testBit_eq
    intro e
    simp only [Nat.testBit_xor, Nat.testBit_and, Nat.zero_testBit]
    cases A.events_.testBit e <;> cases B.events_.testBit e <;> rfl
  · apply Nat.eq_of_testBit_eq
    intro e
    simp only [Nat.testBit_xor, Nat.testBit_and, Nat.zero_testBit]
    cases A.events_.testBit e <;> cases B.events_.testBit e <;> rfl
  · rw [Synchronize_events]
    apply Nat.eq_of_testBit_eq
    intro e
    simp only [Nat.testBit_xor, Nat.testBit_and, Nat.testBit_or]
    cases A.events_.testBit e <;> cases B.events_.testBit e <;> rfl
theorem productStep_iff (A B : DESystem) (q e q' : Nat) :
    productStep A B q e q' = true ↔
      q' < A.states_number_ * B.states_number_ ∧
      ((A.events_.testBit e = true ∧ B.events_.testBit e = true ∧
          (A.graph_.coeff (q % A.states_number_) (q' % A.states_number_)).testBit e = true ∧
          (B.graph_.coeff (q / A.states_number_) (q' / A.states_number_)).testBit e = true) ∨
        (A.events_.testBit e = true ∧ B.events_.testBit e = false ∧
          (A.graph_.coeff (q % A.states_number_) (q' % A.states_number_)).testBit e = true ∧
          q' / A.states_number_ = q / A.states_number_) ∨
        (A.events_.testBit e = false ∧ B.events_.testBit e = true ∧
          (B.graph_.coeff (q / A.states_number_) (q' / A.states_number_)).testBit e = true ∧
          q' % A.states_number_ = q % A.states_number_)) := by
  unfold productStep
  simp only [Bool.and_eq_true, Bool.or_eq_true, decide_eq_true_eq, Bool.not_eq_true']
  tauto

theorem mod_mul_eq_iff (n k q q' : Nat) :
    q' % (n * k) = q % (n * k) ↔ q' % n = q % n ∧ q' / n % k = q / n % k := by
  constructor
  · intro h
    constructor
    · rw [← Nat.mod_mul_right_mod q' n k, h, Nat.mod_mul_right_mod]
    · rw [← Nat.mod_mul_right_div_self, h, Nat.mod_mul_right_div_self]
  · rintro ⟨h1, h2⟩
    rw [Nat.mod_mul, Nat.mod_mul, h1, h2]

theorem div_eq_iff_split (n k q q' : Nat) :
    q' / n = q / n ↔ q' / n % k = q / n % k ∧ q' / (n * k) = q / (n * k) := by
  rw [← Nat.div_div_eq_div_mul, ← Nat.div_div_eq_div_mul]
  constructor
  · intro h
    rw [h]
    exact ⟨rfl, rfl⟩
  · rintro ⟨h1, h2⟩
    rw [← Nat.div_add_mod (q' / n) k, ← Nat.div_add_mod (q / n) k, h1, h2]

theorem Synchronize_assoc_edge {A B C : DESystem} (hA : WellFormed A) (hB : WellFormed B)
    (hC : WellFormed C) (dA : Deterministic A) (dB : Deterministic B) (dC : Deterministic C)
    (wA : EventsInWord A) (wB : EventsInWord B) (wC : EventsInWord C) (q q' e : Nat) :
    ((Synchronize (Synchronize A B) C).graph_.coeff q q').testBit e =
      ((Synchronize A (Synchronize B C)).graph_.coeff q q').testBit e := by
  rw [Bool.eq_iff_iff]
  by_cases hq : q < A.states_number_ * B.states_number_ * C.states_number_
  · have hAB := Synchronize_wellFormed hA hB dA dB wA wB
    have hBC := Synchronize_wellFormed hB hC dB dC wB wC
    have wAB := Synchronize_eventsInWord wA wB
    have wBC := Synchronize_eventsInWord wB wC
    have hq2 : q < A.states_number_ * (B.states_number_ * C.states_number_) := by
      rw [← Nat.mul_assoc]; exact hq
    have hpos : 0 < A.states_number_ * B.states_number_ := by
      rcases Nat.eq_zero_or_pos (A.states_number_ * B.states_number_) with h0 | h0
      · rw [h0, Nat.zero_mul] at hq; exact absurd hq (Nat.not_lt_zero _)
      · exact h0
    have hqm : q % (A.states_number_ * B.states_number_) <
        A.states_number_ * B.states_number_ := Nat.mod_lt _ hpos
    have hqd : q / A.states_number_ < B.states_number_ * C.states_number_ :=
      Nat.div_lt_of_lt_mul hq2
    rw [Synchronize_edge_step hAB hC (Synchronize_det hA hB wA wB) dC wAB wC
        (by rw [Synchronize_states_number]; exact hq),
      Synchronize_edge_step hA hBC dA (Synchronize_det hB hC wB wC) wA wBC
        (by rw [Synchronize_states_number]; exact hq2),
      productStep_iff, productStep_iff]
    simp only [Synchronize_states_number, Synchronize_events, Nat.testBit_or]
    rw [Synchronize_edge_step hA hB dA dB wA wB hqm,
      Synchronize_edge_step hB hC dB dC wB wC hqd,
      productStep_iff, productStep_iff]
    simp only [Nat.mod_mul_right_mod, Nat.mod_mul_right_div_self, Nat.div_div_eq_div_mul,
      mod_mul_eq_iff, div_eq_iff_split A.states_number_ B.states_number_ q q']
    have hm' : q' % (A.states_number_ * B.states_number_) <
        A.states_number_ * B.states_number_ := Nat.mod_lt _ hpos
    have hd' : q' < A.states_number_ * (B.states_number_ * C.states_number_) →
        q' / A.states_number_ < B.states_number_ * C.states_number_ :=
      fun h => Nat.div_lt_of_lt_mul h
    have hassoc : A.states_number_ * B.states_number_ * C.states_number_ =
        A.states_number_ * (B.states_number_ * C.states_number_) := Nat.mul_assoc _ _ _
    rw [hassoc]
    cases hea : A.events_.testBit e <;> cases heb : B.events_.testBit e <;>
      cases hec : C.events_.testBit e <;>
      simp only [Bool.or_true, Bool.or_false, Bool.true_or, Bool.false_or, true_and, false_and,
        and_false, or_false, false_or, Bool.false_eq_true, Bool.true_eq_false, and_true,
        hm'] <;> tauto
  · have h1 : ¬ ((Synchronize (Synchronize A B) C).graph_.coeff q q').testBit e = true := by
      rw [Synchronize_edge_bit_iff]
      exact fun h => hq h.1
    have h2 : ¬ ((Synchronize A (Synchronize B C)).graph_.coeff q q').testBit e = true := by
      rw [Synchronize_edge_bit_iff]
      intro h
      apply hq
      rw [Nat.mul_assoc]
      exact h.1
    exact ⟨fun h => absurd h h1, fun h => absurd h h2⟩
/-- Associativity of the product up to renaming for event ids below 64: for well-formed
deterministic `A`, `B` and `C`, the automata `op::Synchronize(op::Synchronize(A, B), C)` and
`op::Synchronize(A, op::Synchronize(B, C))` have the same state count `nA * nB * nC`; both
sides give the triple `(qa, qb, qc)` the index `qc * nA * nB + qb * nA + qa`, so the renaming
is the identity on indices, and under it the initial states coincide, the marked sets have
the same members, and every cell of the two graphs carries the same events. -/
theorem Synchronize_assoc (A B C : DESystem) (hA : WellFormed A) (hB : WellFormed B)
    (hC : WellFormed C) (dA : Deterministic A) (dB : Deterministic B) (dC : Deterministic C)
    (wA : EventsInWord A) (wB : EventsInWord B) (wC : EventsInWord C) :
    (Synchronize (Synchronize A B) C).states_number_ =
        A.states_number_ * B.states_number_ * C.states_number_ ∧
    (Synchronize A (Synchronize B C)).states_number_ =
        A.states_number_ * B.states_number_ * C.states_number_ ∧
    (∀ qa qb qc : cldes_size_t,
      productIndex (Synchronize A B).states_number_ (productIndex A.states_number_ qa qb) qc =
          qc * A.states_number_ * B.states_number_ + qb * A.states_number_ + qa ∧
      productIndex A.states_number_ qa (productIndex B.states_number_ qb qc) =
          qc * A.states_number_ * B.states_number_ + qb * A.states_number_ + qa) ∧
    (Synchronize (Synchronize A B) C).init_state_ =
        (Synchronize A (Synchronize B C)).init_state_ ∧
    (Synchronize (Synchronize A B) C).init_state_ =
        C.init_state_ * A.states_number_ * B.states_number_ +
          B.init_state_ * A.states_number_ + A.init_state_ ∧
    (∀ m, m ∈ (Synchronize (Synchronize A B) C).marked_states_ ↔
      m ∈ (Synchronize A (Synchronize B C)).marked_states_) ∧
    (∀ m, m ∈ (Synchronize (Synchronize A B) C).marked_states_ ↔
      ∃ qa ∈ A.marked_states_, ∃ qb ∈ B.marked_states_, ∃ qc ∈ C.marked_states_,
        m = qc * A.states_number_ * B.states_number_ + qb * A.states_number_ + qa) ∧
    (∀ (q q' : cldes_size_t) (e : ScalarType),
      ((Synchronize (Synchronize A B) C).graph_.coeff q q').testBit e =
        ((Synchronize A (Synchronize B C)).graph_.coeff q q').testBit e) ∧
    (∀ q q' : cldes_size_t,
      (Synchronize (Synchronize A B) C).graph_.coeff q q' =
        (Synchronize A (Synchronize B C)).graph_.coeff q q') := by
  have hL : ∀ m, m ∈ (Synchronize (Synchronize A B) C).marked_states_ ↔
      ∃ qa ∈ A.marked_states_, ∃ qb ∈ B.marked_states_, ∃ qc ∈ C.marked_states_,
        m = qc * A.states_number_ * B.states_number_ + qb * A.states_number_ + qa := by
    intro m
    rw [Synchronize_marked]
    constructor
    · rintro ⟨s0, hs0, qc, hqc, rfl⟩
      obtain ⟨qa, hqa, qb, hqb, rfl⟩ := (Synchronize_marked A B s0).mp hs0
      refine ⟨qa, hqa, qb, hqb, qc, hqc, ?_⟩
      rw [Synchronize_states_number]
      ring
    · rintro ⟨qa, hqa, qb, hqb, qc, hqc, rfl⟩
      refine ⟨qb * A.states_number_ + qa, (Synchronize_marked A B _).mpr
        ⟨qa, hqa, qb, hqb, rfl⟩, qc, hqc, ?_⟩
      rw [Synchronize_states_number]
      ring
  have hR : ∀ m, m ∈ (Synchronize A (Synchronize B C)).marked_states_ ↔
      ∃ qa ∈ A.marked_states_, ∃ qb ∈ B.marked_states_, ∃ qc ∈ C.marked_states_,
        m = qc * A.states_number_ * B.states_number_ + qb * A.states_number_ + qa := by
    intro m
    rw [Synchronize_marked]
    constructor
    · rintro ⟨qa, hqa, s1, hs1, rfl⟩
      obtain ⟨qb, hqb, qc, hqc, rfl⟩ := (Synchronize_marked B C s1).mp hs1
      refine ⟨qa, hqa, qb, hqb, qc, hqc, ?_⟩
      ring
    · rintro ⟨qa, hqa, qb, hqb, qc, hqc, rfl⟩
      refine ⟨qa, hqa, qc * B.states_number_ + qb, (Synchronize_marked B C _).mpr
        ⟨qb, hqb, qc, hqc, rfl⟩, ?_⟩
      ring
  refine ⟨?_, ?_, ?_, ?_, ?_, fun m => (hL m).trans (hR m).symm, hL,
    Synchronize_assoc_edge hA hB hC dA dB dC wA wB wC, ?_⟩
  · simp only [Synchronize_states_number]
  · simp only [Synchronize_states_number, Nat.mul_assoc]
  · intro qa qb qc
    unfold productIndex
    rw [Synchronize_states_number]
    constructor <;> ring
  · simp only [Synchronize_init, Synchronize_states_number]
    ring
  · simp only [Synchronize_init, Synchronize_states_number]
    ring
  · intro q q'
    apply Nat.eq_of_testBit_eq
    intro e
    exact Synchronize_assoc_edge hA hB hC dA dB dC wA wB wC q q' e

/-- The associativity below 64 event ids, on the automata of scenario S2 with the
supervisor-test specification as third operand: the cell `(0, 1)` of both bracketings
carries the same events. -/
theorem Synchronize_assoc_witness :
    (Synchronize (Synchronize alphabetSysA alphabetSysB) testSpec).graph_.coeff 0 1 =
      (Synchronize alphabetSysA (Synchronize alphabetSysB testSpec)).graph_.coeff 0 1 :=
  (Synchronize_assoc alphabetSysA alphabetSysB testSpec (by decide!) (by decide!) (by decide!)
    (by decide!) (by decide!) (by decide!) (by decide!) (by decide!)
    (by decide!)).2.2.2.2.2.2.2.2 0 1

/-- C11. The two bracketings differ at an event id of 64 or more. With `A = wideChain`
(`0 -70-> 1`) and `B = C` the one-state automaton without events, all well-formed and
deterministic: `op::Synchronize(A, B)` stores its edge `0 → 1` with the label `1ul << 70`,
bit `6`, and keeps the event `70` in the cache of state `0`. In
`op::Synchronize(op::Synchronize(A, B), C)` the event `70` is enabled at state `0`, the scan
of row `0` of the inner graph finds no cell with bit `70`, `xto` and `yto` stay `-1` and the
target is `-1 * 2 + -1 = -3`: no edge `0 → 1` is built. `op::Synchronize(A,
op::Synchronize(B, C))` scans the graph of `A`, finds the target `1` and builds the edge
`0 → 1`. -/
theorem Synchronize_wide_not_assoc :
    WellFormed wideChain ∧ Deterministic wideChain ∧
    WellFormed idleSpec ∧ Deterministic idleSpec ∧
    (Synchronize wideChain idleSpec).graph_.coeff 0 1 = 2 ^ 6 ∧
    enabledAt (Synchronize wideChain idleSpec) idleSpec 0 70 = true ∧
    scanTarget (Synchronize wideChain idleSpec) idleSpec 0 0 70 = -3 ∧
    (Synchronize (Synchronize wideChain idleSpec) idleSpec).graph_.coeff 0 1 = 0 ∧
    scanTarget wideChain (Synchronize idleSpec idleSpec) 0 0 70 = 1 ∧
    (Synchronize wideChain (Synchronize idleSpec idleSpec)).graph_.coeff 0 1 = 2 ^ 6 ∧
    ¬ (∀ q q' : cldes_size_t,
      (Synchronize (Synchronize wideChain idleSpec) idleSpec).graph_.coeff q q' =
        (Synchronize wideChain (Synchronize idleSpec idleSpec)).graph_.coeff q q') := by
  refine ⟨by decide!, by decide!, by decide!, by decide!, by decide!, by decide!, by decide!,
    by decide!, by decide!, by decide!, fun h => ?_⟩
  exact absurd (h 0 1) (by decide!)

theorem find?_filter_ne {κ : Type} [DecidableEq κ] (m : List (κ × Nat)) {k k' : κ}
    (h : k' ≠ k) :
    (m.filter (fun p => decide (p.1 ≠ k))).find? (fun p => decide (p.1 = k')) =
      m.find? (fun p => decide (p.1 = k')) := by
  induction m with
  | nil => rfl
  | cons a m ih =>
    by_cases ha : a.1 = k
    · have hak : ¬ a.1 = k' := fun h' => h (h'.symm.trans ha)
      rw [List.filter_cons_of_neg (by simpa using ha), List.find?_cons_of_neg _ (by simpa using hak)]
      exact ih
    · rw [List.filter_cons_of_pos (by simpa using ha)]
      by_cases hak : a.1 = k'
      · rw [List.find?_cons_of_pos _ (by simpa using hak),
          List.find?_cons_of_pos _ (by simpa using hak)]
      · rw [List.find?_cons_of_neg _ (by simpa using hak),
          List.find?_cons_of_neg _ (by simpa using hak)]
        exact ih

theorem qhashValue_qhashInsert {κ : Type} [DecidableEq κ] (k : κ) (v : Nat) (m : List (κ × Nat))
    (k' : κ) :
    qhashValue (qhashInsert k v m) k' = if k' = k then v else qhashValue m k' := by
  unfold qhashValue qhashInsert
  by_cases h : k' = k
  · subst h
    simp
  · have hne : ¬ k = k' := fun h' => h h'.symm
    rw [if_neg h, List.find?_cons_of_neg _ (by simpa using hne), find?_filter_ne m h]

theorem stage2StatesMap_value (V : List Nat) (hV : V.Nodup) (n : Nat) (hn : n ≤ V.length)
    (i : Nat) (hi : i < n) :
    qhashValue ((List.range n).foldl (fun m cst => qhashInsert (V.getD cst 0) cst m) [])
      (V.getD i 0) = i := by
  induction n with
  | zero => exact absurd hi (Nat.not_lt_zero _)
  | succ n ih =>
    rw [List.range_succ, List.foldl_append, List.foldl_cons, List.foldl_nil,
      qhashValue_qhashInsert]
    by_cases h : i = n
    · subst h
      rw [if_pos rfl]
    · have hin : i < n := by omega
      have hne : V.getD i 0 ≠ V.getD n 0 := by
        rw [List.getD_eq_getElem V 0 (by omega), List.getD_eq_getElem V 0 (by omega)]
        intro heq
        exact h ((List.Nodup.getElem_inj_iff hV).mp heq)
      rw [if_neg hne]
      exact ih (by omega) hin

theorem qhashValue_stage2StatesMap {V : List Nat} (hV : V.Nodup) {i : Nat} (hi : i < V.length) :
    qhashValue (stage2StatesMap V) (V.getD i 0) = i :=
  stage2StatesMap_value V hV V.length (Nat.le_refl _) i hi

theorem remap_getD {V : List Nat} (hV : V.Nodup) {i : Nat} (hi : i < V.length) :
    remap V (V.getD i 0) = i := by
  unfold remap
  rw [List.getD_eq_getElem V 0 hi]
  exact List.indexOf_getElem hV i hi

theorem getD_remap {V : List Nat} {q : Nat} (hq : q ∈ V) :
    remap V q < V.length ∧ V.getD (remap V q) 0 = q := by
  unfold remap
  have h := List.indexOf_lt_length.mpr hq
  refine ⟨h, ?_⟩
  rw [List.getD_eq_getElem V 0 h]
  exact List.getElem_indexOf h

theorem qhash_lookup {κ : Type} [DecidableEq κ] (m : List (κ × Nat)) (k : κ)
    (h : qhashContains m k = true) : ∃ p ∈ m, p.1 = k ∧ qhashValue m k = p.2 := by
  unfold qhashContains at h
  unfold qhashValue
  cases hf : m.find? (fun p => decide (p.1 = k)) with
  | none =>
    rw [List.find?_eq_none] at hf
    rw [List.any_eq_true] at h
    obtain ⟨p, hp, hpk⟩ := h
    exact absurd hpk (hf p hp)
  | some p =>
    refine ⟨p, List.mem_of_find?_eq_some hf, ?_, rfl⟩
    have := List.find?_some hf
    simpa using this
theorem SynchronizeStage2_states_number (S A B : DESystem) :
    (SynchronizeStage2 S A B).states_number_ = S.virtual_states_.length := rfl

theorem SynchronizeStage2_graph (S A B : DESystem) :
    (SynchronizeStage2 S A B).graph_ =
      graphFromTriplets S.virtual_states_.length S.virtual_states_.length
        ((List.range S.virtual_states_.length).flatMap (fun current_state =>
          (bitsOf (stage2Events S A B (S.virtual_states_.getD current_state 0))).filterMap
            (fun event =>
              if containsInt S.virtual_table_
                  (stage2Target S A B (S.virtual_states_.getD current_state 0) event) then
                some ⟨(current_state : Int),
                  ((qhashValue (stage2StatesMap S.virtual_states_)
                    (stage2Target S A B (S.virtual_states_.getD current_state 0) event).toNat
                      : Nat) : Int),
                  ulShift event⟩
              else none))) := rfl

theorem SynchronizeStage2_states_events (S A B : DESystem) :
    (SynchronizeStage2 S A B).states_events_ =
      (List.range S.virtual_states_.length).map (fun current_state =>
        ((bitsOf (stage2Events S A B (S.virtual_states_.getD current_state 0))).filter
          (fun event => !containsInt S.virtual_table_
            (stage2Target S A B (S.virtual_states_.getD current_state 0) event))).foldl bitReset
          (stage2Events S A B (S.virtual_states_.getD current_state 0))) ++
        S.states_events_.drop S.virtual_states_.length := rfl

theorem Stage2Input.nodup {S A B : DESystem} (hin : Stage2Input S A B) :
    S.virtual_states_.Nodup :=
  List.Pairwise.imp (fun h => Nat.ne_of_lt h) hin.1

theorem stage2Events_testBit {S A B : DESystem} (hin : Stage2Input S A B) (s e : Nat) :
    (stage2Events S A B s).testBit e = enabledAt A B s e := by
  unfold stage2Events enabledAt
  rw [hin.2.2.2.2.1, hin.2.2.2.2.2.1, testBit_syncEvents_tables]

theorem stage2Target_eq {S A B : DESystem} (hin : Stage2Input S A B) (hA : WellFormed A)
    (hB : WellFormed B) {s e : Nat} (hs : s < A.states_number_ * B.states_number_)
    (he : enabledAt A B s e = true) :
    stage2Target S A B s e = ((TransitionVirtual A B s e : Nat) : Int) := by
  unfold stage2Target
  by_cases hc : qhashContains S.transtriplet_ (s, e) = true
  · rw [if_pos hc]
    obtain ⟨p, hp, hk, hv⟩ := qhash_lookup _ _ hc
    rw [hv, hin.2.2.2.2.2.2 p hp, hk]
  · rw [if_neg hc]
    obtain ⟨k, -, hsk⟩ := scanTarget_nat hA hB hs he
    unfold TransitionVirtual
    rw [hsk, toSizeT_natCast]

theorem containsInt_natCast (s : List Nat) (k : Nat) :
    containsInt s ((k : Nat) : Int) = decide (k ∈ s) := by
  unfold containsInt
  simp

/-- The labelled edges of the automaton built by `op::SynchronizeStage2` when every event id
is below 64. -/
theorem SynchronizeStage2_edge_iff {S A B : DESystem} (hin : Stage2Input S A B)
    (hA : WellFormed A) (hB : WellFormed B) (wA : EventsInWord A) (wB : EventsInWord B)
    (i j e : Nat) :
    ((SynchronizeStage2 S A B).graph_.coeff i j).testBit e = true ↔
      i < S.virtual_states_.length ∧ j < S.virtual_states_.length ∧
      enabledAt A B (S.virtual_states_.getD i 0) e = true ∧
      TransitionVirtual A B (S.virtual_states_.getD i 0) e = S.virtual_states_.getD j 0 := by
  rw [SynchronizeStage2_graph, testBit_coeff_graphFromTriplets]
  constructor
  · rintro ⟨hi, hj, t, ht, hrow, hcol, hv⟩
    rw [List.mem_flatMap] at ht
    obtain ⟨cs, hcs, ht⟩ := ht
    rw [List.mem_filterMap] at ht
    obtain ⟨event, hev, hsome⟩ := ht
    rw [mem_bitsOf, stage2Events_testBit hin] at hev
    have hcsl : cs < S.virtual_states_.length := List.mem_range.mp hcs
    have hs := hin.2.1 _ (getD_mem_of_lt hcsl)
    rw [stage2Target_eq hin hA hB hs hev, containsInt_natCast, Int.toNat_ofNat] at hsome
    by_cases hk : TransitionVirtual A B (S.virtual_states_.getD cs 0) event ∈ S.virtual_table_
    · rw [decide_eq_true hk, if_pos rfl] at hsome
      have ht' := Option.some.inj hsome
      subst ht'
      simp only at hrow hcol hv
      have hcsi : cs = i := by exact_mod_cast hrow
      rw [testBit_ulShift, decide_eq_true_eq,
        Nat.mod_eq_of_lt (enabledAt_lt_word hA hB wA wB hs hev)] at hv
      subst hcsi hv
      obtain ⟨hl, hg⟩ := getD_remap (hin.2.2.1 _ hk)
      refine ⟨hi, hj, hev, ?_⟩
      rw [← hg, qhashValue_stage2StatesMap hin.nodup hl] at hcol
      have hcj : remap S.virtual_states_
          (TransitionVirtual A B (S.virtual_states_.getD cs 0) event) = j := by
        exact_mod_cast hcol
      rw [← hcj, hg]
    · rw [decide_eq_false hk] at hsome
      simp at hsome
  · rintro ⟨hi, hj, hen, htv⟩
    have hs := hin.2.1 _ (getD_mem_of_lt hi)
    refine ⟨hi, hj, ⟨(i : Int), (j : Int), ulShift e⟩, ?_, rfl, rfl, ?_⟩
    · rw [List.mem_flatMap]
      refine ⟨i, List.mem_range.mpr hi, ?_⟩
      rw [List.mem_filterMap]
      refine ⟨e, ?_, ?_⟩
      · rw [mem_bitsOf, stage2Events_testBit hin]
        exact hen
      · have hk : TransitionVirtual A B (S.virtual_states_.getD i 0) e ∈ S.virtual_table_ := by
          rw [htv]
          exact hin.2.2.2.1 _ (getD_mem_of_lt hj)
        rw [stage2Target_eq hin hA hB hs hen, containsInt_natCast, Int.toNat_ofNat,
          decide_eq_true hk, if_pos rfl, htv, qhashValue_stage2StatesMap hin.nodup hj]
    · rw [testBit_ulShift, decide_eq_true_eq]
      exact Nat.mod_eq_of_lt (enabledAt_lt_word hA hB wA wB hs hen)
theorem productStep_iff_transition {A B : DESystem} (hA : WellFormed A) (hB : WellFormed B)
    (dA : Deterministic A) (dB : Deterministic B) {q q' : Nat}
    (hq : q < A.states_number_ * B.states_number_)
    (hq' : q' < A.states_number_ * B.states_number_) (e : Nat) :
    productStep A B q e q' = true ↔
      enabledAt A B q e = true ∧ TransitionVirtual A B q e = q' := by
  rw [← scanEdge_step hA hB dA dB hq]
  constructor
  · rintro ⟨-, -, hen, hs⟩
    refine ⟨hen, ?_⟩
    unfold TransitionVirtual
    rw [hs, toSizeT_natCast]
  · rintro ⟨hen, ht⟩
    refine ⟨hq, hq', hen, ?_⟩
    obtain ⟨k, -, hk⟩ := scanTarget_nat hA hB hq hen
    unfold TransitionVirtual at ht
    rw [hk, toSizeT_natCast] at ht
    rw [hk, ht]

theorem remap_lt_of_lt {V : List Nat} (hV : V.Pairwise (fun a b => a < b)) {q q' : Nat}
    (hq : q ∈ V) (hq' : q' ∈ V) (h : q < q') : remap V q < remap V q' := by
  obtain ⟨hl, hg⟩ := getD_remap hq
  obtain ⟨hl', hg'⟩ := getD_remap hq'
  rw [List.getD_eq_getElem V 0 hl] at hg
  rw [List.getD_eq_getElem V 0 hl'] at hg'
  by_contra hcon
  rcases Nat.lt_or_eq_of_le (Nat.le_of_not_lt hcon) with hlt | heq
  · have := (List.pairwise_iff_getElem.mp hV) _ _ hl' hl hlt
    rw [hg, hg'] at this
    omega
  · have : q' = q := by
      rw [← hg, ← hg']
      congr 1
    omega

/-- Materialisation over a subset keeps exactly the internal transitions when every event id
is below 64: when `op::SynchronizeStage2` is run on well-formed deterministic `A` and `B` with
`virtual_states_` an ascending list `V` of product states (and the other scratch members
as `op::SupervisorSynth` leaves them), the graph `G'` it builds has, for `i, j < |V|`,
`e ∈ G'[i][j]` exactly when there are `q, q' ∈ V` with `remap[q] = i`, `remap[q'] = j`, `e`
enabled at `q` and `δ(q, e) = q'` (both as `op::TransitionVirtual` and as the step relation
of the product); `G'[i][j]` is the cell `G[V[i]][V[j]]` of the full product; `remap` is
strictly increasing and inverts the enumeration of `V`. -/
theorem SynchronizeStage2_internal_edges (S A B : DESystem) (hA : WellFormed A)
    (hB : WellFormed B) (dA : Deterministic A) (dB : Deterministic B)
    (wA : EventsInWord A) (wB : EventsInWord B) (hin : Stage2Input S A B) :
    (SynchronizeStage2 S A B).states_number_ = S.virtual_states_.length ∧
    (∀ (i j : cldes_size_t) (e : ScalarType), i < S.virtual_states_.length →
      j < S.virtual_states_.length →
      (((SynchronizeStage2 S A B).graph_.coeff i j).testBit e = true ↔
        ∃ q ∈ S.virtual_states_, ∃ q' ∈ S.virtual_states_,
          remap S.virtual_states_ q = i ∧ remap S.virtual_states_ q' = j ∧
          enabledAt A B q e = true ∧ TransitionVirtual A B q e = q')) ∧
    (∀ (i j : cldes_size_t) (e : ScalarType), i < S.virtual_states_.length →
      j < S.virtual_states_.length →
      (((SynchronizeStage2 S A B).graph_.coeff i j).testBit e = true ↔
        ∃ q ∈ S.virtual_states_, ∃ q' ∈ S.virtual_states_,
          remap S.virtual_states_ q = i ∧ remap S.virtual_states_ q' = j ∧
          productStep A B q e q' = true)) ∧
    (∀ i j : cldes_size_t, i < S.virtual_states_.length → j < S.virtual_states_.length →
      (SynchronizeStage2 S A B).graph_.coeff i j =
        (Synchronize A B).graph_.coeff (S.virtual_states_.getD i 0)
          (S.virtual_states_.getD j 0)) ∧
    (∀ q ∈ S.virtual_states_, ∀ q' ∈ S.virtual_states_, q < q' →
      remap S.virtual_states_ q < remap S.virtual_states_ q') ∧
    (∀ i < S.virtual_states_.length, remap S.virtual_states_ (S.virtual_states_.getD i 0) = i) ∧
    (∀ q ∈ S.virtual_states_, remap S.virtual_states_ q < S.virtual_states_.length ∧
      S.virtual_states_.getD (remap S.virtual_states_ q) 0 = q) := by
  have key : ∀ (i j : cldes_size_t) (e : ScalarType), i < S.virtual_states_.length →
      j < S.virtual_states_.length →
      (((SynchronizeStage2 S A B).graph_.coeff i j).testBit e = true ↔
        ∃ q ∈ S.virtual_states_, ∃ q' ∈ S.virtual_states_,
          remap S.virtual_states_ q = i ∧ remap S.virtual_states_ q' = j ∧
          enabledAt A B q e = true ∧ TransitionVirtual A B q e = q') := by
    intro i j e hi hj
    rw [SynchronizeStage2_edge_iff hin hA hB wA wB]
    constructor
    · rintro ⟨-, -, hen, ht⟩
      exact ⟨_, getD_mem_of_lt hi, _, getD_mem_of_lt hj, remap_getD hin.nodup hi,
        remap_getD hin.nodup hj, hen, ht⟩
    · rintro ⟨q, hq, q', hq', rfl, rfl, hen, ht⟩
      rw [(getD_remap hq).2, (getD_remap hq').2]
      exact ⟨hi, hj, hen, ht⟩
  refine ⟨rfl, key, ?_, ?_, fun q hq q' hq' h => remap_lt_of_lt hin.1 hq hq' h,
    fun i hi => remap_getD hin.nodup hi, fun q hq => getD_remap hq⟩
  · intro i j e hi hj
    rw [key i j e hi hj]
    constructor
    · rintro ⟨q, hq, q', hq', h1, h2, hen, ht⟩
      exact ⟨q, hq, q', hq', h1, h2,
        (productStep_iff_transition hA hB dA dB (hin.2.1 q hq) (hin.2.1 q' hq') e).mpr
          ⟨hen, ht⟩⟩
    · rintro ⟨q, hq, q', hq', h1, h2, hst⟩
      have := (productStep_iff_transition hA hB dA dB (hin.2.1 q hq) (hin.2.1 q' hq') e).mp hst
      exact ⟨q, hq, q', hq', h1, h2, this.1, this.2⟩
  · intro i j hi hj
    apply Nat.eq_of_testBit_eq
    intro e
    rw [Bool.eq_iff_iff, SynchronizeStage2_edge_iff hin hA hB wA wB,
      Synchronize_edge_iff hA hB wA wB]
    have hqi := hin.2.1 _ (getD_mem_of_lt hi)
    have hqj := hin.2.1 _ (getD_mem_of_lt hj)
    constructor
    · rintro ⟨-, -, hen, ht⟩
      refine ⟨hqi, hqj, hen, ?_⟩
      obtain ⟨k, -, hk⟩ := scanTarget_nat hA hB hqi hen
      unfold TransitionVirtual at ht
      rw [hk, toSizeT_natCast] at ht
      rw [hk, ht]
    · rintro ⟨-, -, hen, hs⟩
      refine ⟨hi, hj, hen, ?_⟩
      unfold TransitionVirtual
      rw [hs, toSizeT_natCast]

/-- The internal transitions below 64 event ids, on the supervisor test (scenario S5): the
virtual system that `op::SupervisorSynth` hands over meets the input conditions, and the cell
`(0, 1)` of the materialised graph is settled by the product states of ranks `0` and `1`. -/
theorem SynchronizeStage2_internal_edges_witness :
    Stage2Input (synthVirtualSys testPlant testSpec testNonContr) testPlant testSpec ∧
    (((SynchronizeStage2 (synthVirtualSys testPlant testSpec testNonContr) testPlant
        testSpec).graph_.coeff 0 1).testBit 0 = true ↔
      ∃ q ∈ (synthVirtualSys testPlant testSpec testNonContr).virtual_states_,
        ∃ q' ∈ (synthVirtualSys testPlant testSpec testNonContr).virtual_states_,
          remap (synthVirtualSys testPlant testSpec testNonContr).virtual_states_ q = 0 ∧
          remap (synthVirtualSys testPlant testSpec testNonContr).virtual_states_ q' = 1 ∧
          productStep testPlant testSpec q 0 q' = true) :=
  ⟨by decide!,
    (SynchronizeStage2_internal_edges (synthVirtualSys testPlant testSpec testNonContr)
      testPlant testSpec (by decide!) (by decide!) (by decide!) (by decide!) (by decide!)
      (by decide!) (by decide!)).2.2.1 0 1 0 (by decide!) (by decide!)⟩

/-- C15. The materialised graph loses an internal transition at an event id of 64 or more.
The plant `wideChain` (`0 -70-> 1`) and the one-state specification are well-formed and
deterministic, and the main loop of `op::SupervisorSynth` keeps `V = [0, 1]`. The event `70`
is enabled at the product state `0` and leads to `1`, both in `V`, with ranks `0` and `1`;
`op::SynchronizeStage2` stores the edge with the label `1ul << 70`, which is bit `6`: the
event `70` is not in `G'[0][1]`. -/
theorem SynchronizeStage2_wide_edge :
    WellFormed wideChain ∧ Deterministic wideChain ∧
    WellFormed idleSpec ∧ Deterministic idleSpec ∧
    Stage2Input (synthVirtualSys wideChain idleSpec []) wideChain idleSpec ∧
    (synthVirtualSys wideChain idleSpec []).virtual_states_ = [0, 1] ∧
    remap (synthVirtualSys wideChain idleSpec []).virtual_states_ 0 = 0 ∧
    remap (synthVirtualSys wideChain idleSpec []).virtual_states_ 1 = 1 ∧
    enabledAt wideChain idleSpec 0 70 = true ∧
    TransitionVirtual wideChain idleSpec 0 70 = 1 ∧
    productStep wideChain idleSpec 0 70 1 = true ∧
    (SynchronizeStage2 (synthVirtualSys wideChain idleSpec []) wideChain
      idleSpec).graph_.coeff 0 1 = 2 ^ 6 ∧
    ((SynchronizeStage2 (synthVirtualSys wideChain idleSpec []) wideChain
      idleSpec).graph_.coeff 0 1).testBit 70 = false ∧
    ¬ (((SynchronizeStage2 (synthVirtualSys wideChain idleSpec []) wideChain
        idleSpec).graph_.coeff 0 1).testBit 70 = true ↔
      ∃ q ∈ (synthVirtualSys wideChain idleSpec []).virtual_states_,
        ∃ q' ∈ (synthVirtualSys wideChain idleSpec []).virtual_states_,
          remap (synthVirtualSys wideChain idleSpec []).virtual_states_ q = 0 ∧
          remap (synthVirtualSys wideChain idleSpec []).virtual_states_ q' = 1 ∧
          enabledAt wideChain idleSpec q 70 = true ∧
          TransitionVirtual wideChain idleSpec q 70 = q') := by
  refine ⟨by decide!, by decide!, by decide!, by decide!, by decide!, by decide!, by decide!,
    by decide!, by decide!, by decide!, by decide!, by decide!, by decide!, by decide!⟩

theorem testBit_bitReset (s event e : Nat) :
    (bitReset s event).testBit e = (s.testBit e && !decide (event = e)) := by
  unfold bitReset
  rw [Nat.testBit_xor, Nat.testBit_and, testBit_one_shiftLeft]
  cases s.testBit e <;> cases decide (event = e) <;> rfl

theorem testBit_foldl_bitReset (l : List Nat) (s e : Nat) :
    (l.foldl bitReset s).testBit e = (s.testBit e && !decide (e ∈ l)) := by
  induction l generalizing s with
  | nil => simp
  | cons a l ih =>
    rw [List.foldl_cons, ih, testBit_bitReset]
    by_cases hea : a = e
    · subst hea
      simp
    · have hne : ¬ e = a := fun h => hea h.symm
      simp [hea, hne]

/-- The outgoing events `op::SynchronizeStage2` leaves in `states_events_[i]`: the enabled
events of the product state `V[i]` whose target is in `V`. -/
theorem SynchronizeStage2_states_events_testBit {S A B : DESystem} (hin : Stage2Input S A B)
    (hA : WellFormed A) (hB : WellFormed B) {i : Nat} (hi : i < S.virtual_states_.length)
    (e : Nat) :
    (vecGet (SynchronizeStage2 S A B).states_events_ i).testBit e = true ↔
      enabledAt A B (S.virtual_states_.getD i 0) e = true ∧
      TransitionVirtual A B (S.virtual_states_.getD i 0) e ∈ S.virtual_states_ := by
  have hs := hin.2.1 _ (getD_mem_of_lt hi)
  rw [SynchronizeStage2_states_events]
  unfold vecGet
  rw [List.getD_append _ _ _ _ (by simpa using hi), getD_map_range, if_pos hi,
    testBit_foldl_bitReset, stage2Events_testBit hin]
  simp only [Bool.and_eq_true, Bool.not_eq_true', decide_eq_false_iff_not, List.mem_filter,
    mem_bitsOf, stage2Events_testBit hin, not_and, Bool.not_eq_false]
  constructor
  · rintro ⟨hen, hk⟩
    have := hk hen
    rw [stage2Target_eq hin hA hB hs hen, containsInt_natCast, decide_eq_true_eq] at this
    exact ⟨hen, hin.2.2.1 _ this⟩
  · rintro ⟨hen, hm⟩
    refine ⟨hen, fun _ => ?_⟩
    rw [stage2Target_eq hin hA hB hs hen, containsInt_natCast, decide_eq_true_eq]
    exact hin.2.2.2.1 _ hm

theorem SynchronizeStage2_cols (S A B : DESystem) :
    (SynchronizeStage2 S A B).graph_.cols = S.virtual_states_.length := rfl

theorem SynchronizeStage2_rows (S A B : DESystem) :
    (SynchronizeStage2 S A B).graph_.rows = S.virtual_states_.length := rfl

/-- Outgoing-event cache after materialisation when every event id is below 64: when
`op::SynchronizeStage2` is run on well-formed `A` and `B` with `virtual_states_` an ascending list `V` of product states (and
the other scratch members as `op::SupervisorSynth` leaves them), every state `i` of the
result has `states_events_[i]` equal to the union over `j` of `G'[i][j]`; the events kept in
the cache are the enabled events of the product state `V[i]` whose target lies in `V`. -/
theorem SynchronizeStage2_out_cache (S A B : DESystem) (hA : WellFormed A) (hB : WellFormed B)
    (wA : EventsInWord A) (wB : EventsInWord B) (hin : Stage2Input S A B) (i : cldes_size_t)
    (hi : i < (SynchronizeStage2 S A B).states_number_) :
    vecGet (SynchronizeStage2 S A B).states_events_ i =
      rowUnion (SynchronizeStage2 S A B).graph_ i ∧
    (∀ e : ScalarType, (vecGet (SynchronizeStage2 S A B).states_events_ i).testBit e = true ↔
      ∃ j < (SynchronizeStage2 S A B).states_number_,
        ((SynchronizeStage2 S A B).graph_.coeff i j).testBit e = true) ∧
    (∀ e : ScalarType, (vecGet (SynchronizeStage2 S A B).states_events_ i).testBit e = true ↔
      enabledAt A B (S.virtual_states_.getD i 0) e = true ∧
      TransitionVirtual A B (S.virtual_states_.getD i 0) e ∈ S.virtual_states_) := by
  rw [SynchronizeStage2_states_number] at hi
  have hiff : ∀ e : ScalarType,
      (vecGet (SynchronizeStage2 S A B).states_events_ i).testBit e = true ↔
      ∃ j < (SynchronizeStage2 S A B).states_number_,
        ((SynchronizeStage2 S A B).graph_.coeff i j).testBit e = true := by
    intro e
    rw [SynchronizeStage2_states_events_testBit hin hA hB hi, SynchronizeStage2_states_number]
    constructor
    · rintro ⟨hen, hm⟩
      obtain ⟨hl, hg⟩ := getD_remap hm
      exact ⟨_, hl,
        (SynchronizeStage2_edge_iff hin hA hB wA wB i _ e).mpr ⟨hi, hl, hen, hg.symm⟩⟩
    · rintro ⟨j, hj, hedge⟩
      obtain ⟨-, -, hen, ht⟩ := (SynchronizeStage2_edge_iff hin hA hB wA wB i j e).mp hedge
      exact ⟨hen, by rw [ht]; exact getD_mem_of_lt hj⟩
  refine ⟨?_, hiff, fun e => SynchronizeStage2_states_events_testBit hin hA hB hi e⟩
  apply Nat.eq_of_testBit_eq
  intro e
  rw [Bool.eq_iff_iff, hiff e, testBit_rowUnion, SynchronizeStage2_cols,
    SynchronizeStage2_states_number]

/-- The outgoing-event cache below 64 event ids, on the supervisor test (scenario S5), at
state `1` of the materialised automaton. -/
theorem SynchronizeStage2_out_cache_witness :
    vecGet (SynchronizeStage2 (synthVirtualSys testPlant testSpec testNonContr) testPlant
        testSpec).states_events_ 1 =
      rowUnion (SynchronizeStage2 (synthVirtualSys testPlant testSpec testNonContr) testPlant
        testSpec).graph_ 1 :=
  (SynchronizeStage2_out_cache (synthVirtualSys testPlant testSpec testNonContr) testPlant
    testSpec (by decide!) (by decide!) (by decide!) (by decide!) (by decide!) 1 (by decide!)).1

/-- C18. The cache of outgoing events differs from the row of the materialised graph at an
event id of 64 or more. The plant `wideChain` (`0 -70-> 1`) and the one-state specification
are well-formed and deterministic, and the main loop of `op::SupervisorSynth` keeps
`V = [0, 1]`. `op::SynchronizeStage2` computes `states_events_[0]` from the caches of the
operands, the event `70`, and keeps it because the target `1` is in `V`; it stores the edge
`G'[0][1]` with the label `1ul << 70`, which is bit `6`, so the union of row `0` is the
event `6`. -/
theorem SynchronizeStage2_wide_out_cache :
    WellFormed wideChain ∧ Deterministic wideChain ∧
    WellFormed idleSpec ∧ Deterministic idleSpec ∧
    Stage2Input (synthVirtualSys wideChain idleSpec []) wideChain idleSpec ∧
    (synthVirtualSys wideChain idleSpec []).virtual_states_ = [0, 1] ∧
    vecGet (SynchronizeStage2 (synthVirtualSys wideChain idleSpec []) wideChain
      idleSpec).states_events_ 0 = 2 ^ 70 ∧
    rowUnion (SynchronizeStage2 (synthVirtualSys wideChain idleSpec []) wideChain
      idleSpec).graph_ 0 = 2 ^ 6 ∧
    vecGet (SynchronizeStage2 (synthVirtualSys wideChain idleSpec []) wideChain
        idleSpec).states_events_ 0 ≠
      rowUnion (SynchronizeStage2 (synthVirtualSys wideChain idleSpec []) wideChain
        idleSpec).graph_ 0 := by
  refine ⟨by decide!, by decide!, by decide!, by decide!, by decide!, by decide!, by decide!,
    by decide!, by decide!⟩

/-- C16 on `shiftedPlant` (initial state `1`) and the one-state specification: the main loop
of `op::SupervisorSynth` keeps `V = [1]`, which contains the product initial state `1` with
`remap[1] = 0`, and `op::SynchronizeStage2` returns one state with initial state `1`, the
product key left as it is; on every input it stores `q0B * nA + q0A`. -/
theorem SynchronizeStage2_init_not_remapped :
    (∀ S A B : DESystem, (SynchronizeStage2 S A B).init_state_ =
      B.init_state_ * A.states_number_ + A.init_state_) ∧
    WellFormed shiftedPlant ∧ Deterministic shiftedPlant ∧
    WellFormed idleSpec ∧ Deterministic idleSpec ∧
    Stage2Input (synthVirtualSys shiftedPlant idleSpec []) shiftedPlant idleSpec ∧
    (synthVirtualSys shiftedPlant idleSpec []).virtual_states_ = [1] ∧
    idleSpec.init_state_ * shiftedPlant.states_number_ + shiftedPlant.init_state_ = 1 ∧
    remap (synthVirtualSys shiftedPlant idleSpec []).virtual_states_ 1 = 0 ∧
    (SynchronizeStage2 (synthVirtualSys shiftedPlant idleSpec []) shiftedPlant
      idleSpec).states_number_ = 1 ∧
    (SynchronizeStage2 (synthVirtualSys shiftedPlant idleSpec []) shiftedPlant
      idleSpec).init_state_ = 1 ∧
    ¬ (SynchronizeStage2 (synthVirtualSys shiftedPlant idleSpec []) shiftedPlant
        idleSpec).init_state_ <
      (SynchronizeStage2 (synthVirtualSys shiftedPlant idleSpec []) shiftedPlant
        idleSpec).states_number_ :=
  ⟨fun _ _ _ => rfl, by decide!, by decide!, by decide!, by decide!, by decide!, by decide!,
    by decide!, by decide!, by decide!, by decide!, by decide!⟩

/-- C17 on `gapPlant` and the one-state specification with no uncontrollable event: the
main loop keeps `V = [0, 2, 3]`, the product marked set is `{2}` with `remap[2] = 1`, and
`op::SynchronizeStage2` returns the marked set `{2}`, the product key left as it is; on the
automaton `0 -a-> 1` composed with itself it returns two states and the marked set `{3}`. -/
theorem SynchronizeStage2_marked_not_remapped :
    WellFormed gapPlant ∧ Deterministic gapPlant ∧ WellFormed idleSpec ∧
    Deterministic idleSpec ∧
    Stage2Input (synthVirtualSys gapPlant idleSpec []) gapPlant idleSpec ∧
    (synthVirtualSys gapPlant idleSpec []).virtual_states_ = [0, 2, 3] ∧
    (Synchronize gapPlant idleSpec).marked_states_ = [2] ∧
    remap (synthVirtualSys gapPlant idleSpec []).virtual_states_ 2 = 1 ∧
    (SynchronizeStage2 (synthVirtualSys gapPlant idleSpec []) gapPlant
      idleSpec).states_number_ = 3 ∧
    (SynchronizeStage2 (synthVirtualSys gapPlant idleSpec []) gapPlant
      idleSpec).marked_states_ = [2] ∧
    Stage2Input (synthVirtualSys chainSys chainSys []) chainSys chainSys ∧
    (synthVirtualSys chainSys chainSys []).virtual_states_ = [0, 3] ∧
    (SynchronizeStage2 (synthVirtualSys chainSys chainSys []) chainSys
      chainSys).states_number_ = 2 ∧
    (SynchronizeStage2 (synthVirtualSys chainSys chainSys []) chainSys
      chainSys).marked_states_ = [3] := by
  decide!

/-- C19 on the supervisor test (scenario S5): the main loop keeps
`V = [0, 1, 2, 3, 4, 6]`; in the automaton `op::SynchronizeStage2` returns, the only edge
into state `3` carries the event `0`, yet `inv_states_events_[3]` is `{0, 1}`: the event
`1` entered the product state `3` from the product state `5`, which is not in `V`. -/
theorem SynchronizeStage2_inv_cache_stale :
    WellFormed testPlant ∧ Deterministic testPlant ∧ WellFormed testSpec ∧
    Deterministic testSpec ∧
    Stage2Input (synthVirtualSys testPlant testSpec testNonContr) testPlant testSpec ∧
    (synthVirtualSys testPlant testSpec testNonContr).virtual_states_ = [0, 1, 2, 3, 4, 6] ∧
    (SynchronizeStage2 (synthVirtualSys testPlant testSpec testNonContr) testPlant
      testSpec).states_number_ = 6 ∧
    vecGet (SynchronizeStage2 (synthVirtualSys testPlant testSpec testNonContr) testPlant
      testSpec).inv_states_events_ 3 = 3 ∧
    colUnion (SynchronizeStage2 (synthVirtualSys testPlant testSpec testNonContr) testPlant
      testSpec).graph_ 3 = 1 ∧
    ((Synchronize testPlant testSpec).graph_.coeff 5 3).testBit 1 = true ∧
    (List.range 6).map (vecGet (SynchronizeStage2
      (synthVirtualSys testPlant testSpec testNonContr) testPlant testSpec).inv_states_events_)
      = [8, 9, 2, 3, 12, 4] ∧
    (List.range 6).map (colUnion (SynchronizeStage2
      (synthVirtualSys testPlant testSpec testNonContr) testPlant testSpec).graph_)
      = [8, 9, 2, 1, 12, 4] := by
  decide!
theorem removeLoop_nodup (aP aE : DESystem) (only_in_0 only_in_1 : BitArray)
    (gP gE : GraphHostData) (nc : EventsBitArray) (fuel : Nat) (f C rm : List cldes_size_t)
    (hC : C.Nodup) :
    (removeLoop aP aE only_in_0 only_in_1 gP gE nc fuel f C rm).2.1.Nodup := by
  induction fuel generalizing f C rm with
  | zero => simpa [removeLoop] using hC
  | succ fuel ih =>
    cases f with
    | nil => simpa [removeLoop] using hC
    | cons y f =>
      unfold removeLoop
      exact ih _ _ _ (List.Nodup.filter _ hC)

theorem RemoveBadStates_nodup (aP aE : DESystem) (only_in_0 only_in_1 : BitArray)
    (gP gE : GraphHostData) (C rm : List cldes_size_t) (q : cldes_size_t) (nc : EventsBitArray)
    (hC : C.Nodup) : (RemoveBadStates aP aE only_in_0 only_in_1 gP gE C rm q nc).1.Nodup := by
  unfold RemoveBadStates
  exact removeLoop_nodup _ _ _ _ _ _ _ _ _ _ _ hC

theorem nodup_qsetInsert {x : Nat} {s : List Nat} (h : s.Nodup) : (qsetInsert x s).Nodup := by
  unfold qsetInsert
  by_cases hx : x ∈ s
  · rw [if_pos hx]; exact h
  · rw [if_neg hx]
    refine List.Nodup.append h (List.nodup_singleton x) ?_
    intro a ha hax
    rw [List.mem_singleton.mp hax] at ha
    exact hx ha

theorem mem_qhashInsert {κ : Type} [DecidableEq κ] {k : κ} {v : Nat} {m : List (κ × Nat)}
    {p : κ × Nat} (h : p ∈ qhashInsert k v m) : p = (k, v) ∨ p ∈ m := by
  unfold qhashInsert at h
  rcases List.mem_cons.mp h with h | h
  · exact Or.inl h
  · exact Or.inr (List.mem_filter.mp h).1

/-- The table `c` of the main loop holds states below `N` without duplicate, and every
entry of the memo `transtriplet_` is the value of `op::TransitionVirtual` at its key. -/
theorem synthScan_tables (aP aE : DESystem) (only_in_0 only_in_1 : BitArray)
    (gP gE : GraphHostData) (nc : EventsBitArray) (q : cldes_size_t) (qev : BitArray) (N : Nat)
    (rest : List ScalarType) (st : SynthState)
    (hc : ∀ x ∈ st.c, x < N) (hnd : st.c.Nodup)
    (hm : ∀ p ∈ st.transtriplet_, p.2 = TransitionVirtual aP aE p.1.1 p.1.2) :
    (∀ x ∈ (synthScan aP aE only_in_0 only_in_1 gP gE nc q qev rest st).c, x < N) ∧
    (synthScan aP aE only_in_0 only_in_1 gP gE nc q qev rest st).c.Nodup ∧
    (∀ p ∈ (synthScan aP aE only_in_0 only_in_1 gP gE nc q qev rest st).transtriplet_,
      p.2 = TransitionVirtual aP aE p.1.1 p.1.2) := by
  induction rest generalizing st with
  | nil => unfold synthScan; exact ⟨hc, hnd, hm⟩
  | cons event rest ih =>
    unfold synthScan
    by_cases hbad : (nc.testBit event && !qev.testBit event &&
        (vecGet aP.states_events_ (q % aP.states_number_)).testBit event) = true
    · simp only [hbad, if_true]
      refine ⟨fun x hx => hc x (RemoveBadStates_subset _ _ _ _ _ _ _ _ _ _ x hx).1,
        RemoveBadStates_nodup _ _ _ _ _ _ _ _ _ _ hnd, hm⟩
    · simp only [hbad, Bool.false_eq_true, if_false]
      by_cases hthere : qev.testBit event = true
      · simp only [hthere, if_true]
        by_cases hnew : (!decide (TransitionVirtual aP aE q event ∈ st.c) &&
            !decide (TransitionVirtual aP aE q event ∈ st.ftable) &&
            !decide (TransitionVirtual aP aE q event ∈ st.rmtable_)) = true
        · simp only [hnew, if_true]
          refine ih { st with
            transtriplet_ := qhashInsert (q, event) (TransitionVirtual aP aE q event)
              st.transtriplet_
            f := TransitionVirtual aP aE q event :: st.f
            ftable := qsetInsert (TransitionVirtual aP aE q event) st.ftable } hc hnd ?_
          intro p hp
          rcases mem_qhashInsert hp with h | h
          · rw [h]
          · exact hm p h
        · simp only [hnew, Bool.false_eq_true, if_false]
          exact ih _ hc hnd hm
      · simp only [hthere, Bool.false_eq_true, if_false]
        exact ih _ hc hnd hm

theorem synthLoop_tables {aP aE : DESystem} (hP : WellFormed aP) (hE : WellFormed aE)
    (gP gE : GraphHostData) (nc : EventsBitArray) (fuel : Nat) (st : SynthState)
    (hb : SynthBounded (aP.states_number_ * aE.states_number_) st)
    (hc : ∀ x ∈ st.c, x < aP.states_number_ * aE.states_number_) (hnd : st.c.Nodup)
    (hm : ∀ p ∈ st.transtriplet_, p.2 = TransitionVirtual aP aE p.1.1 p.1.2) :
    (∀ x ∈ (synthLoop aP aE (aP.events_ ^^^ (aP.events_ &&& aE.events_))
        (aE.events_ ^^^ (aP.events_ &&& aE.events_)) gP gE nc fuel st).c,
      x < aP.states_number_ * aE.states_number_) ∧
    (synthLoop aP aE (aP.events_ ^^^ (aP.events_ &&& aE.events_))
        (aE.events_ ^^^ (aP.events_ &&& aE.events_)) gP gE nc fuel st).c.Nodup ∧
    (∀ p ∈ (synthLoop aP aE (aP.events_ ^^^ (aP.events_ &&& aE.events_))
        (aE.events_ ^^^ (aP.events_ &&& aE.events_)) gP gE nc fuel st).transtriplet_,
      p.2 = TransitionVirtual aP aE p.1.1 p.1.2) := by
  induction fuel generalizing st with
  | zero => unfold synthLoop; exact ⟨hc, hnd, hm⟩
  | succ fuel ih =>
    unfold synthLoop
    cases hf : st.f with
    | nil => simp only; exact ⟨hc, hnd, hm⟩
    | cons q f =>
      simp only
      have hq : q < aP.states_number_ * aE.states_number_ :=
        hb.1 q (by rw [hf]; exact List.mem_cons_self _ _)
      have hb1 : SynthBounded (aP.states_number_ * aE.states_number_)
          { st with f := f, c := qsetInsert q st.c } :=
        ⟨fun x hx => hb.1 x (by rw [hf]; exact List.mem_cons_of_mem _ hx), hb.2.1, hb.2.2⟩
      obtain ⟨h1, -⟩ := synthScan_bounded aP aE (aP.events_ ^^^ (aP.events_ &&& aE.events_))
        (aE.events_ ^^^ (aP.events_ &&& aE.events_)) gP gE nc q
        (syncEvents aP.states_events_ aE.states_events_
          (aP.events_ ^^^ (aP.events_ &&& aE.events_))
          (aE.events_ ^^^ (aP.events_ &&& aE.events_))
          (q % aP.states_number_) (q / aP.states_number_))
        (aP.states_number_ * aE.states_number_)
        (fun e he => TransitionVirtual_lt hP hE hq (by
          unfold enabledAt
          rw [← testBit_syncEvents]
          exact he))
        (bitsOf (syncEvents aP.states_events_ aE.states_events_
          (aP.events_ ^^^ (aP.events_ &&& aE.events_))
          (aE.events_ ^^^ (aP.events_ &&& aE.events_))
          (q % aP.states_number_) (q / aP.states_number_) ||| nc))
        { st with f := f, c := qsetInsert q st.c } hb1
      have hc1 : ∀ x ∈ qsetInsert q st.c, x < aP.states_number_ * aE.states_number_ := by
        intro x hx
        rcases mem_qsetInsert.mp hx with h | h
        · rw [h]; exact hq
        · exact hc x h
      obtain ⟨h2, h3, h4⟩ := synthScan_tables aP aE (aP.events_ ^^^ (aP.events_ &&& aE.events_))
        (aE.events_ ^^^ (aP.events_ &&& aE.events_)) gP gE nc q
        (syncEvents aP.states_events_ aE.states_events_
          (aP.events_ ^^^ (aP.events_ &&& aE.events_))
          (aE.events_ ^^^ (aP.events_ &&& aE.events_))
          (q % aP.states_number_) (q / aP.states_number_))
        (aP.states_number_ * aE.states_number_)
        (bitsOf (syncEvents aP.states_events_ aE.states_events_
          (aP.events_ ^^^ (aP.events_ &&& aE.events_))
          (aE.events_ ^^^ (aP.events_ &&& aE.events_))
          (q % aP.states_number_) (q / aP.states_number_) ||| nc))
        { st with f := f, c := qsetInsert q st.c } hc1 (nodup_qsetInsert hnd) hm
      exact ih _ h1 h2 h3 h4

/-- On well-formed operands the virtual system `op::SupervisorSynth` hands to
`op::SynchronizeStage2` meets the input conditions of the materialisation. -/
theorem synthVirtualSys_stage2Input {aP aE : DESystem} (hP : WellFormed aP) (hE : WellFormed aE)
    (non_contr : List ScalarType) :
    Stage2Input (synthVirtualSys aP aE non_contr) aP aE := by
  have hinit : aE.init_state_ * aP.states_number_ + aP.init_state_ <
      aP.states_number_ * aE.states_number_ := encode_lt hP.1 hE.1
  obtain ⟨h1, h2, h3⟩ : (∀ x ∈ (synthFinal aP aE non_contr).c,
        x < aP.states_number_ * aE.states_number_) ∧
      (synthFinal aP aE non_contr).c.Nodup ∧
      (∀ p ∈ (synthFinal aP aE non_contr).transtriplet_,
        p.2 = TransitionVirtual aP aE p.1.1 p.1.2) := by
    unfold synthFinal
    apply synthLoop_tables hP hE
    · refine ⟨?_, ?_, List.nodup_singleton _⟩
      · intro x hx; rw [List.mem_singleton.mp hx]; exact hinit
      · intro x hx; rw [List.mem_singleton.mp hx]; exact hinit
    · intro x hx; exact absurd hx (List.not_mem_nil x)
    · exact List.nodup_nil
    · intro p hp; exact absurd hp (List.not_mem_nil p)
  have hperm := List.perm_insertionSort (fun a b : Nat => a ≤ b) (synthFinal aP aE non_contr).c
  refine ⟨?_, ?_, ?_, ?_, rfl, rfl, h3⟩
  · have hs : List.Sorted (fun a b : Nat => a ≤ b)
        ((synthFinal aP aE non_contr).c.insertionSort (fun a b => a ≤ b)) :=
      List.sorted_insertionSort _ _
    have hn : ((synthFinal aP aE non_contr).c.insertionSort (fun a b => a ≤ b)).Nodup :=
      hperm.nodup_iff.mpr h2
    exact (List.Pairwise.and hs hn).imp (fun h => Nat.lt_of_le_of_ne h.1 h.2)
  · intro q hq
    exact h1 q (hperm.mem_iff.mp hq)
  · intro q hq
    exact hperm.mem_iff.mpr hq
  · intro q hq
    exact hperm.mem_iff.mp hq
theorem testBit_nonContrBits (pe ve : BitArray) (l : List ScalarType) (e : Nat) :
    ((SuperProxy.nonContrBits pe ve l).1.testBit e = true ↔
      e ∈ l ∧ pe.testBit e = true ∧ ve.testBit e = true) ∧
    ((SuperProxy.nonContrBits pe ve l).2.testBit e = true ↔
      e ∈ l ∧ pe.testBit e = true) := by
  unfold SuperProxy.nonContrBits
  have gen : ∀ (l : List ScalarType) (init : Nat × Nat),
      ((l.foldl (fun acc event =>
          if pe.testBit event then
            (if ve.testBit event then acc.1 ||| (1 <<< event) else acc.1,
              acc.2 ||| (1 <<< event))
          else acc) init).1.testBit e = true ↔
        init.1.testBit e = true ∨ (e ∈ l ∧ pe.testBit e = true ∧ ve.testBit e = true)) ∧
      ((l.foldl (fun acc event =>
          if pe.testBit event then
            (if ve.testBit event then acc.1 ||| (1 <<< event) else acc.1,
              acc.2 ||| (1 <<< event))
          else acc) init).2.testBit e = true ↔
        init.2.testBit e = true ∨ (e ∈ l ∧ pe.testBit e = true)) := by
    intro l
    induction l with
    | nil => intro init; simp
    | cons a l ih =>
      intro init
      rw [List.foldl_cons]
      obtain ⟨ih1, ih2⟩ := ih (if pe.testBit a then
        (if ve.testBit a then init.1 ||| (1 <<< a) else init.1, init.2 ||| (1 <<< a)) else init)
      rw [ih1, ih2]
      by_cases ha : pe.testBit a = true
      · by_cases hv : ve.testBit a = true
        · simp only [ha, hv, if_true, Nat.testBit_or, testBit_one_shiftLeft, Bool.or_eq_true,
            decide_eq_true_eq, List.mem_cons]
          constructor
          · constructor
            · rintro ((h | h) | ⟨h1, h2⟩)
              · exact Or.inl h
              · exact Or.inr ⟨Or.inl h.symm, h ▸ ha, h ▸ hv⟩
              · exact Or.inr ⟨Or.inr h1, h2⟩
            · rintro (h | ⟨h1 | h1, h2⟩)
              · exact Or.inl (Or.inl h)
              · exact Or.inl (Or.inr h1.symm)
              · exact Or.inr ⟨h1, h2⟩
          · constructor
            · rintro ((h | h) | ⟨h1, h2⟩)
              · exact Or.inl h
              · exact Or.inr ⟨Or.inl h.symm, h ▸ ha⟩
              · exact Or.inr ⟨Or.inr h1, h2⟩
            · rintro (h | ⟨h1 | h1, h2⟩)
              · exact Or.inl (Or.inl h)
              · exact Or.inl (Or.inr h1.symm)
              · exact Or.inr ⟨h1, h2⟩
        · simp only [ha, hv, if_true, Bool.false_eq_true, if_false, Nat.testBit_or,
            testBit_one_shiftLeft, Bool.or_eq_true, decide_eq_true_eq, List.mem_cons]
          constructor
          · constructor
            · rintro (h | ⟨h1, h2⟩)
              · exact Or.inl h
              · exact Or.inr ⟨Or.inr h1, h2⟩
            · rintro (h | ⟨h1 | h1, h2, h3⟩)
              · exact Or.inl h
              · exact absurd (h1 ▸ h3) hv
              · exact Or.inr ⟨h1, h2, h3⟩
          · constructor
            · rintro ((h | h) | ⟨h1, h2⟩)
              · exact Or.inl h
              · exact Or.inr ⟨Or.inl h.symm, h ▸ ha⟩
              · exact Or.inr ⟨Or.inr h1, h2⟩
            · rintro (h | ⟨h1 | h1, h2⟩)
              · exact Or.inl (Or.inl h)
              · exact Or.inl (Or.inr h1.symm)
              · exact Or.inr ⟨h1, h2⟩
      · simp only [ha, Bool.false_eq_true, if_false, List.mem_cons]
        constructor
        · constructor
          · rintro (h | ⟨h1, h2⟩)
            · exact Or.inl h
            · exact Or.inr ⟨Or.inr h1, h2⟩
          · rintro (h | ⟨h1 | h1, h2, h3⟩)
            · exact Or.inl h
            · exact absurd (h1 ▸ h2) ha
            · exact Or.inr ⟨h1, h2, h3⟩
        · constructor
          · rintro (h | ⟨h1, h2⟩)
            · exact Or.inl h
            · exact Or.inr ⟨Or.inr h1, h2⟩
          · rintro (h | ⟨h1 | h1, h2⟩)
            · exact Or.inl h
            · exact absurd (h1 ▸ h2) ha
            · exact Or.inr ⟨h1, h2⟩
  obtain ⟨g1, g2⟩ := gen l (0, 0)
  constructor
  · rw [g1]; simp
  · rw [g2]; simp

/-- C28. Uncontrollable ids outside the alphabet are ignored: when `Unc` and `Unc'` hold
the same events of `Σ_P ∪ Σ_E`, `op::SupervisorSynth(P, E, Unc)` and
`op::SupervisorSynth(P, E, Unc')` are the same automaton: both reach the search only
through the bit set `non_contr_bit`, which is the same for the two sets; the same holds of
the two bit sets of `op::SuperProxy::findRemovedStates_` and of the proxy it builds. -/
theorem SupervisorSynth_ignores_foreign_ids (aP aE : DESystem) (unc unc' : List ScalarType)
    (h : ∀ e, (aP.events_ ||| aE.events_).testBit e = true → (e ∈ unc ↔ e ∈ unc')) :
    nonContrBit (aP.events_ ||| aE.events_) unc = nonContrBit (aP.events_ ||| aE.events_) unc' ∧
    SupervisorSynth aP aE unc = SupervisorSynth aP aE unc' ∧
    SuperProxy.nonContrBits aP.events_ (aP.events_ ||| aE.events_) unc =
      SuperProxy.nonContrBits aP.events_ (aP.events_ ||| aE.events_) unc' ∧
    SuperProxy.SuperProxy aP aE unc = SuperProxy.SuperProxy aP aE unc' := by
  have h1 : nonContrBit (aP.events_ ||| aE.events_) unc =
      nonContrBit (aP.events_ ||| aE.events_) unc' := by
    apply Nat.eq_of_testBit_eq
    intro e
    rw [Bool.eq_iff_iff, testBit_nonContrBit, testBit_nonContrBit]
    constructor
    · rintro ⟨hm, he⟩; exact ⟨(h e he).mp hm, he⟩
    · rintro ⟨hm, he⟩; exact ⟨(h e he).mpr hm, he⟩
  have hsub : ∀ e, aP.events_.testBit e = true → (aP.events_ ||| aE.events_).testBit e = true := by
    intro e he
    rw [Nat.testBit_or, he, Bool.true_or]
  have h2 : SuperProxy.nonContrBits aP.events_ (aP.events_ ||| aE.events_) unc =
      SuperProxy.nonContrBits aP.events_ (aP.events_ ||| aE.events_) unc' := by
    apply Prod.ext
    · apply Nat.eq_of_testBit_eq
      intro e
      rw [Bool.eq_iff_iff, (testBit_nonContrBits _ _ _ e).1, (testBit_nonContrBits _ _ _ e).1]
      constructor
      · rintro ⟨hm, he, hv⟩; exact ⟨(h e hv).mp hm, he, hv⟩
      · rintro ⟨hm, he, hv⟩; exact ⟨(h e hv).mpr hm, he, hv⟩
    · apply Nat.eq_of_testBit_eq
      intro e
      rw [Bool.eq_iff_iff, (testBit_nonContrBits _ _ _ e).2, (testBit_nonContrBits _ _ _ e).2]
      constructor
      · rintro ⟨hm, he⟩; exact ⟨(h e (hsub e he)).mp hm, he⟩
      · rintro ⟨hm, he⟩; exact ⟨(h e (hsub e he)).mpr hm, he⟩
  refine ⟨h1, ?_, h2, ?_⟩
  · unfold SupervisorSynth synthVirtualSys synthFinal
    rw [h1]
  · unfold SuperProxy.SuperProxy SuperProxy.findRemovedStates_ SuperProxy.findFinal
    rw [h2]

/-- Witness of C28 on the supervisor test: the id `7` lies outside the alphabet
`{0, 1, 2, 3}`, so adding it to the uncontrollable events changes nothing. -/
theorem SupervisorSynth_ignores_foreign_ids_witness :
    SupervisorSynth testPlant testSpec [2, 3] = SupervisorSynth testPlant testSpec [2, 3, 7] ∧
    SuperProxy.SuperProxy testPlant testSpec [2, 3] =
      SuperProxy.SuperProxy testPlant testSpec [2, 3, 7] :=
  ⟨(SupervisorSynth_ignores_foreign_ids testPlant testSpec [2, 3] [2, 3, 7] (by
      intro e he
      have hne : e ≠ 7 := by
        rintro rfl
        revert he
        decide!
      simp [hne])).2.1,
    (SupervisorSynth_ignores_foreign_ids testPlant testSpec [2, 3] [2, 3, 7] (by
      intro e he
      have hne : e ≠ 7 := by
        rintro rfl
        revert he
        decide!
      simp [hne])).2.2.2⟩
theorem foldl_or_true {α : Type} (f : α → Bool) (l : List α) (init : Bool) :
    l.foldl (fun acc x => acc || f x) init = true ↔ init = true ∨ ∃ x ∈ l, f x = true := by
  induction l generalizing init with
  | nil => simp
  | cons a l ih =>
    simp only [List.foldl_cons, ih, Bool.or_eq_true, List.mem_cons]
    constructor
    · rintro ((h | h) | ⟨x, hx, h⟩)
      · exact Or.inl h
      · exact Or.inr ⟨a, Or.inl rfl, h⟩
      · exact Or.inr ⟨x, Or.inr hx, h⟩
    · rintro (h | ⟨x, (rfl | hx), h⟩)
      · exact Or.inl (Or.inl h)
      · exact Or.inl (Or.inr h)
      · exact Or.inr ⟨x, hx, h⟩

theorem bit_bitGraphFromTriplets (rows cols : Nat) (ts : List (Triplet Bool)) (i j : Nat) :
    (bitGraphFromTriplets rows cols ts).bit i j = true ↔
      i < rows ∧ j < cols ∧
        ∃ t ∈ ts, t.row = (i : Int) ∧ t.col = (j : Int) ∧ t.value = true := by
  unfold SparseMatrix.bit bitGraphFromTriplets
  rw [coeffD_setFromTriplets]
  by_cases h : i < rows ∧ j < cols
  · rw [if_pos h]
    unfold accumulate
    rw [foldl_or_true (fun t : Triplet Bool => t.value)]
    simp only [Bool.false_eq_true, false_or, List.mem_filter, decide_eq_true_eq]
    constructor
    · rintro ⟨t, ⟨ht, h1, h2⟩, hv⟩; exact ⟨h.1, h.2, t, ht, h1, h2, hv⟩
    · rintro ⟨-, -, t, ht, h1, h2, hv⟩; exact ⟨t, ⟨ht, h1, h2⟩, hv⟩
  · rw [if_neg h]
    simp only [Bool.false_eq_true, false_iff]
    rintro ⟨h1, h2, _⟩
    exact h ⟨h1, h2⟩

theorem ne_zero_iff_testBit (n : Nat) : n ≠ 0 ↔ ∃ e, n.testBit e = true := by
  constructor
  · intro h
    by_contra hcon
    apply h
    apply Nat.eq_of_testBit_eq
    intro e
    rw [Nat.zero_testBit]
    cases he : n.testBit e
    · rfl
    · exact absurd ⟨e, he⟩ hcon
  · rintro ⟨e, he⟩ h0
    rw [h0, Nat.zero_testBit] at he
    exact absurd he (by simp)

theorem Synchronize_bit_graph (A B : DESystem) :
    (Synchronize A B).bit_graph_ =
      bitGraphFromTriplets (A.states_number_ * B.states_number_)
        (A.states_number_ * B.states_number_)
        ((List.range (A.states_number_ * B.states_number_)).flatMap (fun q =>
          (⟨(q : Int), (q : Int), true⟩ : Triplet Bool) ::
            (bitsOf (syncEvents A.states_events_ B.states_events_
                (A.events_ ^^^ (A.events_ &&& B.events_))
                (B.events_ ^^^ (A.events_ &&& B.events_))
                (q % A.states_number_) (q / A.states_number_))).filterMap (fun event =>
              if (q : Int) ≠ scanTarget A B (q % A.states_number_) (q / A.states_number_) event
              then some ⟨scanTarget A B (q % A.states_number_) (q / A.states_number_) event,
                (q : Int), true⟩
              else none))) := rfl

/-- The bit graph of the product built by `op::Synchronize`: the bit in row `i` and column
`j` is set when `i = j` or an edge leads from `j` to `i`. -/
theorem Synchronize_bit_iff (A B : DESystem) {i j : Nat}
    (hi : i < A.states_number_ * B.states_number_)
    (hj : j < A.states_number_ * B.states_number_) :
    (Synchronize A B).bit_graph_.bit i j = true ↔
      i = j ∨ (Synchronize A B).graph_.coeff j i ≠ 0 := by
  rw [Synchronize_bit_graph, bit_bitGraphFromTriplets, ne_zero_iff_testBit]
  constructor
  · rintro ⟨-, -, t, ht, hrow, hcol, -⟩
    rw [List.mem_flatMap] at ht
    obtain ⟨q, -, ht⟩ := ht
    rcases List.mem_cons.mp ht with ht | ht
    · left
      rw [ht] at hrow hcol
      simp only at hrow hcol
      have h1 : q = i := by exact_mod_cast hrow
      have h2 : q = j := by exact_mod_cast hcol
      rw [← h1, ← h2]
    · rw [List.mem_filterMap] at ht
      obtain ⟨event, hev, hsome⟩ := ht
      by_cases hne : (q : Int) ≠
          scanTarget A B (q % A.states_number_) (q / A.states_number_) event
      · rw [if_pos hne] at hsome
        have ht' := Option.some.inj hsome
        subst ht'
        simp only at hrow hcol
        have h2 : q = j := by exact_mod_cast hcol
        subst h2
        right
        refine ⟨event % 64,
          (Synchronize_edge_bit_iff A B q i (event % 64)).mpr ⟨hj, hi, event, rfl, ?_, hrow⟩⟩
        unfold enabledAt
        rw [← testBit_syncEvents]
        exact (mem_bitsOf _ _).mp hev
      · rw [if_neg hne] at hsome
        exact absurd hsome (by simp)
  · intro h
    refine ⟨hi, hj, ?_⟩
    by_cases hij : i = j
    · subst hij
      refine ⟨⟨(i : Int), (i : Int), true⟩, ?_, rfl, rfl, rfl⟩
      rw [List.mem_flatMap]
      exact ⟨i, List.mem_range.mpr hi, List.mem_cons_self _ _⟩
    · rcases h with h | ⟨e, he⟩
      · exact absurd h hij
      · obtain ⟨-, -, e', -, hen, hs⟩ := (Synchronize_edge_bit_iff A B j i e).mp he
        refine ⟨⟨(i : Int), (j : Int), true⟩, ?_, rfl, rfl, rfl⟩
        rw [List.mem_flatMap]
        refine ⟨j, List.mem_range.mpr hj, List.mem_cons_of_mem _ ?_⟩
        rw [List.mem_filterMap]
        refine ⟨e', ?_, ?_⟩
        · rw [mem_bitsOf, testBit_syncEvents]
          exact hen
        · have hne : (j : Int) ≠
              scanTarget A B (j % A.states_number_) (j / A.states_number_) e' := by
            rw [hs]
            intro hji
            exact hij (by exact_mod_cast hji.symm)
          rw [if_pos hne, hs]

/-- C21 as stated fails on the product of `0 -a-> 1` with the one-state specification: the
graph has the edge `G[0][1] = {a}`, the bit `B[0][1]` is `0` and the bit `B[1][0]` is `1`, so
`B[i][j] = 1 ⇔ (i = j ∨ G[i][j] ≠ ∅)` does not hold with `i` the row and `j` the column. -/
theorem Synchronize_bit_graph_not_source_row :
    WellFormed chainSys ∧ Deterministic chainSys ∧ WellFormed idleSpec ∧
    Deterministic idleSpec ∧
    (Synchronize chainSys idleSpec).graph_.coeff 0 1 = 1 ∧
    (Synchronize chainSys idleSpec).bit_graph_.bit 0 1 = false ∧
    (Synchronize chainSys idleSpec).bit_graph_.bit 1 0 = true ∧
    ¬ (∀ i < (Synchronize chainSys idleSpec).states_number_,
        ∀ j < (Synchronize chainSys idleSpec).states_number_,
          ((Synchronize chainSys idleSpec).bit_graph_.bit i j = true ↔
            i = j ∨ (Synchronize chainSys idleSpec).graph_.coeff i j ≠ 0)) := by
  decide!

/-- A cell of the product graph is non-empty exactly when some event leads from its row
state to its column state in the product of spec 3. -/
theorem Synchronize_coeff_ne_zero_iff {A B : DESystem} (hA : WellFormed A) (hB : WellFormed B)
    (dA : Deterministic A) (dB : Deterministic B) {q : Nat}
    (hq : q < A.states_number_ * B.states_number_) (q' : Nat) :
    (Synchronize A B).graph_.coeff q q' ≠ 0 ↔ ∃ e, productStep A B q e q' = true := by
  rw [ne_zero_iff_testBit]
  constructor
  · rintro ⟨b, hb⟩
    obtain ⟨h1, h2, e, -, hen, ht⟩ := (Synchronize_edge_bit_iff A B q q' b).mp hb
    exact ⟨e, (scanEdge_step hA hB dA dB hq q' e).mp ⟨h1, h2, hen, ht⟩⟩
  · rintro ⟨e, he⟩
    obtain ⟨h1, h2, hen, ht⟩ := (scanEdge_step hA hB dA dB hq q' e).mpr he
    exact ⟨e % 64, (Synchronize_edge_bit_iff A B q q' (e % 64)).mpr ⟨h1, h2, e, rfl, hen, ht⟩⟩

/-- C21, amended. Bit-graph invariant: for well-formed deterministic `A` and `B`, in the
automaton returned by `op::Synchronize(A, B)` the bit matrix holds the edges with the target
as row and the source as column: for all states `i` (row) and `j` (column), `B[i][j] = 1` if
and only if `i = j` or `G[j][i]` is non-empty; and `G[j][i]` is non-empty exactly when some
event leads from `j` to `i` in the product. -/
theorem Synchronize_bit_graph_transposed (A B : DESystem) (hA : WellFormed A)
    (hB : WellFormed B) (dA : Deterministic A) (dB : Deterministic B) (i j : cldes_size_t)
    (hi : i < (Synchronize A B).states_number_) (hj : j < (Synchronize A B).states_number_) :
    ((Synchronize A B).bit_graph_.bit i j = true ↔
      i = j ∨ (Synchronize A B).graph_.coeff j i ≠ 0) ∧
    ((Synchronize A B).graph_.coeff j i ≠ 0 ↔ ∃ e : ScalarType, productStep A B j e i = true) :=
  ⟨Synchronize_bit_iff A B hi hj, Synchronize_coeff_ne_zero_iff hA hB dA dB hj i⟩

/-- Witness of the amended C21 on the supervisor test, at row `1` and column `0`. -/
theorem Synchronize_bit_graph_transposed_witness :
    WellFormed testPlant ∧ WellFormed testSpec ∧
    Deterministic testPlant ∧ Deterministic testSpec ∧
    ((Synchronize testPlant testSpec).bit_graph_.bit 1 0 = true ↔
      1 = 0 ∨ (Synchronize testPlant testSpec).graph_.coeff 0 1 ≠ 0) :=
  ⟨by decide!, by decide!, by decide!, by decide!,
    (Synchronize_bit_graph_transposed testPlant testSpec (by decide!) (by decide!) (by decide!)
      (by decide!) 1 0 (by decide!) (by decide!)).1⟩
theorem coeff_transpose (G : GraphHostData) (i j : Nat) :
    G.transpose.coeff i j = if i < G.cols ∧ j < G.rows then G.coeff j i else 0 := by
  unfold SparseMatrix.transpose
  show SparseMatrix.coeffD _ 0 i j = _
  unfold SparseMatrix.coeffD
  simp only
  rw [getD_map_range]
  by_cases hi : i < G.cols
  · rw [if_pos hi, getD_map_range]
    by_cases hj : j < G.rows
    · simp [hi, hj]
    · simp [hi, hj]
  · simp [hi]

theorem filter_rowEntries_fst (c : Nat → BitArray) (p : Nat × BitArray → Bool) (l : List Nat) :
    ((l.filterMap (fun j => if c j = 0 then none else some (j, c j))).filter p).map
        (fun pe => pe.1) =
      l.filter (fun j => decide (c j ≠ 0) && p (j, c j)) := by
  induction l with
  | nil => rfl
  | cons a l ih =>
    by_cases h0 : c a = 0
    · rw [List.filterMap_cons_none (by simp [h0]), List.filter_cons_of_neg (by simp [h0])]
      exact ih
    · have hf : (List.filterMap (fun j => if c j = 0 then none else some (j, c j)) (a :: l)) =
          (a, c a) :: List.filterMap (fun j => if c j = 0 then none else some (j, c j)) l := by
        rw [List.filterMap_cons]
        simp [h0]
      rw [hf]
      by_cases hp : p (a, c a) = true
      · rw [List.filter_cons_of_pos hp, List.filter_cons_of_pos (by simp [h0, hp]),
          List.map_cons, ih]
      · rw [List.filter_cons_of_neg hp, List.filter_cons_of_neg (by simp [hp]), ih]

/-- The sources of the edges into `q` labelled `e`, as the transposed graph lists them. -/
theorem invStates_eq (G : GraphHostData) (q e : Nat) (hq : q < G.cols) :
    ((G.transpose.rowEntries q).filter (fun pe => pe.2.testBit e)).map (fun pe => pe.1) =
      (List.range G.rows).filter (fun i => (G.coeff i q).testBit e) := by
  unfold SparseMatrix.rowEntries
  rw [filter_rowEntries_fst (fun j => G.transpose.coeff q j)]
  show (List.range G.rows).filter _ = _
  apply List.filter_congr
  intro i hi
  have hi' : i < G.rows := List.mem_range.mp hi
  rw [coeff_transpose, if_pos ⟨hq, hi'⟩]
  cases h : (G.coeff i q).testBit e
  · simp
  · have : G.coeff i q ≠ 0 := (ne_zero_iff_testBit _).mpr ⟨e, h⟩
    simp [this]

theorem nodup_encode_product (n : Nat) (lE lP : List Nat) (hE : lE.Nodup) (hP : lP.Nodup)
    (hb : ∀ sp ∈ lP, sp < n) :
    (lE.flatMap (fun se => lP.map (fun sp => se * n + sp))).Nodup := by
  induction lE with
  | nil => exact List.nodup_nil
  | cons a lE ih =>
    rw [List.flatMap_cons]
    have ha := List.nodup_cons.mp hE
    refine List.Nodup.append ?_ (ih ha.2) ?_
    · exact hP.map_on (fun x hx y hy hxy => by omega)
    · intro s hs1 hs2
      rw [List.mem_map] at hs1
      obtain ⟨sp, hsp, rfl⟩ := hs1
      rw [List.mem_flatMap] at hs2
      obtain ⟨se, hse, hs2⟩ := hs2
      rw [List.mem_map] at hs2
      obtain ⟨sp', hsp', heq⟩ := hs2
      have h1 := hb sp hsp
      have h2 := hb sp' hsp'
      have hse' : se = a := by
        have e1 : (se * n + sp') / n = (a * n + sp) / n := by rw [heq]
        rw [(encode_decode h2).2, (encode_decode h1).2] at e1
        exact e1
      exact ha.1 (hse' ▸ hse)
theorem flatMap_fst (l : List (Nat × BitArray)) (g : Nat → List Nat) :
    l.flatMap (fun ee => g ee.1) = (l.map (fun pe => pe.1)).flatMap g := by
  induction l with
  | nil => rfl
  | cons a l ih => rw [List.flatMap_cons, List.map_cons, List.flatMap_cons, ih]

theorem map_fst (l : List (Nat × BitArray)) (g : Nat → Nat) :
    l.map (fun pe => g pe.1) = (l.map (fun pe => pe.1)).map g := by
  rw [List.map_map]
  rfl

/-- The list `__TransitionVirtualInv` returns over the transposed graphs of well-formed
operands, with the scans of the transposed rows written as filters of the states. -/
theorem TransitionVirtualInv_eq {A B : DESystem} (hA : WellFormed A) (hB : WellFormed B)
    {x : Nat} (hx : x < A.states_number_ * B.states_number_) (e : Nat) :
    __TransitionVirtualInv A.events_ B.events_ A.graph_.transpose B.graph_.transpose x e =
      if A.events_.testBit e && B.events_.testBit e then
        ((List.range B.states_number_).filter (fun i =>
          (B.graph_.coeff i (x / A.states_number_)).testBit e)).flatMap (fun se =>
            ((List.range A.states_number_).filter (fun i =>
              (A.graph_.coeff i (x % A.states_number_)).testBit e)).map (fun sp =>
                se * A.states_number_ + sp))
      else if A.events_.testBit e then
        ((List.range A.states_number_).filter (fun i =>
          (A.graph_.coeff i (x % A.states_number_)).testBit e)).map (fun sp =>
            x / A.states_number_ * A.states_number_ + sp)
      else
        ((List.range B.states_number_).filter (fun i =>
          (B.graph_.coeff i (x / A.states_number_)).testBit e)).map (fun se =>
            se * A.states_number_ + x % A.states_number_) := by
  obtain ⟨hx0, hx1⟩ := decode_lt hx
  have hrows : A.graph_.transpose.rows = A.states_number_ := hA.2.2.2.1
  have hP := invStates_eq A.graph_ (x % A.states_number_) e (by rw [hA.2.2.2.1]; exact hx0)
  have hE := invStates_eq B.graph_ (x / A.states_number_) e (by rw [hB.2.2.2.1]; exact hx1)
  rw [hA.2.2.1] at hP
  rw [hB.2.2.1] at hE
  unfold __TransitionVirtualInv
  simp only [hrows]
  by_cases hs : (A.events_.testBit e && B.events_.testBit e) = true
  · rw [if_pos hs, if_pos hs, hP,
      flatMap_fst _ (fun se => ((List.range A.states_number_).filter (fun i =>
        (A.graph_.coeff i (x % A.states_number_)).testBit e)).map (fun sp =>
          se * A.states_number_ + sp)), hE]
  · rw [if_neg hs, if_neg hs]
    by_cases hp : A.events_.testBit e = true
    · rw [if_pos hp, if_pos hp,
        map_fst _ (fun sp => x / A.states_number_ * A.states_number_ + sp), hP]
    · rw [if_neg hp, if_neg hp,
        map_fst _ (fun se => se * A.states_number_ + x % A.states_number_), hE]

theorem TransitionVirtualInv_nodup {A B : DESystem} (hA : WellFormed A) (hB : WellFormed B)
    {x : Nat} (hx : x < A.states_number_ * B.states_number_) (e : Nat) :
    (__TransitionVirtualInv A.events_ B.events_ A.graph_.transpose B.graph_.transpose x
      e).Nodup := by
  rw [TransitionVirtualInv_eq hA hB hx]
  have hnP : ((List.range A.states_number_).filter (fun i =>
      (A.graph_.coeff i (x % A.states_number_)).testBit e)).Nodup :=
    List.Nodup.filter _ (List.nodup_range _)
  have hnE : ((List.range B.states_number_).filter (fun i =>
      (B.graph_.coeff i (x / A.states_number_)).testBit e)).Nodup :=
    List.Nodup.filter _ (List.nodup_range _)
  by_cases hs : (A.events_.testBit e && B.events_.testBit e) = true
  · rw [if_pos hs]
    apply nodup_encode_product _ _ _ hnE hnP
    intro sp hsp
    exact List.mem_range.mp (List.mem_filter.mp hsp).1
  · rw [if_neg hs]
    by_cases hp : A.events_.testBit e = true
    · rw [if_pos hp]
      exact hnP.map_on (fun a _ b _ hab => Nat.add_left_cancel hab)
    · rw [if_neg hp]
      have hpos : 0 < A.states_number_ := by
        rcases Nat.eq_zero_or_pos A.states_number_ with h0 | h0
        · rw [h0, Nat.zero_mul] at hx; exact absurd hx (Nat.not_lt_zero _)
        · exact h0
      refine hnE.map_on (fun a _ b _ hab => ?_)
      have : a * A.states_number_ = b * A.states_number_ := Nat.add_right_cancel hab
      exact Nat.eq_of_mul_eq_mul_right hpos this

theorem mem_TransitionVirtualInv {A B : DESystem} (hA : WellFormed A) (hB : WellFormed B)
    {x s : Nat} (hx : x < A.states_number_ * B.states_number_)
    (hs : s < A.states_number_ * B.states_number_) {e : Nat}
    (he : (A.events_ ||| B.events_).testBit e = true) :
    s ∈ __TransitionVirtualInv A.events_ B.events_ A.graph_.transpose B.graph_.transpose x e ↔
      productStep A B s e x = true := by
  obtain ⟨hx0, hx1⟩ := decode_lt hx
  obtain ⟨hs0, hs1⟩ := decode_lt hs
  rw [TransitionVirtualInv_eq hA hB hx, productStep_iff]
  rw [Nat.testBit_or, Bool.or_eq_true] at he
  have hdec : s / A.states_number_ * A.states_number_ + s % A.states_number_ = s :=
    decode_encode A.states_number_ s
  by_cases hp : A.events_.testBit e = true
  · by_cases hq : B.events_.testBit e = true
    · rw [if_pos (by rw [hp, hq]; rfl)]
      simp only [List.mem_flatMap, List.mem_map, List.mem_filter, List.mem_range, hp, hq,
        Bool.true_eq_false, false_and, or_false, true_and, and_false]
      constructor
      · rintro ⟨se, ⟨-, hse⟩, sp, ⟨hsp, hsp'⟩, rfl⟩
        rw [(encode_decode hsp).1, (encode_decode hsp).2]
        exact ⟨hx, hsp', hse⟩
      · rintro ⟨-, h1, h2⟩
        exact ⟨s / A.states_number_, ⟨hs1, h2⟩, s % A.states_number_, ⟨hs0, h1⟩, hdec⟩
    · have hq' : B.events_.testBit e = false := by simpa using hq
      rw [if_neg (by rw [hp, hq']; simp), if_pos hp]
      simp only [List.mem_map, List.mem_filter, List.mem_range, hp, hq',
        Bool.true_eq_false, Bool.false_eq_true, false_and, or_false, true_and, and_false,
        false_or]
      constructor
      · rintro ⟨sp, ⟨hsp, hsp'⟩, rfl⟩
        rw [(encode_decode hsp).1, (encode_decode hsp).2]
        exact ⟨hx, hsp', rfl⟩
      · rintro ⟨-, h1, h2⟩
        refine ⟨s % A.states_number_, ⟨hs0, h1⟩, ?_⟩
        rw [h2]
        exact hdec
  · have hp' : A.events_.testBit e = false := by simpa using hp
    have hq : B.events_.testBit e = true := by
      rcases he with h | h
      · exact absurd h hp
      · exact h
    rw [if_neg (by rw [hp']; simp), if_neg hp]
    simp only [List.mem_map, List.mem_filter, List.mem_range, hp', hq,
      Bool.true_eq_false, Bool.false_eq_true, false_and, or_false, true_and, and_false,
      false_or]
    constructor
    · rintro ⟨se, ⟨hse, hse'⟩, rfl⟩
      rw [(encode_decode hx0).1, (encode_decode hx0).2]
      exact ⟨hx, hse', rfl⟩
    · rintro ⟨-, h1, h2⟩
      refine ⟨s / A.states_number_, ⟨hs1, h1⟩, ?_⟩
      rw [h2]
      exact hdec
/-- C22. Inverse transitions invert forward transitions: for well-formed deterministic `A`
and `B`, product states `x` and `s` below `nA * nB` and an event `e ∈ Σ_A ∪ Σ_B`, the state
`s` occurs in the list `__TransitionVirtualInv(Σ_A, Σ_B, G_A^T, G_B^T, x, e)` if and only if
`e` is enabled at `s` in the product and `op::TransitionVirtual(A, B, s, e) = x`; the list
has no duplicate, so `s` occurs at most once. -/
theorem TransitionVirtualInv_inverts (A B : DESystem) (hA : WellFormed A) (hB : WellFormed B)
    (dA : Deterministic A) (dB : Deterministic B) (x s : cldes_size_t) (e : ScalarType)
    (hx : x < A.states_number_ * B.states_number_)
    (hs : s < A.states_number_ * B.states_number_)
    (he : (A.events_ ||| B.events_).testBit e = true) :
    (s ∈ __TransitionVirtualInv A.events_ B.events_ A.graph_.transpose B.graph_.transpose x e ↔
      enabledAt A B s e = true ∧ TransitionVirtual A B s e = x) ∧
    (__TransitionVirtualInv A.events_ B.events_ A.graph_.transpose B.graph_.transpose x
      e).Nodup ∧
    (__TransitionVirtualInv A.events_ B.events_ A.graph_.transpose B.graph_.transpose x
      e).count s ≤ 1 := by
  have hn := TransitionVirtualInv_nodup hA hB hx e
  refine ⟨?_, hn, List.nodup_iff_count_le_one.mp hn s⟩
  rw [mem_TransitionVirtualInv hA hB hx hs he]
  exact productStep_iff_transition hA hB dA dB hs hx e

/-- Witness of C22 on the supervisor test: the product state `3` is entered by the event
`a1 = 1` from the product state `5` only. -/
theorem TransitionVirtualInv_inverts_witness :
    (5 ∈ __TransitionVirtualInv testPlant.events_ testSpec.events_ testPlant.graph_.transpose
        testSpec.graph_.transpose 3 1 ↔
      enabledAt testPlant testSpec 5 1 = true ∧ TransitionVirtual testPlant testSpec 5 1 = 3) ∧
    __TransitionVirtualInv testPlant.events_ testSpec.events_ testPlant.graph_.transpose
        testSpec.graph_.transpose 3 1 = [5] :=
  ⟨(TransitionVirtualInv_inverts testPlant testSpec (by decide!) (by decide!) (by decide!)
    (by decide!) 3 5 1 (by decide!) (by decide!) (by decide!)).1, by decide!⟩
theorem DESystem.trans_nat {A : DESystem} (hA : WellFormed A) {q e : Nat}
    (hq : q < A.states_number_) (h : A.containstrans q e = true) :
    ∃ j < A.states_number_, A.trans q e = ((j : Nat) : Int) ∧
      (A.graph_.coeff q j).testBit e = true := by
  unfold DESystem.containstrans DESystem.getStateEvents at h
  obtain ⟨c, hc, hlt, hbit⟩ := hA.firstCol_of_out hq h
  refine ⟨c, hlt, ?_, hbit⟩
  unfold DESystem.trans DESystem.getStateEvents
  rw [if_pos h, hc]

theorem testBit_getStateEvents_impl (S : SuperProxy) (q e : Nat) :
    (S.getStateEvents_impl q).testBit e =
      ((S.sys0_.containstrans (q % S.n_states_sys0_) e &&
          S.sys1_.containstrans (q / S.n_states_sys0_) e) ||
        (S.sys0_.containstrans (q % S.n_states_sys0_) e && S.only_in_plant_.testBit e) ||
        (S.sys1_.containstrans (q / S.n_states_sys0_) e && S.only_in_spec_.testBit e)) := by
  unfold SuperProxy.getStateEvents_impl DESystem.containstrans
  simp only [Nat.testBit_or, Nat.testBit_and]

theorem encode_int_ne (n a b : Nat) : ((a : Int) * (n : Int) + (b : Int)) ≠ -1 := by
  intro h
  have : (0 : Int) ≤ (a : Int) * (n : Int) + (b : Int) := by positivity
  omega

/-- The absence signals of a proxy whose children are well formed. -/
theorem superProxy_absence_iff {S : SuperProxy} (hS : S.Built) (h0 : WellFormed S.sys0_)
    (h1 : WellFormed S.sys1_) {q : Nat} (hqV : q ∈ S.virtual_states_)
    (hq : q < S.sys0_.states_number_ * S.sys1_.states_number_) (e : Nat) :
    (S.trans_impl q e = -1 ↔ (S.getStateEvents_impl q).testBit e = false) ∧
    (S.containstrans_impl q e = true ↔ S.trans_impl q e ≠ -1) ∧
    (S.containstrans_impl q e = true →
      ∃ k < S.sys0_.states_number_ * S.sys1_.states_number_,
        S.trans_impl q e = ((k : Nat) : Int)) := by
  obtain ⟨hn, hop, hos, hev⟩ := hS
  obtain ⟨hx, hy⟩ := decode_lt hq
  rw [testBit_getStateEvents_impl]
  unfold SuperProxy.trans_impl SuperProxy.containstrans_impl
  simp only [hqV, decide_True, Bool.not_true, Bool.false_or, hn, hop, hos, hev]
  have hx0 : S.sys0_.containstrans (q % S.sys0_.states_number_) e = true →
      S.sys0_.events_.testBit e = true := fun h => h0.out_mem hx h
  have hy0 : S.sys1_.containstrans (q / S.sys0_.states_number_) e = true →
      S.sys1_.events_.testBit e = true := fun h => h1.out_mem hy h
  cases hinx : S.sys0_.containstrans (q % S.sys0_.states_number_) e <;>
    cases hiny : S.sys1_.containstrans (q / S.sys0_.states_number_) e
  · simp
  · have hev := hy0 hiny
    obtain ⟨j, hj, htr, -⟩ := DESystem.trans_nat h1 hy hiny
    cases hpe : S.sys0_.events_.testBit e
    · simp only [hev, hpe, htr, Nat.testBit_or, Nat.testBit_xor, Nat.testBit_and,
        Bool.false_and, Bool.and_false, Bool.or_false, Bool.false_or, Bool.true_and,
        Bool.and_true, Bool.not_true, Bool.not_false, Bool.xor_false, Bool.or_true,
        Bool.false_eq_true, if_false, if_true, Bool.true_eq_false, iff_false, true_iff, ne_eq,
        not_false_eq_true, forall_true_left]
      exact ⟨encode_int_ne _ j _, encode_int_ne _ j _, _, encode_lt hx hj, by push_cast; rfl⟩
    · simp [hev, hpe, Nat.testBit_or, Nat.testBit_xor, Nat.testBit_and]
  · have hev := hx0 hinx
    obtain ⟨j, hj, htr, -⟩ := DESystem.trans_nat h0 hx hinx
    cases hee : S.sys1_.events_.testBit e
    · simp only [hev, hee, htr, Nat.testBit_or, Nat.testBit_xor, Nat.testBit_and,
        Bool.false_and, Bool.and_false, Bool.or_false, Bool.false_or, Bool.true_and,
        Bool.and_true, Bool.not_true, Bool.not_false, Bool.xor_false, Bool.or_true,
        Bool.true_or, Bool.false_eq_true, if_false, if_true, Bool.true_eq_false, iff_false,
        true_iff, ne_eq, not_false_eq_true, forall_true_left]
      exact ⟨encode_int_ne _ _ j, encode_int_ne _ _ j, _, encode_lt hj hy, by push_cast; rfl⟩
    · simp [hev, hee, Nat.testBit_or, Nat.testBit_xor, Nat.testBit_and]
  · have hev := hx0 hinx
    obtain ⟨j, hj, htr, -⟩ := DESystem.trans_nat h0 hx hinx
    obtain ⟨k, hk, htr', -⟩ := DESystem.trans_nat h1 hy hiny
    simp only [hev, htr, htr', Nat.testBit_or, Bool.true_or, Bool.and_self,
      Bool.not_true, Bool.false_eq_true, if_false, if_true, Bool.true_eq_false, iff_false,
      true_iff, ne_eq, not_false_eq_true, forall_true_left]
    exact ⟨encode_int_ne _ k j, encode_int_ne _ k j, _, encode_lt hj hk, by push_cast; rfl⟩
theorem superProxy_built (aP aE : DESystem) (unc : List ScalarType) :
    (SuperProxy.SuperProxy aP aE unc).Built ∧
    (SuperProxy.SuperProxy aP aE unc).sys0_ = aP ∧
    (SuperProxy.SuperProxy aP aE unc).sys1_ = aE ∧
    (SuperProxy.SuperProxy aP aE unc).marked_states_ = (Synchronize aP aE).marked_states_ :=
  ⟨⟨rfl, rfl, rfl, rfl⟩, rfl, rfl, rfl⟩

/-- C24. Absence signals agree: for a proxy `op::SuperProxy` whose members are those its
constructor sets and whose children are well formed, for every product state `q` in
`virtual_states_` and every event `e`, `trans_impl(q, e) = -1` if and only if
`e ∉ getStateEvents_impl(q)`, and `containstrans_impl(q, e)` is true if and only if
`trans_impl(q, e) ≠ -1`; the value is then a product state. -/
theorem SuperProxy_absence_signals (S : SuperProxy) (hS : S.Built) (h0 : WellFormed S.sys0_)
    (h1 : WellFormed S.sys1_) (q : cldes_size_t) (e : ScalarType)
    (hqV : q ∈ S.virtual_states_)
    (hq : q < S.sys0_.states_number_ * S.sys1_.states_number_) :
    (S.trans_impl q e = -1 ↔ (S.getStateEvents_impl q).testBit e = false) ∧
    (S.containstrans_impl q e = true ↔ S.trans_impl q e ≠ -1) ∧
    (S.containstrans_impl q e = true →
      ∃ k < S.sys0_.states_number_ * S.sys1_.states_number_,
        S.trans_impl q e = ((k : Nat) : Int)) :=
  superProxy_absence_iff hS h0 h1 hqV hq e

/-- Witness of C24 on the proxy of the supervisor test, at the retained product state `3`
and the event `b0 = 2`. -/
theorem SuperProxy_absence_signals_witness :
    ((SuperProxy.SuperProxy testPlant testSpec testNonContr).trans_impl 3 2 = -1 ↔
      ((SuperProxy.SuperProxy testPlant testSpec testNonContr).getStateEvents_impl 3).testBit 2
        = false) ∧
    ((SuperProxy.SuperProxy testPlant testSpec testNonContr).containstrans_impl 3 2 = true ↔
      (SuperProxy.SuperProxy testPlant testSpec testNonContr).trans_impl 3 2 ≠ -1) ∧
    (SuperProxy.SuperProxy testPlant testSpec testNonContr).trans_impl 3 2 = 6 ∧
    (SuperProxy.SuperProxy testPlant testSpec testNonContr).trans_impl 3 0 = -1 :=
  ⟨(SuperProxy_absence_signals (SuperProxy.SuperProxy testPlant testSpec testNonContr)
      (by decide!) (by decide!) (by decide!) 3 2 (by decide!) (by decide!)).1,
    (SuperProxy_absence_signals (SuperProxy.SuperProxy testPlant testSpec testNonContr)
      (by decide!) (by decide!) (by decide!) 3 2 (by decide!) (by decide!)).2.1,
    by decide!, by decide!⟩
/-- C23 on `fanSys` composed with itself: the proxy retains the product state `8 = (2, 2)`;
both children list the predecessors `[0, 1]` of `2` by the shared event `0`;
`invtrans_impl(8, 0)` returns `[0, 3, 1, 4]`, the cross product with the left factor's
predecessor in the outer loop, which is not ascending, while `__TransitionVirtualInv` returns
`[0, 1, 3, 4]` on the same input. -/
theorem SuperProxy_invtrans_left_outer :
    WellFormed fanSys ∧ Deterministic fanSys ∧
    (SuperProxy.findFinal fanSys fanSys []).1 = [] ∧
    (SuperProxy.SuperProxy fanSys fanSys []).virtual_states_ = [8, 0] ∧
    (fanSys.events_ &&& fanSys.events_).testBit 0 = true ∧
    fanSys.invtrans 2 0 = [0, 1] ∧
    (SuperProxy.SuperProxy fanSys fanSys []).invtrans_impl 8 0 = [0, 3, 1, 4] ∧
    ¬ ((SuperProxy.SuperProxy fanSys fanSys []).invtrans_impl 8 0).Pairwise
      (fun a b => a < b) ∧
    (fanSys.invtrans 2 0).flatMap (fun qy_from =>
      (fanSys.invtrans 2 0).map (fun qx_from => qy_from * 3 + qx_from)) = [0, 1, 3, 4] ∧
    __TransitionVirtualInv fanSys.events_ fanSys.events_ fanSys.graph_.transpose
      fanSys.graph_.transpose 8 0 = [0, 1, 3, 4] := by
  decide!

/-- C29 on `revisitPlant` and `revisitPlantSwapped`, which differ only in the ids of the two
controllable events leaving the initial state, hence in the order in which the main loop
pushes the successors `1` and `2`: with `blockSpec` and `Unc = {3, 4}`,
`op::SupervisorSynth` returns three states for the first and two for the second. -/
theorem SupervisorSynth_depends_on_push_order :
    WellFormed revisitPlant ∧ Deterministic revisitPlant ∧
    WellFormed revisitPlantSwapped ∧ Deterministic revisitPlantSwapped ∧
    WellFormed blockSpec ∧ Deterministic blockSpec ∧
    (∀ i < 5, ∀ j < 5, ∀ e < 6,
      (revisitPlantSwapped.graph_.coeff i j).testBit e =
        (revisitPlant.graph_.coeff i j).testBit (if e = 0 then 1 else if e = 1 then 0 else e)) ∧
    (synthFinal revisitPlant blockSpec [3, 4]).f = [] ∧
    (synthFinal revisitPlantSwapped blockSpec [3, 4]).f = [] ∧
    (synthVirtualSys revisitPlant blockSpec [3, 4]).virtual_states_ = [0, 1, 2] ∧
    (synthVirtualSys revisitPlantSwapped blockSpec [3, 4]).virtual_states_ = [0, 2] ∧
    (SupervisorSynth revisitPlant blockSpec [3, 4]).states_number_ = 3 ∧
    (SupervisorSynth revisitPlantSwapped blockSpec [3, 4]).states_number_ = 2 ∧
    refSupervisorStates revisitPlant blockSpec [3, 4] = [0, 2] ∧
    refSupervisorStates revisitPlantSwapped blockSpec [3, 4] = [0, 2] := by
  decide!

/-- C30 on `strayMarkedPlant` and the one-state specification, with no uncontrollable
event: the search of `findRemovedStates_` retains the product state `0` only; `trim()` then
inserts the marked product state `1`, which no product transition enters, so
`virtual_states_` is `{0, 1}` and its state `1` is not reachable from the initial state `0`;
`op::SupervisorSynth` returns one state on the same input. On `orphanPlant` with `blockSpec`
and the uncontrollable events `2` and `4` the search retains `{0, 2}` after removing `3` and
`1`; `trim()` keeps state `2`, which no retained state steps to, and `op::SupervisorSynth`
returns one state. -/
theorem SuperProxy_trim_keeps_unreachable_marked :
    WellFormed strayMarkedPlant ∧ Deterministic strayMarkedPlant ∧
    WellFormed idleSpec ∧ Deterministic idleSpec ∧
    SuperProxy.findFinal strayMarkedPlant idleSpec [] = ([], [0], []) ∧
    SuperProxy.trimLoop { SuperProxy.members strayMarkedPlant idleSpec with
        virtual_states_ := [0], states_number_ := 1 }
      (SuperProxy.trimRounds { SuperProxy.members strayMarkedPlant idleSpec with
        virtual_states_ := [0], states_number_ := 1 }) [0] [] = ([], [0]) ∧
    SuperProxy.trimLoop { SuperProxy.members strayMarkedPlant idleSpec with
        virtual_states_ := [0], states_number_ := 1 }
      (SuperProxy.trimRounds { SuperProxy.members strayMarkedPlant idleSpec with
        virtual_states_ := [0], states_number_ := 1 }) [1] [0] = ([], [0, 1]) ∧
    (SuperProxy.SuperProxy strayMarkedPlant idleSpec []).marked_states_ = [0, 1] ∧
    (SuperProxy.SuperProxy strayMarkedPlant idleSpec []).init_state_ = 0 ∧
    (SuperProxy.SuperProxy strayMarkedPlant idleSpec []).virtual_states_ = [0, 1] ∧
    (SuperProxy.SuperProxy strayMarkedPlant idleSpec []).states_number_ = 2 ∧
    (∀ s ∈ (SuperProxy.SuperProxy strayMarkedPlant idleSpec []).virtual_states_,
      ∀ e ∈ bitsOf (SuperProxy.SuperProxy strayMarkedPlant idleSpec []).events_,
        (SuperProxy.SuperProxy strayMarkedPlant idleSpec []).trans_impl s e ≠ 1) ∧
    colUnion (Synchronize strayMarkedPlant idleSpec).graph_ 1 = 0 ∧
    (Synchronize strayMarkedPlant idleSpec).AccessiblePart = [0] ∧
    (SupervisorSynth strayMarkedPlant idleSpec []).states_number_ = 1 ∧
    WellFormed orphanPlant ∧ Deterministic orphanPlant ∧
    WellFormed blockSpec ∧ Deterministic blockSpec ∧
    (Synchronize orphanPlant blockSpec).marked_states_ = [0] ∧
    SuperProxy.findFinal orphanPlant blockSpec [2, 4] = ([], [0, 2], [3, 1]) ∧
    (SuperProxy.SuperProxy orphanPlant blockSpec [2, 4]).virtual_states_ = [0, 2] ∧
    (∀ s ∈ (SuperProxy.SuperProxy orphanPlant blockSpec [2, 4]).virtual_states_,
      ∀ e ∈ bitsOf (SuperProxy.SuperProxy orphanPlant blockSpec [2, 4]).events_,
        (SuperProxy.SuperProxy orphanPlant blockSpec [2, 4]).trans_impl s e ≠ 2) ∧
    (SupervisorSynth orphanPlant blockSpec [2, 4]).states_number_ = 1 := by
  decide!
theorem length_bfsStep (B : BitGraphHostData) (x : List Bool) :
    (bfsStep B x).length = B.rows := by
  unfold bfsStep
  rw [List.length_map, List.length_range]

theorem getD_bfsStep (B : BitGraphHostData) (x : List Bool) (i : Nat) :
    (bfsStep B x).getD i false = true ↔
      i < B.rows ∧ ∃ j < B.cols, B.bit i j = true ∧ x.getD j false = true := by
  unfold bfsStep
  rw [getD_map_range]
  by_cases hi : i < B.rows
  · rw [if_pos hi, List.any_eq_true]
    simp only [List.mem_range, Bool.and_eq_true]
    constructor
    · rintro ⟨j, hj, h⟩; exact ⟨hi, j, hj, h⟩
    · rintro ⟨-, j, hj, h⟩; exact ⟨j, hj, h⟩
  · rw [if_neg hi]
    simp [hi]

theorem getD_true_lt {x : List Bool} {i : Nat} (h : x.getD i false = true) : i < x.length := by
  by_contra hcon
  rw [List.getD_eq_default _ _ (Nat.le_of_not_lt hcon)] at h
  exact absurd h (by simp)

theorem bfsIter_induction (B : BitGraphHostData) (P : List Bool → Prop)
    (hstep : ∀ x, P x → P (bfsStep B x)) (k : Nat) (x : List Bool) (hx : P x) :
    P (bfsIter B k x) := by
  induction k generalizing x with
  | zero => exact hx
  | succ k ih =>
    unfold bfsIter
    by_cases h : bfsStep B x = x
    · rw [if_pos h]; exact hx
    · rw [if_neg h]; exact ih _ (hstep x hx)

theorem count_le_of_le (x y : List Bool) (hl : x.length = y.length)
    (h : ∀ i, x.getD i false = true → y.getD i false = true) :
    x.count true ≤ y.count true := by
  induction x generalizing y with
  | nil => exact Nat.zero_le _
  | cons a xs ih =>
    cases y with
    | nil => simp at hl
    | cons b ys =>
      have htl : ∀ i, xs.getD i false = true → ys.getD i false = true := by
        intro i hi
        have := h (i + 1)
        simpa using this hi
      have h0 : a = true → b = true := by
        have := h 0
        simpa using this
      have hle := ih ys (by simpa using hl) htl
      cases a
      · cases b
        · simpa using hle
        · simp only [List.count_cons_self, List.count_cons_of_ne (by decide : true ≠ false)]
          omega
      · rw [h0 rfl]
        simpa using hle

theorem count_lt_of_le_ne (x y : List Bool) (hl : x.length = y.length)
    (h : ∀ i, x.getD i false = true → y.getD i false = true) (hne : x ≠ y) :
    x.count true < y.count true := by
  induction x generalizing y with
  | nil =>
    cases y with
    | nil => exact absurd rfl hne
    | cons b ys => simp at hl
  | cons a xs ih =>
    cases y with
    | nil => simp at hl
    | cons b ys =>
      have htl : ∀ i, xs.getD i false = true → ys.getD i false = true := by
        intro i hi
        have := h (i + 1)
        simpa using this hi
      have h0 : a = true → b = true := by
        have := h 0
        simpa using this
      have hl' : xs.length = ys.length := by simpa using hl
      by_cases hab : a = b
      · subst hab
        have hne' : xs ≠ ys := fun h' => hne (by rw [h'])
        have hlt := ih ys hl' htl hne'
        cases a
        · simpa using hlt
        · simpa using hlt
      · have hle := count_le_of_le xs ys hl' htl
        cases a
        · cases b
          · exact absurd rfl hab
          · simp only [List.count_cons_self, List.count_cons_of_ne (by decide : true ≠ false)]
            omega
        · exact absurd (h0 rfl).symm hab
theorem bfsStep_mono_self {B : BitGraphHostData} {n : Nat} (hc : B.cols = n)
    (hr : B.rows = n) (hd : ∀ i < n, B.bit i i = true) {x : List Bool} (hx : x.length = n)
    (i : Nat) (h : x.getD i false = true) : (bfsStep B x).getD i false = true := by
  have hi : i < n := hx ▸ getD_true_lt h
  rw [getD_bfsStep]
  exact ⟨hr ▸ hi, i, hc ▸ hi, hd i hi, h⟩

theorem bfsIter_fixpoint {B : BitGraphHostData} {n : Nat} (hc : B.cols = n) (hr : B.rows = n)
    (hd : ∀ i < n, B.bit i i = true) (k : Nat) (x : List Bool) (hx : x.length = n)
    (h : bfsStep B x = x ∨ n < x.count true + k) :
    bfsStep B (bfsIter B k x) = bfsIter B k x := by
  induction k generalizing x with
  | zero =>
    unfold bfsIter
    rcases h with h | h
    · exact h
    · have := List.count_le_length true x
      omega
  | succ k ih =>
    unfold bfsIter
    by_cases hfix : bfsStep B x = x
    · rw [if_pos hfix]; exact hfix
    · rw [if_neg hfix]
      have hlen : (bfsStep B x).length = n := by rw [length_bfsStep, hr]
      apply ih _ hlen
      right
      have hlt := count_lt_of_le_ne x (bfsStep B x) (by rw [hx, hlen])
        (bfsStep_mono_self hc hr hd hx) (fun h' => hfix h'.symm)
      rcases h with h | h
      · exact absurd h hfix
      · omega

theorem bfsSeed_fixpoint_or_pos (B : BitGraphHostData) (X0 : List cldes_size_t) :
    bfsStep B ((List.range B.rows).map (fun i => decide (i ∈ X0))) =
        (List.range B.rows).map (fun i => decide (i ∈ X0)) ∨
      0 < ((List.range B.rows).map (fun i => decide (i ∈ X0))).count true := by
  by_cases h : true ∈ (List.range B.rows).map (fun i => decide (i ∈ X0))
  · right
    exact List.count_pos_iff.mpr h
  · left
    have hall : ∀ j, ((List.range B.rows).map (fun i => decide (i ∈ X0))).getD j false = false := by
      intro j
      cases hj : ((List.range B.rows).map (fun i => decide (i ∈ X0))).getD j false
      · rfl
      · exfalso
        apply h
        have hlt := getD_true_lt hj
        rw [List.getD_eq_getElem _ _ hlt] at hj
        rw [← hj]
        exact List.getElem_mem hlt
    unfold bfsStep
    apply List.map_congr_left
    intro i hi
    have hi' : i < B.rows := List.mem_range.mp hi
    have hfalse : decide (i ∈ X0) = false := by
      have := hall i
      rw [getD_map_range, if_pos hi'] at this
      exact this
    rw [hfalse]
    rw [Bool.eq_false_iff]
    intro hany
    rw [List.any_eq_true] at hany
    obtain ⟨j, -, hj⟩ := hany
    rw [Bool.and_eq_true, hall j] at hj
    exact absurd hj.2 (by simp)

/-- Modelled search `Bfs_` over a square bit matrix with a full diagonal: the states it
returns are those reached from a seed by zero or more steps `a → b` with `B[b][a] = 1`. -/
theorem mem_Bfs_iff {B : BitGraphHostData} {n : Nat} (hc : B.cols = n) (hr : B.rows = n)
    (hd : ∀ i < n, B.bit i i = true) (X0 : List cldes_size_t) (s : Nat) :
    s ∈ Bfs_ B X0 ↔
      s < n ∧ ∃ q ∈ X0, q < n ∧
        Relation.ReflTransGen (fun a b => a < n ∧ b < n ∧ B.bit b a = true) q s := by
  have hlen0 : ((List.range B.rows).map (fun i => decide (i ∈ X0))).length = n := by
    rw [List.length_map, List.length_range, hr]
  have hfix : bfsStep B (bfsIter B B.rows ((List.range B.rows).map (fun i => decide (i ∈ X0)))) =
      bfsIter B B.rows ((List.range B.rows).map (fun i => decide (i ∈ X0))) := by
    apply bfsIter_fixpoint hc hr hd _ _ hlen0
    rcases bfsSeed_fixpoint_or_pos B X0 with h | h
    · exact Or.inl h
    · right
      omega
  have hsound := bfsIter_induction B
    (fun x => ∀ i, x.getD i false = true → i < n ∧ ∃ q ∈ X0, q < n ∧
      Relation.ReflTransGen (fun a b => a < n ∧ b < n ∧ B.bit b a = true) q i)
    (by
      intro x hx i hi
      rw [getD_bfsStep] at hi
      obtain ⟨hin, j, -, hbit, hj⟩ := hi
      obtain ⟨hjn, q, hq, hqn, hreach⟩ := hx j hj
      exact ⟨hr ▸ hin, q, hq, hqn, hreach.tail ⟨hjn, hr ▸ hin, hbit⟩⟩)
    B.rows ((List.range B.rows).map (fun i => decide (i ∈ X0)))
    (by
      intro i hi
      have hlt : i < B.rows := by
        have := getD_true_lt hi
        rwa [List.length_map, List.length_range] at this
      rw [getD_map_range, if_pos hlt, decide_eq_true_eq] at hi
      exact ⟨hr ▸ hlt, i, hi, hr ▸ hlt, Relation.ReflTransGen.refl⟩)
  have hmono := bfsIter_induction B
    (fun x => x.length = n ∧ ∀ i, i < n → i ∈ X0 → x.getD i false = true)
    (by
      intro x hx
      refine ⟨by rw [length_bfsStep, hr], fun i hin hi => ?_⟩
      exact bfsStep_mono_self hc hr hd hx.1 i (hx.2 i hin hi))
    B.rows ((List.range B.rows).map (fun i => decide (i ∈ X0)))
    ⟨hlen0, by
      intro i hin hi
      rw [getD_map_range, if_pos (hr.symm ▸ hin), decide_eq_true_eq]
      exact hi⟩
  unfold Bfs_
  rw [List.mem_filter, List.mem_range]
  constructor
  · rintro ⟨-, hs⟩
    exact hsound s hs
  · rintro ⟨hsn, q, hq, hqn, hreach⟩
    refine ⟨hr.symm ▸ hsn, ?_⟩
    induction hreach with
    | refl => exact hmono.2 q hqn hq
    | tail _ hstep ih =>
      rw [← hfix, getD_bfsStep]
      exact ⟨hr.symm ▸ hstep.2.1, _, hc.symm ▸ hstep.1, hstep.2.2, ih hstep.1⟩
theorem reflTransGen_of_steps {α : Type} {r1 r2 : α → α → Prop}
    (h : ∀ a b, r1 a b → Relation.ReflTransGen r2 a b) {a b : α}
    (hab : Relation.ReflTransGen r1 a b) : Relation.ReflTransGen r2 a b := by
  induction hab with
  | refl => exact Relation.ReflTransGen.refl
  | tail _ hs ih => exact ih.trans (h _ _ hs)

theorem bit_bitTranspose (B : BitGraphHostData) (i j : Nat) :
    B.bitTranspose.bit i j = if i < B.cols ∧ j < B.rows then B.bit j i else false := by
  unfold SparseMatrix.bitTranspose
  show SparseMatrix.coeffD _ false i j = _
  unfold SparseMatrix.coeffD
  simp only
  rw [getD_map_range]
  by_cases hi : i < B.cols
  · rw [if_pos hi, getD_map_range]
    by_cases hj : j < B.rows
    · simp [hi, hj]
    · simp [hi, hj]
  · simp [hi]

theorem Reaches.lt_right {A : DESystem} {a b : Nat} (h : A.Reaches a b)
    (ha : a < A.states_number_) : b < A.states_number_ := by
  induction h with
  | refl => exact ha
  | tail _ hs _ => exact hs.2.1

theorem Reaches.lt_left {A : DESystem} {a b : Nat} (h : A.Reaches a b)
    (hb : b < A.states_number_) : a < A.states_number_ := by
  induction h using Relation.ReflTransGen.head_induction_on with
  | refl => exact hb
  | head hs _ _ => exact hs.1

/-- The accessible part is the set of states reachable from the initial state. -/
theorem mem_AccessiblePart_iff {A : DESystem} (hB : BitGraphInv A)
    (hq0 : A.init_state_ < A.states_number_) (s : Nat) :
    s ∈ A.AccessiblePart ↔ A.Reaches A.init_state_ s := by
  obtain ⟨hr, hc, hbit⟩ := hB
  unfold DESystem.AccessiblePart
  rw [mem_Bfs_iff hc hr (fun i hi => (hbit i hi i hi).mpr (Or.inl rfl))]
  constructor
  · rintro ⟨-, q, hq, -, hreach⟩
    rw [List.mem_singleton] at hq
    subst hq
    refine reflTransGen_of_steps ?_ hreach
    rintro a b ⟨ha, hb, hab⟩
    rcases (hbit b hb a ha).mp hab with h | h
    · rw [h]
    · exact Relation.ReflTransGen.single ⟨ha, hb, h⟩
  · intro h
    refine ⟨Reaches.lt_right h hq0, A.init_state_, List.mem_singleton.mpr rfl, hq0, ?_⟩
    refine reflTransGen_of_steps ?_ h
    rintro a b ⟨ha, hb, hab⟩
    exact Relation.ReflTransGen.single ⟨ha, hb, (hbit b hb a ha).mpr (Or.inr hab)⟩

/-- The coaccessible part is the set of states that reach a marked state. -/
theorem mem_CoaccessiblePart_iff {A : DESystem} (hB : BitGraphInv A)
    (hM : ∀ m ∈ A.marked_states_, m < A.states_number_) (s : Nat) :
    s ∈ A.CoaccessiblePart ↔ ∃ m ∈ A.marked_states_, A.Reaches s m := by
  obtain ⟨hr, hc, hbit⟩ := hB
  unfold DESystem.CoaccessiblePart
  have hbt : ∀ i < A.states_number_, ∀ j < A.states_number_,
      A.bit_graph_.bitTranspose.bit i j = A.bit_graph_.bit j i := by
    intro i hi j hj
    rw [bit_bitTranspose, if_pos ⟨hc.symm ▸ hi, hr.symm ▸ hj⟩]
  rw [mem_Bfs_iff (B := A.bit_graph_.bitTranspose) (n := A.states_number_) hr hc
    (fun i hi => by rw [hbt i hi i hi]; exact (hbit i hi i hi).mpr (Or.inl rfl))]
  constructor
  · rintro ⟨-, m, hm, -, hreach⟩
    refine ⟨m, hm, ?_⟩
    have : Relation.ReflTransGen (Function.swap A.Edge) m s := by
      refine reflTransGen_of_steps ?_ hreach
      rintro a b ⟨ha, hb, hab⟩
      rw [hbt b hb a ha] at hab
      rcases (hbit a ha b hb).mp hab with h | h
      · rw [h]
      · exact Relation.ReflTransGen.single ⟨hb, ha, h⟩
    exact Relation.reflTransGen_swap.mp this
  · rintro ⟨m, hm, hreach⟩
    have hmn := hM m hm
    refine ⟨Reaches.lt_left hreach hmn, m, hm, hmn, ?_⟩
    have : Relation.ReflTransGen (Function.swap A.Edge) m s :=
      Relation.reflTransGen_swap.mpr hreach
    refine reflTransGen_of_steps ?_ this
    rintro a b ⟨hb, ha, hab⟩
    refine Relation.ReflTransGen.single ⟨ha, hb, ?_⟩
    rw [hbt b hb a ha]
    exact (hbit a ha b hb).mpr (Or.inr hab)
/-- C25. AccessiblePart is exact reachability: for an automaton `A` with `q0 < n` whose bit
graph holds the edges of `G` and the self-loops (oriented so that one step `x ← B·x` adds
successors), the support of the fixpoint started from the unit vector of `q0` is exactly
the set of states reachable from `q0` by zero or more edges of `G`; it contains `q0`. On
the two systems of the test it is `{0, 1, 2, 3}` and `{0, 1, 2}`. -/
theorem AccessiblePart_exact (A : DESystem) (hB : BitGraphInv A)
    (hq0 : A.init_state_ < A.states_number_) :
    (∀ s, s ∈ A.AccessiblePart ↔ A.Reaches A.init_state_ s) ∧
    A.init_state_ ∈ A.AccessiblePart ∧
    (∀ s ∈ A.AccessiblePart, s < A.states_number_) ∧
    basicsSys.AccessiblePart = [0, 1, 2, 3] ∧
    basicsNewSys.AccessiblePart = [0, 1, 2] := by
  refine ⟨mem_AccessiblePart_iff hB hq0,
    (mem_AccessiblePart_iff hB hq0 _).mpr Relation.ReflTransGen.refl, ?_, by decide!,
    by decide!⟩
  intro s hs
  exact Reaches.lt_right ((mem_AccessiblePart_iff hB hq0 s).mp hs) hq0

/-- Witness of C25 on the first system of the test: state `3` is accessible exactly because
it is reachable from the initial state `0`. -/
theorem AccessiblePart_exact_witness :
    BitGraphInv basicsSys ∧
    (3 ∈ basicsSys.AccessiblePart ↔ basicsSys.Reaches basicsSys.init_state_ 3) :=
  ⟨by decide!, (AccessiblePart_exact basicsSys (by decide!) (by decide!)).1 3⟩

/-- C26. CoaccessiblePart is exact co-reachability: for an automaton `A` with
`M ⊆ [0, n)` whose bit graph holds the edges of `G` and the self-loops, the support of the
fixpoint on the transposed bit graph, seeded with all marked states at once, is exactly the
set of states from which some marked state is reachable by zero or more edges of `G`; it
contains `M` and is empty when `M` is empty. On the two systems of the test, with
`M = {0, 2}`, it is `{0, 1, 2}` and `{0, 2, 3}`. -/
theorem CoaccessiblePart_exact (A : DESystem) (hB : BitGraphInv A)
    (hM : ∀ m ∈ A.marked_states_, m < A.states_number_) :
    (∀ s, s ∈ A.CoaccessiblePart ↔ ∃ m ∈ A.marked_states_, A.Reaches s m) ∧
    (∀ m ∈ A.marked_states_, m ∈ A.CoaccessiblePart) ∧
    (A.marked_states_ = [] → A.CoaccessiblePart = []) ∧
    basicsSys.marked_states_ = [0, 2] ∧ basicsNewSys.marked_states_ = [0, 2] ∧
    basicsSys.CoaccessiblePart = [0, 1, 2] ∧
    basicsNewSys.CoaccessiblePart = [0, 2, 3] := by
  refine ⟨mem_CoaccessiblePart_iff hB hM, ?_, ?_, by decide!, by decide!, by decide!,
    by decide!⟩
  · intro m hm
    exact (mem_CoaccessiblePart_iff hB hM m).mpr ⟨m, hm, Relation.ReflTransGen.refl⟩
  · intro hnil
    apply List.eq_nil_iff_forall_not_mem.mpr
    intro s hs
    obtain ⟨m, hm, -⟩ := (mem_CoaccessiblePart_iff hB hM s).mp hs
    rw [hnil] at hm
    exact absurd hm (List.not_mem_nil m)

/-- Witness of C26 on the second system of the test: state `3` is coaccessible exactly
because it reaches a marked state. -/
theorem CoaccessiblePart_exact_witness :
    BitGraphInv basicsNewSys ∧
    (3 ∈ basicsNewSys.CoaccessiblePart ↔
      ∃ m ∈ basicsNewSys.marked_states_, basicsNewSys.Reaches 3 m) :=
  ⟨by decide!, (CoaccessiblePart_exact basicsNewSys (by decide!) (by decide!)).1 3⟩
theorem Trim_eq_restrictTo (A : DESystem) : A.Trim = A.restrictTo A.TrimStates := rfl

theorem mem_rowEntries_iff (G : GraphHostData) (i : Nat) (p : Nat × BitArray) :
    p ∈ G.rowEntries i ↔ p.1 < G.cols ∧ p.2 = G.coeff i p.1 ∧ G.coeff i p.1 ≠ 0 := by
  unfold SparseMatrix.rowEntries
  rw [List.mem_filterMap]
  constructor
  · rintro ⟨j, hj, hp⟩
    by_cases h0 : G.coeff i j = 0
    · rw [if_pos h0] at hp; exact absurd hp (by simp)
    · rw [if_neg h0] at hp
      have : p = (j, G.coeff i j) := (Option.some.inj hp).symm
      rw [this]
      exact ⟨List.mem_range.mp hj, rfl, h0⟩
  · rintro ⟨h1, h2, h3⟩
    refine ⟨p.1, List.mem_range.mpr h1, ?_⟩
    rw [if_neg h3, ← h2]

theorem restrictTo_graph (A : DESystem) (keep : List cldes_size_t) :
    (A.restrictTo keep).graph_ = graphFromTriplets keep.length keep.length
      ((List.range keep.length).flatMap (fun i =>
        (A.graph_.rowEntries (keep.getD i 0)).filterMap (fun e =>
          if e.1 ∈ keep then some ⟨(i : Int), ((keep.indexOf e.1 : Nat) : Int), e.2⟩
          else none))) := rfl

/-- The restricted graph holds, between the `i`-th and the `j`-th retained state, the events
of the edge between them. -/
theorem restrictTo_coeff (A : DESystem) {keep : List cldes_size_t} (hn : keep.Nodup)
    (hc : ∀ s ∈ keep, s < A.graph_.cols) {i j : Nat} (hi : i < keep.length)
    (hj : j < keep.length) :
    (A.restrictTo keep).graph_.coeff i j = A.graph_.coeff (keep.getD i 0) (keep.getD j 0) := by
  apply Nat.eq_of_testBit_eq
  intro e
  rw [Bool.eq_iff_iff, restrictTo_graph, testBit_coeff_graphFromTriplets]
  constructor
  · rintro ⟨-, -, t, ht, hrow, hcol, hv⟩
    rw [List.mem_flatMap] at ht
    obtain ⟨i', -, ht⟩ := ht
    rw [List.mem_filterMap] at ht
    obtain ⟨p, hp, hsome⟩ := ht
    by_cases hk : p.1 ∈ keep
    · rw [if_pos hk] at hsome
      have ht' := Option.some.inj hsome
      subst ht'
      simp only at hrow hcol hv
      have h1 : i' = i := by exact_mod_cast hrow
      have h2 : keep.indexOf p.1 = j := by exact_mod_cast hcol
      subst h1
      obtain ⟨-, hp2, -⟩ := (mem_rowEntries_iff _ _ _).mp hp
      have hg := (getD_remap hk).2
      unfold remap at hg
      rw [h2] at hg
      rw [hg, ← hp2]
      exact hv
    · rw [if_neg hk] at hsome
      exact absurd hsome (by simp)
  · intro h
    refine ⟨hi, hj, ⟨(i : Int), (j : Int), A.graph_.coeff (keep.getD i 0) (keep.getD j 0)⟩,
      ?_, rfl, rfl, h⟩
    rw [List.mem_flatMap]
    refine ⟨i, List.mem_range.mpr hi, ?_⟩
    rw [List.mem_filterMap]
    refine ⟨(keep.getD j 0, A.graph_.coeff (keep.getD i 0) (keep.getD j 0)), ?_, ?_⟩
    · rw [mem_rowEntries_iff]
      exact ⟨hc _ (getD_mem_of_lt hj), rfl, (ne_zero_iff_testBit _).mpr ⟨e, h⟩⟩
    · have hidx := remap_getD hn hj
      unfold remap at hidx
      simp only
      rw [if_pos (getD_mem_of_lt hj), hidx]

theorem graphFromTriplets_ext (k : Nat) (ts1 ts2 : List (Triplet BitArray))
    (h : ∀ i < k, ∀ j < k,
      (graphFromTriplets k k ts1).coeff i j = (graphFromTriplets k k ts2).coeff i j) :
    graphFromTriplets k k ts1 = graphFromTriplets k k ts2 := by
  have hcoef : ∀ (ts : List (Triplet BitArray)) (i j : Nat), i < k → j < k →
      (graphFromTriplets k k ts).coeff i j = accumulate (fun a b => a ||| b) 0 ts i j := by
    intro ts i j hi hj
    unfold SparseMatrix.coeff graphFromTriplets
    rw [coeffD_setFromTriplets, if_pos ⟨hi, hj⟩]
  unfold graphFromTriplets setFromTriplets
  congr 1
  apply List.map_congr_left
  intro i hi
  apply List.map_congr_left
  intro j hj
  have hi' := List.mem_range.mp hi
  have hj' := List.mem_range.mp hj
  rw [← hcoef ts1 i j hi' hj', ← hcoef ts2 i j hi' hj']
  exact h i hi' j hj'
theorem restrictTo_bitGraphInv (A : DESystem) (keep : List cldes_size_t) :
    BitGraphInv (A.restrictTo keep) := by
  refine ⟨rfl, rfl, ?_⟩
  intro i hi j hj
  have hi' : i < keep.length := hi
  have hj' : j < keep.length := hj
  show (bitGraphFromTriplets keep.length keep.length _).bit i j = true ↔ _
  rw [bit_bitGraphFromTriplets]
  constructor
  · rintro ⟨-, -, t, ht, hrow, hcol, -⟩
    rw [List.mem_flatMap] at ht
    obtain ⟨i', -, ht⟩ := ht
    rcases List.mem_cons.mp ht with ht | ht
    · left
      rw [ht] at hrow hcol
      simp only at hrow hcol
      have h1 : i' = i := by exact_mod_cast hrow
      have h2 : i' = j := by exact_mod_cast hcol
      rw [← h1, ← h2]
    · right
      rw [List.mem_map] at ht
      obtain ⟨p, hp, rfl⟩ := ht
      simp only at hrow hcol
      have h1 : p.1 = i := by exact_mod_cast hrow
      have h2 : i' = j := by exact_mod_cast hcol
      subst h2
      obtain ⟨-, -, hne⟩ := (mem_rowEntries_iff _ _ _).mp hp
      rw [h1] at hne
      exact hne
  · intro h
    refine ⟨hi', hj', ?_⟩
    by_cases hij : i = j
    · subst hij
      refine ⟨⟨(i : Int), (i : Int), true⟩, ?_, rfl, rfl, rfl⟩
      rw [List.mem_flatMap]
      exact ⟨i, List.mem_range.mpr hi', List.mem_cons_self _ _⟩
    · rcases h with h | h
      · exact absurd h hij
      · refine ⟨⟨(i : Int), (j : Int), true⟩, ?_, rfl, rfl, rfl⟩
        rw [List.mem_flatMap]
        refine ⟨j, List.mem_range.mpr hj', List.mem_cons_of_mem _ ?_⟩
        rw [List.mem_map]
        refine ⟨(i, (A.restrictTo keep).graph_.coeff j i), ?_, rfl⟩
        rw [mem_rowEntries_iff]
        exact ⟨hi', rfl, h⟩

theorem nodup_Bfs (B : BitGraphHostData) (X0 : List cldes_size_t) : (Bfs_ B X0).Nodup := by
  unfold Bfs_
  exact List.Nodup.filter _ (List.nodup_range _)

theorem nodup_TrimStates (A : DESystem) : A.TrimStates.Nodup := by
  unfold DESystem.TrimStates DESystem.AccessiblePart
  exact List.Nodup.filter _ (nodup_Bfs _ _)

theorem mem_TrimStates_iff (A : DESystem) (s : Nat) :
    s ∈ A.TrimStates ↔ s ∈ A.AccessiblePart ∧ s ∈ A.CoaccessiblePart := by
  unfold DESystem.TrimStates
  rw [List.mem_filter, decide_eq_true_eq]

theorem restrictTo_edge {A : DESystem} {keep : List cldes_size_t} (hn : keep.Nodup)
    (hc : ∀ s ∈ keep, s < A.graph_.cols) {a b : Nat} (ha : a ∈ keep) (hb : b ∈ keep) (h : A.Edge a b) :
    (A.restrictTo keep).Edge (keep.indexOf a) (keep.indexOf b) := by
  have hia := List.indexOf_lt_length.mpr ha
  have hib := List.indexOf_lt_length.mpr hb
  refine ⟨hia, hib, ?_⟩
  rw [restrictTo_coeff A hn hc hia hib]
  have h1 := (getD_remap ha).2
  have h2 := (getD_remap hb).2
  unfold remap at h1 h2
  rw [h1, h2]
  exact h.2.2

/-- Paths from the initial state to a coaccessible state stay among the trim states, so
they are paths of the trimmed automaton. -/
theorem Trim_reaches_forward {A : DESystem} (hB : BitGraphInv A)
    (hq0 : A.init_state_ < A.states_number_)
    (hM : ∀ m ∈ A.marked_states_, m < A.states_number_)
    (hcols : A.graph_.cols = A.states_number_) {s : Nat}
    (h : A.Reaches A.init_state_ s) (hco : ∃ m ∈ A.marked_states_, A.Reaches s m) :
    s ∈ A.TrimStates ∧
      A.Trim.Reaches (A.TrimStates.indexOf A.init_state_) (A.TrimStates.indexOf s) := by
  have hlt : ∀ x ∈ A.TrimStates, x < A.states_number_ := by
    intro x hx
    have := mem_TrimStates_lt hx
    rwa [hB.1] at this
  have hc : ∀ x ∈ A.TrimStates, x < A.graph_.cols := fun x hx => hcols ▸ hlt x hx
  induction h with
  | refl =>
    refine ⟨?_, Relation.ReflTransGen.refl⟩
    rw [mem_TrimStates_iff, mem_AccessiblePart_iff hB hq0, mem_CoaccessiblePart_iff hB hM]
    exact ⟨Relation.ReflTransGen.refl, hco⟩
  | @tail b c hab hbc ih =>
    obtain ⟨m, hm, hcm⟩ := hco
    obtain ⟨hbT, hreach⟩ := ih ⟨m, hm, Relation.ReflTransGen.head hbc hcm⟩
    have hcT : c ∈ A.TrimStates := by
      rw [mem_TrimStates_iff, mem_AccessiblePart_iff hB hq0, mem_CoaccessiblePart_iff hB hM]
      exact ⟨hab.tail hbc, m, hm, hcm⟩
    refine ⟨hcT, hreach.tail ?_⟩
    rw [Trim_eq_restrictTo]
    exact restrictTo_edge (nodup_TrimStates A) hc hbT hcT hbc

/-- Paths from an accessible state to a marked state stay among the trim states. -/
theorem Trim_reaches_backward {A : DESystem} (hB : BitGraphInv A)
    (hq0 : A.init_state_ < A.states_number_)
    (hM : ∀ m ∈ A.marked_states_, m < A.states_number_)
    (hcols : A.graph_.cols = A.states_number_) {s m : Nat} (hm : m ∈ A.marked_states_)
    (h : A.Reaches s m) (hacc : A.Reaches A.init_state_ s) :
    s ∈ A.TrimStates ∧ m ∈ A.TrimStates ∧
      A.Trim.Reaches (A.TrimStates.indexOf s) (A.TrimStates.indexOf m) := by
  have hlt : ∀ x ∈ A.TrimStates, x < A.states_number_ := by
    intro x hx
    have := mem_TrimStates_lt hx
    rwa [hB.1] at this
  have hc : ∀ x ∈ A.TrimStates, x < A.graph_.cols := fun x hx => hcols ▸ hlt x hx
  induction h using Relation.ReflTransGen.head_induction_on with
  | refl =>
    have : m ∈ A.TrimStates := by
      rw [mem_TrimStates_iff, mem_AccessiblePart_iff hB hq0, mem_CoaccessiblePart_iff hB hM]
      exact ⟨hacc, m, hm, Relation.ReflTransGen.refl⟩
    exact ⟨this, this, Relation.ReflTransGen.refl⟩
  | @head a c hac hcm ih =>
    obtain ⟨hcT, hmT, hreach⟩ := ih (hacc.tail hac)
    have haT : a ∈ A.TrimStates := by
      rw [mem_TrimStates_iff, mem_AccessiblePart_iff hB hq0, mem_CoaccessiblePart_iff hB hM]
      exact ⟨hacc, m, hm, Relation.ReflTransGen.head hac hcm⟩
    refine ⟨haT, hmT, Relation.ReflTransGen.head ?_ hreach⟩
    rw [Trim_eq_restrictTo]
    exact restrictTo_edge (nodup_TrimStates A) hc haT hcT hac
theorem indexOf_range {k i : Nat} (h : i < k) : (List.range k).indexOf i = i := by
  have h1 := List.indexOf_getElem (List.nodup_range k) i (by rw [List.length_range]; exact h)
  rw [List.getElem_range] at h1
  exact h1

theorem getD_range {k i : Nat} (h : i < k) : (List.range k).getD i 0 = i := by
  rw [List.getD_eq_getElem _ _ (by rw [List.length_range]; exact h), List.getElem_range]

theorem Bfs_eq_range {B : BitGraphHostData} {X0 : List cldes_size_t}
    (h : ∀ i < B.rows, i ∈ Bfs_ B X0) : Bfs_ B X0 = List.range B.rows := by
  unfold Bfs_ at h ⊢
  apply List.filter_eq_self.mpr
  intro i hi
  exact (List.mem_filter.mp (h i (List.mem_range.mp hi))).2

/-- In the trimmed automaton every state is trim. -/
theorem TrimStates_Trim {A : DESystem} (hB : BitGraphInv A)
    (hq0 : A.init_state_ < A.states_number_)
    (hM : ∀ m ∈ A.marked_states_, m < A.states_number_)
    (hcols : A.graph_.cols = A.states_number_) (hinit : A.init_state_ ∈ A.TrimStates) :
    A.Trim.TrimStates = List.range A.TrimStates.length := by
  have hB' : BitGraphInv A.Trim := by rw [Trim_eq_restrictTo]; exact restrictTo_bitGraphInv _ _
  have hn := nodup_TrimStates A
  have hq0' : A.Trim.init_state_ < A.Trim.states_number_ := List.indexOf_lt_length.mpr hinit
  have hM' : ∀ m ∈ A.Trim.marked_states_, m < A.Trim.states_number_ := by
    intro m hm
    have hm' : m ∈ (A.marked_states_.filter (fun m => decide (m ∈ A.TrimStates))).map
        (fun m => A.TrimStates.indexOf m) := hm
    rw [List.mem_map] at hm'
    obtain ⟨x, hx, rfl⟩ := hm'
    rw [List.mem_filter, decide_eq_true_eq] at hx
    exact List.indexOf_lt_length.mpr hx.2
  have hacc : A.Trim.AccessiblePart = List.range A.TrimStates.length := by
    have : A.Trim.bit_graph_.rows = A.TrimStates.length := rfl
    rw [← this]
    apply Bfs_eq_range
    intro i hi
    have hi' : i < A.TrimStates.length := hi
    have hmem := getD_mem_of_lt hi'
    obtain ⟨h1, h2⟩ := (mem_TrimStates_iff A _).mp hmem
    rw [mem_AccessiblePart_iff hB hq0] at h1
    rw [mem_CoaccessiblePart_iff hB hM] at h2
    have := (Trim_reaches_forward hB hq0 hM hcols h1 h2).2
    have hidx := remap_getD hn hi'
    unfold remap at hidx
    rw [hidx] at this
    exact (mem_AccessiblePart_iff hB' hq0' i).mpr this
  have hco : A.Trim.CoaccessiblePart = List.range A.TrimStates.length := by
    have : A.Trim.bit_graph_.bitTranspose.rows = A.TrimStates.length := rfl
    rw [← this]
    apply Bfs_eq_range
    intro i hi
    have hi' : i < A.TrimStates.length := hi
    have hmem := getD_mem_of_lt hi'
    obtain ⟨h1, h2⟩ := (mem_TrimStates_iff A _).mp hmem
    rw [mem_AccessiblePart_iff hB hq0] at h1
    rw [mem_CoaccessiblePart_iff hB hM] at h2
    obtain ⟨m, hm, hreach⟩ := h2
    obtain ⟨-, hmT, hr⟩ := Trim_reaches_backward hB hq0 hM hcols hm hreach h1
    have hidx := remap_getD hn hi'
    unfold remap at hidx
    rw [hidx] at hr
    refine (mem_CoaccessiblePart_iff hB' hM' i).mpr ⟨A.TrimStates.indexOf m, ?_, hr⟩
    show A.TrimStates.indexOf m ∈
      (A.marked_states_.filter (fun m => decide (m ∈ A.TrimStates))).map
        (fun m => A.TrimStates.indexOf m)
    rw [List.mem_map]
    exact ⟨m, List.mem_filter.mpr ⟨hm, by simpa using hmT⟩, rfl⟩
  unfold DESystem.TrimStates
  rw [hacc, hco]
  apply List.filter_eq_self.mpr
  intro i hi
  simpa using hi

/-- Restricting an automaton in the form `restrictTo` produces to all of its states changes
nothing. -/
theorem restrictTo_range (A : DESystem) (keep : List cldes_size_t)
    (hinit : A.init_state_ ∈ keep) :
    (A.restrictTo keep).restrictTo (List.range keep.length) = A.restrictTo keep := by
  have hgraph : ((A.restrictTo keep).restrictTo (List.range keep.length)).graph_ =
      (A.restrictTo keep).graph_ := by
    rw [restrictTo_graph, restrictTo_graph A keep]
    simp only [List.length_range]
    apply graphFromTriplets_ext
    intro i hi j hj
    have h := restrictTo_coeff (A.restrictTo keep) (List.nodup_range keep.length)
      (fun s hs => List.mem_range.mp hs) (i := i) (j := j)
      (by rw [List.length_range]; exact hi) (by rw [List.length_range]; exact hj)
    rw [restrictTo_graph, getD_range hi, getD_range hj] at h
    simp only [List.length_range] at h
    exact h
  have hinit' : (List.range keep.length).indexOf (keep.indexOf A.init_state_) =
      keep.indexOf A.init_state_ := indexOf_range (List.indexOf_lt_length.mpr hinit)
  have hmarked : (((A.marked_states_.filter (fun m => decide (m ∈ keep))).map
        (fun m => keep.indexOf m)).filter (fun m => decide (m ∈ List.range keep.length))).map
        (fun m => (List.range keep.length).indexOf m) =
      (A.marked_states_.filter (fun m => decide (m ∈ keep))).map (fun m => keep.indexOf m) := by
    have hall : ∀ x ∈ (A.marked_states_.filter (fun m => decide (m ∈ keep))).map
        (fun m => keep.indexOf m), x < keep.length := by
      intro x hx
      rw [List.mem_map] at hx
      obtain ⟨m, hm, rfl⟩ := hx
      rw [List.mem_filter, decide_eq_true_eq] at hm
      exact List.indexOf_lt_length.mpr hm.2
    rw [List.filter_eq_self.mpr (fun x hx => by simpa using hall x hx)]
    conv_rhs => rw [← List.map_id ((A.marked_states_.filter (fun m => decide (m ∈ keep))).map
      (fun m => keep.indexOf m))]
    apply List.map_congr_left
    intro x hx
    exact indexOf_range (hall x hx)
  have hform : ∀ (X : DESystem) (l : List cldes_size_t),
      X.restrictTo l =
        { X with
          states_number_ := l.length
          init_state_ := l.indexOf X.init_state_
          marked_states_ := (X.marked_states_.filter (fun m => decide (m ∈ l))).map
            (fun m => l.indexOf m)
          graph_ := (X.restrictTo l).graph_
          bit_graph_ := bitGraphFromTriplets l.length l.length
            ((List.range l.length).flatMap (fun i =>
              (⟨(i : Int), (i : Int), true⟩ : Triplet Bool) ::
                ((X.restrictTo l).graph_.rowEntries i).map
                  (fun e => ⟨(e.1 : Int), (i : Int), true⟩)))
          states_events_ := (List.range l.length).map (fun i =>
            (List.range l.length).foldl
              (fun acc j => acc ||| (X.restrictTo l).graph_.coeff i j) 0)
          inv_states_events_ := (List.range l.length).map (fun j =>
            (List.range l.length).foldl
              (fun acc i => acc ||| (X.restrictTo l).graph_.coeff i j) 0) } :=
    fun _ _ => rfl
  rw [hform (A.restrictTo keep) (List.range keep.length), hgraph]
  simp only [List.length_range]
  show _ = A.restrictTo keep
  rw [show (A.restrictTo keep).init_state_ = keep.indexOf A.init_state_ from rfl,
    show (A.restrictTo keep).marked_states_ =
      (A.marked_states_.filter (fun m => decide (m ∈ keep))).map (fun m => keep.indexOf m)
      from rfl, hinit', hmarked]
  rfl
theorem foldl_push_eq (c : Nat → Bool) (l f : List Nat) :
    l.foldl (fun f x => if c x then x :: f else f) f = (l.filter c).reverse ++ f := by
  induction l generalizing f with
  | nil => rfl
  | cons a l ih =>
    rw [List.foldl_cons, ih]
    by_cases h : c a = true
    · rw [if_pos h, List.filter_cons_of_pos h, List.reverse_cons, List.append_assoc]
      rfl
    · rw [if_neg h, List.filter_cons_of_neg h]

theorem foldl_foldl_push_eq {α : Type} (c : Nat → Bool) (L : α → List Nat) (es : List α)
    (f : List Nat) :
    es.foldl (fun f e => (L e).foldl (fun f x => if c x then x :: f else f) f) f =
      ((es.flatMap L).filter c).reverse ++ f := by
  induction es generalizing f with
  | nil => rfl
  | cons a es ih =>
    rw [List.foldl_cons, ih, foldl_push_eq, List.flatMap_cons, List.filter_append,
      List.reverse_append, List.append_assoc]

/-- The stack after the pushes of one round of `trim`. -/
theorem trimPush_eq (S : SuperProxy) (t : List cldes_size_t) (q : Nat) (f : List cldes_size_t) :
    S.trimPush t q f =
      (((bitsOf (S.getInvStateEvents_impl q)).flatMap (fun event =>
        S.invtrans_impl q event)).filter (fun fsqe =>
          decide (fsqe ∈ S.virtual_states_) && !decide (fsqe ∈ t))).reverse ++ f := by
  unfold SuperProxy.trimPush
  exact foldl_foldl_push_eq _ _ _ _

theorem mem_trimCandidates (S : SuperProxy) (t : List cldes_size_t) (q x : Nat) :
    x ∈ (((bitsOf (S.getInvStateEvents_impl q)).flatMap (fun event =>
        S.invtrans_impl q event)).filter (fun fsqe =>
          decide (fsqe ∈ S.virtual_states_) && !decide (fsqe ∈ t))).reverse ↔
      S.TrimPred q x ∧ x ∉ t := by
  rw [List.mem_reverse, List.mem_filter, List.mem_flatMap]
  simp only [Bool.and_eq_true, decide_eq_true_eq, Bool.not_eq_true', decide_eq_false_iff_not,
    mem_bitsOf]
  unfold SuperProxy.TrimPred
  constructor
  · rintro ⟨⟨e, he, hx⟩, hv, ht⟩
    exact ⟨⟨e, he, hx, hv⟩, ht⟩
  · rintro ⟨⟨e, he, hx, hv⟩, ht⟩
    exact ⟨⟨e, he, hx⟩, hv, ht⟩

theorem le_foldl_max (l : List Nat) (init : Nat) :
    init ≤ l.foldl max init ∧ ∀ x ∈ l, x ≤ l.foldl max init := by
  induction l generalizing init with
  | nil => exact ⟨Nat.le_refl _, fun x hx => absurd hx (List.not_mem_nil x)⟩
  | cons a l ih =>
    rw [List.foldl_cons]
    obtain ⟨h1, h2⟩ := ih (max init a)
    refine ⟨Nat.le_trans (Nat.le_max_left _ _) h1, ?_⟩
    intro x hx
    rcases List.mem_cons.mp hx with rfl | hx
    · exact Nat.le_trans (Nat.le_max_right _ _) h1
    · exact h2 x hx

/-- One round of `trim` pushes at most `trimWidth` states. -/
theorem trimCandidates_length_le (S : SuperProxy) (t : List cldes_size_t) {q : Nat}
    (hq : q < S.productSize) :
    (((bitsOf (S.getInvStateEvents_impl q)).flatMap (fun event =>
        S.invtrans_impl q event)).filter (fun fsqe =>
          decide (fsqe ∈ S.virtual_states_) && !decide (fsqe ∈ t))).reverse.length ≤
      S.trimWidth := by
  have h1 : (S.trimPush [] q []).length ≤ S.trimWidth := by
    unfold SuperProxy.trimWidth
    apply (le_foldl_max _ 0).2
    rw [List.mem_map]
    exact ⟨q, List.mem_range.mpr hq, rfl⟩
  rw [trimPush_eq, List.append_nil, List.length_reverse] at h1
  rw [List.length_reverse]
  refine Nat.le_trans ?_ h1
  have : ((bitsOf (S.getInvStateEvents_impl q)).flatMap (fun event =>
        S.invtrans_impl q event)).filter (fun fsqe =>
          decide (fsqe ∈ S.virtual_states_) && !decide (fsqe ∈ t)) =
      (((bitsOf (S.getInvStateEvents_impl q)).flatMap (fun event =>
        S.invtrans_impl q event)).filter (fun fsqe =>
          decide (fsqe ∈ S.virtual_states_) && !decide (fsqe ∈ ([] : List Nat)))).filter
        (fun fsqe => !decide (fsqe ∈ t)) := by
    rw [List.filter_filter]
    apply List.filter_congr
    intro x _
    simp [Bool.and_comm]
  rw [this]
  exact List.length_filter_le _ _
theorem trimLoop_invariant (S : SuperProxy) (I : List cldes_size_t → List cldes_size_t → Prop)
    (hstep : ∀ q f t, I (q :: f) t → I (S.trimPush (qsetInsert q t) q f) (qsetInsert q t))
    (fuel : Nat) (f t : List cldes_size_t) (h : I f t) :
    I (S.trimLoop fuel f t).1 (S.trimLoop fuel f t).2 := by
  induction fuel generalizing f t with
  | zero => unfold SuperProxy.trimLoop; exact h
  | succ fuel ih =>
    cases f with
    | nil => unfold SuperProxy.trimLoop; exact h
    | cons q f =>
      unfold SuperProxy.trimLoop
      exact ih _ _ (hstep q f t h)

theorem stackFlag_le_one (f t : List cldes_size_t) : stackFlag f t ≤ 1 := by
  unfold stackFlag
  cases f with
  | nil => exact Nat.le_refl 1
  | cons x f =>
    simp only
    split <;> omega

theorem stackFlag_append {l f t : List cldes_size_t} (hl : l ≠ [])
    (h : ∀ x ∈ l, x ∉ t) : stackFlag (l ++ f) t = 0 := by
  cases l with
  | nil => exact absurd rfl hl
  | cons x l =>
    unfold stackFlag
    simp only [List.cons_append]
    rw [if_neg (h x (List.mem_cons_self _ _))]

theorem length_qsetInsert_of_not_mem {x : Nat} {s : List Nat} (h : x ∉ s) :
    (qsetInsert x s).length = s.length + 1 := by
  unfold qsetInsert
  rw [if_neg h, List.length_append, List.length_singleton]

theorem qsetInsert_of_mem {x : Nat} {s : List Nat} (h : x ∈ s) : qsetInsert x s = s := by
  unfold qsetInsert
  rw [if_pos h]

/-- One round of `trim` keeps the stack and the table within the product indices. -/
theorem trimLoop_bounded_step {S : SuperProxy}
    (hV : ∀ x ∈ S.virtual_states_, x < S.productSize) {q : Nat} {f t : List cldes_size_t}
    (h : (∀ x ∈ q :: f, x < S.productSize) ∧ (∀ x ∈ t, x < S.productSize) ∧ t.Nodup) :
    (∀ x ∈ S.trimPush (qsetInsert q t) q f, x < S.productSize) ∧
    (∀ x ∈ qsetInsert q t, x < S.productSize) ∧ (qsetInsert q t).Nodup := by
  obtain ⟨hf, ht, hn⟩ := h
  refine ⟨?_, ?_, nodup_qsetInsert hn⟩
  · intro x hx
    rw [trimPush_eq, List.mem_append] at hx
    rcases hx with hx | hx
    · exact hV x ((mem_trimCandidates S _ q x).mp hx).1.choose_spec.2.2
    · exact hf x (List.mem_cons_of_mem _ hx)
  · intro x hx
    rcases mem_qsetInsert.mp hx with rfl | hx
    · exact hf x (List.mem_cons_self _ _)
    · exact ht x hx

/-- Every round of `trim` lowers the measure. -/
theorem trimMeasure_step {S : SuperProxy} {q : Nat} {f t : List cldes_size_t}
    (h : (∀ x ∈ q :: f, x < S.productSize) ∧ (∀ x ∈ t, x < S.productSize) ∧ t.Nodup) :
    S.trimMeasure (S.trimPush (qsetInsert q t) q f) (qsetInsert q t) <
      S.trimMeasure (q :: f) t := by
  obtain ⟨hf, ht, hn⟩ := h
  have hq : q < S.productSize := hf q (List.mem_cons_self _ _)
  have hlen := trimCandidates_length_le S (qsetInsert q t) hq
  have hnot : ∀ x ∈ (((bitsOf (S.getInvStateEvents_impl q)).flatMap (fun event =>
        S.invtrans_impl q event)).filter (fun fsqe =>
          decide (fsqe ∈ S.virtual_states_) && !decide (fsqe ∈ qsetInsert q t))).reverse,
      x ∉ qsetInsert q t := fun x hx => ((mem_trimCandidates S _ q x).mp hx).2
  unfold SuperProxy.trimMeasure
  rw [trimPush_eq]
  generalize (((bitsOf (S.getInvStateEvents_impl q)).flatMap (fun event =>
        S.invtrans_impl q event)).filter (fun fsqe =>
          decide (fsqe ∈ S.virtual_states_) && !decide (fsqe ∈ qsetInsert q t))).reverse = l
    at hlen hnot
  rw [List.length_append, List.length_cons]
  by_cases hqt : q ∈ t
  · rw [qsetInsert_of_mem hqt] at hnot ⊢
    have hflag : stackFlag (q :: f) t = 1 := by
      unfold stackFlag
      simp only
      rw [if_pos hqt]
    rw [hflag]
    have e1 : (S.trimWidth + 1) * (2 * (S.productSize - t.length) + 1) =
        (S.trimWidth + 1) * (2 * (S.productSize - t.length)) + (S.trimWidth + 1) := by ring
    by_cases hl : l = []
    · subst hl
      have hle := stackFlag_le_one ([] ++ f) t
      have := Nat.mul_le_mul_left (S.trimWidth + 1)
        (Nat.add_le_add_left hle (2 * (S.productSize - t.length)))
      simp only [List.length_nil] at *
      omega
    · rw [stackFlag_append hl hnot]
      simp only [Nat.add_zero]
      rw [e1]
      omega
  · have hlen' := length_qsetInsert_of_not_mem hqt
    have hbound : (qsetInsert q t).length ≤ S.productSize :=
      nodup_length_le (nodup_qsetInsert hn) (by
        intro x hx
        rcases mem_qsetInsert.mp hx with rfl | hx
        · exact hq
        · exact ht x hx)
    have hflag : stackFlag (q :: f) t = 0 := by
      unfold stackFlag
      simp only
      rw [if_neg hqt]
    rw [hflag]
    simp only [Nat.add_zero]
    have hu : S.productSize - t.length = (S.productSize - (qsetInsert q t).length) + 1 := by
      omega
    rw [hu]
    have hle := stackFlag_le_one (l ++ f) (qsetInsert q t)
    have h1 := Nat.mul_le_mul_left (S.trimWidth + 1)
      (Nat.add_le_add_left hle (2 * (S.productSize - (qsetInsert q t).length)))
    have e2 : (S.trimWidth + 1) * (2 * (S.productSize - (qsetInsert q t).length + 1)) =
        (S.trimWidth + 1) * (2 * (S.productSize - (qsetInsert q t).length) + 1) +
          (S.trimWidth + 1) := by ring
    rw [e2]
    omega

/-- A search of `trim` that is given its measure as rounds ends with an empty stack. -/
theorem trimLoop_complete {S : SuperProxy}
    (hV : ∀ x ∈ S.virtual_states_, x < S.productSize) (fuel : Nat) (f t : List cldes_size_t)
    (h : (∀ x ∈ f, x < S.productSize) ∧ (∀ x ∈ t, x < S.productSize) ∧ t.Nodup)
    (hfuel : S.trimMeasure f t ≤ fuel) : (S.trimLoop fuel f t).1 = [] := by
  induction fuel generalizing f t with
  | zero =>
    unfold SuperProxy.trimLoop
    unfold SuperProxy.trimMeasure at hfuel
    have : f.length = 0 := by omega
    exact List.length_eq_zero.mp this
  | succ fuel ih =>
    cases f with
    | nil => unfold SuperProxy.trimLoop; rfl
    | cons q f =>
      unfold SuperProxy.trimLoop
      apply ih _ _ (trimLoop_bounded_step hV h)
      have := trimMeasure_step h
      omega
/-- One search of `trim` from the marked state `m`: it ends, keeps what was collected,
collects `m`, and leaves a table closed under the pushes of `trim`. -/
theorem trimLoop_seed {S : SuperProxy} (hV : ∀ x ∈ S.virtual_states_, x < S.productSize)
    {m : Nat} (hm : m ∈ S.marked_states_) (hmN : m < S.productSize) {t0 : List cldes_size_t}
    (hJ : (∀ x ∈ t0, x < S.productSize) ∧ t0.Nodup ∧ (∀ x ∈ t0, S.CoReach x) ∧
      (∀ q ∈ t0, ∀ p, S.TrimPred q p → p ∈ t0)) :
    (S.trimLoop S.trimRounds [m] t0).1 = [] ∧
    ((∀ x ∈ (S.trimLoop S.trimRounds [m] t0).2, x < S.productSize) ∧
      (S.trimLoop S.trimRounds [m] t0).2.Nodup ∧
      (∀ x ∈ (S.trimLoop S.trimRounds [m] t0).2, S.CoReach x) ∧
      (∀ q ∈ (S.trimLoop S.trimRounds [m] t0).2, ∀ p, S.TrimPred q p →
        p ∈ (S.trimLoop S.trimRounds [m] t0).2)) ∧
    m ∈ (S.trimLoop S.trimRounds [m] t0).2 ∧
    (∀ x ∈ t0, x ∈ (S.trimLoop S.trimRounds [m] t0).2) := by
  obtain ⟨hb, hn, hs, hc⟩ := hJ
  have hbound0 : (∀ x ∈ [m], x < S.productSize) ∧ (∀ x ∈ t0, x < S.productSize) ∧ t0.Nodup :=
    ⟨fun x hx => by rw [List.mem_singleton.mp hx]; exact hmN, hb, hn⟩
  have hend : (S.trimLoop S.trimRounds [m] t0).1 = [] := by
    apply trimLoop_complete hV _ _ _ hbound0
    unfold SuperProxy.trimMeasure SuperProxy.trimRounds
    have hle := stackFlag_le_one [m] t0
    have := Nat.mul_le_mul_left (S.trimWidth + 1)
      (Nat.add_le_add (Nat.mul_le_mul_left 2 (Nat.sub_le S.productSize t0.length)) hle)
    simp only [List.length_singleton]
    omega
  have hinv := trimLoop_invariant S
    (fun f t => ((∀ x ∈ f, x < S.productSize) ∧ (∀ x ∈ t, x < S.productSize) ∧ t.Nodup) ∧
      (∀ x ∈ f, S.CoReach x) ∧ (∀ x ∈ t, S.CoReach x) ∧
      (∀ q ∈ t, ∀ p, S.TrimPred q p → p ∈ t ∨ p ∈ f) ∧
      (∀ x, x = m ∨ x ∈ t0 → x ∈ t ∨ x ∈ f))
    (by
      rintro q f t ⟨hbd, hsf, hst, hcl, hmono⟩
      have hq : S.CoReach q := hsf q (List.mem_cons_self _ _)
      refine ⟨trimLoop_bounded_step hV hbd, ?_, ?_, ?_, ?_⟩
      · intro x hx
        rw [trimPush_eq, List.mem_append] at hx
        rcases hx with hx | hx
        · exact SuperProxy.CoReach.step hq ((mem_trimCandidates S _ q x).mp hx).1
        · exact hsf x (List.mem_cons_of_mem _ hx)
      · intro x hx
        rcases mem_qsetInsert.mp hx with rfl | hx
        · exact hq
        · exact hst x hx
      · intro q' hq' p hp
        by_cases hpt : p ∈ qsetInsert q t
        · exact Or.inl hpt
        · right
          rw [trimPush_eq, List.mem_append]
          rcases mem_qsetInsert.mp hq' with rfl | hq'
          · exact Or.inl ((mem_trimCandidates S _ q' p).mpr ⟨hp, hpt⟩)
          · rcases hcl q' hq' p hp with h | h
            · exact absurd (mem_qsetInsert.mpr (Or.inr h)) hpt
            · rcases List.mem_cons.mp h with rfl | h
              · exact absurd (mem_qsetInsert.mpr (Or.inl rfl)) hpt
              · exact Or.inr h
      · intro x hx
        rcases hmono x hx with h | h
        · exact Or.inl (mem_qsetInsert.mpr (Or.inr h))
        · rcases List.mem_cons.mp h with rfl | h
          · exact Or.inl (mem_qsetInsert.mpr (Or.inl rfl))
          · right
            rw [trimPush_eq, List.mem_append]
            exact Or.inr h)
    S.trimRounds [m] t0
    ⟨hbound0, fun x hx => by rw [List.mem_singleton.mp hx]; exact SuperProxy.CoReach.seed hm,
      hs, fun q hq p hp => Or.inl (hc q hq p hp), fun x hx => by
        rcases hx with rfl | hx
        · exact Or.inr (List.mem_singleton.mpr rfl)
        · exact Or.inl hx⟩
  rw [hend] at hinv
  obtain ⟨⟨-, hb', hn'⟩, -, hs', hc', hmono'⟩ := hinv
  have hnil : ∀ {x : Nat} {l : List Nat}, x ∈ l ∨ x ∈ ([] : List Nat) → x ∈ l := by
    intro x l h
    rcases h with h | h
    · exact h
    · exact absurd h (List.not_mem_nil x)
  exact ⟨hend, ⟨hb', hn', hs', fun q hq p hp => hnil (hc' q hq p hp)⟩,
    hnil (hmono' m (Or.inl rfl)), fun x hx => hnil (hmono' x (Or.inr hx))⟩

/-- The searches of `trim` over a list of marked states. -/
theorem trim_fold {S : SuperProxy} (hV : ∀ x ∈ S.virtual_states_, x < S.productSize)
    (Ms : List cldes_size_t) (hMs : ∀ m ∈ Ms, m ∈ S.marked_states_ ∧ m < S.productSize)
    (t0 : List cldes_size_t)
    (hJ : (∀ x ∈ t0, x < S.productSize) ∧ t0.Nodup ∧ (∀ x ∈ t0, S.CoReach x) ∧
      (∀ q ∈ t0, ∀ p, S.TrimPred q p → p ∈ t0)) :
    ((∀ x ∈ Ms.foldl (fun t m => (S.trimLoop S.trimRounds [m] t).2) t0, x < S.productSize) ∧
      (Ms.foldl (fun t m => (S.trimLoop S.trimRounds [m] t).2) t0).Nodup ∧
      (∀ x ∈ Ms.foldl (fun t m => (S.trimLoop S.trimRounds [m] t).2) t0, S.CoReach x) ∧
      (∀ q ∈ Ms.foldl (fun t m => (S.trimLoop S.trimRounds [m] t).2) t0, ∀ p,
        S.TrimPred q p → p ∈ Ms.foldl (fun t m => (S.trimLoop S.trimRounds [m] t).2) t0)) ∧
    (∀ x ∈ t0, x ∈ Ms.foldl (fun t m => (S.trimLoop S.trimRounds [m] t).2) t0) ∧
    (∀ m ∈ Ms, m ∈ Ms.foldl (fun t m => (S.trimLoop S.trimRounds [m] t).2) t0) := by
  induction Ms generalizing t0 with
  | nil => exact ⟨hJ, fun x hx => hx, fun m hm => absurd hm (List.not_mem_nil m)⟩
  | cons a Ms ih =>
    rw [List.foldl_cons]
    obtain ⟨ha, haN⟩ := hMs a (List.mem_cons_self _ _)
    obtain ⟨-, hJ1, ha1, hmono1⟩ := trimLoop_seed hV ha haN hJ
    obtain ⟨hJ2, hmono2, hall2⟩ := ih (fun m hm => hMs m (List.mem_cons_of_mem _ hm)) _ hJ1
    refine ⟨hJ2, fun x hx => hmono2 x (hmono1 x hx), ?_⟩
    intro m hm
    rcases List.mem_cons.mp hm with rfl | hm
    · exact hmono2 m ha1
    · exact hall2 m hm

/-- What `trim` leaves in `virtual_states_`: the marked states and the retained states
from which a retained marked state is reached through retained states. -/
theorem mem_trim_iff {S : SuperProxy} (hV : ∀ x ∈ S.virtual_states_, x < S.productSize)
    (hM : ∀ m ∈ S.marked_states_, m < S.productSize) :
    (∀ x, x ∈ S.trim.virtual_states_ ↔ S.CoReach x) ∧ S.trim.virtual_states_.Nodup ∧
    (∀ x ∈ S.trim.virtual_states_, x < S.productSize) := by
  obtain ⟨⟨hb, hn, hs, hc⟩, -, hall⟩ := trim_fold hV S.marked_states_
    (fun m hm => ⟨hm, hM m hm⟩) []
    ⟨fun x hx => absurd hx (List.not_mem_nil x), List.nodup_nil,
      fun x hx => absurd hx (List.not_mem_nil x), fun q hq => absurd hq (List.not_mem_nil q)⟩
  refine ⟨fun x => ⟨hs x, ?_⟩, hn, hb⟩
  intro h
  induction h with
  | seed hm => exact hall _ hm
  | step _ hp ih => exact hc _ ih _ hp
theorem invtrans_impl_guard {S : SuperProxy} {q p : Nat} {e : Nat}
    (h : p ∈ S.invtrans_impl q e) : q ∈ S.virtual_states_ := by
  by_contra hq
  unfold SuperProxy.invtrans_impl at h
  simp [hq] at h

theorem invtrans_impl_congr (S S' : SuperProxy) (h0 : S'.sys0_ = S.sys0_)
    (h1 : S'.sys1_ = S.sys1_) (hn : S'.n_states_sys0_ = S.n_states_sys0_)
    (hp : S'.only_in_plant_ = S.only_in_plant_) (hs : S'.only_in_spec_ = S.only_in_spec_)
    (he : S'.events_ = S.events_) {q : Nat} (hq : q ∈ S.virtual_states_)
    (hq' : q ∈ S'.virtual_states_) (e : Nat) :
    S'.invtrans_impl q e = S.invtrans_impl q e := by
  unfold SuperProxy.invtrans_impl
  simp only [h0, h1, hn, hp, hs, he, hq, hq', decide_True]

/-- The second run of `trim` collects the same states as the first. -/
theorem coReach_trim_iff {S : SuperProxy} (hV : ∀ x ∈ S.virtual_states_, x < S.productSize)
    (hM : ∀ m ∈ S.marked_states_, m < S.productSize) (x : Nat) :
    S.trim.CoReach x ↔ S.CoReach x := by
  obtain ⟨hmem, -, -⟩ := mem_trim_iff hV hM
  constructor
  · intro h
    induction h with
    | seed hm => exact SuperProxy.CoReach.seed hm
    | step _ hp _ =>
      obtain ⟨e, -, -, hpv⟩ := hp
      exact (hmem _).mp hpv
  · intro h
    induction h with
    | seed hm => exact SuperProxy.CoReach.seed hm
    | @step q p hq hp ih =>
      obtain ⟨e, he, hpe, hpv⟩ := hp
      have hqV := invtrans_impl_guard hpe
      have hqV' : q ∈ S.trim.virtual_states_ := (hmem q).mpr hq
      have hpV' : p ∈ S.trim.virtual_states_ :=
        (hmem p).mpr (SuperProxy.CoReach.step hq ⟨e, he, hpe, hpv⟩)
      refine SuperProxy.CoReach.step ih ⟨e, he, ?_, hpV'⟩
      rw [invtrans_impl_congr S S.trim rfl rfl rfl rfl rfl rfl hqV hqV' e]
      exact hpe

theorem trim_trim_perm {S : SuperProxy} (hV : ∀ x ∈ S.virtual_states_, x < S.productSize)
    (hM : ∀ m ∈ S.marked_states_, m < S.productSize) :
    (∀ x, x ∈ S.trim.trim.virtual_states_ ↔ x ∈ S.trim.virtual_states_) ∧
    S.trim.trim.virtual_states_.Perm S.trim.virtual_states_ ∧
    S.trim.trim.states_number_ = S.trim.states_number_ := by
  obtain ⟨hmem, hn, hb⟩ := mem_trim_iff hV hM
  obtain ⟨hmem', hn', -⟩ := mem_trim_iff (S := S.trim) hb hM
  have hiff : ∀ x, x ∈ S.trim.trim.virtual_states_ ↔ x ∈ S.trim.virtual_states_ := by
    intro x
    rw [hmem', hmem, coReach_trim_iff hV hM]
  have hperm : S.trim.trim.virtual_states_.Perm S.trim.virtual_states_ :=
    (List.perm_ext_iff_of_nodup hn' hn).mpr hiff
  exact ⟨hiff, hperm, hperm.length_eq⟩
/-- C27. Trim is idempotent: for a well-formed automaton `A` whose bit graph follows the
invariant and whose initial state is trim, `Trim(Trim(A))` is `Trim(A)` itself, all states
of `Trim(A)` being trim, so that the second renumbering is the identity; and for a proxy
`op::SuperProxy` whose retained and marked states are product indices, running `trim()`
twice leaves in `virtual_states_` the same states, and the same `states_number_`, as running
it once. -/
theorem Trim_idempotent (A : DESystem) (hA : WellFormed A) (hB : BitGraphInv A)
    (hinit : A.init_state_ ∈ A.TrimStates) (S : SuperProxy)
    (hV : ∀ x ∈ S.virtual_states_, x < S.productSize)
    (hM : ∀ m ∈ S.marked_states_, m < S.productSize) :
    A.Trim.Trim = A.Trim ∧
    A.Trim.TrimStates = List.range A.Trim.states_number_ ∧
    (∀ i < A.Trim.states_number_, A.Trim.TrimStates.indexOf i = i) ∧
    (∀ x, x ∈ S.trim.trim.virtual_states_ ↔ x ∈ S.trim.virtual_states_) ∧
    S.trim.trim.virtual_states_.Perm S.trim.virtual_states_ ∧
    S.trim.trim.states_number_ = S.trim.states_number_ := by
  have hT : A.Trim.TrimStates = List.range A.TrimStates.length :=
    TrimStates_Trim hB hA.1 hA.2.1 hA.2.2.2.1 hinit
  refine ⟨?_, hT, ?_, trim_trim_perm hV hM⟩
  · rw [Trim_eq_restrictTo A.Trim, hT, Trim_eq_restrictTo A]
    exact restrictTo_range A A.TrimStates hinit
  · intro i hi
    rw [hT]
    exact indexOf_range hi

/-- Witness of C27: the first system of `tests/basics_gpu.cpp`, whose initial state is trim,
and the proxy of the supervisor test. -/
theorem Trim_idempotent_witness :
    basicsSys.Trim.Trim = basicsSys.Trim ∧
    (SuperProxy.SuperProxy testPlant testSpec testNonContr).trim.trim.virtual_states_.Perm
      (SuperProxy.SuperProxy testPlant testSpec testNonContr).trim.virtual_states_ :=
  ⟨(Trim_idempotent basicsSys (by decide!) (by decide!) (by decide!)
      (SuperProxy.SuperProxy testPlant testSpec testNonContr) (by decide!) (by decide!)).1,
    (Trim_idempotent basicsSys (by decide!) (by decide!) (by decide!)
      (SuperProxy.SuperProxy testPlant testSpec testNonContr) (by decide!)
      (by decide!)).2.2.2.2.1⟩
theorem syncGetStateEvents_testBit (aP aE : DESystem) (q e : Nat) :
    (SyncSysProxy.getStateEvents aP aE q).testBit e = enabledAt aP aE q e := by
  unfold SyncSysProxy.getStateEvents enabledAt
  rw [testBit_syncEvents_tables]

/-- On well-formed children the lazy product steps to a product index on every event it
enables. -/
theorem syncTrans_nat {aP aE : DESystem} (hP : WellFormed aP) (hE : WellFormed aE) {q e : Nat}
    (hq : q < aP.states_number_ * aE.states_number_)
    (he : (SyncSysProxy.getStateEvents aP aE q).testBit e = true) :
    ∃ k < aP.states_number_ * aE.states_number_,
      SyncSysProxy.trans aP aE q e = ((k : Nat) : Int) := by
  obtain ⟨hx, hy⟩ := decode_lt hq
  have hen : enabledAt aP aE q e = true := by rw [← syncGetStateEvents_testBit]; exact he
  unfold SyncSysProxy.trans
  simp only [he, Bool.not_true, Bool.false_eq_true, if_false]
  rcases enabledAt_cases hP hE hq hen with ⟨hp, hs, ha, hb⟩ | ⟨hp, hs, ha⟩ | ⟨hp, hs, hb⟩
  · obtain ⟨j, hj, htr, -⟩ := DESystem.trans_nat hP hx ha
    obtain ⟨k, hk, htr', -⟩ := DESystem.trans_nat hE hy hb
    rw [if_pos (by rw [hp, hs]; rfl), htr, htr']
    exact ⟨k * aP.states_number_ + j, encode_lt hj hk, by push_cast; rfl⟩
  · obtain ⟨j, hj, htr, -⟩ := DESystem.trans_nat hP hx ha
    rw [if_neg (by rw [hp, hs]; simp), if_pos hp, htr]
    exact ⟨q / aP.states_number_ * aP.states_number_ + j, encode_lt hj hy, by push_cast; rfl⟩
  · obtain ⟨k, hk, htr', -⟩ := DESystem.trans_nat hE hy hb
    rw [if_neg (by rw [hp]; simp), if_neg (by rw [hp]; simp), htr']
    exact ⟨k * aP.states_number_ + q % aP.states_number_, encode_lt hx hk, by push_cast; rfl⟩

theorem findPush_bounded {aP aE : DESystem} (hP : WellFormed aP) (hE : WellFormed aE)
    (rm vs : List cldes_size_t) {q : Nat} (hq : q < aP.states_number_ * aE.states_number_)
    (f : List cldes_size_t) (hf : ∀ x ∈ f, x < aP.states_number_ * aE.states_number_) :
    ∀ x ∈ SuperProxy.findPush aP aE rm vs q (SyncSysProxy.getStateEvents aP aE q) f,
      x < aP.states_number_ * aE.states_number_ := by
  unfold SuperProxy.findPush
  have gen : ∀ (es : List ScalarType) (f : List cldes_size_t),
      (∀ e ∈ es, (SyncSysProxy.getStateEvents aP aE q).testBit e = true) →
      (∀ x ∈ f, x < aP.states_number_ * aE.states_number_) →
      ∀ x ∈ es.foldl (fun f event =>
          if !containsInt rm (SyncSysProxy.trans aP aE q event) then
            if !containsInt vs (SyncSysProxy.trans aP aE q event) then
              (SyncSysProxy.trans aP aE q event).toNat :: f
            else f
          else f) f, x < aP.states_number_ * aE.states_number_ := by
    intro es
    induction es with
    | nil => intro f _ hf; exact hf
    | cons a es ih =>
      intro f hes hf
      rw [List.foldl_cons]
      apply ih _ (fun e he => hes e (List.mem_cons_of_mem _ he))
      obtain ⟨k, hk, htr⟩ := syncTrans_nat hP hE hq (hes a (List.mem_cons_self _ _))
      intro x hx
      split at hx
      · split at hx
        · rcases List.mem_cons.mp hx with rfl | hx
          · rw [htr, Int.toNat_ofNat]; exact hk
          · exact hf x hx
        · exact hf x hx
      · exact hf x hx
  exact gen _ f (fun e he => (mem_bitsOf _ _).mp he) hf

theorem findLoop_bounded {aP aE : DESystem} (hP : WellFormed aP) (hE : WellFormed aE)
    (pnc nc : EventsBitArray) (fuel : Nat) (f vs rm : List cldes_size_t)
    (hf : ∀ x ∈ f, x < aP.states_number_ * aE.states_number_)
    (hvs : ∀ x ∈ vs, x < aP.states_number_ * aE.states_number_) :
    ∀ x ∈ (SuperProxy.findLoop aP aE pnc nc fuel f vs rm).2.1,
      x < aP.states_number_ * aE.states_number_ := by
  induction fuel generalizing f vs rm with
  | zero => unfold SuperProxy.findLoop; exact hvs
  | succ fuel ih =>
    cases f with
    | nil => unfold SuperProxy.findLoop; exact hvs
    | cons q f =>
      have hq := hf q (List.mem_cons_self _ _)
      have hf' : ∀ x ∈ f, x < aP.states_number_ * aE.states_number_ :=
        fun x hx => hf x (List.mem_cons_of_mem _ hx)
      unfold SuperProxy.findLoop
      split
      · split
        · apply ih _ _ _ hf'
          intro x hx
          exact hvs x (RemoveBadStates_subset _ _ _ _ _ _ _ _ _ _ x hx).1
        · have hvs' : ∀ x ∈ qsetInsert q vs, x < aP.states_number_ * aE.states_number_ := by
            intro x hx
            rcases mem_qsetInsert.mp hx with rfl | hx
            · exact hq
            · exact hvs x hx
          exact ih _ _ _ (findPush_bounded hP hE _ _ hq f hf') hvs'
      · exact ih _ _ _ hf' hvs

/-- The states a proxy built over well-formed operands retains are product indices, and so
are its marked states; both runs of `trim` therefore apply to it. -/
theorem superProxy_states_lt {aP aE : DESystem} (hP : WellFormed aP) (hE : WellFormed aE)
    (unc : List ScalarType) :
    (∀ x ∈ (SuperProxy.SuperProxy aP aE unc).virtual_states_,
      x < (SuperProxy.SuperProxy aP aE unc).productSize) ∧
    (∀ m ∈ (SuperProxy.SuperProxy aP aE unc).marked_states_,
      m < (SuperProxy.SuperProxy aP aE unc).productSize) ∧
    (SuperProxy.SuperProxy aP aE unc).productSize = aP.states_number_ * aE.states_number_ := by
  have hM : ∀ m ∈ (Synchronize aP aE).marked_states_,
      m < aP.states_number_ * aE.states_number_ := by
    intro m hm
    obtain ⟨s0, hs0, s1, hs1, rfl⟩ := (Synchronize_marked aP aE m).mp hm
    exact encode_lt (hP.2.1 s0 hs0) (hE.2.1 s1 hs1)
  have hinit : aE.init_state_ * aP.states_number_ + aP.init_state_ <
      aP.states_number_ * aE.states_number_ := encode_lt hP.1 hE.1
  have hfind : ∀ x ∈ (SuperProxy.findFinal aP aE unc).2.1,
      x < aP.states_number_ * aE.states_number_ := by
    unfold SuperProxy.findFinal
    apply findLoop_bounded hP hE
    · intro x hx; rw [List.mem_singleton.mp hx]; exact hinit
    · intro x hx; exact absurd hx (List.not_mem_nil x)
  refine ⟨?_, hM, rfl⟩
  exact (mem_trim_iff (S := { SuperProxy.members aP aE with
      virtual_states_ := (SuperProxy.findFinal aP aE unc).2.1
      states_number_ := (SuperProxy.findFinal aP aE unc).2.1.length }) hfind hM).2.2
theorem synthFinal_eq_synthRun (aP aE : DESystem) (non_contr : List ScalarType) :
    synthFinal aP aE non_contr =
      synthRun aP aE non_contr (aP.states_number_ * aE.states_number_ + 1) := rfl

/-- C31 on `revisitPlant`, `blockSpec` and `Unc = {3, 4}`: after three rounds of the main
loop of `op::SupervisorSynth` the product state `1` is on the stack and in `rmtable_`; the
fourth round pops it and inserts it into `C`, so when the loop ends `1` is both in `C` and
in `rmtable_`. The search of `op::SuperProxy::findRemovedStates_` on the same input ends
with the retained states `{0, 2}` and the removed states `{3, 1}`. -/
theorem SupervisorSynth_inserts_removed_state :
    WellFormed revisitPlant ∧ Deterministic revisitPlant ∧
    WellFormed blockSpec ∧ Deterministic blockSpec ∧
    (synthRun revisitPlant blockSpec [3, 4] 3).f = [1] ∧
    (synthRun revisitPlant blockSpec [3, 4] 3).rmtable_ = [3, 1] ∧
    (synthRun revisitPlant blockSpec [3, 4] 3).c = [0, 2] ∧
    (synthRun revisitPlant blockSpec [3, 4] 4).f = [] ∧
    (synthRun revisitPlant blockSpec [3, 4] 4).rmtable_ = [3, 1] ∧
    (synthRun revisitPlant blockSpec [3, 4] 4).c = [0, 2, 1] ∧
    (synthFinal revisitPlant blockSpec [3, 4]).f = [] ∧
    1 ∈ (synthFinal revisitPlant blockSpec [3, 4]).c ∧
    1 ∈ (synthFinal revisitPlant blockSpec [3, 4]).rmtable_ ∧
    SuperProxy.findFinal revisitPlant blockSpec [3, 4] = ([], [0, 2], [3, 1]) := by
  decide!

/-- C34 on `soloPlant`, `soloSpec` and `Unc = {0, 1}`, where the event `0` belongs to the
specification only: the filter `non_contr_bit` that `findRemovedStates_` builds is `{1}`,
while `Unc ∩ (Σ_P ∪ Σ_E)` is `{0, 1}`, the filter of `op::SupervisorSynth`. The product
state `1` is bad and is entered from `0` by the event `0`: the main loop of
`op::SupervisorSynth` removes both states, the proxy removes `1` only and retains `0`. -/
theorem SuperProxy_filter_drops_spec_events :
    WellFormed soloPlant ∧ Deterministic soloPlant ∧
    WellFormed soloSpec ∧ Deterministic soloSpec ∧
    soloPlant.events_.testBit 0 = false ∧ soloSpec.events_.testBit 0 = true ∧
    (SuperProxy.nonContrBits soloPlant.events_ (soloPlant.events_ ||| soloSpec.events_)
      [0, 1]).1 = 2 ∧
    nonContrBit (soloPlant.events_ ||| soloSpec.events_) [0, 1] = 3 ∧
    productStep soloPlant soloSpec 0 0 1 = true ∧
    (synthFinal soloPlant soloSpec [0, 1]).f = [] ∧
    (synthFinal soloPlant soloSpec [0, 1]).c = [] ∧
    (synthFinal soloPlant soloSpec [0, 1]).rmtable_ = [1, 0] ∧
    SuperProxy.findFinal soloPlant soloSpec [0, 1] = ([], [0], [1]) ∧
    (SuperProxy.SuperProxy soloPlant soloSpec [0, 1]).virtual_states_ = [0] ∧
    (SuperProxy.SuperProxy soloPlant soloSpec [0, 1]).trans_impl 0 0 = 1 ∧
    (SupervisorSynth soloPlant soloSpec [0, 1]).states_number_ = 0 := by
  decide!

/-- C38 on two inputs. On `markedBadPlant` with `blockSpec` and `Unc = {4}` the search of
`findRemovedStates_` retains `{0}` and removes the marked product state `1` as bad;
`trim()` leaves `{0, 1}`, which is not a subset of `{0}`. On `strayMarkedPlant` with the
one-state specification the search retains `{0}`, the marked product state `1` is never
reached, and `trim()` leaves `{0, 1}`. -/
theorem SuperProxy_trim_adds_marked_states :
    WellFormed markedBadPlant ∧ Deterministic markedBadPlant ∧
    WellFormed blockSpec ∧ Deterministic blockSpec ∧
    SuperProxy.findFinal markedBadPlant blockSpec [4] = ([], [0], [1]) ∧
    (SuperProxy.members markedBadPlant blockSpec).marked_states_ = [0, 1] ∧
    ({ SuperProxy.members markedBadPlant blockSpec with
        virtual_states_ := [0], states_number_ := 1 } : SuperProxy).trim.virtual_states_
      = [0, 1] ∧
    (SuperProxy.SuperProxy markedBadPlant blockSpec [4]).virtual_states_ = [0, 1] ∧
    ¬ (∀ x ∈ (SuperProxy.SuperProxy markedBadPlant blockSpec [4]).virtual_states_,
        x ∈ (SuperProxy.findFinal markedBadPlant blockSpec [4]).2.1) ∧
    (SupervisorSynth markedBadPlant blockSpec [4]).states_number_ = 1 ∧
    SuperProxy.findFinal strayMarkedPlant idleSpec [] = ([], [0], []) ∧
    ({ SuperProxy.members strayMarkedPlant idleSpec with
        virtual_states_ := [0], states_number_ := 1 } : SuperProxy).trim.virtual_states_
      = [0, 1] := by
  decide!
/-- C39. Product transitions stay in range: for well-formed `A` and `B`, a product index
`q < nA * nB` and an event `e` enabled at `q` in the product, the scan of
`op::TransitionVirtual` (the one `op::Synchronize` spells out too) finds both targets, so
neither `xid` nor `yid` stays `-1`, `xid < nA`, `yid < nB`, and the value returned is
`yid * nA + xid < nA * nB`. -/
theorem TransitionVirtual_in_range (A B : DESystem) (hA : WellFormed A) (hB : WellFormed B)
    (q : cldes_size_t) (e : ScalarType) (hq : q < A.states_number_ * B.states_number_)
    (he : enabledAt A B q e = true) :
    (scanTargets A B (q % A.states_number_) (q / A.states_number_) e).1 ≠ -1 ∧
    (scanTargets A B (q % A.states_number_) (q / A.states_number_) e).2 ≠ -1 ∧
    (∃ xid yid : Nat, xid < A.states_number_ ∧ yid < B.states_number_ ∧
      scanTargets A B (q % A.states_number_) (q / A.states_number_) e =
        ((xid : Int), (yid : Int)) ∧
      TransitionVirtual A B q e = yid * A.states_number_ + xid) ∧
    TransitionVirtual A B q e < A.states_number_ * B.states_number_ := by
  obtain ⟨jx, jy, hjx, hjy, hscan, -⟩ := scanTargets_nat hA hB hq he
  have hT : TransitionVirtual A B q e = jy * A.states_number_ + jx := by
    unfold TransitionVirtual scanTarget
    rw [hscan]
    show ((jy : Int) * (A.states_number_ : Int) + (jx : Int)).toNat = _
    have : ((jy : Int) * (A.states_number_ : Int) + (jx : Int)) =
        ((jy * A.states_number_ + jx : Nat) : Int) := by push_cast; rfl
    rw [this, Int.toNat_ofNat]
  refine ⟨?_, ?_, ⟨jx, jy, hjx, hjy, hscan, hT⟩, ?_⟩
  · rw [hscan]; show (jx : Int) ≠ -1; omega
  · rw [hscan]; show (jy : Int) ≠ -1; omega
  · rw [hT]; exact encode_lt hjx hjy

/-- Witness of C39 on the supervisor test: from the product state `3 = (3, 0)` the event
`b0 = 2` leads to `6 = (2, 1)`. -/
theorem TransitionVirtual_in_range_witness :
    scanTargets testPlant testSpec 3 0 2 = (2, 1) ∧
    TransitionVirtual testPlant testSpec 3 2 = 6 ∧
    TransitionVirtual testPlant testSpec 3 2 <
      testPlant.states_number_ * testSpec.states_number_ :=
  ⟨by decide!, by decide!,
    (TransitionVirtual_in_range testPlant testSpec (by decide!) (by decide!) 3 2 (by decide!)
      (by decide!)).2.2.2⟩

theorem flatMap_congr_mem {α β : Type} (l : List α) (f g : α → List β)
    (h : ∀ a ∈ l, f a = g a) : l.flatMap f = l.flatMap g := by
  induction l with
  | nil => rfl
  | cons a l ih =>
    rw [List.flatMap_cons, List.flatMap_cons, h a (List.mem_cons_self _ _),
      ih (fun b hb => h b (List.mem_cons_of_mem _ hb))]

theorem filterMap_congr_mem {α β : Type} (l : List α) (f g : α → Option β)
    (h : ∀ a ∈ l, f a = g a) : l.filterMap f = l.filterMap g := by
  induction l with
  | nil => rfl
  | cons a l ih =>
    rw [List.filterMap_cons, List.filterMap_cons, h a (List.mem_cons_self _ _),
      ih (fun b hb => h b (List.mem_cons_of_mem _ hb))]

/-- The output of `SynchronizeStage2` depends on the memo only through the targets it
yields at the retained states and their enabled events. -/
theorem SynchronizeStage2_congr_memo (S A B : DESystem)
    (tt : List ((cldes_size_t × ScalarType) × cldes_size_t))
    (h : ∀ cs < S.virtual_states_.length,
      ∀ e ∈ bitsOf (stage2Events S A B (S.virtual_states_.getD cs 0)),
        stage2Target S A B (S.virtual_states_.getD cs 0) e =
          stage2Target { S with transtriplet_ := tt } A B (S.virtual_states_.getD cs 0) e) :
    SynchronizeStage2 S A B = SynchronizeStage2 { S with transtriplet_ := tt } A B := by
  have hg : (SynchronizeStage2 S A B).graph_ =
      (SynchronizeStage2 { S with transtriplet_ := tt } A B).graph_ := by
    rw [SynchronizeStage2_graph, SynchronizeStage2_graph]
    congr 1
    apply flatMap_congr_mem
    intro cs hcs
    apply filterMap_congr_mem
    intro e he
    rw [h cs (List.mem_range.mp hcs) e he]
  have hb : (SynchronizeStage2 S A B).bit_graph_ =
      (SynchronizeStage2 { S with transtriplet_ := tt } A B).bit_graph_ := by
    unfold SynchronizeStage2
    simp only []
    congr 1
    apply flatMap_congr_mem
    intro cs hcs
    congr 1
    apply filterMap_congr_mem
    intro e he
    rw [h cs (List.mem_range.mp hcs) e he]
  have hs : (SynchronizeStage2 S A B).states_events_ =
      (SynchronizeStage2 { S with transtriplet_ := tt } A B).states_events_ := by
    rw [SynchronizeStage2_states_events, SynchronizeStage2_states_events]
    congr 1
    apply List.map_congr_left
    intro cs hcs
    congr 1
    apply List.filter_congr
    intro e he
    rw [h cs (List.mem_range.mp hcs) e he]
  have e1 : SynchronizeStage2 S A B =
      { SynchronizeStage2 { S with transtriplet_ := tt } A B with
        graph_ := (SynchronizeStage2 S A B).graph_
        bit_graph_ := (SynchronizeStage2 S A B).bit_graph_
        states_events_ := (SynchronizeStage2 S A B).states_events_ } := rfl
  rw [e1, hg, hb, hs]

theorem synthInit_bounded {aP aE : DESystem} (hP : WellFormed aP) (hE : WellFormed aE) :
    SynthBounded (aP.states_number_ * aE.states_number_)
      { f := [aE.init_state_ * aP.states_number_ + aP.init_state_]
        ftable := [aE.init_state_ * aP.states_number_ + aP.init_state_]
        c := [], rmtable_ := [], transtriplet_ := [] } := by
  have hinit : aE.init_state_ * aP.states_number_ + aP.init_state_ <
      aP.states_number_ * aE.states_number_ := encode_lt hP.1 hE.1
  refine ⟨?_, ?_, List.nodup_singleton _⟩
  · intro x hx; rw [List.mem_singleton.mp hx]; exact hinit
  · intro x hx; rw [List.mem_singleton.mp hx]; exact hinit

/-- C40. The memo is only an optimisation: for well-formed `P` and `E` and every `Unc`,
every entry `((q, e) -> t)` that `op::SupervisorSynth` stores in `transtriplet_` satisfies
`t = op::TransitionVirtual(P, E, q, e)`, after every round of the main loop and when it
ends, and `op::SynchronizeStage2` produces the same automaton from the virtual system with
the filled memo as from the one with an empty memo. -/
theorem SupervisorSynth_memo_only_optimisation (aP aE : DESystem) (hP : WellFormed aP)
    (hE : WellFormed aE) (non_contr : List ScalarType) :
    (∀ k, ∀ p ∈ (synthRun aP aE non_contr k).transtriplet_,
      p.2 = TransitionVirtual aP aE p.1.1 p.1.2) ∧
    (∀ p ∈ (synthFinal aP aE non_contr).transtriplet_,
      p.2 = TransitionVirtual aP aE p.1.1 p.1.2) ∧
    (synthVirtualSys aP aE non_contr).transtriplet_ =
      (synthFinal aP aE non_contr).transtriplet_ ∧
    SynchronizeStage2 (synthVirtualSys aP aE non_contr) aP aE =
      SynchronizeStage2 { synthVirtualSys aP aE non_contr with transtriplet_ := [] } aP aE := by
  have hin := synthVirtualSys_stage2Input hP hE non_contr
  have hin' : Stage2Input { synthVirtualSys aP aE non_contr with transtriplet_ := [] } aP aE :=
    ⟨hin.1, hin.2.1, hin.2.2.1, hin.2.2.2.1, hin.2.2.2.2.1, hin.2.2.2.2.2.1,
      fun p hp => absurd hp (List.not_mem_nil p)⟩
  refine ⟨?_, hin.2.2.2.2.2.2, rfl, ?_⟩
  · intro k
    exact (synthLoop_tables hP hE _ _ _ k _ (synthInit_bounded hP hE)
      (fun x hx => absurd hx (List.not_mem_nil x)) List.nodup_nil
      (fun p hp => absurd hp (List.not_mem_nil p))).2.2
  apply SynchronizeStage2_congr_memo
  intro cs hcs e he
  have hs := hin.2.1 _ (getD_mem_of_lt hcs)
  have hen : enabledAt aP aE ((synthVirtualSys aP aE non_contr).virtual_states_.getD cs 0) e
      = true := by
    rw [← stage2Events_testBit hin]
    exact (mem_bitsOf _ _).mp he
  rw [stage2Target_eq hin hP hE hs hen, stage2Target_eq hin' hP hE hs hen]

/-- Witness of C40 on the supervisor test: the memo is not empty, and emptying it leaves
the automaton of `SynchronizeStage2` unchanged. -/
theorem SupervisorSynth_memo_only_optimisation_witness :
    (synthVirtualSys testPlant testSpec testNonContr).transtriplet_ ≠ [] ∧
    SynchronizeStage2 (synthVirtualSys testPlant testSpec testNonContr) testPlant testSpec =
      SynchronizeStage2
        { synthVirtualSys testPlant testSpec testNonContr with transtriplet_ := [] }
        testPlant testSpec :=
  ⟨by decide!,
    (SupervisorSynth_memo_only_optimisation testPlant testSpec (by decide!) (by decide!)
      testNonContr).2.2.2⟩
theorem bfsStep_of_no_true (B : BitGraphHostData) (x : List Bool) (hx : x.length = B.rows)
    (h0 : true ∉ x) : bfsStep B x = x := by
  have hall : ∀ j, x.getD j false = false := by
    intro j
    cases hj : x.getD j false
    · rfl
    · exfalso
      apply h0
      have hlt := getD_true_lt hj
      rw [List.getD_eq_getElem _ _ hlt] at hj
      rw [← hj]
      exact List.getElem_mem hlt
  apply List.ext_getElem
  · rw [length_bfsStep, hx]
  · intro i h1 h2
    have e1 : (bfsStep B x)[i] = (bfsStep B x).getD i false :=
      (List.getD_eq_getElem _ _ h1).symm
    have e2 : x[i] = x.getD i false := (List.getD_eq_getElem _ _ h2).symm
    rw [e1, e2, hall i]
    cases hb : (bfsStep B x).getD i false
    · rfl
    · obtain ⟨-, j, -, -, hj⟩ := (getD_bfsStep B x i).mp hb
      rw [hall j] at hj
      exact absurd hj (by simp)

theorem length_iterate_bfsStep {B : BitGraphHostData} {n : Nat} (hr : B.rows = n)
    (x : List Bool) (hx : x.length = n) (k : Nat) : ((bfsStep B)^[k] x).length = n := by
  induction k generalizing x with
  | zero => exact hx
  | succ k ih =>
    rw [Function.iterate_succ_apply]
    exact ih _ (by rw [length_bfsStep, hr])

theorem bfsIter_eq_iterate (B : BitGraphHostData) (k : Nat) (x : List Bool) :
    bfsIter B k x = (bfsStep B)^[k] x := by
  induction k generalizing x with
  | zero => rfl
  | succ k ih =>
    unfold bfsIter
    by_cases hfix : bfsStep B x = x
    · rw [if_pos hfix]
      exact (Function.iterate_fixed hfix (k + 1)).symm
    · rw [if_neg hfix, ih, Function.iterate_succ_apply]

/-- C37. Monotone bounded BFS: for an `n × n` bit matrix `B` with `B[i][i] = 1` for all `i`
and a start vector `x0` of `n` bits, the sequence `x_{k+1} = B · x_k` never loses a bit,
`x_{n+1} = x_n`, so a fixpoint is reached after at most `n` rounds, and the bounded
iteration of the model returns it. Without the diagonal the sequence need not be monotone:
under the swap matrix the vector `(1, 0)` becomes `(0, 1)`. -/
theorem Bfs_monotone_bounded (B : BitGraphHostData) (n : Nat) (hr : B.rows = n)
    (hc : B.cols = n) (hd : ∀ i < n, B.bit i i = true) (x0 : List Bool)
    (hx : x0.length = n) :
    (∀ k i, ((bfsStep B)^[k] x0).getD i false = true →
      ((bfsStep B)^[k + 1] x0).getD i false = true) ∧
    (∀ k, ((bfsStep B)^[k] x0).count true ≤ ((bfsStep B)^[k + 1] x0).count true) ∧
    (bfsStep B)^[n + 1] x0 = (bfsStep B)^[n] x0 ∧
    (∃ k ≤ n, (bfsStep B)^[k + 1] x0 = (bfsStep B)^[k] x0) ∧
    (∀ k, n ≤ k → (bfsStep B)^[k] x0 = (bfsStep B)^[n] x0) ∧
    bfsIter B n x0 = (bfsStep B)^[n] x0 ∧
    (swapBits.rows = 2 ∧ swapBits.cols = 2 ∧ swapBits.bit 0 0 = false ∧
      [true, false].getD 0 false = true ∧
      (bfsStep swapBits [true, false]).getD 0 false = false ∧
      bfsStep swapBits (bfsStep swapBits [true, false]) = [true, false]) := by
  have hmono : ∀ k i, ((bfsStep B)^[k] x0).getD i false = true →
      ((bfsStep B)^[k + 1] x0).getD i false = true := by
    intro k i h
    rw [Function.iterate_succ_apply']
    exact bfsStep_mono_self hc hr hd (length_iterate_bfsStep hr x0 hx k) i h
  have hfix : (bfsStep B)^[n + 1] x0 = (bfsStep B)^[n] x0 := by
    rw [Function.iterate_succ_apply', ← bfsIter_eq_iterate]
    apply bfsIter_fixpoint hc hr hd n x0 hx
    by_cases h : true ∈ x0
    · right
      have := List.count_pos_iff.mpr h
      omega
    · left
      exact bfsStep_of_no_true B x0 (by rw [hx, hr]) h
  refine ⟨hmono, ?_, hfix, ⟨n, Nat.le_refl n, hfix⟩, ?_, bfsIter_eq_iterate B n x0,
    by decide!⟩
  · intro k
    apply count_le_of_le _ _ _ (hmono k)
    rw [length_iterate_bfsStep hr x0 hx k, length_iterate_bfsStep hr x0 hx (k + 1)]
  · intro k hk
    obtain ⟨d, rfl⟩ := Nat.exists_eq_add_of_le hk
    rw [Nat.add_comm, Function.iterate_add_apply]
    rw [Function.iterate_succ_apply'] at hfix
    exact Function.iterate_fixed hfix d

/-- Witness of C37 on the bit graph of the first system of the test, from the unit vector
of the initial state `0`: four rounds reach the fixpoint `{0, 1, 2, 3}`. -/
theorem Bfs_monotone_bounded_witness :
    (bfsStep basicsSys.bit_graph_)^[4 + 1] [true, false, false, false] =
      (bfsStep basicsSys.bit_graph_)^[4] [true, false, false, false] ∧
    bfsIter basicsSys.bit_graph_ 4 [true, false, false, false] = [true, true, true, true] :=
  ⟨(Bfs_monotone_bounded basicsSys.bit_graph_ 4 (by decide!) (by decide!) (by decide!)
      [true, false, false, false] (by decide!)).2.2.1, by decide!⟩
theorem synthScanBad_iff (aP : DESystem) (nc : EventsBitArray) (q : cldes_size_t)
    (qev : BitArray) (rest : List ScalarType) :
    synthScanBad aP nc q qev rest = true ↔
      ∃ e ∈ rest, nc.testBit e = true ∧ qev.testBit e = false ∧
        (vecGet aP.states_events_ (q % aP.states_number_)).testBit e = true := by
  induction rest with
  | nil => simp [synthScanBad]
  | cons a rest ih =>
    unfold synthScanBad
    by_cases h : (nc.testBit a && !qev.testBit a &&
        (vecGet aP.states_events_ (q % aP.states_number_)).testBit a) = true
    · rw [if_pos h]
      simp only [Bool.and_eq_true, Bool.not_eq_true'] at h
      simp only [true_iff]
      exact ⟨a, List.mem_cons_self _ _, h.1.1, h.1.2, h.2⟩
    · rw [if_neg h, ih]
      constructor
      · rintro ⟨e, he, h'⟩
        exact ⟨e, List.mem_cons_of_mem _ he, h'⟩
      · rintro ⟨e, he, h1, h2, h3⟩
        rcases List.mem_cons.mp he with rfl | he
        · exfalso
          apply h
          simp [h1, h2, h3]
        · exact ⟨e, he, h1, h2, h3⟩

/-- The scan calls `RemoveBadStates` exactly when `synthScanBad` says so: then the result
is the scratch state reached by the pushes made so far with `C` and `rmtable_` replaced by
what `RemoveBadStates` returns; otherwise `C` and `rmtable_` are left as they were. -/
theorem synthScan_invokes (aP aE : DESystem) (only_in_0 only_in_1 : BitArray)
    (gP gE : GraphHostData) (nc : EventsBitArray) (q : cldes_size_t) (qev : BitArray)
    (rest : List ScalarType) (st : SynthState) :
    (synthScanBad aP nc q qev rest = true →
      ∃ st' : SynthState, st'.c = st.c ∧ st'.rmtable_ = st.rmtable_ ∧
        synthScan aP aE only_in_0 only_in_1 gP gE nc q qev rest st =
          { st' with
            c := (RemoveBadStates aP aE only_in_0 only_in_1 gP gE st.c st.rmtable_ q nc).1
            rmtable_ :=
              (RemoveBadStates aP aE only_in_0 only_in_1 gP gE st.c st.rmtable_ q nc).2 }) ∧
    (synthScanBad aP nc q qev rest = false →
      (synthScan aP aE only_in_0 only_in_1 gP gE nc q qev rest st).c = st.c ∧
      (synthScan aP aE only_in_0 only_in_1 gP gE nc q qev rest st).rmtable_ = st.rmtable_) := by
  induction rest generalizing st with
  | nil =>
    constructor
    · intro h; simp [synthScanBad] at h
    · intro _; exact ⟨rfl, rfl⟩
  | cons a rest ih =>
    unfold synthScanBad synthScan
    by_cases h : (nc.testBit a && !qev.testBit a &&
        (vecGet aP.states_events_ (q % aP.states_number_)).testBit a) = true
    · simp only [h, if_true]
      constructor
      · intro _
        exact ⟨st, rfl, rfl, rfl⟩
      · intro hf; exact absurd hf (by simp)
    · simp only [h, if_false, Bool.false_eq_true]
      by_cases h1 : qev.testBit a = true
      · simp only [h1, if_true]
        by_cases h2 : (!decide (TransitionVirtual aP aE q a ∈ st.c) &&
            !decide (TransitionVirtual aP aE q a ∈ st.ftable) &&
            !decide (TransitionVirtual aP aE q a ∈ st.rmtable_)) = true
        · simp only [h2, if_true]
          exact ih { st with
            transtriplet_ := qhashInsert (q, a) (TransitionVirtual aP aE q a) st.transtriplet_
            f := TransitionVirtual aP aE q a :: st.f
            ftable := qsetInsert (TransitionVirtual aP aE q a) st.ftable }
        · simp only [h2, if_false, Bool.false_eq_true]
          exact ih st
      · simp only [h1, if_false, Bool.false_eq_true]
        exact ih st

theorem and_ne_self_iff (a b : Nat) :
    a &&& b ≠ a ↔ ∃ e, a.testBit e = true ∧ b.testBit e = false := by
  constructor
  · intro h
    by_contra hcon
    apply h
    apply Nat.eq_of_testBit_eq
    intro e
    rw [Nat.testBit_and]
    cases ha : a.testBit e
    · rfl
    · cases hb : b.testBit e
      · exact absurd ⟨e, ha, hb⟩ hcon
      · rfl
  · rintro ⟨e, ha, hb⟩ h
    have := congrArg (fun x => x.testBit e) h
    simp only [Nat.testBit_and, ha, hb] at this
    exact absurd this (by simp)

/-- C33. Bad-state criterion: for a well-formed plant `P`, every `E` and `Unc` and every
product state `q = (qx, qy)`, the event scan of the main loop of `op::SupervisorSynth`
reaches the call of `RemoveBadStates` on `q` if and only if `Unc ∩ out_P[qx]` is not a
subset of the events enabled at `q` (the set `q_events` of the loop, which is the set the
proxy reads through `getStateEvents`); in that case it hands `C` and `rmtable_` to
`RemoveBadStates` and `q` leaves `C`, otherwise both tables stay as they are. The test
`(forced & en_q) != forced` of `op::SuperProxy::findRemovedStates_` holds of exactly the
same states. -/
theorem SupervisorSynth_bad_state_criterion (aP aE : DESystem) (hP : WellFormed aP)
    (non_contr : List ScalarType) (q : cldes_size_t) :
    SyncSysProxy.getStateEvents aP aE q =
      syncEvents aP.states_events_ aE.states_events_
        (aP.events_ ^^^ (aP.events_ &&& aE.events_)) (aE.events_ ^^^ (aP.events_ &&& aE.events_))
        (q % aP.states_number_) (q / aP.states_number_) ∧
    (synthScanBad aP (nonContrBit (aP.events_ ||| aE.events_) non_contr) q
        (SyncSysProxy.getStateEvents aP aE q)
        (bitsOf (SyncSysProxy.getStateEvents aP aE q |||
          nonContrBit (aP.events_ ||| aE.events_) non_contr)) = true ↔
      ¬ ∀ e ∈ non_contr, (vecGet aP.states_events_ (q % aP.states_number_)).testBit e = true →
        (SyncSysProxy.getStateEvents aP aE q).testBit e = true) ∧
    ((SuperProxy.nonContrBits aP.events_ (aP.events_ ||| aE.events_) non_contr).2 &&&
          aP.getStateEvents (q % aP.states_number_) &&&
        SyncSysProxy.getStateEvents aP aE q ≠
        (SuperProxy.nonContrBits aP.events_ (aP.events_ ||| aE.events_) non_contr).2 &&&
          aP.getStateEvents (q % aP.states_number_) ↔
      ¬ ∀ e ∈ non_contr, (vecGet aP.states_events_ (q % aP.states_number_)).testBit e = true →
        (SyncSysProxy.getStateEvents aP aE q).testBit e = true) ∧
    (∀ st : SynthState, q ∈ st.c →
      (q ∉ (synthScan aP aE (aP.events_ ^^^ (aP.events_ &&& aE.events_))
          (aE.events_ ^^^ (aP.events_ &&& aE.events_)) aP.graph_.transpose aE.graph_.transpose
          (nonContrBit (aP.events_ ||| aE.events_) non_contr) q
          (SyncSysProxy.getStateEvents aP aE q)
          (bitsOf (SyncSysProxy.getStateEvents aP aE q |||
            nonContrBit (aP.events_ ||| aE.events_) non_contr)) st).c ↔
        synthScanBad aP (nonContrBit (aP.events_ ||| aE.events_) non_contr) q
          (SyncSysProxy.getStateEvents aP aE q)
          (bitsOf (SyncSysProxy.getStateEvents aP aE q |||
            nonContrBit (aP.events_ ||| aE.events_) non_contr)) = true)) := by
  have hqx : q % aP.states_number_ < aP.states_number_ :=
    Nat.mod_lt _ (Nat.lt_of_le_of_lt (Nat.zero_le _) hP.1)
  have hout : ∀ e, (vecGet aP.states_events_ (q % aP.states_number_)).testBit e = true →
      aP.events_.testBit e = true := fun e he => hP.out_mem hqx he
  refine ⟨rfl, ?_, ?_, ?_⟩
  · rw [synthScanBad_iff]
    constructor
    · rintro ⟨e, -, h1, h2, h3⟩ hall
      have hmem := ((testBit_nonContrBit _ _ e).mp h1).1
      have := hall e hmem h3
      rw [h2] at this
      exact absurd this (by simp)
    · intro hnot
      by_contra hcon
      apply hnot
      intro e he h3
      by_contra h2
      apply hcon
      have hnc : (nonContrBit (aP.events_ ||| aE.events_) non_contr).testBit e = true := by
        rw [testBit_nonContrBit]
        refine ⟨he, ?_⟩
        rw [Nat.testBit_or, hout e h3, Bool.true_or]
      refine ⟨e, ?_, hnc, ?_, h3⟩
      · rw [mem_bitsOf, Nat.testBit_or, hnc, Bool.or_true]
      · simpa using h2
  · rw [and_ne_self_iff]
    constructor
    · rintro ⟨e, h1, h2⟩ hall
      rw [Nat.testBit_and, Bool.and_eq_true, (testBit_nonContrBits _ _ _ e).2] at h1
      have := hall e h1.1.1 h1.2
      rw [h2] at this
      exact absurd this (by simp)
    · intro hnot
      by_contra hcon
      apply hnot
      intro e he h3
      by_contra h2
      apply hcon
      refine ⟨e, ?_, by simpa using h2⟩
      rw [Nat.testBit_and, Bool.and_eq_true, (testBit_nonContrBits _ _ _ e).2]
      exact ⟨⟨he, hout e h3⟩, h3⟩
  · intro st hq
    obtain ⟨hbad, hgood⟩ := synthScan_invokes aP aE (aP.events_ ^^^ (aP.events_ &&& aE.events_))
      (aE.events_ ^^^ (aP.events_ &&& aE.events_)) aP.graph_.transpose aE.graph_.transpose
      (nonContrBit (aP.events_ ||| aE.events_) non_contr) q
      (SyncSysProxy.getStateEvents aP aE q)
      (bitsOf (SyncSysProxy.getStateEvents aP aE q |||
        nonContrBit (aP.events_ ||| aE.events_) non_contr)) st
    constructor
    · intro hnot
      by_contra hcon
      have hf := hgood (by simpa using hcon)
      rw [hf.1] at hnot
      exact hnot hq
    · intro hb hmem
      obtain ⟨st', -, -, heq⟩ := hbad hb
      rw [heq] at hmem
      exact (RemoveBadStates_subset _ _ _ _ _ _ _ _ _ _ q hmem).2 rfl

/-- Witness of C33 on `revisitPlant` and `blockSpec` with `Unc = {3, 4}`: the product state
`3` is bad, the plant offers the uncontrollable event `4` there and the specification
blocks it. -/
theorem SupervisorSynth_bad_state_criterion_witness :
    synthScanBad revisitPlant (nonContrBit (revisitPlant.events_ ||| blockSpec.events_) [3, 4])
        3 (SyncSysProxy.getStateEvents revisitPlant blockSpec 3)
        (bitsOf (SyncSysProxy.getStateEvents revisitPlant blockSpec 3 |||
          nonContrBit (revisitPlant.events_ ||| blockSpec.events_) [3, 4])) = true ∧
    ¬ ∀ e ∈ [3, 4], (vecGet revisitPlant.states_events_
          (3 % revisitPlant.states_number_)).testBit e = true →
        (SyncSysProxy.getStateEvents revisitPlant blockSpec 3).testBit e = true :=
  ⟨by decide!,
    (SupervisorSynth_bad_state_criterion revisitPlant blockSpec (by decide!) [3, 4] 3).2.1.mp
      (by decide!)⟩
theorem mem_removePush (finv : List cldes_size_t)
    (st : List cldes_size_t × List cldes_size_t) (y : cldes_size_t) :
    (y ∈ (removePush finv st).2 ↔ y ∈ st.2 ∨ y ∈ finv) ∧
    (y ∈ (removePush finv st).1 ↔ y ∈ st.1 ∨ (y ∈ finv ∧ y ∉ st.2)) := by
  unfold removePush
  induction finv generalizing st with
  | nil => simp
  | cons s finv ih =>
    rw [List.foldl_cons]
    by_cases hs : s ∈ st.2
    · rw [if_pos hs]
      obtain ⟨h2, h1⟩ := ih st
      rw [h2, h1]
      constructor
      · constructor
        · rintro (h | h)
          · exact Or.inl h
          · exact Or.inr (List.mem_cons_of_mem _ h)
        · rintro (h | h)
          · exact Or.inl h
          · rcases List.mem_cons.mp h with rfl | h
            · exact Or.inl hs
            · exact Or.inr h
      · constructor
        · rintro (h | ⟨h, hn⟩)
          · exact Or.inl h
          · exact Or.inr ⟨List.mem_cons_of_mem _ h, hn⟩
        · rintro (h | ⟨h, hn⟩)
          · exact Or.inl h
          · rcases List.mem_cons.mp h with rfl | h
            · exact absurd hs hn
            · exact Or.inr ⟨h, hn⟩
    · rw [if_neg hs]
      obtain ⟨h2, h1⟩ := ih (s :: st.1, qsetInsert s st.2)
      rw [h2, h1]
      simp only [mem_qsetInsert, List.mem_cons]
      constructor
      · constructor
        · rintro ((rfl | h) | h)
          · exact Or.inr (Or.inl rfl)
          · exact Or.inl h
          · exact Or.inr (Or.inr h)
        · rintro (h | rfl | h)
          · exact Or.inl (Or.inr h)
          · exact Or.inl (Or.inl rfl)
          · exact Or.inr h
      · constructor
        · rintro ((rfl | h) | ⟨h, hn⟩)
          · exact Or.inr ⟨Or.inl rfl, hs⟩
          · exact Or.inl h
          · exact Or.inr ⟨Or.inr h, fun hy => hn (Or.inr hy)⟩
        · rintro (h | ⟨rfl | h, hn⟩)
          · exact Or.inl (Or.inr h)
          · exact Or.inl (Or.inl rfl)
          · by_cases hys : y = s
            · exact Or.inl (Or.inl hys)
            · exact Or.inr ⟨h, fun hy => hy.elim hys hn⟩

theorem mem_removeEvents (g : ScalarType → List cldes_size_t) (events : List ScalarType)
    (st : List cldes_size_t × List cldes_size_t) (y : cldes_size_t) :
    (y ∈ (events.foldl (fun acc event => removePush (g event) acc) st).2 ↔
      y ∈ st.2 ∨ ∃ e ∈ events, y ∈ g e) ∧
    (y ∈ (events.foldl (fun acc event => removePush (g event) acc) st).1 ↔
      y ∈ st.1 ∨ ((∃ e ∈ events, y ∈ g e) ∧ y ∉ st.2)) := by
  induction events generalizing st with
  | nil => simp
  | cons a events ih =>
    rw [List.foldl_cons]
    obtain ⟨h2, h1⟩ := ih (removePush (g a) st)
    obtain ⟨p2, p1⟩ := mem_removePush (g a) st y
    rw [h2, h1, p2, p1]
    simp only [List.mem_cons, exists_eq_or_imp]
    constructor
    · constructor
      · rintro ((h | h) | h)
        · exact Or.inl h
        · exact Or.inr (Or.inl h)
        · exact Or.inr (Or.inr h)
      · rintro (h | h | h)
        · exact Or.inl (Or.inl h)
        · exact Or.inl (Or.inr h)
        · exact Or.inr h
    · constructor
      · rintro ((h | ⟨h, hn⟩) | ⟨h, hn⟩)
        · exact Or.inl h
        · exact Or.inr ⟨Or.inl h, hn⟩
        · exact Or.inr ⟨Or.inr h, fun hy => hn (Or.inl hy)⟩
      · rintro (h | ⟨h | h, hn⟩)
        · exact Or.inl (Or.inl h)
        · exact Or.inl (Or.inr ⟨h, hn⟩)
        · by_cases hya : y ∈ g a
          · exact Or.inl (Or.inr ⟨hya, hn⟩)
          · exact Or.inr ⟨h, fun hy => hy.elim hn hya⟩

/-- The predecessors one round of `op::RemoveBadStates` finds for the popped state `x` are
the predecessors of `x` in the product by an event of the filter. -/
theorem mem_removeRound {aP aE : DESystem} (hP : WellFormed aP) (hE : WellFormed aE)
    (nc : EventsBitArray) {x : cldes_size_t} (hx : x < aP.states_number_ * aE.states_number_)
    (y : cldes_size_t) :
    (∃ e ∈ bitsOf (syncEvents aP.inv_states_events_ aE.inv_states_events_
          (aP.events_ ^^^ (aP.events_ &&& aE.events_))
          (aE.events_ ^^^ (aP.events_ &&& aE.events_))
          (x % aP.graph_.transpose.rows) (x / aP.graph_.transpose.rows) &&& nc),
        y ∈ __TransitionVirtualInv aP.events_ aE.events_ aP.graph_.transpose
          aE.graph_.transpose x e) ↔
      UncPred aP aE nc y x := by
  have hrows : aP.graph_.transpose.rows = aP.states_number_ := hP.2.2.2.1
  have hPc : aP.graph_.transpose.cols = aP.graph_.transpose.rows := by
    show aP.graph_.rows = aP.graph_.cols
    rw [hP.2.2.1, hP.2.2.2.1]
  have hEc : aE.graph_.transpose.cols = aE.states_number_ := hE.2.2.1
  obtain ⟨hx0, hx1⟩ := decode_lt hx
  rw [hrows]
  constructor
  · rintro ⟨e, he, hy⟩
    rw [mem_bitsOf, Nat.testBit_and, Bool.and_eq_true, testBit_syncEvents_tables] at he
    obtain ⟨hev, hnc⟩ := he
    have hylt : y < aP.states_number_ * aE.states_number_ := by
      have := TransitionVirtualInv_lt aP.events_ aE.events_ aP.graph_.transpose
        aE.graph_.transpose hPc hEc (x := x) (by rw [hrows]; exact hx) e y hy
      rw [hrows] at this
      exact this
    have hsig : (aP.events_ ||| aE.events_).testBit e = true := by
      rw [Nat.testBit_or]
      simp only [Bool.and_eq_true, Bool.or_eq_true, Bool.not_eq_true'] at hev
      rcases hev with (⟨ha, -⟩ | ⟨-, hp, -⟩) | ⟨-, hs, -⟩
      · obtain ⟨i, hi, hie⟩ := (hP.in_iff hx0).mp ha
        rw [hP.label_mem hi hx0 hie, Bool.true_or]
      · rw [hp, Bool.true_or]
      · rw [hs, Bool.or_true]
    exact ⟨hylt, e, hnc, (mem_TransitionVirtualInv hP hE hx hylt hsig).mp hy⟩
  · rintro ⟨hylt, e, hnc, hstep⟩
    obtain ⟨hy0, hy1⟩ := decode_lt hylt
    have hcases := (productStep_iff aP aE y e x).mp hstep
    have hsig : (aP.events_ ||| aE.events_).testBit e = true := by
      rw [Nat.testBit_or]
      rcases hcases.2 with ⟨hp, -⟩ | ⟨hp, -⟩ | ⟨-, hs, -⟩
      · rw [hp, Bool.true_or]
      · rw [hp, Bool.true_or]
      · rw [hs, Bool.or_true]
    refine ⟨e, ?_, (mem_TransitionVirtualInv hP hE hx hylt hsig).mpr hstep⟩
    rw [mem_bitsOf, Nat.testBit_and, Bool.and_eq_true, testBit_syncEvents_tables]
    refine ⟨?_, hnc⟩
    simp only [Bool.and_eq_true, Bool.or_eq_true, Bool.not_eq_true']
    rcases hcases.2 with ⟨hp, hs, ha, hb⟩ | ⟨hp, hs, ha, -⟩ | ⟨hp, hs, hb, -⟩
    · exact Or.inl (Or.inl ⟨(hP.in_iff hx0).mpr ⟨_, hy0, ha⟩, (hE.in_iff hx1).mpr ⟨_, hy1, hb⟩⟩)
    · exact Or.inl (Or.inr ⟨(hP.in_iff hx0).mpr ⟨_, hy0, ha⟩, hp, hs⟩)
    · exact Or.inr ⟨(hE.in_iff hx1).mpr ⟨_, hy1, hb⟩, hs, hp⟩

theorem removeLoop_inv {aP aE : DESystem} (hP : WellFormed aP) (hE : WellFormed aE)
    (nc : EventsBitArray) (R0 C0 : List cldes_size_t) (q : cldes_size_t)
    (hcl : ∀ x ∈ R0, ∀ x', UncPred aP aE nc x' x → x' ∈ R0) (fuel : Nat)
    (f C rm : List cldes_size_t) (h : RemoveInv aP aE nc R0 C0 q f C rm) :
    RemoveInv aP aE nc R0 C0 q
      (removeLoop aP aE (aP.events_ ^^^ (aP.events_ &&& aE.events_))
        (aE.events_ ^^^ (aP.events_ &&& aE.events_)) aP.graph_.transpose aE.graph_.transpose
        nc fuel f C rm).1
      (removeLoop aP aE (aP.events_ ^^^ (aP.events_ &&& aE.events_))
        (aE.events_ ^^^ (aP.events_ &&& aE.events_)) aP.graph_.transpose aE.graph_.transpose
        nc fuel f C rm).2.1
      (removeLoop aP aE (aP.events_ ^^^ (aP.events_ &&& aE.events_))
        (aE.events_ ^^^ (aP.events_ &&& aE.events_)) aP.graph_.transpose aE.graph_.transpose
        nc fuel f C rm).2.2 := by
  induction fuel generalizing f C rm with
  | zero => unfold removeLoop; exact h
  | succ fuel ih =>
    cases f with
    | nil => unfold removeLoop; exact h
    | cons x f =>
      unfold removeLoop
      apply ih
      obtain ⟨i1, i2, i3, iq, i4, i5, i6, i7, i8⟩ := h
      obtain ⟨hx, hxrm, hxnew⟩ := i1 x (List.mem_cons_self _ _)
      have hrm' : ∀ y, y ∈ ((bitsOf (syncEvents aP.inv_states_events_ aE.inv_states_events_
            (aP.events_ ^^^ (aP.events_ &&& aE.events_))
            (aE.events_ ^^^ (aP.events_ &&& aE.events_))
            (x % aP.graph_.transpose.rows) (x / aP.graph_.transpose.rows) &&& nc)).foldl
          (fun acc event => removePush (__TransitionVirtualInv aP.events_ aE.events_
            aP.graph_.transpose aE.graph_.transpose x event) acc) (f, rm)).2 ↔
          y ∈ rm ∨ UncPred aP aE nc y x := by
        intro y
        rw [(mem_removeEvents _ _ _ y).1, mem_removeRound hP hE nc hx y]
      have hf' : ∀ y, y ∈ ((bitsOf (syncEvents aP.inv_states_events_ aE.inv_states_events_
            (aP.events_ ^^^ (aP.events_ &&& aE.events_))
            (aE.events_ ^^^ (aP.events_ &&& aE.events_))
            (x % aP.graph_.transpose.rows) (x / aP.graph_.transpose.rows) &&& nc)).foldl
          (fun acc event => removePush (__TransitionVirtualInv aP.events_ aE.events_
            aP.graph_.transpose aE.graph_.transpose x event) acc) (f, rm)).1 ↔
          y ∈ f ∨ (UncPred aP aE nc y x ∧ y ∉ rm) := by
        intro y
        rw [(mem_removeEvents _ _ _ y).2, mem_removeRound hP hE nc hx y]
      refine ⟨?_, ?_, ?_, ?_, ?_, ?_, ?_, ?_, ?_⟩
      · intro y hy
        rcases (hf' y).mp hy with hyf | ⟨hpred, hyn⟩
        · obtain ⟨a, b, c⟩ := i1 y (List.mem_cons_of_mem _ hyf)
          exact ⟨a, (hrm' y).mpr (Or.inl b), c⟩
        · exact ⟨hpred.1, (hrm' y).mpr (Or.inr hpred), Or.inr (fun hyR => hyn (i3 y hyR))⟩
      · intro y hy
        rcases (hrm' y).mp hy with hyrm | hpred
        · exact i2 y hyrm
        · rcases i2 x hxrm with hxR | hxreach
          · exact Or.inl (hcl x hxR y hpred)
          · exact Or.inr (Relation.ReflTransGen.head hpred hxreach)
      · intro y hy
        exact (hrm' y).mpr (Or.inl (i3 y hy))
      · exact (hrm' q).mpr (Or.inl iq)
      · intro y hy hyf y' hpred
        rcases (hrm' y).mp hy with hyrm | hpredy
        · by_cases hyx : y = x
          · subst hyx
            exact (hrm' y').mpr (Or.inr hpred)
          · have hyf0 : y ∉ x :: f := by
              intro hmem
              rcases List.mem_cons.mp hmem with h' | h'
              · exact hyx h'
              · exact hyf ((hf' y).mpr (Or.inl h'))
            exact (hrm' y').mpr (Or.inl (i4 y hyrm hyf0 y' hpred))
        · by_cases hyrm : y ∈ rm
          · by_cases hyx : y = x
            · subst hyx
              exact (hrm' y').mpr (Or.inr hpred)
            · have hyf0 : y ∉ x :: f := by
                intro hmem
                rcases List.mem_cons.mp hmem with h' | h'
                · exact hyx h'
                · exact hyf ((hf' y).mpr (Or.inl h'))
              exact (hrm' y').mpr (Or.inl (i4 y hyrm hyf0 y' hpred))
          · exact absurd ((hf' y).mpr (Or.inr ⟨hpredy, hyrm⟩)) hyf
      · intro y hy hyR
        by_cases hyrm : y ∈ rm
        · rcases i5 y hyrm hyR with hmem | hnc
          · rcases List.mem_cons.mp hmem with h' | h'
            · right
              intro hC
              exact ((mem_qsetRemove).mp hC).2 h'
            · exact Or.inl ((hf' y).mpr (Or.inl h'))
          · right
            intro hC
            exact hnc ((mem_qsetRemove).mp hC).1
        · rcases (hrm' y).mp hy with h' | hpred
          · exact absurd h' hyrm
          · exact Or.inl ((hf' y).mpr (Or.inr ⟨hpred, hyrm⟩))
      · rcases i6 with hmem | hnc
        · rcases List.mem_cons.mp hmem with h' | h'
          · right
            intro hC
            exact ((mem_qsetRemove).mp hC).2 h'
          · exact Or.inl ((hf' q).mpr (Or.inl h'))
        · right
          intro hC
          exact hnc ((mem_qsetRemove).mp hC).1
      · intro y hy
        exact i7 y ((mem_qsetRemove).mp hy).1
      · intro y hy hyC
        by_cases hyC0 : y ∈ C
        · have hyx : y = x := by
            by_contra hne
            exact hyC ((mem_qsetRemove).mpr ⟨hyC0, hne⟩)
          subst hyx
          rcases hxnew with h' | h'
          · exact Or.inl h'
          · exact Or.inr ⟨(hrm' y).mpr (Or.inl hxrm), h'⟩
        · rcases i8 y hy hyC0 with h' | ⟨h1, h2⟩
          · exact Or.inl h'
          · exact Or.inr ⟨(hrm' y).mpr (Or.inl h1), h2⟩

/-- What one call of `op::RemoveBadStates(q)` does to a removed-set closed under
predecessors by filter events: the stack empties, the removed-set becomes `R` together with
the backward closure of `q`, stays closed, and `C` loses exactly `q` and the new states. -/
theorem RemoveBadStates_closure_spec (aP aE : DESystem) (hP : WellFormed aP)
    (hE : WellFormed aE) (nc : EventsBitArray) (C R : List cldes_size_t) (q : cldes_size_t)
    (hq : q < aP.states_number_ * aE.states_number_)
    (hR : ∀ y ∈ R, y < aP.states_number_ * aE.states_number_) (hnd : R.Nodup)
    (hcl : ∀ x ∈ R, ∀ x', UncPred aP aE nc x' x → x' ∈ R) :
    (removeLoop aP aE (aP.events_ ^^^ (aP.events_ &&& aE.events_))
      (aE.events_ ^^^ (aP.events_ &&& aE.events_)) aP.graph_.transpose aE.graph_.transpose nc
      (aP.states_number_ * aE.states_number_ + 1) [q] C (qsetInsert q R)).1 = [] ∧
    (∀ x, x ∈ (RemoveBadStates aP aE (aP.events_ ^^^ (aP.events_ &&& aE.events_))
        (aE.events_ ^^^ (aP.events_ &&& aE.events_)) aP.graph_.transpose aE.graph_.transpose
        C R q nc).2 ↔ x ∈ R ∨ UncReaches aP aE nc x q) ∧
    (∀ x ∈ (RemoveBadStates aP aE (aP.events_ ^^^ (aP.events_ &&& aE.events_))
        (aE.events_ ^^^ (aP.events_ &&& aE.events_)) aP.graph_.transpose aE.graph_.transpose
        C R q nc).2, ∀ x', UncPred aP aE nc x' x →
      x' ∈ (RemoveBadStates aP aE (aP.events_ ^^^ (aP.events_ &&& aE.events_))
        (aE.events_ ^^^ (aP.events_ &&& aE.events_)) aP.graph_.transpose aE.graph_.transpose
        C R q nc).2) ∧
    (∀ x ∈ (RemoveBadStates aP aE (aP.events_ ^^^ (aP.events_ &&& aE.events_))
        (aE.events_ ^^^ (aP.events_ &&& aE.events_)) aP.graph_.transpose aE.graph_.transpose
        C R q nc).2, x ∉ R →
      x ∉ (RemoveBadStates aP aE (aP.events_ ^^^ (aP.events_ &&& aE.events_))
        (aE.events_ ^^^ (aP.events_ &&& aE.events_)) aP.graph_.transpose aE.graph_.transpose
        C R q nc).1) ∧
    q ∉ (RemoveBadStates aP aE (aP.events_ ^^^ (aP.events_ &&& aE.events_))
        (aE.events_ ^^^ (aP.events_ &&& aE.events_)) aP.graph_.transpose aE.graph_.transpose
        C R q nc).1 ∧
    (∀ x, x ∈ (RemoveBadStates aP aE (aP.events_ ^^^ (aP.events_ &&& aE.events_))
        (aE.events_ ^^^ (aP.events_ &&& aE.events_)) aP.graph_.transpose aE.graph_.transpose
        C R q nc).1 ↔
      x ∈ C ∧ x ≠ q ∧
        (x ∈ (RemoveBadStates aP aE (aP.events_ ^^^ (aP.events_ &&& aE.events_))
          (aE.events_ ^^^ (aP.events_ &&& aE.events_)) aP.graph_.transpose aE.graph_.transpose
          C R q nc).2 → x ∈ R)) := by
  have hempty := RemoveBadStates_stack_empty aP aE (aP.events_ ^^^ (aP.events_ &&& aE.events_))
    (aE.events_ ^^^ (aP.events_ &&& aE.events_)) hP hE nc C R q hq hR hnd
  have hinit : RemoveInv aP aE nc R C q [q] C (qsetInsert q R) := by
    refine ⟨?_, ?_, ?_, ?_, ?_, ?_, ?_, ?_, ?_⟩
    · intro y hy
      rw [List.mem_singleton.mp hy]
      exact ⟨hq, mem_qsetInsert.mpr (Or.inl rfl), Or.inl rfl⟩
    · intro y hy
      rcases mem_qsetInsert.mp hy with rfl | hy
      · exact Or.inr Relation.ReflTransGen.refl
      · exact Or.inl hy
    · intro y hy
      exact mem_qsetInsert.mpr (Or.inr hy)
    · exact mem_qsetInsert.mpr (Or.inl rfl)
    · intro y hy hyf y' hpred
      rcases mem_qsetInsert.mp hy with rfl | hy
      · exact absurd (List.mem_singleton.mpr rfl) hyf
      · exact mem_qsetInsert.mpr (Or.inr (hcl y hy y' hpred))
    · intro y hy hyR
      rcases mem_qsetInsert.mp hy with rfl | hy
      · exact Or.inl (List.mem_singleton.mpr rfl)
      · exact absurd hy hyR
    · exact Or.inl (List.mem_singleton.mpr rfl)
    · intro y hy; exact hy
    · intro y hy hyC; exact absurd hy hyC
  have hinv := removeLoop_inv hP hE nc R C q hcl
    (aP.states_number_ * aE.states_number_ + 1) [q] C (qsetInsert q R) hinit
  rw [hempty] at hinv
  obtain ⟨-, i2, i3, iq, i4, i5, i6, i7, i8⟩ := hinv
  have hq' : q ∉ (RemoveBadStates aP aE (aP.events_ ^^^ (aP.events_ &&& aE.events_))
      (aE.events_ ^^^ (aP.events_ &&& aE.events_)) aP.graph_.transpose aE.graph_.transpose
      C R q nc).1 := by
    rcases i6 with h | h
    · exact absurd h (List.not_mem_nil q)
    · exact h
  have hnew : ∀ x ∈ (RemoveBadStates aP aE (aP.events_ ^^^ (aP.events_ &&& aE.events_))
      (aE.events_ ^^^ (aP.events_ &&& aE.events_)) aP.graph_.transpose aE.graph_.transpose
      C R q nc).2, x ∉ R →
      x ∉ (RemoveBadStates aP aE (aP.events_ ^^^ (aP.events_ &&& aE.events_))
        (aE.events_ ^^^ (aP.events_ &&& aE.events_)) aP.graph_.transpose aE.graph_.transpose
        C R q nc).1 := by
    intro x hx hxR
    rcases i5 x hx hxR with h | h
    · exact absurd h (List.not_mem_nil x)
    · exact h
  refine ⟨hempty, ?_, ?_, hnew, hq', ?_⟩
  · intro x
    constructor
    · exact i2 x
    · rintro (hxR | hreach)
      · exact i3 x hxR
      · induction hreach using Relation.ReflTransGen.head_induction_on with
        | refl => exact iq
        | head hab _ ih => exact i4 _ ih (List.not_mem_nil _) _ hab
  · intro x hx x' hpred
    exact i4 x hx (List.not_mem_nil x) x' hpred
  · intro x
    constructor
    · intro hx
      refine ⟨i7 x hx, fun hxq => hq' (hxq ▸ hx), fun hxrm => ?_⟩
      by_contra hxR
      exact hnew x hxrm hxR hx
    · rintro ⟨hxC, hxq, himp⟩
      by_contra hx
      rcases i8 x hxC hx with h | ⟨h1, h2⟩
      · exact hxq h
      · exact h2 (himp h1)

/-- C32. Backward closure computed by `op::RemoveBadStates`: for well-formed `P` and `E`
with the inverse graphs the transposes of `G_P` and `G_E`, a product state `q` and a
removed-set `R` of product states closed under predecessors by events of the filter, the
loop of `op::RemoveBadStates(q)` runs to an empty stack; afterwards the removed-set is
`R ∪ { x : a string of filter events leads from x to q in P ∥ E }`, it is again closed under
such predecessors, every state newly added to it and `q` itself are out of `C`, and `C` has
lost nothing else. -/
theorem RemoveBadStates_backward_closure (aP aE : DESystem) (hP : WellFormed aP)
    (hE : WellFormed aE) (nc : EventsBitArray) (C R : List cldes_size_t) (q : cldes_size_t)
    (hq : q < aP.states_number_ * aE.states_number_)
    (hR : ∀ y ∈ R, y < aP.states_number_ * aE.states_number_) (hnd : R.Nodup)
    (hcl : ∀ x ∈ R, ∀ x', UncPred aP aE nc x' x → x' ∈ R) :
    (removeLoop aP aE (aP.events_ ^^^ (aP.events_ &&& aE.events_))
      (aE.events_ ^^^ (aP.events_ &&& aE.events_)) aP.graph_.transpose aE.graph_.transpose nc
      (aP.states_number_ * aE.states_number_ + 1) [q] C (qsetInsert q R)).1 = [] ∧
    (∀ x, x ∈ (RemoveBadStates aP aE (aP.events_ ^^^ (aP.events_ &&& aE.events_))
        (aE.events_ ^^^ (aP.events_ &&& aE.events_)) aP.graph_.transpose aE.graph_.transpose
        C R q nc).2 ↔ x ∈ R ∨ UncReaches aP aE nc x q) ∧
    (∀ x ∈ (RemoveBadStates aP aE (aP.events_ ^^^ (aP.events_ &&& aE.events_))
        (aE.events_ ^^^ (aP.events_ &&& aE.events_)) aP.graph_.transpose aE.graph_.transpose
        C R q nc).2, ∀ x', UncPred aP aE nc x' x →
      x' ∈ (RemoveBadStates aP aE (aP.events_ ^^^ (aP.events_ &&& aE.events_))
        (aE.events_ ^^^ (aP.events_ &&& aE.events_)) aP.graph_.transpose aE.graph_.transpose
        C R q nc).2) ∧
    (∀ x ∈ (RemoveBadStates aP aE (aP.events_ ^^^ (aP.events_ &&& aE.events_))
        (aE.events_ ^^^ (aP.events_ &&& aE.events_)) aP.graph_.transpose aE.graph_.transpose
        C R q nc).2, x ∉ R →
      x ∉ (RemoveBadStates aP aE (aP.events_ ^^^ (aP.events_ &&& aE.events_))
        (aE.events_ ^^^ (aP.events_ &&& aE.events_)) aP.graph_.transpose aE.graph_.transpose
        C R q nc).1) ∧
    q ∉ (RemoveBadStates aP aE (aP.events_ ^^^ (aP.events_ &&& aE.events_))
        (aE.events_ ^^^ (aP.events_ &&& aE.events_)) aP.graph_.transpose aE.graph_.transpose
        C R q nc).1 ∧
    (∀ x, x ∈ (RemoveBadStates aP aE (aP.events_ ^^^ (aP.events_ &&& aE.events_))
        (aE.events_ ^^^ (aP.events_ &&& aE.events_)) aP.graph_.transpose aE.graph_.transpose
        C R q nc).1 ↔
      x ∈ C ∧ x ≠ q ∧
        (x ∈ (RemoveBadStates aP aE (aP.events_ ^^^ (aP.events_ &&& aE.events_))
          (aE.events_ ^^^ (aP.events_ &&& aE.events_)) aP.graph_.transpose aE.graph_.transpose
          C R q nc).2 → x ∈ R)) :=
  RemoveBadStates_closure_spec aP aE hP hE nc C R q hq hR hnd hcl

/-- Witness of C32 on `revisitPlant` and `blockSpec` with the filter of `Unc = {3, 4}`:
called on the bad product state `3` with `C = {0, 1, 2, 3}` and an empty removed-set,
`op::RemoveBadStates` leaves the removed-set `{3, 1}` and `C = {0, 2}`. -/
theorem RemoveBadStates_backward_closure_witness :
    RemoveBadStates revisitPlant blockSpec
        (revisitPlant.events_ ^^^ (revisitPlant.events_ &&& blockSpec.events_))
        (blockSpec.events_ ^^^ (revisitPlant.events_ &&& blockSpec.events_))
        revisitPlant.graph_.transpose blockSpec.graph_.transpose [0, 1, 2, 3] [] 3
        (nonContrBit (revisitPlant.events_ ||| blockSpec.events_) [3, 4]) = ([0, 2], [3, 1]) ∧
    (∀ x, x ∈ (RemoveBadStates revisitPlant blockSpec
        (revisitPlant.events_ ^^^ (revisitPlant.events_ &&& blockSpec.events_))
        (blockSpec.events_ ^^^ (revisitPlant.events_ &&& blockSpec.events_))
        revisitPlant.graph_.transpose blockSpec.graph_.transpose [0, 1, 2, 3] [] 3
        (nonContrBit (revisitPlant.events_ ||| blockSpec.events_) [3, 4])).2 ↔
      x ∈ ([] : List cldes_size_t) ∨
        UncReaches revisitPlant blockSpec
          (nonContrBit (revisitPlant.events_ ||| blockSpec.events_) [3, 4]) x 3) :=
  ⟨by decide!,
    (RemoveBadStates_backward_closure revisitPlant blockSpec (by decide!) (by decide!)
      (nonContrBit (revisitPlant.events_ ||| blockSpec.events_) [3, 4]) [0, 1, 2, 3] [] 3
      (by decide!) (fun y hy => absurd hy (List.not_mem_nil y)) List.nodup_nil
      (fun x hx => absurd hx (List.not_mem_nil x))).2.1⟩
theorem qsetInsert_of_not_mem {x : Nat} {s : List Nat} (h : x ∉ s) :
    qsetInsert x s = s ++ [x] := by
  unfold qsetInsert
  rw [if_neg h]

theorem synthScanLog_spec (aP aE : DESystem) (only_in_0 only_in_1 : BitArray)
    (gP gE : GraphHostData) (nc : EventsBitArray) (q : cldes_size_t) (qev : BitArray)
    (rest : List ScalarType) (st : SynthState) (log : List cldes_size_t) :
    (synthScanLog aP aE only_in_0 only_in_1 gP gE nc q qev rest st log).1 =
      synthScan aP aE only_in_0 only_in_1 gP gE nc q qev rest st ∧
    (log = st.ftable →
      (synthScanLog aP aE only_in_0 only_in_1 gP gE nc q qev rest st log).2 =
        (synthScan aP aE only_in_0 only_in_1 gP gE nc q qev rest st).ftable) := by
  induction rest generalizing st log with
  | nil => exact ⟨rfl, fun h => h⟩
  | cons a rest ih =>
    unfold synthScanLog synthScan
    by_cases h : (nc.testBit a && !qev.testBit a &&
        (vecGet aP.states_events_ (q % aP.states_number_)).testBit a) = true
    · simp only [h, if_true]
      exact ⟨trivial, fun h => h⟩
    · simp only [h, if_false, Bool.false_eq_true]
      by_cases h1 : qev.testBit a = true
      · simp only [h1, if_true]
        by_cases h2 : (!decide (TransitionVirtual aP aE q a ∈ st.c) &&
            !decide (TransitionVirtual aP aE q a ∈ st.ftable) &&
            !decide (TransitionVirtual aP aE q a ∈ st.rmtable_)) = true
        · simp only [h2, if_true]
          obtain ⟨e1, e2⟩ := ih { st with
            transtriplet_ := qhashInsert (q, a) (TransitionVirtual aP aE q a) st.transtriplet_
            f := TransitionVirtual aP aE q a :: st.f
            ftable := qsetInsert (TransitionVirtual aP aE q a) st.ftable }
            (log ++ [TransitionVirtual aP aE q a])
          refine ⟨e1, fun hlog => e2 ?_⟩
          have hnot : TransitionVirtual aP aE q a ∉ st.ftable := by
            simp only [Bool.and_eq_true, Bool.not_eq_true', decide_eq_false_iff_not] at h2
            exact h2.1.2
          show log ++ [TransitionVirtual aP aE q a] =
            qsetInsert (TransitionVirtual aP aE q a) st.ftable
          rw [qsetInsert_of_not_mem hnot, hlog]
        · simp only [h2, if_false, Bool.false_eq_true]
          exact ih st log
      · simp only [h1, if_false, Bool.false_eq_true]
        exact ih st log

theorem synthLoop_succ_cons (aP aE : DESystem) (only_in_0 only_in_1 : BitArray)
    (gP gE : GraphHostData) (nc : EventsBitArray) (fuel : Nat) (st : SynthState)
    {q : cldes_size_t} {f : List cldes_size_t} (hf : st.f = q :: f) :
    synthLoop aP aE only_in_0 only_in_1 gP gE nc (fuel + 1) st =
      synthLoop aP aE only_in_0 only_in_1 gP gE nc fuel
        (synthScan aP aE only_in_0 only_in_1 gP gE nc q
          (syncEvents aP.states_events_ aE.states_events_ only_in_0 only_in_1
            (q % aP.states_number_) (q / aP.states_number_))
          (bitsOf (syncEvents aP.states_events_ aE.states_events_ only_in_0 only_in_1
            (q % aP.states_number_) (q / aP.states_number_) ||| nc))
          { st with f := f, c := qsetInsert q st.c }) := by
  rw [synthLoop]
  simp only [hf]

theorem synthLoopLog_succ_cons (aP aE : DESystem) (only_in_0 only_in_1 : BitArray)
    (gP gE : GraphHostData) (nc : EventsBitArray) (fuel : Nat) (st : SynthState)
    (log : List cldes_size_t) {q : cldes_size_t} {f : List cldes_size_t} (hf : st.f = q :: f) :
    synthLoopLog aP aE only_in_0 only_in_1 gP gE nc (fuel + 1) st log =
      synthLoopLog aP aE only_in_0 only_in_1 gP gE nc fuel
        (synthScanLog aP aE only_in_0 only_in_1 gP gE nc q
          (syncEvents aP.states_events_ aE.states_events_ only_in_0 only_in_1
            (q % aP.states_number_) (q / aP.states_number_))
          (bitsOf (syncEvents aP.states_events_ aE.states_events_ only_in_0 only_in_1
            (q % aP.states_number_) (q / aP.states_number_) ||| nc))
          { st with f := f, c := qsetInsert q st.c } log).1
        (synthScanLog aP aE only_in_0 only_in_1 gP gE nc q
          (syncEvents aP.states_events_ aE.states_events_ only_in_0 only_in_1
            (q % aP.states_number_) (q / aP.states_number_))
          (bitsOf (syncEvents aP.states_events_ aE.states_events_ only_in_0 only_in_1
            (q % aP.states_number_) (q / aP.states_number_) ||| nc))
          { st with f := f, c := qsetInsert q st.c } log).2 := by
  rw [synthLoopLog]
  simp only [hf]

theorem synthLoop_of_empty (aP aE : DESystem) (only_in_0 only_in_1 : BitArray)
    (gP gE : GraphHostData) (nc : EventsBitArray) (fuel : Nat) (st : SynthState)
    (h : st.f = []) : synthLoop aP aE only_in_0 only_in_1 gP gE nc fuel st = st := by
  cases fuel with
  | zero => rfl
  | succ fuel => rw [synthLoop]; simp only [h]

theorem synthLoopLog_of_empty (aP aE : DESystem) (only_in_0 only_in_1 : BitArray)
    (gP gE : GraphHostData) (nc : EventsBitArray) (fuel : Nat) (st : SynthState)
    (log : List cldes_size_t) (h : st.f = []) :
    synthLoopLog aP aE only_in_0 only_in_1 gP gE nc fuel st log = (st, log) := by
  cases fuel with
  | zero => rfl
  | succ fuel => rw [synthLoopLog]; simp only [h]

theorem synthLoopLog_spec (aP aE : DESystem) (only_in_0 only_in_1 : BitArray)
    (gP gE : GraphHostData) (nc : EventsBitArray) (fuel : Nat) (st : SynthState)
    (log : List cldes_size_t) :
    (synthLoopLog aP aE only_in_0 only_in_1 gP gE nc fuel st log).1 =
      synthLoop aP aE only_in_0 only_in_1 gP gE nc fuel st ∧
    (log = st.ftable →
      (synthLoopLog aP aE only_in_0 only_in_1 gP gE nc fuel st log).2 =
        (synthLoop aP aE only_in_0 only_in_1 gP gE nc fuel st).ftable) := by
  induction fuel generalizing st log with
  | zero => exact ⟨rfl, fun h => h⟩
  | succ fuel ih =>
    cases hf : st.f with
    | nil =>
      rw [synthLoopLog_of_empty _ _ _ _ _ _ _ _ _ _ hf, synthLoop_of_empty _ _ _ _ _ _ _ _ _ hf]
      exact ⟨rfl, fun h => h⟩
    | cons q f =>
      rw [synthLoopLog_succ_cons _ _ _ _ _ _ _ _ _ _ hf, synthLoop_succ_cons _ _ _ _ _ _ _ _ _ hf]
      obtain ⟨e1, e2⟩ := synthScanLog_spec aP aE only_in_0 only_in_1 gP gE nc q
        (syncEvents aP.states_events_ aE.states_events_ only_in_0 only_in_1
          (q % aP.states_number_) (q / aP.states_number_))
        (bitsOf (syncEvents aP.states_events_ aE.states_events_ only_in_0 only_in_1
          (q % aP.states_number_) (q / aP.states_number_) ||| nc))
        { st with f := f, c := qsetInsert q st.c } log
      rw [e1]
      obtain ⟨i1, i2⟩ := ih (synthScan aP aE only_in_0 only_in_1 gP gE nc q
        (syncEvents aP.states_events_ aE.states_events_ only_in_0 only_in_1
          (q % aP.states_number_) (q / aP.states_number_))
        (bitsOf (syncEvents aP.states_events_ aE.states_events_ only_in_0 only_in_1
          (q % aP.states_number_) (q / aP.states_number_) ||| nc))
        { st with f := f, c := qsetInsert q st.c })
        (synthScanLog aP aE only_in_0 only_in_1 gP gE nc q
          (syncEvents aP.states_events_ aE.states_events_ only_in_0 only_in_1
            (q % aP.states_number_) (q / aP.states_number_))
          (bitsOf (syncEvents aP.states_events_ aE.states_events_ only_in_0 only_in_1
            (q % aP.states_number_) (q / aP.states_number_) ||| nc))
          { st with f := f, c := qsetInsert q st.c } log).2
      exact ⟨i1, fun hlog => i2 (e2 hlog)⟩

theorem synthLoop_bounded {aP aE : DESystem} (hP : WellFormed aP) (hE : WellFormed aE)
    (gP gE : GraphHostData) (nc : EventsBitArray) (fuel : Nat) (st : SynthState)
    (hb : SynthBounded (aP.states_number_ * aE.states_number_) st) :
    SynthBounded (aP.states_number_ * aE.states_number_)
      (synthLoop aP aE (aP.events_ ^^^ (aP.events_ &&& aE.events_))
        (aE.events_ ^^^ (aP.events_ &&& aE.events_)) gP gE nc fuel st) := by
  induction fuel generalizing st with
  | zero => unfold synthLoop; exact hb
  | succ fuel ih =>
    unfold synthLoop
    cases hf : st.f with
    | nil => simp only; exact hb
    | cons q f =>
      simp only
      have hq : q < aP.states_number_ * aE.states_number_ :=
        hb.1 q (by rw [hf]; exact List.mem_cons_self _ _)
      have hb1 : SynthBounded (aP.states_number_ * aE.states_number_)
          { st with f := f, c := qsetInsert q st.c } :=
        ⟨fun x hx => hb.1 x (by rw [hf]; exact List.mem_cons_of_mem _ hx), hb.2.1, hb.2.2⟩
      obtain ⟨h1, -⟩ := synthScan_bounded aP aE (aP.events_ ^^^ (aP.events_ &&& aE.events_))
        (aE.events_ ^^^ (aP.events_ &&& aE.events_)) gP gE nc q
        (syncEvents aP.states_events_ aE.states_events_
          (aP.events_ ^^^ (aP.events_ &&& aE.events_))
          (aE.events_ ^^^ (aP.events_ &&& aE.events_))
          (q % aP.states_number_) (q / aP.states_number_))
        (aP.states_number_ * aE.states_number_)
        (fun e he => TransitionVirtual_lt hP hE hq (by
          unfold enabledAt; rw [← testBit_syncEvents]; exact he))
        (bitsOf (syncEvents aP.states_events_ aE.states_events_
          (aP.events_ ^^^ (aP.events_ &&& aE.events_))
          (aE.events_ ^^^ (aP.events_ &&& aE.events_))
          (q % aP.states_number_) (q / aP.states_number_) ||| nc)) _ hb1
      exact ih _ h1

theorem synthLoop_add (aP aE : DESystem) (only_in_0 only_in_1 : BitArray)
    (gP gE : GraphHostData) (nc : EventsBitArray) (a b : Nat) (st : SynthState) :
    synthLoop aP aE only_in_0 only_in_1 gP gE nc (a + b) st =
      synthLoop aP aE only_in_0 only_in_1 gP gE nc b
        (synthLoop aP aE only_in_0 only_in_1 gP gE nc a st) := by
  induction a generalizing st with
  | zero => rw [Nat.zero_add]; rfl
  | succ a ih =>
    rw [Nat.add_right_comm]
    cases hf : st.f with
    | nil =>
      rw [synthLoop_of_empty _ _ _ _ _ _ _ (a + b + 1) st hf,
        synthLoop_of_empty _ _ _ _ _ _ _ (a + 1) st hf,
        synthLoop_of_empty _ _ _ _ _ _ _ b st hf]
    | cons q f =>
      rw [synthLoop_succ_cons _ _ _ _ _ _ _ (a + b) st hf,
        synthLoop_succ_cons _ _ _ _ _ _ _ a st hf, ih]
theorem removePushLog_spec (finv : List cldes_size_t)
    (st : (List cldes_size_t × List cldes_size_t) × List cldes_size_t)
    (R1 L0 : List cldes_size_t) :
    (removePushLog finv st).1 = removePush finv st.1 ∧
    ((∃ new, st.1.2 = R1 ++ new ∧ st.2 = L0 ++ new) →
      ∃ new, (removePushLog finv st).1.2 = R1 ++ new ∧ (removePushLog finv st).2 = L0 ++ new) := by
  unfold removePushLog removePush
  induction finv generalizing st with
  | nil => exact ⟨rfl, fun h => h⟩
  | cons s finv ih =>
    rw [List.foldl_cons, List.foldl_cons]
    by_cases hs : s ∈ st.1.2
    · rw [if_pos hs, if_pos hs]
      exact ih st
    · rw [if_neg hs, if_neg hs]
      obtain ⟨e1, e2⟩ := ih ((s :: st.1.1, qsetInsert s st.1.2), st.2 ++ [s])
      refine ⟨e1, fun hnew => e2 ?_⟩
      obtain ⟨new, h1, h2⟩ := hnew
      refine ⟨new ++ [s], ?_, ?_⟩
      · show qsetInsert s st.1.2 = R1 ++ (new ++ [s])
        rw [qsetInsert_of_not_mem hs, h1, List.append_assoc]
      · show st.2 ++ [s] = L0 ++ (new ++ [s])
        rw [h2, List.append_assoc]

theorem removeEventsLog_spec (g : ScalarType → List cldes_size_t) (events : List ScalarType)
    (st : (List cldes_size_t × List cldes_size_t) × List cldes_size_t)
    (R1 L0 : List cldes_size_t) :
    (events.foldl (fun acc event => removePushLog (g event) acc) st).1 =
      events.foldl (fun acc event => removePush (g event) acc) st.1 ∧
    ((∃ new, st.1.2 = R1 ++ new ∧ st.2 = L0 ++ new) →
      ∃ new, (events.foldl (fun acc event => removePushLog (g event) acc) st).1.2 = R1 ++ new ∧
        (events.foldl (fun acc event => removePushLog (g event) acc) st).2 = L0 ++ new) := by
  induction events generalizing st with
  | nil => exact ⟨rfl, fun h => h⟩
  | cons a events ih =>
    rw [List.foldl_cons, List.foldl_cons]
    obtain ⟨p1, p2⟩ := removePushLog_spec (g a) st R1 L0
    obtain ⟨e1, e2⟩ := ih (removePushLog (g a) st)
    exact ⟨by rw [e1, p1], fun hnew => e2 (p2 hnew)⟩

theorem removeLoopLog_spec (aP aE : DESystem) (only_in_0 only_in_1 : BitArray)
    (gP gE : GraphHostData) (nc : EventsBitArray) (R1 L0 : List cldes_size_t) (fuel : Nat)
    (f C rm log : List cldes_size_t) :
    (removeLoopLog aP aE only_in_0 only_in_1 gP gE nc fuel f C rm log).1 =
      removeLoop aP aE only_in_0 only_in_1 gP gE nc fuel f C rm ∧
    ((∃ new, rm = R1 ++ new ∧ log = L0 ++ new) →
      ∃ new, (removeLoop aP aE only_in_0 only_in_1 gP gE nc fuel f C rm).2.2 = R1 ++ new ∧
        (removeLoopLog aP aE only_in_0 only_in_1 gP gE nc fuel f C rm log).2 = L0 ++ new) := by
  induction fuel generalizing f C rm log with
  | zero => unfold removeLoopLog removeLoop; exact ⟨rfl, fun h => h⟩
  | succ fuel ih =>
    cases f with
    | nil => unfold removeLoopLog removeLoop; exact ⟨rfl, fun h => h⟩
    | cons x f =>
      rw [removeLoopLog, removeLoop]
      obtain ⟨p1, p2⟩ := removeEventsLog_spec
        (fun event => __TransitionVirtualInv aP.events_ aE.events_ gP gE x event)
        (bitsOf (syncEvents aP.inv_states_events_ aE.inv_states_events_ only_in_0 only_in_1
          (x % gP.rows) (x / gP.rows) &&& nc)) ((f, rm), log) R1 L0
      obtain ⟨e1, e2⟩ := ih
        ((bitsOf (syncEvents aP.inv_states_events_ aE.inv_states_events_ only_in_0 only_in_1
          (x % gP.rows) (x / gP.rows) &&& nc)).foldl (fun acc event => removePushLog
            (__TransitionVirtualInv aP.events_ aE.events_ gP gE x event) acc) ((f, rm), log)).1.1
        (qsetRemove x C)
        ((bitsOf (syncEvents aP.inv_states_events_ aE.inv_states_events_ only_in_0 only_in_1
          (x % gP.rows) (x / gP.rows) &&& nc)).foldl (fun acc event => removePushLog
            (__TransitionVirtualInv aP.events_ aE.events_ gP gE x event) acc) ((f, rm), log)).1.2
        ((bitsOf (syncEvents aP.inv_states_events_ aE.inv_states_events_ only_in_0 only_in_1
          (x % gP.rows) (x / gP.rows) &&& nc)).foldl (fun acc event => removePushLog
            (__TransitionVirtualInv aP.events_ aE.events_ gP gE x event) acc) ((f, rm), log)).2
      have p1' : (bitsOf (syncEvents aP.inv_states_events_ aE.inv_states_events_ only_in_0
            only_in_1 (x % gP.rows) (x / gP.rows) &&& nc)).foldl (fun acc event => removePush
            (__TransitionVirtualInv aP.events_ aE.events_ gP gE x event) acc) (f, rm) =
          ((bitsOf (syncEvents aP.inv_states_events_ aE.inv_states_events_ only_in_0 only_in_1
            (x % gP.rows) (x / gP.rows) &&& nc)).foldl (fun acc event => removePushLog
            (__TransitionVirtualInv aP.events_ aE.events_ gP gE x event) acc)
            ((f, rm), log)).1 := p1.symm
      rw [p1']
      exact ⟨e1, fun hnew => e2 (p2 hnew)⟩
/-- C35. Termination of synthesis: for well-formed `P` and `E` and every `Unc`, the main
loop of `op::SupervisorSynth` has emptied its stack after at most `nP * nE` rounds, which is
the state the synthesis goes on from; the log of the states pushed onto `F` has no
duplicate and holds product states only, so at most `nP * nE` pushes are made. Every call
of `op::RemoveBadStates` on a product state, with a duplicate-free `rmtable_` of product
states, runs its loop to an empty stack, and the log of the states pushed onto its local
stack has no duplicate. -/
theorem SupervisorSynth_terminates (aP aE : DESystem) (hP : WellFormed aP) (hE : WellFormed aE)
    (non_contr : List ScalarType) :
    (synthRun aP aE non_contr (aP.states_number_ * aE.states_number_)).f = [] ∧
    synthFinal aP aE non_contr =
      synthRun aP aE non_contr (aP.states_number_ * aE.states_number_) ∧
    (∀ k, (synthRunLog aP aE non_contr k).1 = synthRun aP aE non_contr k ∧
      (synthRunLog aP aE non_contr k).2.Nodup ∧
      (∀ x ∈ (synthRunLog aP aE non_contr k).2, x < aP.states_number_ * aE.states_number_) ∧
      (synthRunLog aP aE non_contr k).2.length ≤ aP.states_number_ * aE.states_number_) ∧
    (∀ (nc : EventsBitArray) (C R : List cldes_size_t) (q : cldes_size_t),
      q < aP.states_number_ * aE.states_number_ →
      (∀ y ∈ R, y < aP.states_number_ * aE.states_number_) → R.Nodup →
      (removeLoop aP aE (aP.events_ ^^^ (aP.events_ &&& aE.events_))
        (aE.events_ ^^^ (aP.events_ &&& aE.events_)) aP.graph_.transpose aE.graph_.transpose
        nc (aP.states_number_ * aE.states_number_ + 1) [q] C (qsetInsert q R)).1 = [] ∧
      (removeLoopLog aP aE (aP.events_ ^^^ (aP.events_ &&& aE.events_))
        (aE.events_ ^^^ (aP.events_ &&& aE.events_)) aP.graph_.transpose aE.graph_.transpose
        nc (aP.states_number_ * aE.states_number_ + 1) [q] C (qsetInsert q R) [q]).1 =
        removeLoop aP aE (aP.events_ ^^^ (aP.events_ &&& aE.events_))
          (aE.events_ ^^^ (aP.events_ &&& aE.events_)) aP.graph_.transpose
          aE.graph_.transpose nc (aP.states_number_ * aE.states_number_ + 1) [q] C
          (qsetInsert q R) ∧
      (RemoveBadStatesLog aP aE (aP.events_ ^^^ (aP.events_ &&& aE.events_))
        (aE.events_ ^^^ (aP.events_ &&& aE.events_)) aP.graph_.transpose aE.graph_.transpose
        C R q nc).Nodup ∧
      (RemoveBadStatesLog aP aE (aP.events_ ^^^ (aP.events_ &&& aE.events_))
        (aE.events_ ^^^ (aP.events_ &&& aE.events_)) aP.graph_.transpose aE.graph_.transpose
        C R q nc).length ≤ aP.states_number_ * aE.states_number_) := by
  have hb0 := synthInit_bounded hP hE
  have hN : 0 < aP.states_number_ * aE.states_number_ :=
    Nat.lt_of_le_of_lt (Nat.zero_le _) (encode_lt hP.1 hE.1)
  have hempty : (synthRun aP aE non_contr (aP.states_number_ * aE.states_number_)).f = [] := by
    unfold synthRun
    apply synthLoop_complete hP hE _ _ _ _ _ hb0
    show 1 + (aP.states_number_ * aE.states_number_ - 1) ≤
      aP.states_number_ * aE.states_number_
    exact Nat.le_of_eq (Nat.add_sub_cancel' hN)
  refine ⟨hempty, ?_, ?_, ?_⟩
  · rw [synthFinal_eq_synthRun]
    unfold synthRun
    simp only []
    rw [synthLoop_add]
    exact synthLoop_of_empty _ _ _ _ _ _ _ 1 _ hempty
  · intro k
    obtain ⟨e1, e2⟩ := synthLoopLog_spec aP aE (aP.events_ ^^^ (aP.events_ &&& aE.events_))
      (aE.events_ ^^^ (aP.events_ &&& aE.events_)) aP.graph_.transpose aE.graph_.transpose
      (nonContrBit (aP.events_ ||| aE.events_) non_contr) k
      { f := [aE.init_state_ * aP.states_number_ + aP.init_state_]
        ftable := [aE.init_state_ * aP.states_number_ + aP.init_state_]
        c := [], rmtable_ := [], transtriplet_ := [] }
      [aE.init_state_ * aP.states_number_ + aP.init_state_]
    have hb := synthLoop_bounded hP hE aP.graph_.transpose aE.graph_.transpose
      (nonContrBit (aP.events_ ||| aE.events_) non_contr) k _ hb0
    have hlog : (synthRunLog aP aE non_contr k).2 = (synthRun aP aE non_contr k).ftable :=
      e2 rfl
    refine ⟨e1, ?_, ?_, ?_⟩
    · rw [hlog]; exact hb.2.2
    · rw [hlog]; exact hb.2.1
    · rw [hlog]; exact nodup_length_le hb.2.2 hb.2.1
  · intro nc C R q hq hR hnd
    have hempty' := RemoveBadStates_stack_empty aP aE
      (aP.events_ ^^^ (aP.events_ &&& aE.events_)) (aE.events_ ^^^ (aP.events_ &&& aE.events_))
      hP hE nc C R q hq hR hnd
    obtain ⟨hbd, hnd'⟩ := RemoveBadStates_rmtable_bounded aP aE
      (aP.events_ ^^^ (aP.events_ &&& aE.events_)) (aE.events_ ^^^ (aP.events_ &&& aE.events_))
      hP hE nc C R q hq hR hnd
    obtain ⟨p1, p2⟩ := removeLoopLog_spec aP aE (aP.events_ ^^^ (aP.events_ &&& aE.events_))
      (aE.events_ ^^^ (aP.events_ &&& aE.events_)) aP.graph_.transpose aE.graph_.transpose nc
      (qsetInsert q R) [q] (aP.states_number_ * aE.states_number_ + 1) [q] C (qsetInsert q R) [q]
    obtain ⟨new, h1, h2⟩ := p2 ⟨[], by simp, by simp⟩
    have hrm : (RemoveBadStates aP aE (aP.events_ ^^^ (aP.events_ &&& aE.events_))
        (aE.events_ ^^^ (aP.events_ &&& aE.events_)) aP.graph_.transpose aE.graph_.transpose
        C R q nc).2 = qsetInsert q R ++ new := h1
    have hlog : RemoveBadStatesLog aP aE (aP.events_ ^^^ (aP.events_ &&& aE.events_))
        (aE.events_ ^^^ (aP.events_ &&& aE.events_)) aP.graph_.transpose aE.graph_.transpose
        C R q nc = q :: new := h2
    rw [hrm] at hbd hnd'
    obtain ⟨-, hnew, hdisj⟩ := List.nodup_append.mp hnd'
    have hqnew : q ∉ new := fun hmem => hdisj (mem_qsetInsert.mpr (Or.inl rfl)) hmem
    have hlnd : (q :: new).Nodup := List.nodup_cons.mpr ⟨hqnew, hnew⟩
    refine ⟨hempty', p1, ?_, ?_⟩
    · rw [hlog]; exact hlnd
    · rw [hlog]
      apply nodup_length_le hlnd
      intro x hx
      rcases List.mem_cons.mp hx with rfl | hx
      · exact hq
      · exact hbd x (List.mem_append_right _ hx)

/-- Witness of C35 on the supervisor test: the main loop has emptied its stack after eight
rounds, having pushed each of the eight product states once. -/
theorem SupervisorSynth_terminates_witness :
    (synthRun testPlant testSpec testNonContr
      (testPlant.states_number_ * testSpec.states_number_)).f = [] ∧
    (synthRunLog testPlant testSpec testNonContr 8).2.Nodup :=
  ⟨(SupervisorSynth_terminates testPlant testSpec (by decide!) (by decide!) testNonContr).1,
    by decide!⟩
theorem eventsFrom_ge (fuel event it : Nat) : ∀ e ∈ eventsFrom fuel event it, event ≤ e := by
  induction fuel generalizing event it with
  | zero => intro e he; simp [eventsFrom] at he
  | succ fuel ih =>
    intro e he
    unfold eventsFrom at he
    by_cases h0 : it = 0
    · rw [if_pos h0] at he; exact absurd he (List.not_mem_nil e)
    · rw [if_neg h0, List.mem_append] at he
      rcases he with he | he
      · by_cases hb : it.testBit 0 = true
        · rw [if_pos hb, List.mem_singleton] at he
          exact Nat.le_of_eq he.symm
        · rw [if_neg hb] at he
          exact absurd he (List.not_mem_nil e)
      · exact Nat.le_of_succ_le (ih _ _ e he)

theorem eventsFrom_pairwise (fuel event it : Nat) :
    (eventsFrom fuel event it).Pairwise (fun a b => a < b) := by
  induction fuel generalizing event it with
  | zero => unfold eventsFrom; exact List.Pairwise.nil
  | succ fuel ih =>
    unfold eventsFrom
    by_cases h0 : it = 0
    · rw [if_pos h0]; exact List.Pairwise.nil
    · rw [if_neg h0]
      by_cases hb : it.testBit 0 = true
      · rw [if_pos hb, List.singleton_append]
        exact List.Pairwise.cons (fun e he => eventsFrom_ge _ _ _ e he) (ih _ _)
      · rw [if_neg hb, List.nil_append]
        exact ih _ _

theorem nodup_bitsOf (s : BitArray) : (bitsOf s).Nodup :=
  (eventsFrom_pairwise s 0 s).imp (fun h => Nat.ne_of_lt h)

theorem length_bitsOf_le {s t : BitArray} (h : ∀ e, s.testBit e = true → t.testBit e = true) :
    (bitsOf s).length ≤ (bitsOf t).length := by
  have hsub : (bitsOf s).Subperm (bitsOf t) :=
    (nodup_bitsOf s).subperm (fun e he => (mem_bitsOf t e).mpr (h e ((mem_bitsOf s e).mp he)))
  exact hsub.length_le

theorem findPush_eq (aP aE : DESystem) (rm vs : List cldes_size_t) (q : cldes_size_t)
    (qev : BitArray) (f : List cldes_size_t) :
    SuperProxy.findPush aP aE rm vs q qev f = SuperProxy.findPush aP aE rm vs q qev [] ++ f ∧
    (SuperProxy.findPush aP aE rm vs q qev []).length ≤ (bitsOf qev).length := by
  unfold SuperProxy.findPush
  have gen : ∀ (es : List ScalarType) (f : List cldes_size_t),
      es.foldl (fun f event =>
          if !containsInt rm (SyncSysProxy.trans aP aE q event) then
            if !containsInt vs (SyncSysProxy.trans aP aE q event) then
              (SyncSysProxy.trans aP aE q event).toNat :: f
            else f
          else f) f =
        es.foldl (fun f event =>
          if !containsInt rm (SyncSysProxy.trans aP aE q event) then
            if !containsInt vs (SyncSysProxy.trans aP aE q event) then
              (SyncSysProxy.trans aP aE q event).toNat :: f
            else f
          else f) [] ++ f ∧
      (es.foldl (fun f event =>
          if !containsInt rm (SyncSysProxy.trans aP aE q event) then
            if !containsInt vs (SyncSysProxy.trans aP aE q event) then
              (SyncSysProxy.trans aP aE q event).toNat :: f
            else f
          else f) []).length ≤ es.length := by
    intro es
    induction es using List.reverseRecOn with
    | nil => intro f; exact ⟨rfl, Nat.le_refl _⟩
    | append_singleton es a ih =>
      intro f
      rw [List.foldl_append, List.foldl_append, List.foldl_cons, List.foldl_nil,
        List.foldl_cons, List.foldl_nil, List.length_append, List.length_singleton]
      obtain ⟨e1, e2⟩ := ih f
      obtain ⟨-, e3⟩ := ih []
      rw [e1]
      split
      · split
        · exact ⟨rfl, by rw [List.length_cons]; omega⟩
        · exact ⟨rfl, by omega⟩
      · exact ⟨rfl, by omega⟩
  exact gen (bitsOf qev) f
theorem findLoopLog_fst (aP aE : DESystem) (pnc nc : EventsBitArray) (fuel : Nat)
    (f V R pushed examined : List cldes_size_t) :
    (SuperProxy.findLoopLog aP aE pnc nc fuel f V R pushed examined).1 =
      SuperProxy.findLoop aP aE pnc nc fuel f V R := by
  induction fuel generalizing f V R pushed examined with
  | zero => rfl
  | succ fuel ih =>
    cases f with
    | nil => rfl
    | cons q f =>
      rw [SuperProxy.findLoopLog, SuperProxy.findLoop]
      split
      · split
        · exact ih _ _ _ _ _
        · exact ih _ _ _ _ _
      · exact ih _ _ _ _ _

theorem getStateEvents_subset {aP aE : DESystem} (hP : WellFormed aP) (hE : WellFormed aE)
    {q : cldes_size_t} (hq : q < aP.states_number_ * aE.states_number_) (e : Nat)
    (he : (SyncSysProxy.getStateEvents aP aE q).testBit e = true) :
    (aP.events_ ||| aE.events_).testBit e = true := by
  rw [syncGetStateEvents_testBit] at he
  rw [Nat.testBit_or]
  rcases enabledAt_cases hP hE hq he with ⟨hp, -⟩ | ⟨hp, -⟩ | ⟨-, hs, -⟩
  · rw [hp, Bool.true_or]
  · rw [hp, Bool.true_or]
  · rw [hs, Bool.or_true]

theorem findInv_bad {aP aE : DESystem} (hP : WellFormed aP) (hE : WellFormed aE)
    (nc : EventsBitArray) {q : cldes_size_t} {f V R examined : List cldes_size_t}
    (h : SuperProxy.FindInv aP aE nc (q :: f) V R examined) (hqR : q ∉ R) (hqV : q ∉ V) :
    SuperProxy.FindInv aP aE nc f (removeBadStates_ aP aE V R q nc).1
      (removeBadStates_ aP aE V R q nc).2 (examined ++ [q]) := by
  obtain ⟨hf, hV, hR, hnd, hcl, hend, hex⟩ := h
  have hq := hf q (List.mem_cons_self _ _)
  obtain ⟨-, hmem, hcl', -, -, hC⟩ := RemoveBadStates_closure_spec aP aE hP hE nc V R q hq hR
    hnd hcl
  obtain ⟨hbd, hnd'⟩ := RemoveBadStates_rmtable_bounded aP aE
    (aP.events_ ^^^ (aP.events_ &&& aE.events_)) (aE.events_ ^^^ (aP.events_ &&& aE.events_))
    hP hE nc V R q hq hR hnd
  have hqR' : q ∈ (removeBadStates_ aP aE V R q nc).2 :=
    (hmem q).mpr (Or.inr Relation.ReflTransGen.refl)
  refine ⟨fun x hx => hf x (List.mem_cons_of_mem _ hx), ?_, hbd, hnd', hcl', ?_, ?_⟩
  · intro x hx
    exact hV x ((hC x).mp hx).1
  · rw [List.nodup_append]
    refine ⟨hend, List.nodup_singleton q, ?_⟩
    intro a ha hb
    rw [List.mem_singleton.mp hb] at ha
    rcases (hex q ha).2 with h' | h'
    · exact hqV h'
    · exact hqR h'
  · intro x hx
    rcases List.mem_append.mp hx with hx | hx
    · refine ⟨(hex x hx).1, ?_⟩
      rcases (hex x hx).2 with hxV | hxR
      · by_cases hxV' : x ∈ (removeBadStates_ aP aE V R q nc).1
        · exact Or.inl hxV'
        · right
          by_contra hxR'
          apply hxV'
          refine (hC x).mpr ⟨hxV, ?_, fun h' => absurd h' hxR'⟩
          intro hxq
          rw [hxq] at hxR'
          exact hxR' hqR'
      · exact Or.inr ((hmem x).mpr (Or.inl hxR))
    · rw [List.mem_singleton.mp hx]
      exact ⟨hq, Or.inr hqR'⟩

theorem findInv_good {aP aE : DESystem} (hP : WellFormed aP) (hE : WellFormed aE)
    (nc : EventsBitArray) {q : cldes_size_t} {f V R examined : List cldes_size_t}
    (h : SuperProxy.FindInv aP aE nc (q :: f) V R examined) (hqR : q ∉ R) (hqV : q ∉ V) :
    SuperProxy.FindInv aP aE nc
      (SuperProxy.findPush aP aE R (qsetInsert q V) q (SyncSysProxy.getStateEvents aP aE q) f)
      (qsetInsert q V) R (examined ++ [q]) := by
  obtain ⟨hf, hV, hR, hnd, hcl, hend, hex⟩ := h
  have hq := hf q (List.mem_cons_self _ _)
  refine ⟨findPush_bounded hP hE _ _ hq f (fun x hx => hf x (List.mem_cons_of_mem _ hx)), ?_,
    hR, hnd, hcl, ?_, ?_⟩
  · intro x hx
    rcases mem_qsetInsert.mp hx with rfl | hx
    · exact hq
    · exact hV x hx
  · rw [List.nodup_append]
    refine ⟨hend, List.nodup_singleton q, ?_⟩
    intro a ha hb
    rw [List.mem_singleton.mp hb] at ha
    rcases (hex q ha).2 with h' | h'
    · exact hqV h'
    · exact hqR h'
  · intro x hx
    rcases List.mem_append.mp hx with hx | hx
    · refine ⟨(hex x hx).1, ?_⟩
      rcases (hex x hx).2 with hxV | hxR
      · exact Or.inl (mem_qsetInsert.mpr (Or.inr hxV))
      · exact Or.inr hxR
    · rw [List.mem_singleton.mp hx]
      exact ⟨hq, Or.inl (mem_qsetInsert.mpr (Or.inl rfl))⟩
theorem mul_pred_add (W a : Nat) (ha : 0 < a) : W * (a - 1) + W = W * a := by
  obtain ⟨b, rfl⟩ := Nat.exists_eq_succ_of_ne_zero (Nat.pos_iff_ne_zero.mp ha)
  rw [Nat.succ_sub_one, Nat.mul_succ]

theorem find_rounds_step (L p W N e fuel : Nat) (hlen : e + 1 ≤ N) (hp : p ≤ W)
    (hfuel : L + 1 + W * (N - e) ≤ fuel + 1) : p + L + W * (N - (e + 1)) ≤ fuel := by
  have h1 : N - (e + 1) = N - e - 1 := Nat.sub_add_eq N e 1
  have h2 := mul_pred_add W (N - e) (Nat.sub_pos_of_lt hlen)
  rw [h1]
  generalize W * (N - e - 1) = a at h2 ⊢
  generalize W * (N - e) = b at h2 hfuel
  omega

theorem find_pushes_step (P p W e : Nat) (hP : P ≤ 1 + W * e) (hp : p ≤ W) :
    P + p ≤ 1 + W * (e + 1) := by
  rw [Nat.mul_succ]
  generalize W * e = a at hP ⊢
  omega

/-- The search of `findRemovedStates_` keeps its invariant, makes at most one push per
alphabet event for every state it examines, and empties its stack within
`|f| + |Σ| * (nP * nE - examined)` rounds. -/
theorem findLoopLog_inv {aP aE : DESystem} (hP : WellFormed aP) (hE : WellFormed aE)
    (pnc nc : EventsBitArray) (fuel : Nat) (f V R pushed examined : List cldes_size_t)
    (h : SuperProxy.FindInv aP aE nc f V R examined) :
    SuperProxy.FindInv aP aE nc
      (SuperProxy.findLoopLog aP aE pnc nc fuel f V R pushed examined).1.1
      (SuperProxy.findLoopLog aP aE pnc nc fuel f V R pushed examined).1.2.1
      (SuperProxy.findLoopLog aP aE pnc nc fuel f V R pushed examined).1.2.2
      (SuperProxy.findLoopLog aP aE pnc nc fuel f V R pushed examined).2.2 ∧
    (pushed.length ≤ 1 + (bitsOf (aP.events_ ||| aE.events_)).length * examined.length →
      (SuperProxy.findLoopLog aP aE pnc nc fuel f V R pushed examined).2.1.length ≤
        1 + (bitsOf (aP.events_ ||| aE.events_)).length *
          (SuperProxy.findLoopLog aP aE pnc nc fuel f V R pushed examined).2.2.length) ∧
    (f.length + (bitsOf (aP.events_ ||| aE.events_)).length *
        (aP.states_number_ * aE.states_number_ - examined.length) ≤ fuel →
      (SuperProxy.findLoopLog aP aE pnc nc fuel f V R pushed examined).1.1 = []) := by
  induction fuel generalizing f V R pushed examined with
  | zero =>
    refine ⟨h, fun hp => hp, fun hfuel => ?_⟩
    have : f.length = 0 := by omega
    exact List.length_eq_zero.mp this
  | succ fuel ih =>
    cases f with
    | nil => exact ⟨h, fun hp => hp, fun _ => rfl⟩
    | cons q f =>
      have hq := h.1 q (List.mem_cons_self _ _)
      rw [SuperProxy.findLoopLog]
      split
      · rename_i hguard
        simp only [Bool.and_eq_true, Bool.not_eq_true', decide_eq_false_iff_not] at hguard
        obtain ⟨hqR, hqV⟩ := hguard
        have hlen : examined.length + 1 ≤ aP.states_number_ * aE.states_number_ := by
          have hn : (examined ++ [q]).Nodup := (findInv_good hP hE nc h hqR hqV).2.2.2.2.2.1
          have hb : ∀ x ∈ examined ++ [q], x < aP.states_number_ * aE.states_number_ :=
            fun x hx => ((findInv_good hP hE nc h hqR hqV).2.2.2.2.2.2 x hx).1
          have := nodup_length_le hn hb
          rw [List.length_append, List.length_singleton] at this
          exact this
        split
        · obtain ⟨i1, i2, i3⟩ := ih f (removeBadStates_ aP aE V R q nc).1
            (removeBadStates_ aP aE V R q nc).2 pushed (examined ++ [q])
            (findInv_bad hP hE nc h hqR hqV)
          refine ⟨i1, fun hp => i2 ?_, fun hfuel => i3 ?_⟩
          · rw [List.length_append, List.length_singleton]
            exact find_pushes_step _ 0 _ _ hp (Nat.zero_le _)
          · rw [List.length_append, List.length_singleton]
            rw [List.length_cons] at hfuel
            have := find_rounds_step f.length 0 _ _ _ fuel hlen (Nat.zero_le _) hfuel
            rw [Nat.zero_add] at this
            exact this
        · obtain ⟨e1, e2⟩ := findPush_eq aP aE R (qsetInsert q V) q
            (SyncSysProxy.getStateEvents aP aE q) f
          have hw : (SuperProxy.findPush aP aE R (qsetInsert q V) q
              (SyncSysProxy.getStateEvents aP aE q) []).length ≤
              (bitsOf (aP.events_ ||| aE.events_)).length :=
            Nat.le_trans e2 (length_bitsOf_le (getStateEvents_subset hP hE hq))
          obtain ⟨i1, i2, i3⟩ := ih
            (SuperProxy.findPush aP aE R (qsetInsert q V) q
              (SyncSysProxy.getStateEvents aP aE q) f) (qsetInsert q V) R
            (pushed ++ (SuperProxy.findPush aP aE R (qsetInsert q V) q
              (SyncSysProxy.getStateEvents aP aE q) []).reverse) (examined ++ [q])
            (findInv_good hP hE nc h hqR hqV)
          refine ⟨i1, fun hp => i2 ?_, fun hfuel => i3 ?_⟩
          · rw [List.length_append, List.length_append, List.length_singleton,
              List.length_reverse]
            exact find_pushes_step _ _ _ _ hp hw
          · rw [e1, List.length_append, List.length_append, List.length_singleton]
            rw [List.length_cons] at hfuel
            exact find_rounds_step f.length _ _ _ _ fuel hlen hw hfuel
      · obtain ⟨i1, i2, i3⟩ := ih f V R pushed examined
          ⟨fun x hx => h.1 x (List.mem_cons_of_mem _ hx), h.2⟩
        refine ⟨i1, i2, fun hfuel => i3 ?_⟩
        rw [List.length_cons] at hfuel
        omega
theorem findInv_init {aP aE : DESystem} (hP : WellFormed aP) (hE : WellFormed aE)
    (nc : EventsBitArray) :
    SuperProxy.FindInv aP aE nc [aE.init_state_ * aP.states_number_ + aP.init_state_] [] []
      [] := by
  refine ⟨?_, ?_, ?_, List.nodup_nil, ?_, List.nodup_nil, ?_⟩
  · intro x hx
    rw [List.mem_singleton.mp hx]
    exact encode_lt hP.1 hE.1
  · intro x hx; exact absurd hx (List.not_mem_nil x)
  · intro x hx; exact absurd hx (List.not_mem_nil x)
  · intro x hx; exact absurd hx (List.not_mem_nil x)
  · intro x hx; exact absurd hx (List.not_mem_nil x)

/-- The search of `findRemovedStates_` over well-formed operands empties its stack within
the rounds the model allows. -/
theorem findFinal_stack_empty {aP aE : DESystem} (hP : WellFormed aP) (hE : WellFormed aE)
    (aNonContr : List ScalarType) : (SuperProxy.findFinal aP aE aNonContr).1 = [] := by
  unfold SuperProxy.findFinal
  rw [← findLoopLog_fst aP aE _ _ _ _ _ _
    [aE.init_state_ * aP.states_number_ + aP.init_state_] []]
  apply (findLoopLog_inv hP hE _ _ _ _ _ _ _ _ (findInv_init hP hE _)).2.2
  unfold SuperProxy.findRounds
  rw [List.length_singleton, List.length_nil, Nat.sub_zero,
    Nat.mul_comm (bitsOf (aP.events_ ||| aE.events_)).length]
  generalize aP.states_number_ * aE.states_number_ *
    (bitsOf (aP.events_ ||| aE.events_)).length = a
  omega

/-- C36 as stated fails on `twinPlant` composed with the one-state specification, with no
uncontrollable event: the first round of `findRemovedStates_` examines the initial state
`0`, whose events `0` and `1` both lead to the product state `1`, and pushes `1` twice: the
stack is `[1, 1]` and the log of the pushes of the whole run is `0, 1, 1`. -/
theorem SuperProxy_pushes_state_twice :
    WellFormed twinPlant ∧ Deterministic twinPlant ∧
    WellFormed idleSpec ∧ Deterministic idleSpec ∧
    SuperProxy.findLoop twinPlant idleSpec 0 0 1 [0] [] [] = ([1, 1], [0], []) ∧
    (SuperProxy.findRunLog twinPlant idleSpec [] 1).1 = ([1, 1], [0], []) ∧
    (SuperProxy.findRunLog twinPlant idleSpec [] (SuperProxy.findRounds twinPlant idleSpec)).1
      = SuperProxy.findFinal twinPlant idleSpec [] ∧
    (SuperProxy.findRunLog twinPlant idleSpec []
      (SuperProxy.findRounds twinPlant idleSpec)).2.1 = [0, 1, 1] ∧
    ((SuperProxy.findRunLog twinPlant idleSpec []
      (SuperProxy.findRounds twinPlant idleSpec)).2.1).count 1 = 2 ∧
    ¬ (SuperProxy.findRunLog twinPlant idleSpec []
      (SuperProxy.findRounds twinPlant idleSpec)).2.1.Nodup := by
  decide!

/-- C36, amended. Single examination in the proxy exploration: for well-formed `P` and `E`
and every `Unc`, the loop of `op::SuperProxy::findRemovedStates_` empties its stack, and
after any number of rounds the log of the states that passed the guard at the head of the
loop body (retained, or handed to `removeBadStates_`) has no duplicate and holds product
states only; a state may be pushed more than once, and the log of the pushes holds at most
one push per alphabet event for every examined state besides the initial push, hence at
most `1 + |Σ| * nP * nE` pushes. -/
theorem SuperProxy_examines_state_once (aP aE : DESystem) (hP : WellFormed aP)
    (hE : WellFormed aE) (aNonContr : List ScalarType) :
    (SuperProxy.findFinal aP aE aNonContr).1 = [] ∧
    (SuperProxy.findRunLog aP aE aNonContr (SuperProxy.findRounds aP aE)).1 =
      SuperProxy.findFinal aP aE aNonContr ∧
    (∀ k, (SuperProxy.findRunLog aP aE aNonContr k).2.2.Nodup ∧
      (∀ x ∈ (SuperProxy.findRunLog aP aE aNonContr k).2.2,
        x < aP.states_number_ * aE.states_number_) ∧
      (SuperProxy.findRunLog aP aE aNonContr k).2.2.length ≤
        aP.states_number_ * aE.states_number_ ∧
      (SuperProxy.findRunLog aP aE aNonContr k).2.1.length ≤
        1 + (bitsOf (aP.events_ ||| aE.events_)).length *
          (SuperProxy.findRunLog aP aE aNonContr k).2.2.length ∧
      (SuperProxy.findRunLog aP aE aNonContr k).2.1.length ≤
        1 + (bitsOf (aP.events_ ||| aE.events_)).length *
          (aP.states_number_ * aE.states_number_)) := by
  refine ⟨findFinal_stack_empty hP hE aNonContr, findLoopLog_fst _ _ _ _ _ _ _ _ _ _, ?_⟩
  intro k
  obtain ⟨hinv, hpush, -⟩ := findLoopLog_inv hP hE
    (SuperProxy.nonContrBits aP.events_ (aP.events_ ||| aE.events_) aNonContr).2
    (SuperProxy.nonContrBits aP.events_ (aP.events_ ||| aE.events_) aNonContr).1 k
    [aE.init_state_ * aP.states_number_ + aP.init_state_] [] []
    [aE.init_state_ * aP.states_number_ + aP.init_state_] [] (findInv_init hP hE _)
  have hnd := hinv.2.2.2.2.2.1
  have hbd := fun x hx => (hinv.2.2.2.2.2.2 x hx).1
  have hlen := nodup_length_le hnd hbd
  have hp := hpush (by rw [List.length_singleton, List.length_nil, Nat.mul_zero])
  refine ⟨hnd, hbd, hlen, hp, Nat.le_trans hp ?_⟩
  exact Nat.add_le_add_left (Nat.mul_le_mul_left _ hlen) 1

/-- Witness of the amended C36 on `twinPlant`: the run examines the product states `0` and
`1` once each. -/
theorem SuperProxy_examines_state_once_witness :
    (SuperProxy.findFinal twinPlant idleSpec []).1 = [] ∧
    (SuperProxy.findRunLog twinPlant idleSpec []
      (SuperProxy.findRounds twinPlant idleSpec)).2.2 = [0, 1] :=
  ⟨(SuperProxy_examines_state_once twinPlant idleSpec (by decide!) (by decide!) []).1,
    by decide!⟩
/-- One scan of the main loop of `op::SupervisorSynth` keeps the invariant: `rest` are the
events still to visit for the popped state `q`. -/
theorem synthScan_inv {aP aE : DESystem} (hP : WellFormed aP) (hE : WellFormed aE)
    (nc : EventsBitArray) (q : cldes_size_t) (hq : q < aP.states_number_ * aE.states_number_)
    (q_events : BitArray) (hqe : ∀ e, q_events.testBit e = enabledAt aP aE q e)
    (rest : List ScalarType) (st : SynthState)
    (h1 : ∀ x ∈ st.f, x < aP.states_number_ * aE.states_number_)
    (h2 : ∀ x ∈ st.rmtable_, x < aP.states_number_ * aE.states_number_)
    (h3 : st.rmtable_.Nodup)
    (h4 : ∀ x ∈ st.rmtable_, ∀ x', UncPred aP aE nc x' x → x' ∈ st.rmtable_)
    (h5 : ∀ x ∈ st.ftable, x ∈ st.f ∨ x ∈ st.c ∨ x ∈ st.rmtable_)
    (h6 : ∀ q' ∈ st.c, q' ∉ st.rmtable_ → ∀ e, enabledAt aP aE q' e = true →
      (q' = q ∧ e ∈ rest) ∨ TransitionVirtual aP aE q' e ∈ st.ftable ∨
        TransitionVirtual aP aE q' e ∈ st.c ∨ TransitionVirtual aP aE q' e ∈ st.rmtable_) :
    SynthInv aP aE nc (synthScan aP aE (aP.events_ ^^^ (aP.events_ &&& aE.events_))
      (aE.events_ ^^^ (aP.events_ &&& aE.events_)) aP.graph_.transpose aE.graph_.transpose nc q
      q_events rest st) := by
  induction rest generalizing st with
  | nil =>
    unfold synthScan
    refine ⟨h1, h2, h3, h4, h5, fun q' hq' hr e he => ?_⟩
    rcases h6 q' hq' hr e he with ⟨-, h⟩ | h
    · exact absurd h (List.not_mem_nil e)
    · exact h
  | cons event rest ih =>
    unfold synthScan
    simp only
    by_cases hbad : (nc.testBit event && !q_events.testBit event &&
        (vecGet aP.states_events_ (q % aP.states_number_)).testBit event) = true
    · rw [if_pos hbad]
      obtain ⟨-, c2, c3, -, -, c6⟩ := RemoveBadStates_closure_spec aP aE hP hE nc st.c
        st.rmtable_ q hq h2 h3 h4
      obtain ⟨b1, b2⟩ := RemoveBadStates_rmtable_bounded aP aE
        (aP.events_ ^^^ (aP.events_ &&& aE.events_)) (aE.events_ ^^^ (aP.events_ &&& aE.events_))
        hP hE nc st.c st.rmtable_ q hq h2 h3
      have hsub : ∀ x ∈ st.rmtable_, x ∈ (RemoveBadStates aP aE
          (aP.events_ ^^^ (aP.events_ &&& aE.events_))
          (aE.events_ ^^^ (aP.events_ &&& aE.events_)) aP.graph_.transpose aE.graph_.transpose
          st.c st.rmtable_ q nc).2 := fun x hx => (c2 x).mpr (Or.inl hx)
      have hqr : q ∈ (RemoveBadStates aP aE
          (aP.events_ ^^^ (aP.events_ &&& aE.events_))
          (aE.events_ ^^^ (aP.events_ &&& aE.events_)) aP.graph_.transpose aE.graph_.transpose
          st.c st.rmtable_ q nc).2 := (c2 q).mpr (Or.inr Relation.ReflTransGen.refl)
      have hcr : ∀ x ∈ st.c, x ∈ (RemoveBadStates aP aE
          (aP.events_ ^^^ (aP.events_ &&& aE.events_))
          (aE.events_ ^^^ (aP.events_ &&& aE.events_)) aP.graph_.transpose aE.graph_.transpose
          st.c st.rmtable_ q nc).1 ∨ x ∈ (RemoveBadStates aP aE
          (aP.events_ ^^^ (aP.events_ &&& aE.events_))
          (aE.events_ ^^^ (aP.events_ &&& aE.events_)) aP.graph_.transpose aE.graph_.transpose
          st.c st.rmtable_ q nc).2 := by
        intro x hx
        by_cases hxr : x ∈ (RemoveBadStates aP aE
          (aP.events_ ^^^ (aP.events_ &&& aE.events_))
          (aE.events_ ^^^ (aP.events_ &&& aE.events_)) aP.graph_.transpose aE.graph_.transpose
          st.c st.rmtable_ q nc).2
        · exact Or.inr hxr
        · left
          refine (c6 x).mpr ⟨hx, ?_, fun h => absurd h hxr⟩
          rintro rfl
          exact hxr hqr
      refine ⟨h1, b1, b2, c3, ?_, ?_⟩
      · intro x hx
        rcases h5 x hx with h | h | h
        · exact Or.inl h
        · exact Or.inr (hcr x h)
        · exact Or.inr (Or.inr (hsub x h))
      · intro q' hq' hr e he
        obtain ⟨hqc, hne, -⟩ := (c6 q').mp hq'
        have hr' : q' ∉ st.rmtable_ := fun h => hr (hsub q' h)
        rcases h6 q' hqc hr' e he with ⟨h, -⟩ | h | h | h
        · exact absurd h hne
        · exact Or.inl h
        · exact Or.inr (hcr _ h)
        · exact Or.inr (Or.inr (hsub _ h))
    · rw [if_neg hbad]
      by_cases hthere : q_events.testBit event = true
      · rw [if_pos hthere]
        have hen : enabledAt aP aE q event = true := by rw [← hqe]; exact hthere
        by_cases hnew : (!decide (TransitionVirtual aP aE q event ∈ st.c) &&
            !decide (TransitionVirtual aP aE q event ∈ st.ftable) &&
            !decide (TransitionVirtual aP aE q event ∈ st.rmtable_)) = true
        · rw [if_pos hnew]
          apply ih
          · intro x hx
            rcases List.mem_cons.mp hx with rfl | hx
            · exact TransitionVirtual_lt hP hE hq hen
            · exact h1 x hx
          · exact h2
          · exact h3
          · exact h4
          · intro x hx
            rcases mem_qsetInsert.mp hx with rfl | hx
            · exact Or.inl (List.mem_cons_self _ _)
            · rcases h5 x hx with h | h
              · exact Or.inl (List.mem_cons_of_mem _ h)
              · exact Or.inr h
          · intro q' hq' hr e he
            rcases h6 q' hq' hr e he with ⟨rfl, h⟩ | h | h
            · rcases List.mem_cons.mp h with rfl | h
              · exact Or.inr (Or.inl (mem_qsetInsert.mpr (Or.inl rfl)))
              · exact Or.inl ⟨rfl, h⟩
            · exact Or.inr (Or.inl (mem_qsetInsert.mpr (Or.inr h)))
            · exact Or.inr (Or.inr h)
        · rw [if_neg hnew]
          apply ih _ h1 h2 h3 h4 h5
          intro q' hq' hr e he
          rcases h6 q' hq' hr e he with ⟨rfl, h⟩ | h
          · rcases List.mem_cons.mp h with rfl | h
            · right
              simp only [Bool.and_eq_true, Bool.not_eq_true', decide_eq_false_iff_not, not_and,
                not_not] at hnew
              by_cases hc : TransitionVirtual aP aE q' e ∈ st.c
              · exact Or.inr (Or.inl hc)
              · by_cases hf : TransitionVirtual aP aE q' e ∈ st.ftable
                · exact Or.inl hf
                · exact Or.inr (Or.inr (hnew ⟨hc, hf⟩))
            · exact Or.inl ⟨rfl, h⟩
          · exact Or.inr h
      · rw [if_neg hthere]
        apply ih _ h1 h2 h3 h4 h5
        intro q' hq' hr e he
        rcases h6 q' hq' hr e he with ⟨rfl, h⟩ | h
        · rcases List.mem_cons.mp h with rfl | h
          · rw [← hqe] at he
            exact absurd he hthere
          · exact Or.inl ⟨rfl, h⟩
        · exact Or.inr h

/-- Every round of the main loop of `op::SupervisorSynth` keeps the invariant. -/
theorem synthLoop_inv {aP aE : DESystem} (hP : WellFormed aP) (hE : WellFormed aE)
    (nc : EventsBitArray) (fuel : Nat) (st : SynthState) (h : SynthInv aP aE nc st) :
    SynthInv aP aE nc (synthLoop aP aE (aP.events_ ^^^ (aP.events_ &&& aE.events_))
      (aE.events_ ^^^ (aP.events_ &&& aE.events_)) aP.graph_.transpose aE.graph_.transpose nc
      fuel st) := by
  induction fuel generalizing st with
  | zero => unfold synthLoop; exact h
  | succ fuel ih =>
    cases hf : st.f with
    | nil => rw [synthLoop_of_empty _ _ _ _ _ _ _ _ _ hf]; exact h
    | cons q f =>
      rw [synthLoop_succ_cons _ _ _ _ _ _ _ _ _ hf]
      obtain ⟨h1, h2, h3, h4, h5, h6⟩ := h
      have hq : q < aP.states_number_ * aE.states_number_ :=
        h1 q (by rw [hf]; exact List.mem_cons_self _ _)
      apply ih
      apply synthScan_inv hP hE nc q hq _ (fun e => by rw [testBit_syncEvents]; rfl)
      · intro x hx
        exact h1 x (by rw [hf]; exact List.mem_cons_of_mem _ hx)
      · exact h2
      · exact h3
      · exact h4
      · intro x hx
        rcases h5 x hx with h | h | h
        · rw [hf] at h
          rcases List.mem_cons.mp h with rfl | h
          · exact Or.inr (Or.inl (mem_qsetInsert.mpr (Or.inl rfl)))
          · exact Or.inl h
        · exact Or.inr (Or.inl (mem_qsetInsert.mpr (Or.inr h)))
        · exact Or.inr (Or.inr h)
      · intro q' hq' hr e he
        rcases mem_qsetInsert.mp hq' with rfl | hq'
        · left
          refine ⟨rfl, ?_⟩
          rw [mem_bitsOf, Nat.testBit_or, testBit_syncEvents]
          unfold enabledAt at he
          rw [he]
          rfl
        · right
          rcases h6 q' hq' hr e he with h | h | h
          · exact Or.inl h
          · exact Or.inr (Or.inl (mem_qsetInsert.mpr (Or.inr h)))
          · exact Or.inr (Or.inr h)
theorem synthFinal_inv {aP aE : DESystem} (hP : WellFormed aP) (hE : WellFormed aE)
    (non_contr : List ScalarType) :
    SynthInv aP aE (nonContrBit (aP.events_ ||| aE.events_) non_contr)
      (synthFinal aP aE non_contr) := by
  apply synthLoop_inv hP hE
  refine ⟨?_, ?_, List.nodup_nil, ?_, ?_, ?_⟩
  · intro x hx
    rw [List.mem_singleton.mp hx]
    exact encode_lt hP.1 hE.1
  · intro x hx; exact absurd hx (List.not_mem_nil x)
  · intro x hx; exact absurd hx (List.not_mem_nil x)
  · intro x hx; exact Or.inl hx
  · intro x hx; exact absurd hx (List.not_mem_nil x)

/-- When the main loop of `op::SupervisorSynth` ends, a retained state `q` outside `rmtable_`
has every uncontrollable event that the plant offers enabled, and the target of such an
event is retained. -/
theorem synthFinal_uncontrollable_target {aP aE : DESystem} (hP : WellFormed aP)
    (hE : WellFormed aE) (dP : Deterministic aP) (dE : Deterministic aE)
    (non_contr : List ScalarType) {q : cldes_size_t}
    (hq : q < aP.states_number_ * aE.states_number_)
    (hc : q ∈ (synthFinal aP aE non_contr).c)
    (hr : q ∉ (synthFinal aP aE non_contr).rmtable_) {e : ScalarType} (he : e ∈ non_contr)
    (hout : (vecGet aP.states_events_ (q % aP.states_number_)).testBit e = true) :
    enabledAt aP aE q e = true ∧
    TransitionVirtual aP aE q e ∈ (synthFinal aP aE non_contr).c ∧
    TransitionVirtual aP aE q e ∉ (synthFinal aP aE non_contr).rmtable_ := by
  obtain ⟨hx, -⟩ := decode_lt hq
  have hsig : aP.events_.testBit e = true := hP.out_mem hx hout
  have hnc : (nonContrBit (aP.events_ ||| aE.events_) non_contr).testBit e = true := by
    rw [testBit_nonContrBit, Nat.testBit_or, hsig]
    exact ⟨he, rfl⟩
  have hinv := synthLoop_notBad aP aE (aP.events_ ^^^ (aP.events_ &&& aE.events_))
    (aE.events_ ^^^ (aP.events_ &&& aE.events_)) aP.graph_.transpose aE.graph_.transpose
    (nonContrBit (aP.events_ ||| aE.events_) non_contr)
    (aP.states_number_ * aE.states_number_ + 1)
    { f := [aE.init_state_ * aP.states_number_ + aP.init_state_]
      ftable := [aE.init_state_ * aP.states_number_ + aP.init_state_]
      c := [], rmtable_ := [], transtriplet_ := [] }
    (fun q' hq' => absurd hq' (List.not_mem_nil q')) q hc e hnc hout
  have hen : enabledAt aP aE q e = true := by
    unfold enabledAt
    rw [← testBit_syncEvents]
    exact hinv
  obtain ⟨-, -, -, h4, h5, h6⟩ := synthFinal_inv hP hE non_contr
  have hf := synthFinal_stack_empty aP aE non_contr hP hE
  have ht := TransitionVirtual_lt hP hE hq hen
  have hnr : TransitionVirtual aP aE q e ∉ (synthFinal aP aE non_contr).rmtable_ := by
    intro hmem
    apply hr
    refine h4 _ hmem q ⟨hq, e, hnc, ?_⟩
    exact (productStep_iff_transition hP hE dP dE hq ht e).mpr ⟨hen, rfl⟩
  refine ⟨hen, ?_, hnr⟩
  rcases h6 q hc hr e hen with h | h | h
  · rcases h5 _ h with h' | h' | h'
    · rw [hf] at h'; exact absurd h' (List.not_mem_nil _)
    · exact h'
    · exact absurd h' hnr
  · exact h
  · exact absurd h hnr
/-- The cache of outgoing events of a restricted automaton: the events of the edges between
retained states. -/
theorem restrictTo_states_events_testBit (A : DESystem) {keep : List cldes_size_t}
    (hn : keep.Nodup) (hc : ∀ s ∈ keep, s < A.graph_.cols) {s : Nat} (hs : s < keep.length)
    (e : Nat) :
    (vecGet (A.restrictTo keep).states_events_ s).testBit e = true ↔
      ∃ j ∈ keep, (A.graph_.coeff (keep.getD s 0) j).testBit e = true := by
  have h0 : vecGet (A.restrictTo keep).states_events_ s =
      rowUnion (A.restrictTo keep).graph_ s := by
    show vecGet ((List.range keep.length).map _) s = _
    rw [vecGet_map_range _ _ _ hs]
    rfl
  rw [h0, testBit_rowUnion]
  constructor
  · rintro ⟨j, hj, h⟩
    have hj' : j < keep.length := hj
    rw [restrictTo_coeff A hn hc hs hj'] at h
    exact ⟨_, getD_mem_of_lt hj', h⟩
  · rintro ⟨j, hj, h⟩
    obtain ⟨hl, hg⟩ := getD_remap hj
    refine ⟨remap keep j, hl, ?_⟩
    rw [restrictTo_coeff A hn hc hs hl, hg]
    exact h

/-- C1, amended. Controllability of the supervisor up to `Trim`: for well-formed
deterministic `P` and `E` with event ids below 64, every state `s` of
`op::SupervisorSynth(P, E, Unc)` that renumbers a product state `q = (qx, qy)` outside
`rmtable_`, and every event `e` of `Unc ∩ out_P[qx]`: `e` is enabled at `q` in `P ∥ E`, its
target `δ(q, e)` is among the states the main loop retains, `e` is in the cache of outgoing
events that `op::SynchronizeStage2` computes for `q`, and `e` is in `out_S[s]` exactly when
`Trim` keeps that target. An uncontrollable event that the plant offers is missing from
`out_S[s]` only when `Trim` removed its target. -/
theorem SupervisorSynth_controllable_up_to_trim (aP aE : DESystem)
    (non_contr : List ScalarType) (hP : WellFormed aP) (hE : WellFormed aE)
    (dP : Deterministic aP) (dE : Deterministic aE) (wP : EventsInWord aP)
    (wE : EventsInWord aE) (s : cldes_size_t)
    (hs : s < (SupervisorSynth aP aE non_contr).states_number_)
    (hrm : supervisorState aP aE non_contr s ∉ (synthVirtualSys aP aE non_contr).rmtable_)
    (e : ScalarType) (he : e ∈ non_contr)
    (hout : (vecGet aP.states_events_
      (supervisorState aP aE non_contr s % aP.states_number_)).testBit e = true) :
    enabledAt aP aE (supervisorState aP aE non_contr s) e = true ∧
    TransitionVirtual aP aE (supervisorState aP aE non_contr s) e ∈
      (synthVirtualSys aP aE non_contr).virtual_states_ ∧
    (vecGet (SynchronizeStage2 (synthVirtualSys aP aE non_contr) aP aE).states_events_
      ((SynchronizeStage2 (synthVirtualSys aP aE non_contr) aP aE).TrimStates.getD s 0)).testBit
        e = true ∧
    ((vecGet (SupervisorSynth aP aE non_contr).states_events_ s).testBit e = true ↔
      remap (synthVirtualSys aP aE non_contr).virtual_states_
          (TransitionVirtual aP aE (supervisorState aP aE non_contr s) e) ∈
        (SynchronizeStage2 (synthVirtualSys aP aE non_contr) aP aE).TrimStates) := by
  have hin := synthVirtualSys_stage2Input hP hE non_contr
  have hmem := supervisorState_mem aP aE non_contr s hs
  have hi1 : (SynchronizeStage2 (synthVirtualSys aP aE non_contr) aP aE).TrimStates.getD s 0 ∈
      (SynchronizeStage2 (synthVirtualSys aP aE non_contr) aP aE).TrimStates :=
    getD_mem_of_lt hs
  have hi2 : (SynchronizeStage2 (synthVirtualSys aP aE non_contr) aP aE).TrimStates.getD s 0 <
      (synthVirtualSys aP aE non_contr).virtual_states_.length := mem_TrimStates_lt hi1
  have hqV : supervisorState aP aE non_contr s ∈
      (synthVirtualSys aP aE non_contr).virtual_states_ := getD_mem_of_lt hi2
  have hq := hin.2.1 _ hqV
  obtain ⟨hen, htc, -⟩ :=
    synthFinal_uncontrollable_target hP hE dP dE non_contr hq hmem hrm he hout
  have htV : TransitionVirtual aP aE (supervisorState aP aE non_contr s) e ∈
      (synthVirtualSys aP aE non_contr).virtual_states_ :=
    (List.perm_insertionSort _ _).mem_iff.mpr htc
  refine ⟨hen, htV, ?_, ?_⟩
  · exact (SynchronizeStage2_states_events_testBit hin hP hE hi2 e).mpr ⟨hen, htV⟩
  · show (vecGet ((SynchronizeStage2 (synthVirtualSys aP aE non_contr) aP aE).restrictTo
      (SynchronizeStage2 (synthVirtualSys aP aE non_contr) aP aE).TrimStates).states_events_
        s).testBit e = true ↔ _
    rw [restrictTo_states_events_testBit _ (nodup_TrimStates _)
      (fun x hx => mem_TrimStates_lt hx) hs]
    constructor
    · rintro ⟨j, hj, h⟩
      obtain ⟨-, hjl, -, ht⟩ := (SynchronizeStage2_edge_iff hin hP hE wP wE _ j e).mp h
      have hj' : remap (synthVirtualSys aP aE non_contr).virtual_states_
          (TransitionVirtual aP aE (supervisorState aP aE non_contr s) e) = j := by
        unfold supervisorState
        rw [ht]
        exact remap_getD hin.nodup hjl
      rw [hj']
      exact hj
    · intro h
      exact ⟨_, h, (SynchronizeStage2_edge_iff hin hP hE wP wE _ _ e).mpr
        ⟨hi2, (getD_remap htV).1, hen, (getD_remap htV).2.symm⟩⟩

/-- Witness of the amended C1 on `deadEndPlant` and `freeSpec` with the uncontrollable event
`1`: the supervisor state `0` renumbers the product state `0`, which is not in `rmtable_`;
the event `1` is enabled there and its target `1` is retained by the main loop with rank `1`;
`Trim` keeps the ranks `0` and `2` only, and the event `1` is not in `out_S[0]`. -/
theorem SupervisorSynth_controllable_up_to_trim_witness :
    supervisorState deadEndPlant freeSpec [1] 0 = 0 ∧
    (synthVirtualSys deadEndPlant freeSpec [1]).rmtable_ = [] ∧
    (synthVirtualSys deadEndPlant freeSpec [1]).virtual_states_ = [0, 1, 2] ∧
    (SynchronizeStage2 (synthVirtualSys deadEndPlant freeSpec [1]) deadEndPlant
      freeSpec).TrimStates = [0, 2] ∧
    TransitionVirtual deadEndPlant freeSpec (supervisorState deadEndPlant freeSpec [1] 0) 1 = 1 ∧
    ((vecGet (SupervisorSynth deadEndPlant freeSpec [1]).states_events_ 0).testBit 1 = true ↔
      remap (synthVirtualSys deadEndPlant freeSpec [1]).virtual_states_
          (TransitionVirtual deadEndPlant freeSpec
            (supervisorState deadEndPlant freeSpec [1] 0) 1) ∈
        (SynchronizeStage2 (synthVirtualSys deadEndPlant freeSpec [1]) deadEndPlant
          freeSpec).TrimStates) :=
  ⟨by decide!, by decide!, by decide!, by decide!, by decide!,
    (SupervisorSynth_controllable_up_to_trim deadEndPlant freeSpec [1] (by decide!) (by decide!)
      (by decide!) (by decide!) (by decide!) (by decide!) 0 (by decide!) (by decide!) 1
      (by decide!) (by decide!)).2.2.2⟩
/-- On well-formed operands every triplet that `op::Synchronize` hands to
`graph_.setFromTriplets` lies inside the matrix. -/
theorem Synchronize_triplets_inside {A B : DESystem} (hA : WellFormed A) (hB : WellFormed B) :
    tripletsInside (A.states_number_ * B.states_number_) (A.states_number_ * B.states_number_)
      ((List.range (A.states_number_ * B.states_number_)).flatMap (fun q =>
        (bitsOf (syncEvents A.states_events_ B.states_events_
            (A.events_ ^^^ (A.events_ &&& B.events_)) (B.events_ ^^^ (A.events_ &&& B.events_))
            (q % A.states_number_) (q / A.states_number_))).map
          (fun event => (⟨(q : Int),
            scanTarget A B (q % A.states_number_) (q / A.states_number_) event,
            ulShift event⟩ : Triplet BitArray)))) := by
  intro t ht
  rw [List.mem_flatMap] at ht
  obtain ⟨q, hq, ht⟩ := ht
  rw [List.mem_map] at ht
  obtain ⟨event, hev, rfl⟩ := ht
  have hq' := List.mem_range.mp hq
  have hen : enabledAt A B q event = true := by
    unfold enabledAt
    rw [← testBit_syncEvents]
    exact (mem_bitsOf _ _).mp hev
  obtain ⟨k, hk, hs⟩ := scanTarget_nat hA hB hq' hen
  simp only
  rw [hs]
  exact ⟨Int.natCast_nonneg q, by exact_mod_cast hq', Int.natCast_nonneg k, by exact_mod_cast hk⟩

/-- On well-formed operands every triplet that `op::Synchronize` hands to
`bit_graph_.setFromTriplets` lies inside the matrix. -/
theorem Synchronize_bit_triplets_inside {A B : DESystem} (hA : WellFormed A)
    (hB : WellFormed B) :
    tripletsInside (A.states_number_ * B.states_number_) (A.states_number_ * B.states_number_)
      ((List.range (A.states_number_ * B.states_number_)).flatMap (fun q =>
        (⟨(q : Int), (q : Int), true⟩ : Triplet Bool) ::
          (bitsOf (syncEvents A.states_events_ B.states_events_
              (A.events_ ^^^ (A.events_ &&& B.events_))
              (B.events_ ^^^ (A.events_ &&& B.events_))
              (q % A.states_number_) (q / A.states_number_))).filterMap (fun event =>
            if (q : Int) ≠ scanTarget A B (q % A.states_number_) (q / A.states_number_) event
            then some ⟨scanTarget A B (q % A.states_number_) (q / A.states_number_) event,
              (q : Int), true⟩
            else none))) := by
  intro t ht
  rw [List.mem_flatMap] at ht
  obtain ⟨q, hq, ht⟩ := ht
  have hq' := List.mem_range.mp hq
  rcases List.mem_cons.mp ht with rfl | ht
  · simp only
    exact ⟨Int.natCast_nonneg q, by exact_mod_cast hq', Int.natCast_nonneg q,
      by exact_mod_cast hq'⟩
  · rw [List.mem_filterMap] at ht
    obtain ⟨event, hev, hsome⟩ := ht
    have hen : enabledAt A B q event = true := by
      unfold enabledAt
      rw [← testBit_syncEvents]
      exact (mem_bitsOf _ _).mp hev
    obtain ⟨k, hk, hs⟩ := scanTarget_nat hA hB hq' hen
    rw [hs] at hsome
    by_cases hne : (q : Int) ≠ (k : Int)
    · rw [if_pos hne] at hsome
      have ht' := Option.some.inj hsome
      subst ht'
      simp only
      exact ⟨Int.natCast_nonneg k, by exact_mod_cast hk, Int.natCast_nonneg q,
        by exact_mod_cast hq'⟩
    · rw [if_neg hne] at hsome
      exact absurd hsome (by simp)
/-- On well-formed operands, with the virtual system as `op::SupervisorSynth` leaves it, every
triplet that `op::SynchronizeStage2` hands to `graph_.setFromTriplets` lies inside the
matrix. -/
theorem SynchronizeStage2_triplets_inside {S A B : DESystem} (hin : Stage2Input S A B)
    (hA : WellFormed A) (hB : WellFormed B) :
    tripletsInside S.virtual_states_.length S.virtual_states_.length
      ((List.range S.virtual_states_.length).flatMap (fun current_state =>
        (bitsOf (stage2Events S A B (S.virtual_states_.getD current_state 0))).filterMap
          (fun event =>
            if containsInt S.virtual_table_
                (stage2Target S A B (S.virtual_states_.getD current_state 0) event) then
              some (⟨(current_state : Int),
                ((qhashValue (stage2StatesMap S.virtual_states_)
                  (stage2Target S A B (S.virtual_states_.getD current_state 0) event).toNat
                    : Nat) : Int),
                ulShift event⟩ : Triplet BitArray)
            else none))) := by
  intro t ht
  rw [List.mem_flatMap] at ht
  obtain ⟨cs, hcs, ht⟩ := ht
  rw [List.mem_filterMap] at ht
  obtain ⟨event, hev, hsome⟩ := ht
  rw [mem_bitsOf, stage2Events_testBit hin] at hev
  have hcsl : cs < S.virtual_states_.length := List.mem_range.mp hcs
  have hs := hin.2.1 _ (getD_mem_of_lt hcsl)
  rw [stage2Target_eq hin hA hB hs hev, containsInt_natCast, Int.toNat_ofNat] at hsome
  by_cases hk : TransitionVirtual A B (S.virtual_states_.getD cs 0) event ∈ S.virtual_table_
  · rw [decide_eq_true hk, if_pos rfl] at hsome
    have ht' := Option.some.inj hsome
    subst ht'
    obtain ⟨hl, hg⟩ := getD_remap (hin.2.2.1 _ hk)
    simp only
    rw [← hg, qhashValue_stage2StatesMap hin.nodup hl]
    exact ⟨Int.natCast_nonneg cs, by exact_mod_cast hcsl, Int.natCast_nonneg _,
      by exact_mod_cast hl⟩
  · rw [decide_eq_false hk] at hsome
    simp at hsome


end cldes
